import Mathlib

/-!
# Thumb assembler and trace chaining of the Dalvik JIT (armv5te back end)

A shallow embedding of `vm/compiler/codegen/armv5te/Assemble.c`:

* the opcode encoding table `EncodingMap` and the encoder loop of
  `assembleInstructions`;
* the LIR records, kept in an index-addressed heap (a pointer is an
  `Option Nat`, `none` is `NULL`);
* pass 1 (offset assignment) and the literal layout of `dvmCompilerAssembleLIR`,
  pass 2 (`assembleInstructions`), the admission check and the installation
  into the code cache;
* `dvmJitChain`, `dvmJitUnchain` on a byte-addressed little-endian memory.

Conventions.  A C `int` is a Lean `Int`; where the code converts to a narrower
or unsigned type (`short`, `u2`, `char`, `u4`) the conversion is written out as
`% 2^w`.  `x >> k` on a signed value is the arithmetic shift, `x / 2^k` with
floor rounding; `x & ~3` is `x - x % 4`.  A 16-bit or 32-bit store writes the
bytes in little-endian order (ARM).  `dvmAbort`, a failed `assert` and a `NULL`
dereference end the computation with an error value.
-/

namespace Assemble

/-! # Part I: the embedding -/

/-! ## Encoding table -/

/-- Bit range of one operand field, in the order the initialiser of
`ENCODING_MAP` fills it: the high bit position first (member `end`), then the
low bit position (member `start`); `-1` marks an unused slot. -/
structure FieldLoc where
  end_ : Int
  start : Int
deriving DecidableEq, Repr

/-- One row of `EncodingMap`: the skeleton (the bit pattern of the C `short`),
the three field locations, the operand count and the mnemonic.  The print
format string plays no part in encoding and is left out; the `opcode` member is
the row index. -/
structure Armv5teEncodingMap where
  skeleton : Nat
  fieldLoc0 : FieldLoc
  fieldLoc1 : FieldLoc
  fieldLoc2 : FieldLoc
  operands : Nat
  name : String
deriving DecidableEq, Repr

/-- Accessor for `fieldLoc[i]`, `i` in `0..2`. -/
def Armv5teEncodingMap.fieldLoc (e : Armv5teEncodingMap) : Nat → FieldLoc
  | 0 => e.fieldLoc0
  | 1 => e.fieldLoc1
  | _ => e.fieldLoc2

/-- Initialiser macro `ENCODING_MAP(opcode, skeleton, ds, de, s1s, s1e, s2s,
s2e, operands, name, fmt)`: the pairs go to `fieldLoc[i]` in the order written,
so the first number of a pair lands in member `end` and the second in `start`. -/
def ENCODING_MAP (skeleton : Nat) (ds de s1s s1e s2s s2e : Int) (operands : Nat)
    (name : String) : Armv5teEncodingMap :=
  { skeleton := skeleton, fieldLoc0 := { end_ := ds, start := de },
    fieldLoc1 := { end_ := s1s, start := s1e }, fieldLoc2 := { end_ := s2s, start := s2e },
    operands := operands, name := name }

/-- Table `EncodingMap[ARMV5TE_LAST]`, row `i` describing opcode `i`. -/
def EncodingMap : List Armv5teEncodingMap := [
  ENCODING_MAP 0x0000 15 0 (-1) (-1) (-1) (-1) 1 "data",  -- 0 ARMV5TE_16BIT_DATA
  ENCODING_MAP 0x4140 2 0 5 3 (-1) (-1) 2 "adc",  -- 1 ARMV5TE_ADC
  ENCODING_MAP 0x1c00 2 0 5 3 8 6 3 "add",  -- 2 ARMV5TE_ADD_RRI3
  ENCODING_MAP 0x3000 10 8 7 0 (-1) (-1) 2 "add",  -- 3 ARMV5TE_ADD_RI8
  ENCODING_MAP 0x1800 2 0 5 3 8 6 3 "add",  -- 4 ARMV5TE_ADD_RRR
  ENCODING_MAP 0x4440 2 0 5 3 (-1) (-1) 2 "add",  -- 5 ARMV5TE_ADD_RR_LH
  ENCODING_MAP 0x4480 2 0 5 3 (-1) (-1) 2 "add",  -- 6 ARMV5TE_ADD_RR_HL
  ENCODING_MAP 0x44c0 2 0 5 3 (-1) (-1) 2 "add",  -- 7 ARMV5TE_ADD_RR_HH
  ENCODING_MAP 0xa000 10 8 7 0 (-1) (-1) 2 "add",  -- 8 ARMV5TE_ADD_PC_REL
  ENCODING_MAP 0xa800 10 8 7 0 (-1) (-1) 2 "add",  -- 9 ARMV5TE_ADD_SP_REL
  ENCODING_MAP 0xb000 6 0 (-1) (-1) (-1) (-1) 1 "add",  -- 10 ARMV5TE_ADD_SPI7
  ENCODING_MAP 0x4000 2 0 5 3 (-1) (-1) 2 "and",  -- 11 ARMV5TE_AND_RR
  ENCODING_MAP 0x1000 2 0 5 3 10 6 3 "asr",  -- 12 ARMV5TE_ASR
  ENCODING_MAP 0x4100 2 0 5 3 (-1) (-1) 2 "asr",  -- 13 ARMV5TE_ASRV
  ENCODING_MAP 0xd000 7 0 11 8 (-1) (-1) 2 "!1c",  -- 14 ARMV5TE_B_COND
  ENCODING_MAP 0xe000 10 0 (-1) (-1) (-1) (-1) 0 "b",  -- 15 ARMV5TE_B_UNCOND
  ENCODING_MAP 0x4380 2 0 5 3 (-1) (-1) 2 "bic",  -- 16 ARMV5TE_BIC
  ENCODING_MAP 0xbe00 7 0 (-1) (-1) (-1) (-1) 1 "bkpt",  -- 17 ARMV5TE_BKPT
  ENCODING_MAP 0xf000 10 0 (-1) (-1) (-1) (-1) 2 "blx_1",  -- 18 ARMV5TE_BLX_1
  ENCODING_MAP 0xe800 10 0 (-1) (-1) (-1) (-1) 2 "blx_2",  -- 19 ARMV5TE_BLX_2
  ENCODING_MAP 0xf000 10 0 (-1) (-1) (-1) (-1) 1 "bl_1",  -- 20 ARMV5TE_BL_1
  ENCODING_MAP 0xf800 10 0 (-1) (-1) (-1) (-1) 1 "bl_2",  -- 21 ARMV5TE_BL_2
  ENCODING_MAP 0x4780 6 3 (-1) (-1) (-1) (-1) 1 "blx",  -- 22 ARMV5TE_BLX_R
  ENCODING_MAP 0x4700 6 3 (-1) (-1) (-1) (-1) 1 "bx",  -- 23 ARMV5TE_BX
  ENCODING_MAP 0x42c0 2 0 5 3 (-1) (-1) 2 "cmn",  -- 24 ARMV5TE_CMN
  ENCODING_MAP 0x2800 10 8 7 0 (-1) (-1) 2 "cmp",  -- 25 ARMV5TE_CMP_RI8
  ENCODING_MAP 0x4280 2 0 5 3 (-1) (-1) 2 "cmp",  -- 26 ARMV5TE_CMP_RR
  ENCODING_MAP 0x4540 2 0 5 3 (-1) (-1) 2 "cmp",  -- 27 ARMV5TE_CMP_LH
  ENCODING_MAP 0x4580 2 0 5 3 (-1) (-1) 2 "cmp",  -- 28 ARMV5TE_CMP_HL
  ENCODING_MAP 0x45c0 2 0 5 3 (-1) (-1) 2 "cmp",  -- 29 ARMV5TE_CMP_HH
  ENCODING_MAP 0x4040 2 0 5 3 (-1) (-1) 2 "eor",  -- 30 ARMV5TE_EOR
  ENCODING_MAP 0xc800 10 8 7 0 (-1) (-1) 2 "ldmia",  -- 31 ARMV5TE_LDMIA
  ENCODING_MAP 0x6800 2 0 5 3 10 6 3 "ldr",  -- 32 ARMV5TE_LDR_RRI5
  ENCODING_MAP 0x5800 2 0 5 3 8 6 3 "ldr",  -- 33 ARMV5TE_LDR_RRR
  ENCODING_MAP 0x4800 10 8 7 0 (-1) (-1) 2 "ldr",  -- 34 ARMV5TE_LDR_PC_REL
  ENCODING_MAP 0x9800 10 8 7 0 (-1) (-1) 2 "ldr",  -- 35 ARMV5TE_LDR_SP_REL
  ENCODING_MAP 0x7800 2 0 5 3 10 6 3 "ldrb",  -- 36 ARMV5TE_LDRB_RRI5
  ENCODING_MAP 0x5c00 2 0 5 3 8 6 3 "ldrb",  -- 37 ARMV5TE_LDRB_RRR
  ENCODING_MAP 0x8800 2 0 5 3 10 6 3 "ldrh",  -- 38 ARMV5TE_LDRH_RRI5
  ENCODING_MAP 0x5a00 2 0 5 3 8 6 3 "ldrh",  -- 39 ARMV5TE_LDRH_RRR
  ENCODING_MAP 0x5600 2 0 5 3 8 6 3 "ldrsb",  -- 40 ARMV5TE_LDRSB_RRR
  ENCODING_MAP 0x5e00 2 0 5 3 8 6 3 "ldrsh",  -- 41 ARMV5TE_LDRSH_RRR
  ENCODING_MAP 0x0000 2 0 5 3 10 6 3 "lsl",  -- 42 ARMV5TE_LSL
  ENCODING_MAP 0x4080 2 0 5 3 (-1) (-1) 2 "lsl",  -- 43 ARMV5TE_LSLV
  ENCODING_MAP 0x0800 2 0 5 3 10 6 3 "lsr",  -- 44 ARMV5TE_LSR
  ENCODING_MAP 0x40c0 2 0 5 3 (-1) (-1) 2 "lsr",  -- 45 ARMV5TE_LSRV
  ENCODING_MAP 0x2000 10 8 7 0 (-1) (-1) 2 "mov",  -- 46 ARMV5TE_MOV_IMM
  ENCODING_MAP 0x1c00 2 0 5 3 (-1) (-1) 2 "mov",  -- 47 ARMV5TE_MOV_RR
  ENCODING_MAP 0x4640 2 0 5 3 (-1) (-1) 2 "mov",  -- 48 ARMV5TE_MOV_RR_LH
  ENCODING_MAP 0x4680 2 0 5 3 (-1) (-1) 2 "mov",  -- 49 ARMV5TE_MOV_RR_HL
  ENCODING_MAP 0x46c0 2 0 5 3 (-1) (-1) 2 "mov",  -- 50 ARMV5TE_MOV_RR_HH
  ENCODING_MAP 0x4340 2 0 5 3 (-1) (-1) 2 "mul",  -- 51 ARMV5TE_MUL
  ENCODING_MAP 0x43c0 2 0 5 3 (-1) (-1) 2 "mvn",  -- 52 ARMV5TE_MVN
  ENCODING_MAP 0x4240 2 0 5 3 (-1) (-1) 2 "neg",  -- 53 ARMV5TE_NEG
  ENCODING_MAP 0x4300 2 0 5 3 (-1) (-1) 2 "orr",  -- 54 ARMV5TE_ORR
  ENCODING_MAP 0xbc00 8 0 (-1) (-1) (-1) (-1) 1 "pop",  -- 55 ARMV5TE_POP
  ENCODING_MAP 0xb400 8 0 (-1) (-1) (-1) (-1) 1 "push",  -- 56 ARMV5TE_PUSH
  ENCODING_MAP 0x41c0 2 0 5 3 (-1) (-1) 2 "ror",  -- 57 ARMV5TE_ROR
  ENCODING_MAP 0x4180 2 0 5 3 (-1) (-1) 2 "sbc",  -- 58 ARMV5TE_SBC
  ENCODING_MAP 0xc000 10 8 7 0 (-1) (-1) 2 "stmia",  -- 59 ARMV5TE_STMIA
  ENCODING_MAP 0x6000 2 0 5 3 10 6 3 "str",  -- 60 ARMV5TE_STR_RRI5
  ENCODING_MAP 0x5000 2 0 5 3 8 6 3 "str",  -- 61 ARMV5TE_STR_RRR
  ENCODING_MAP 0x9000 10 8 7 0 (-1) (-1) 2 "str",  -- 62 ARMV5TE_STR_SP_REL
  ENCODING_MAP 0x7000 2 0 5 3 10 6 3 "strb",  -- 63 ARMV5TE_STRB_RRI5
  ENCODING_MAP 0x5400 2 0 5 3 8 6 3 "strb",  -- 64 ARMV5TE_STRB_RRR
  ENCODING_MAP 0x8000 2 0 5 3 10 6 3 "strh",  -- 65 ARMV5TE_STRH_RRI5
  ENCODING_MAP 0x5200 2 0 5 3 8 6 3 "strh",  -- 66 ARMV5TE_STRH_RRR
  ENCODING_MAP 0x1e00 2 0 5 3 8 6 3 "sub",  -- 67 ARMV5TE_SUB_RRI3
  ENCODING_MAP 0x3800 10 8 7 0 (-1) (-1) 2 "sub",  -- 68 ARMV5TE_SUB_RI8
  ENCODING_MAP 0x1a00 2 0 5 3 8 6 3 "sub",  -- 69 ARMV5TE_SUB_RRR
  ENCODING_MAP 0xb080 6 0 (-1) (-1) (-1) (-1) 1 "sub",  -- 70 ARMV5TE_SUB_SPI7
  ENCODING_MAP 0xdf00 7 0 (-1) (-1) (-1) (-1) 1 "swi",  -- 71 ARMV5TE_SWI
  ENCODING_MAP 0x4200 2 0 5 3 (-1) (-1) 1 "tst"  -- 72 ARMV5TE_TST
]

/-- Number of table rows, `ARMV5TE_LAST`. -/
def ARMV5TE_LAST : Nat := EncodingMap.length

def ARMV5TE_ADD_PC_REL : Int := 8
def ARMV5TE_B_COND : Int := 14
def ARMV5TE_B_UNCOND : Int := 15
def ARMV5TE_BLX_1 : Int := 18
def ARMV5TE_BLX_2 : Int := 19
def ARMV5TE_LDR_PC_REL : Int := 34
def ARMV5TE_MOV_RR : Int := 47

/-- Modelled from the spec: the enum `Armv5teOpCode` is declared in
`Armv5teLIR.h`; pseudo-ops use negative ids.  Only the sign and the
distinctness of the two ids below matter to the assembler. -/
def ARMV5TE_PSEUDO_ALIGN4 : Int := -5

/-- Modelled from the spec: the id of the PC-reconstruction marker, a negative
id different from the alignment pseudo-op (enum of `Armv5teLIR.h`). -/
def ARMV5TE_PSEUDO_PC_RECONSTRUCTION_CELL : Int := -4

def PADDING_MOV_R0_R0 : Nat := 0x1C00

/-! ## Encoder -/

/-- Bit pattern of a C `int` as an unsigned 32-bit number. -/
def toU32 (x : Int) : Nat := (x % 2 ^ 32).toNat

/-- Value the loop body computes for one slot,
`(short)((operand << start) & ((1 << (end + 1)) - 1))`, as a 16-bit pattern. -/
def fieldValue (operand : Int) (loc : FieldLoc) : Nat :=
  ((((toU32 operand) <<< loc.start.toNat) % 2 ^ 32) &&&
    (((1 <<< (loc.end_ + 1).toNat) - 1) % 2 ^ 32)) % 2 ^ 16

/-- Encoder loop of `assembleInstructions` (lines 379-391): start from the
skeleton and OR in the value of every slot whose `end` is not `-1`. -/
def encodeBits (encoder : Armv5teEncodingMap) (operands : Nat → Int) : Nat :=
  (List.range 3).foldl
    (fun bits i =>
      if (encoder.fieldLoc i).end_ ≠ -1 then
        bits ||| fieldValue (operands i) (encoder.fieldLoc i)
      else bits)
    encoder.skeleton

/-- Operand triple as the array `operands[3]`. -/
def operandArray (o0 o1 o2 : Int) : Nat → Int
  | 0 => o0
  | 1 => o1
  | _ => o2

/-! ### Reference definition of the encoding, after the specification -/

/-- Reference encoding of one slot, in the words of the specification: mask the
operand to `end - start + 1` bits, then shift left by `start`. -/
def specFieldValue (operand : Int) (loc : FieldLoc) : Nat :=
  (operand % 2 ^ (loc.end_ - loc.start + 1).toNat).toNat <<< loc.start.toNat

/-- Reference encoding of an instruction, in the words of the specification:
the skeleton OR-ed with the value of each defined slot. -/
def specEncode (d : Armv5teEncodingMap) (o0 o1 o2 : Int) : Nat :=
  let b0 := if d.fieldLoc0.end_ ≠ -1 then d.skeleton ||| specFieldValue o0 d.fieldLoc0
            else d.skeleton
  let b1 := if d.fieldLoc1.end_ ≠ -1 then b0 ||| specFieldValue o1 d.fieldLoc1 else b0
  if d.fieldLoc2.end_ ≠ -1 then b1 ||| specFieldValue o2 d.fieldLoc2 else b1

/-! ### Field-wise decoding -/

/-- Bits `[end..start]` of a word, as a number. -/
def extractBits (w : Nat) (loc : FieldLoc) : Nat :=
  (w >>> loc.start.toNat) % 2 ^ (loc.end_ - loc.start + 1).toNat

/-- Word with the bits `[end..start]` of a defined field cleared: the bits above
`end` and the bits below `start` are kept.  An unused slot clears nothing. -/
def clearField (w : Nat) (loc : FieldLoc) : Nat :=
  if loc.end_ ≠ -1 then
    ((w >>> (loc.end_ + 1).toNat) <<< (loc.end_ + 1).toNat) ||| (w % 2 ^ loc.start.toNat)
  else w

/-- Word with all declared field ranges of a descriptor cleared. -/
def clearFields (w : Nat) (d : Armv5teEncodingMap) : Nat :=
  clearField (clearField (clearField w d.fieldLoc0) d.fieldLoc1) d.fieldLoc2

/-- Bit position `j` lies in the declared range of the slot. -/
def FieldLoc.covers (loc : FieldLoc) (j : Nat) : Prop :=
  loc.end_ ≠ -1 ∧ loc.start ≤ (j : Int) ∧ (j : Int) ≤ loc.end_

instance (loc : FieldLoc) (j : Nat) : Decidable (loc.covers j) := by
  unfold FieldLoc.covers; infer_instance

/-- Two slots declare ranges with no common bit (an unused slot has no range). -/
def FieldLoc.disjoint (a b : FieldLoc) : Prop :=
  a.end_ = -1 ∨ b.end_ = -1 ∨ a.end_ < b.start ∨ b.end_ < a.start

instance (a b : FieldLoc) : Decidable (a.disjoint b) := by
  unfold FieldLoc.disjoint; infer_instance

/-! ### Layout conditions of a table row -/

/-- A defined field of the table lies inside the 16-bit word. -/
def FieldLoc.inWord (loc : FieldLoc) : Prop :=
  0 ≤ loc.start ∧ loc.start ≤ loc.end_ ∧ loc.end_ ≤ 15

instance (loc : FieldLoc) : Decidable loc.inWord := by
  unfold FieldLoc.inWord; infer_instance

/-- Every slot of every table row is either unused or inside the word. -/
def rowFieldsOk (d : Armv5teEncodingMap) : Prop :=
  (d.fieldLoc0.end_ = -1 ∨ d.fieldLoc0.inWord) ∧
  (d.fieldLoc1.end_ = -1 ∨ d.fieldLoc1.inWord) ∧
  (d.fieldLoc2.end_ = -1 ∨ d.fieldLoc2.inWord)

instance (d : Armv5teEncodingMap) : Decidable (rowFieldsOk d) := by
  unfold rowFieldsOk; infer_instance

/-- Bit `j` of the value a slot contributes. -/
def slotBit (loc : FieldLoc) (operand : Int) (j : Nat) : Bool :=
  decide (loc.covers j) && (toU32 operand).testBit (j - loc.start.toNat)

/-- Layout conditions of one table row: defined fields lie inside the word and
are pairwise disjoint, the skeleton is a 16-bit pattern and has no bit inside a
declared field range. -/
def rowLayoutOk (d : Armv5teEncodingMap) : Prop :=
  rowFieldsOk d ∧
  d.fieldLoc0.disjoint d.fieldLoc1 ∧ d.fieldLoc0.disjoint d.fieldLoc2 ∧
  d.fieldLoc1.disjoint d.fieldLoc2 ∧
  d.skeleton < 2 ^ 16 ∧
  (∀ j, j < 16 → d.skeleton.testBit j = true →
    ¬ d.fieldLoc0.covers j ∧ ¬ d.fieldLoc1.covers j ∧ ¬ d.fieldLoc2.covers j)

instance (d : Armv5teEncodingMap) : Decidable (rowLayoutOk d) := by
  unfold rowLayoutOk; infer_instance

/-! ## LIR records and the compilation unit -/

/-- How a computation of the assembler can end without a result. -/
inductive Fault where
  /-- Call of `dvmAbort()`. -/
  | abort
  /-- Failed `assert`. -/
  | assertion
  /-- Dereference of a `NULL` record pointer. -/
  | nullDeref
  /-- Opcode outside `EncodingMap`. -/
  | badOpcode
  /-- Store past the end of the scratch code buffer, or a negative copy size. -/
  | bufferOverrun
  /-- Trace description without a fragment whose `runEnd` flag is set. -/
  | badTraceDesc
  /-- Walk budget of the model used up (a cyclic record list). -/
  | outOfFuel
deriving DecidableEq, Repr

/-- Record `Armv5teLIR`: the generic part (`offset`, `next`, `prev`, `target`),
the opcode and `operands[3]`.  A record pointer is an index into the heap of
the compilation unit; `none` is `NULL`. -/
structure Armv5teLIR where
  opCode : Int
  operands0 : Int
  operands1 : Int
  operands2 : Int
  offset : Int
  next : Option Nat
  prev : Option Nat
  target : Option Nat
deriving DecidableEq, Repr

/-- Array view `operands[i]`. -/
def Armv5teLIR.operands (l : Armv5teLIR) : Nat → Int :=
  operandArray l.operands0 l.operands1 l.operands2

/-- Zero-filled record, as `dvmCompilerNew(sizeof(Armv5teLIR), true)` returns. -/
def zeroLIR : Armv5teLIR :=
  { opCode := 0, operands0 := 0, operands1 := 0, operands2 := 0, offset := 0,
    next := none, prev := none, target := none }

/-- Heap of LIR records, addressed by index. -/
abbrev LIRHeap := Nat → Armv5teLIR

/-- Heap with the record at `p` replaced. -/
def LIRHeap.set (h : LIRHeap) (p : Nat) (r : Armv5teLIR) : LIRHeap :=
  fun q => if q = p then r else h q

/-- Trace description `JitTraceDescription`, as far as the assembler looks at
it: the `runEnd` flag of each run fragment, and the raw bytes of the object
(copied into the code cache). -/
structure JitTraceDescription where
  runEnd : List Bool
  bytes : Nat → Nat

/-- Constants and types that headers outside this file declare
(`Compiler.h`, `CompilerIR.h`, `InterpDefs.h`, `Armv5teLIR.h`), and the two
facts about the environment the code depends on.

* `CODE_CACHE_SIZE`: capacity of the code cache in bytes;
* `sizeofJitCodeDesc`, `sizeofJitTraceRun`: `sizeof` of the two types;
* `offNormal`, `offTraceSelect`: `offsetof(InterpState,
  jitToInterpEntries.dvmJitToInterpNormal)` and `...dvmJitToTraceSelect`;
* `rGLUE`, `r0`: register numbers;
* `codeBufferAlloc n`: whether `dvmCompilerNew(n, true)` for the scratch code
  buffer returns a non-`NULL` block;
* `countsPad`: the byte of the local `chainCellCounts` that no count occupies
  (never initialised by the code). -/
structure Target where
  CODE_CACHE_SIZE : Int
  sizeofJitCodeDesc : Nat
  sizeofJitTraceRun : Nat
  offNormal : Nat
  offTraceSelect : Nat
  rGLUE : Nat
  r0 : Nat
  codeBufferAlloc : Nat → Bool
  countsPad : Nat

/-- Modelled from the spec: `sizeof(ChainCellCounts)`; the type is declared
outside this file, the layout comment of `dvmCompilerAssembleLIR` gives its
size as 4 bytes. -/
def sizeofChainCellCounts : Nat := 4

/-- Modelled from the spec: chaining cell kinds (generic re-entry, post-invoke,
invoke), the enum is declared outside this file; the names are those of the
`switch` in `dvmJitUnchain`. -/
def CHAINING_CELL_GENERIC : Nat := 0

/-- Modelled from the spec: second chaining cell kind of the enum. -/
def CHAINING_CELL_POST_INVOKE : Nat := 1

/-- Modelled from the spec: third chaining cell kind of the enum. -/
def CHAINING_CELL_INVOKE : Nat := 2

/-- Modelled from the spec: number of chaining cell kinds. -/
def CHAINING_CELL_LAST : Nat := 3

def CHAIN_CELL_OFFSET_SIZE : Int := 2

/-- Compilation unit, as far as the assembler reads or writes it.
`codeBuffer` holds the 16-bit words stored through `bufferAddr` so far (the
block itself is zero-filled and `chainCellOffset` bytes long); `numLIR` is the
index the next `dvmCompilerNew` record gets. -/
structure CompilationUnit where
  lirs : LIRHeap
  numLIR : Nat
  firstLIRInsn : Option Nat
  wordList : Option Nat
  numChainingCells : Nat → Int
  traceDesc : JitTraceDescription
  codeBuffer : List Nat
  dataOffset : Int
  totalSize : Int
  baseAddr : Option Int

/-- Fields of `gDvmJit` the file uses. -/
structure DvmJitGlobals where
  codeCache : Int
  codeCacheByteUsed : Int
  codeCacheFull : Bool
  numCompilations : Int
  translationChains : Int
deriving DecidableEq, Repr

/-! ## Byte-addressed memory -/

/-- Memory: a byte at every address. -/
abbrev Mem := Int → Nat

def read8 (m : Mem) (a : Int) : Nat := m a % 256

/-- Little-endian 16-bit load. -/
def read16 (m : Mem) (a : Int) : Nat := read8 m a + 256 * read8 m (a + 1)

/-- Little-endian 32-bit load. -/
def read32 (m : Mem) (a : Int) : Nat :=
  read8 m a + 256 * read8 m (a + 1) + 65536 * read8 m (a + 2) + 16777216 * read8 m (a + 3)

/-- Store of one byte (a `char` store keeps the low 8 bits). -/
def write8 (m : Mem) (a : Int) (v : Nat) : Mem :=
  fun x => if x = a then v % 256 else m x

/-- Little-endian 32-bit store. -/
def write32 (m : Mem) (a : Int) (v : Nat) : Mem :=
  write8 (write8 (write8 (write8 m a v) (a + 1) (v / 256)) (a + 2) (v / 65536))
    (a + 3) (v / 16777216)

/-- Copy of `n` bytes from a source object (byte `i` of it is `src i`) to
address `dst`. -/
def memcpy (m : Mem) (dst : Int) (src : Nat → Nat) (n : Int) : Mem :=
  fun x => if dst ≤ x ∧ x < dst + n then src (x - dst).toNat % 256 else m x

/-- Byte `i` of the scratch code buffer: the words stored so far, low byte
first, followed by the zero fill. -/
def codeBufferByte (buffer : List Nat) (i : Nat) : Nat :=
  (buffer.getD (i / 2) 0 / 256 ^ (i % 2)) % 256

/-! ## Integer helpers -/

/-- Expression `x & ~3`. -/
def alignDown4 (x : Int) : Int := x - x % 4

/-- Test `x & 0x2`. -/
def bit1 (x : Int) : Bool := (x / 2) % 2 ≠ 0

/-- Conversion of an exact difference to a 32-bit `int`. -/
def wrap32 (x : Int) : Int := (x + 2 ^ 31) % 2 ^ 32 - 2 ^ 31

/-! ## Pass 1: offsets -/

/-- Loop of `dvmCompilerAssembleLIR`, lines 447-463: every record gets the
running offset; a real instruction consumes 2 bytes, an alignment pseudo-op 2
bytes when bit 1 of the offset is set (recorded in `operands[0]`), any other
pseudo-op nothing.  `fuel` bounds the number of records the walk may visit. -/
def assignOffsets : Nat → LIRHeap → Option Nat → Int → Except Fault (LIRHeap × Int)
  | 0, _, _, _ => .error .outOfFuel
  | _ + 1, lirs, none, offset => .ok (lirs, offset)
  | fuel + 1, lirs, some p, offset =>
    let armLIR := lirs p
    if armLIR.opCode ≥ 0 then
      assignOffsets fuel (lirs.set p { armLIR with offset := offset }) armLIR.next (offset + 2)
    else if armLIR.opCode = ARMV5TE_PSEUDO_ALIGN4 then
      if bit1 offset then
        assignOffsets fuel (lirs.set p { armLIR with offset := offset, operands0 := 1 })
          armLIR.next (offset + 2)
      else
        assignOffsets fuel (lirs.set p { armLIR with offset := offset, operands0 := 0 })
          armLIR.next offset
    else
      assignOffsets fuel (lirs.set p { armLIR with offset := offset }) armLIR.next offset

/-- Loop of lines 477-480: every literal record gets the running offset and
consumes 4 bytes. -/
def assignLiteralOffsets : Nat → LIRHeap → Option Nat → Int → Except Fault (LIRHeap × Int)
  | 0, _, _, _ => .error .outOfFuel
  | _ + 1, lirs, none, offset => .ok (lirs, offset)
  | fuel + 1, lirs, some p, offset =>
    assignLiteralOffsets fuel (lirs.set p { lirs p with offset := offset }) (lirs p).next
      (offset + 4)

/-- Search of `jitTraceDescriptionSize` for the first fragment whose `runEnd`
flag is set, started at index `runCount`. -/
def findRunEnd : List Bool → Nat → Except Fault Nat
  | [], _ => .error .badTraceDesc
  | b :: rest, runCount => if b then .ok runCount else findRunEnd rest (runCount + 1)

/-- Size of a trace description,
`sizeof(JitCodeDesc) + (runCount + 1) * sizeof(JitTraceRun)`. -/
def jitTraceDescriptionSize (T : Target) (desc : JitTraceDescription) : Except Fault Nat :=
  match findRunEnd desc.runEnd 0 with
  | .error e => .error e
  | .ok runCount => .ok (T.sizeofJitCodeDesc + (runCount + 1) * T.sizeofJitTraceRun)

/-- Result of the layout part of one round (lines 445-482). -/
structure Layout where
  cUnit : CompilationUnit
  /-- Offset reached at the end of the pass 1 walk. -/
  endOffset : Int
  /-- The `u2 chainCellOffset`. -/
  chainCellOffset : Nat
  /-- Final value of the local `offset` (equal to `totalSize`). -/
  offset : Int

/-- Lines 445-482: pass 1, rounding to 4, the chain cell offset (converted to
`u2`), room for the chain cell counts and the trace description, and the
literal offsets. -/
def layoutPass (fuel : Nat) (descSize : Nat) (cUnit : CompilationUnit) : Except Fault Layout :=
  match assignOffsets fuel cUnit.lirs cUnit.firstLIRInsn CHAIN_CELL_OFFSET_SIZE with
  | .error e => .error e
  | .ok (lirs1, endOffset) =>
    let offset := alignDown4 (endOffset + 3)
    let chainCellOffset := (offset % 65536).toNat
    let offset := offset + sizeofChainCellCounts + descSize
    if offset % 4 ≠ 0 then .error .assertion
    else
      match assignLiteralOffsets fuel lirs1 cUnit.wordList offset with
      | .error e => .error e
      | .ok (lirs2, total) =>
        .ok { cUnit := { cUnit with lirs := lirs2, dataOffset := offset, totalSize := total },
              endOffset := endOffset, chainCellOffset := chainCellOffset, offset := total }

/-! ## Pass 2: `assembleInstructions` -/

/-- Running state of `assembleInstructions`: the record heap, the index of the
next fresh record, the words stored through `bufferAddr`, and `retry`. -/
structure AsmState where
  lirs : LIRHeap
  numLIR : Nat
  buffer : List Nat
  retry : Bool

def setNext (lirs : LIRHeap) (p : Nat) (v : Option Nat) : LIRHeap :=
  lirs.set p { lirs p with next := v }

def setPrev (lirs : LIRHeap) (p : Nat) (v : Option Nat) : LIRHeap :=
  lirs.set p { lirs p with prev := v }

/-- Loop of lines 309-311: from `lastLIR`, follow `next` to the first record
whose opcode is `ARMV5TE_B_UNCOND`. -/
def findLastLIR (lirs : LIRHeap) : Nat → Option Nat → Except Fault Nat
  | 0, _ => .error .outOfFuel
  | _ + 1, none => .error .nullDeref
  | fuel + 1, some q =>
    if (lirs q).opCode ≠ ARMV5TE_B_UNCOND then findLastLIR lirs fuel (lirs q).next
    else .ok q

/-- Rewrite of lines 301-336 for the conditional branch `lir` whose target
`targetLIR` is a PC-reconstruction marker: the block `targetLIR..lastLIR` is
taken out of the list, a new unconditional branch to the old fall-through is
put after `lir`, the block after that, and the old fall-through after the
block.  The pointer stores are done one after the other, each reading the heap
the previous ones left. -/
def pullInPCReconstruction (fuel : Nat) (st : AsmState) (lir targetLIR : Nat) :
    Except Fault AsmState :=
  let origNextLIR := (st.lirs lir).next
  match findLastLIR st.lirs fuel (some targetLIR) with
  | .error e => .error e
  | .ok lastLIR =>
    match (st.lirs lastLIR).next with
    | none => .error .nullDeref
    | some afterLast =>
      let h1 := setPrev st.lirs afterLast (st.lirs targetLIR).prev
      match (h1 targetLIR).prev with
      | none => .error .nullDeref
      | some beforeTarget =>
        let h2 := setNext h1 beforeTarget (h1 lastLIR).next
        let branchoverLIR := st.numLIR
        let h3 := h2.set branchoverLIR
          { zeroLIR with opCode := ARMV5TE_B_UNCOND, target := origNextLIR }
        let h4 := setNext h3 lir (some branchoverLIR)
        let h5 := setPrev h4 branchoverLIR (some lir)
        let h6 := setNext h5 branchoverLIR (some targetLIR)
        let h7 := setPrev h6 targetLIR (some branchoverLIR)
        let h8 := setNext h7 lastLIR origNextLIR
        match origNextLIR with
        | none => .error .nullDeref
        | some origNext =>
          let h9 := setPrev h8 origNext (some lastLIR)
          .ok { st with lirs := h9, numLIR := branchoverLIR + 1, retry := true }

/-- Expression `target |= 0x2`. -/
def orBit1 (x : Int) : Int := if bit1 x then x else x + 2

/-- Displacement of a `BLX_1` record (lines 357-364): `curPC` is the address of
the instruction plus 4, rounded down to 4; bit 1 of the target (`operands[1]`)
is set when bit 1 of `curPC` is set; the difference is a 32-bit `int`. -/
def blxDisplacement (startAddr : Int) (lir : Armv5teLIR) : Int :=
  let curPC := alignDown4 (startAddr + lir.offset + 4)
  let target := if bit1 curPC then orBit1 lir.operands1 else lir.operands1
  wrap32 (target - curPC)

/-- Displacement resolution of one real instruction (lines 257-369). -/
def resolveDisplacement (startAddr : Int) (fuel : Nat) (p : Nat) (st : AsmState) :
    Except Fault AsmState :=
  let lir := st.lirs p
  if lir.opCode = ARMV5TE_LDR_PC_REL ∨ lir.opCode = ARMV5TE_ADD_PC_REL then
    match lir.target with
    | none => .error .nullDeref
    | some lirTarget =>
      let pc := alignDown4 (lir.offset + 4)
      let target := (st.lirs lirTarget).offset
      let delta := target - pc
      if delta % 4 ≠ 0 then .error .abort
      else .ok { st with lirs := st.lirs.set p { lir with operands1 := delta / 4 } }
  else if lir.opCode = ARMV5TE_B_COND then
    match lir.target with
    | none => .error .nullDeref
    | some targetLIR =>
      let pc := lir.offset + 4
      let target := (st.lirs targetLIR).offset
      let delta := target - pc
      if delta > 254 ∨ delta < -256 then
        if (st.lirs targetLIR).opCode = ARMV5TE_PSEUDO_PC_RECONSTRUCTION_CELL then
          pullInPCReconstruction fuel st p targetLIR
        else .error .abort
      else .ok { st with lirs := st.lirs.set p { lir with operands0 := delta / 2 } }
  else if lir.opCode = ARMV5TE_B_UNCOND then
    match lir.target with
    | none => .error .nullDeref
    | some targetLIR =>
      let pc := lir.offset + 4
      let target := (st.lirs targetLIR).offset
      let delta := target - pc
      if delta > 2046 ∨ delta < -2048 then .error .abort
      else .ok { st with lirs := st.lirs.set p { lir with operands0 := delta / 2 } }
  else if lir.opCode = ARMV5TE_BLX_1 then
    match lir.next with
    | none => .error .nullDeref
    | some nextLIR =>
      if (st.lirs nextLIR).opCode ≠ ARMV5TE_BLX_2 then .error .assertion
      else
        let delta := blxDisplacement startAddr lir
        if ¬ (delta ≥ -(2 ^ 22) ∧ delta ≤ 2 ^ 22 - 2) then .error .assertion
        else
          let h1 := st.lirs.set p { lir with operands0 := (delta / 4096) % 2048 }
          let h2 := h1.set nextLIR { h1 nextLIR with operands0 := (delta / 2) % 2048 }
          .ok { st with lirs := h2 }
  else .ok st

/-- Encoder part of the loop body (lines 379-391): look the opcode up in
`EncodingMap`, encode the operands and store the word. -/
def emitInstruction (p : Nat) (st : AsmState) : Except Fault AsmState :=
  let lir := st.lirs p
  match EncodingMap[lir.opCode.toNat]? with
  | none => .error .badOpcode
  | some encoder =>
    .ok { st with buffer := st.buffer ++ [encodeBits encoder lir.operands] }

/-- Body of the loop of `assembleInstructions` for the record `p`.  A pseudo-op
stores the padding word when it is an alignment pseudo-op marked by pass 1 and
no retry is pending.  A real instruction is resolved; once `retry` is set
(by this record or an earlier one) nothing is stored. -/
def assembleStep (startAddr : Int) (fuel : Nat) (p : Nat) (st : AsmState) :
    Except Fault AsmState :=
  let lir := st.lirs p
  if lir.opCode < 0 then
    if lir.opCode = ARMV5TE_PSEUDO_ALIGN4 ∧ lir.operands0 = 1 ∧ st.retry = false then
      .ok { st with buffer := st.buffer ++ [PADDING_MOV_R0_R0] }
    else .ok st
  else
    match resolveDisplacement startAddr fuel p st with
    | .error e => .error e
    | .ok st1 => if st1.retry then .ok st1 else emitInstruction p st1

/-- Loop of `assembleInstructions` (line 247): after the body the walk goes on
with `NEXT_LIR(lir)` as the body left it. -/
def assembleLoop (startAddr : Int) (walk : Nat) :
    Nat → Option Nat → AsmState → Except Fault AsmState
  | 0, _, _ => .error .outOfFuel
  | _ + 1, none, st => .ok st
  | fuel + 1, some p, st =>
    match assembleStep startAddr walk p st with
    | .error e => .error e
    | .ok st1 => assembleLoop startAddr walk fuel (st1.lirs p).next st1

/-- Function `assembleInstructions(cUnit, startAddr)`: returns the unit with
the words written to the (fresh) code buffer, and the retry flag. -/
def assembleInstructions (fuel : Nat) (cUnit : CompilationUnit) (startAddr : Int) :
    Except Fault (CompilationUnit × Bool) :=
  match assembleLoop startAddr fuel fuel cUnit.firstLIRInsn
      { lirs := cUnit.lirs, numLIR := cUnit.numLIR, buffer := [], retry := false } with
  | .error e => .error e
  | .ok st =>
    .ok ({ cUnit with lirs := st.lirs, numLIR := st.numLIR, codeBuffer := st.buffer }, st.retry)

/-! ## Installation -/

/-- Function `installDataContent`: the literal words go to consecutive 32-bit
slots starting at `dataPtr`. -/
def installDataContent : Nat → LIRHeap → Option Nat → Mem → Int → Except Fault Mem
  | 0, _, _, _, _ => .error .outOfFuel
  | _ + 1, _, none, mem, _ => .ok mem
  | fuel + 1, lirs, some p, mem, dataPtr =>
    installDataContent fuel lirs (lirs p).next
      (write32 mem dataPtr (toU32 (lirs p).operands0)) (dataPtr + 4)

/-- Bytes of the local `chainCellCounts`: one `u1` count per kind, then the
byte no count occupies. -/
def chainCellCountsBytes (T : Target) (cUnit : CompilationUnit) (i : Nat) : Nat :=
  if i < CHAINING_CELL_LAST then (cUnit.numChainingCells i % 256).toNat else T.countsPad

/-- Lines 504-533: take the block at the cursor, advance the cursor, store the
chain cell offset through a `char` pointer, copy the code, the chain cell
counts, the trace description and the literals, and publish the code address
(block base + 2). -/
def installUnit (T : Target) (fuel : Nat) (descSize : Nat) (mem : Mem) (g : DvmJitGlobals)
    (cUnit : CompilationUnit) (chainCellOffset : Nat) (offset : Int) :
    Except Fault (Mem × DvmJitGlobals × CompilationUnit) :=
  let base := g.codeCache + g.codeCacheByteUsed
  let g1 := { g with codeCacheByteUsed := g.codeCacheByteUsed + offset }
  let mem1 := write8 mem base chainCellOffset
  if chainCellOffset < 2 then .error .bufferOverrun
  else
    let mem2 := memcpy mem1 (base + 2) (codeBufferByte cUnit.codeBuffer) (chainCellOffset - 2)
    let g2 := { g1 with numCompilations := g1.numCompilations + 1 }
    let mem3 := memcpy mem2 (base + chainCellOffset) (chainCellCountsBytes T cUnit)
      sizeofChainCellCounts
    let mem4 := memcpy mem3 (base + chainCellOffset + sizeofChainCellCounts)
      cUnit.traceDesc.bytes descSize
    match installDataContent fuel cUnit.lirs cUnit.wordList mem4 (base + cUnit.dataOffset) with
    | .error e => .error e
    | .ok mem5 => .ok (mem5, g2, { cUnit with baseAddr := some (base + CHAIN_CELL_OFFSET_SIZE) })

/-- Outcome of one round of `dvmCompilerAssembleLIR`, from the label `retry`
to a `return` or to `goto retry`. -/
inductive Attempt where
  /-- Pass 2 asked for a new layout. -/
  | again (cUnit : CompilationUnit)
  /-- The function returned. -/
  | done (mem : Mem) (g : DvmJitGlobals) (cUnit : CompilationUnit)

/-- One round of `dvmCompilerAssembleLIR` (lines 445-533). -/
def assembleAttempt (T : Target) (fuel : Nat) (descSize : Nat) (mem : Mem)
    (g : DvmJitGlobals) (cUnit : CompilationUnit) : Except Fault Attempt :=
  match layoutPass fuel descSize cUnit with
  | .error e => .error e
  | .ok L =>
    if g.codeCacheByteUsed + L.cUnit.totalSize > T.CODE_CACHE_SIZE then
      .ok (.done mem { g with codeCacheFull := true } { L.cUnit with baseAddr := none })
    else if T.codeBufferAlloc L.chainCellOffset = false then
      .ok (.done mem g { L.cUnit with baseAddr := none })
    else
      match assembleInstructions fuel L.cUnit (g.codeCache + g.codeCacheByteUsed) with
      | .error e => .error e
      | .ok (cUnit2, needRetry) =>
        if 2 * cUnit2.codeBuffer.length > L.chainCellOffset then .error .bufferOverrun
        else if needRetry then .ok (.again cUnit2)
        else
          match installUnit T fuel descSize mem g cUnit2 L.chainCellOffset L.offset with
          | .error e => .error e
          | .ok (mem1, g1, cUnit3) => .ok (.done mem1 g1 cUnit3)

/-- The `goto retry` loop; `rounds` bounds the number of rounds. -/
def assembleRounds (T : Target) (fuel : Nat) (descSize : Nat) :
    Nat → Mem → DvmJitGlobals → CompilationUnit →
      Except Fault (Mem × DvmJitGlobals × CompilationUnit)
  | 0, _, _, _ => .error .outOfFuel
  | rounds + 1, mem, g, cUnit =>
    match assembleAttempt T fuel descSize mem g cUnit with
    | .error e => .error e
    | .ok (.again cUnit1) => assembleRounds T fuel descSize rounds mem g cUnit1
    | .ok (.done mem1 g1 cUnit1) => .ok (mem1, g1, cUnit1)

/-- Function `dvmCompilerAssembleLIR(cUnit)` on the memory `mem` and the
globals `g`. -/
def dvmCompilerAssembleLIR (T : Target) (fuel rounds : Nat) (mem : Mem) (g : DvmJitGlobals)
    (cUnit : CompilationUnit) : Except Fault (Mem × DvmJitGlobals × CompilationUnit) :=
  match jitTraceDescriptionSize T cUnit.traceDesc with
  | .error e => .error e
  | .ok descSize => assembleRounds T fuel descSize rounds mem g cUnit

/-! ## Chaining -/

/-- Function `dvmJitChain(tgtAddr, branchAddr)` with the current value of
`gDvm.sumThreadSuspendCount`; returns the memory, the globals and the returned
address. -/
def dvmJitChain (sumThreadSuspendCount : Int) (mem : Mem) (g : DvmJitGlobals)
    (tgtAddr branchAddr : Int) : Except Fault (Mem × DvmJitGlobals × Int) :=
  let baseAddr := wrap32 (branchAddr + 4)
  let branchOffset := wrap32 (tgtAddr - baseAddr)
  if sumThreadSuspendCount = 0 then
    if ¬ (branchOffset ≥ -(2 ^ 22) ∧ branchOffset ≤ 2 ^ 22 - 2) then .error .assertion
    else
      let g1 := { g with translationChains := g.translationChains + 1 }
      let thumb1 : Nat :=
        if branchOffset < -2048 ∨ branchOffset > 2046 then
          0xf000 ||| ((branchOffset / 4096) % 2048).toNat
        else 0xe000 ||| ((branchOffset / 2) % 2048).toNat
      let thumb2 : Nat :=
        if branchOffset < -2048 ∨ branchOffset > 2046 then
          0xf800 ||| ((branchOffset / 2) % 2048).toNat
        else 0x4300
      let newInst := ((thumb2 <<< 16) ||| thumb1) % 2 ^ 32
      .ok (write32 mem branchAddr newInst, g1, tgtAddr)
  else .ok (mem, g, tgtAddr)

/-- Function `dvmJitChain(tgtAddr, branchAddr)` as compiled with `NDEBUG`,
where the `assert` of line 557 expands to nothing: every call returns. -/
def dvmJitChainNoAssert (sumThreadSuspendCount : Int) (mem : Mem) (g : DvmJitGlobals)
    (tgtAddr branchAddr : Int) : Mem × DvmJitGlobals × Int :=
  let baseAddr := wrap32 (branchAddr + 4)
  let branchOffset := wrap32 (tgtAddr - baseAddr)
  if sumThreadSuspendCount = 0 then
    let g1 := { g with translationChains := g.translationChains + 1 }
    let thumb1 : Nat :=
      if branchOffset < -2048 ∨ branchOffset > 2046 then
        0xf000 ||| ((branchOffset / 4096) % 2048).toNat
      else 0xe000 ||| ((branchOffset / 2) % 2048).toNat
    let thumb2 : Nat :=
      if branchOffset < -2048 ∨ branchOffset > 2046 then
        0xf800 ||| ((branchOffset / 2) % 2048).toNat
      else 0x4300
    let newInst := ((thumb2 <<< 16) ||| thumb1) % 2 ^ 32
    (write32 mem branchAddr newInst, g1, tgtAddr)
  else (mem, g, tgtAddr)

/-- Dispatcher offset selected by the `switch` of `dvmJitUnchain`. -/
def unchainTargetOffset (T : Target) (i : Nat) : Except Fault Nat :=
  if i = CHAINING_CELL_GENERIC then .ok T.offNormal
  else if i = CHAINING_CELL_POST_INVOKE ∨ i = CHAINING_CELL_INVOKE then .ok T.offTraceSelect
  else .error .abort

/-- Word `newInst` of `dvmJitUnchain` for a dispatcher offset:
`ldr r0, [rGLUE, #off]` in the low half and `blx r0` in the high half. -/
def unchainStub (T : Target) (targetOffset : Nat) : Nat :=
  let targetOffset := targetOffset >>> 2
  let thumb1 := (0x6800 ||| (targetOffset <<< 6) ||| (T.rGLUE <<< 3) ||| (T.r0 <<< 0)) % 2 ^ 32
  let thumb2 := (0x4780 ||| (T.r0 <<< 3)) % 2 ^ 32
  ((thumb2 <<< 16) ||| thumb1) % 2 ^ 32

/-- Inner loop of `dvmJitUnchain` for kind `i` (line 611): while
`j < pChainCellCounts->u.count[i]`, the count being read from memory each
time, store the stub at `pChainCells` and advance by two words.  The first
argument counts down from 256 as `j` counts up; a `u1` count is below 256, so
the test fails at the latest when it reaches 0. -/
def unchainCells (T : Target) (pChainCellCounts : Int) (i : Nat) :
    Nat → Nat → Mem → Int → Except Fault (Mem × Int)
  | 0, _, mem, pChainCells => .ok (mem, pChainCells)
  | left + 1, j, mem, pChainCells =>
    if j < read8 mem (pChainCellCounts + i) then
      match unchainTargetOffset T i with
      | .error e => .error e
      | .ok targetOffset =>
        unchainCells T pChainCellCounts i left (j + 1)
          (write32 mem pChainCells (unchainStub T targetOffset)) (pChainCells + 8)
    else .ok (mem, pChainCells)

/-- Outer loop of `dvmJitUnchain` over the kinds `i, i+1, .. < CHAINING_CELL_LAST`;
the first argument is the number of kinds still to do. -/
def unchainKinds (T : Target) (pChainCellCounts : Int) :
    Nat → Nat → Mem → Int → Except Fault (Mem × Int)
  | 0, _, mem, pChainCells => .ok (mem, pChainCells)
  | todo + 1, i, mem, pChainCells =>
    match unchainCells T pChainCellCounts i 256 0 mem pChainCells with
    | .error e => .error e
    | .ok (mem1, p1) => unchainKinds T pChainCellCounts todo (i + 1) mem1 p1

/-- Address `pChainCellOffset` of `dvmJitUnchain`. -/
def unchainOffsetAddr (codeAddr : Int) : Int := codeAddr - 3

/-- Address `pChainCellCounts` of `dvmJitUnchain`. -/
def unchainCountsAddr (mem : Mem) (codeAddr : Int) : Int :=
  codeAddr + read16 mem (unchainOffsetAddr codeAddr) - 3

/-- Total `cellCount` of `dvmJitUnchain` (lines 602-604). -/
def unchainCellCount (mem : Mem) (pChainCellCounts : Int) : Nat :=
  (List.range CHAINING_CELL_LAST).foldl (fun c i => c + read8 mem (pChainCellCounts + i)) 0

/-- Function `dvmJitUnchain(codeAddr)`: returns the memory and the address
after the last cell. -/
def dvmJitUnchain (T : Target) (mem : Mem) (codeAddr : Int) : Except Fault (Mem × Int) :=
  let pChainCellCounts := unchainCountsAddr mem codeAddr
  let cellCount := unchainCellCount mem pChainCellCounts
  let pStart := pChainCellCounts - cellCount * 8
  unchainKinds T pChainCellCounts CHAINING_CELL_LAST 0 mem pStart

/-! ## Unchaining every trace -/

/-- Entry of `gDvmJit.pJitEntryTable`: the key `dPC` and the `codeAddress` of
the translation, both pointers (`0` is `NULL`). -/
structure JitEntry where
  dPC : Int
  codeAddress : Int
deriving DecidableEq

/-- Loop of `dvmJitUnchainAll` (lines 653-664) over the entries that are left,
with the current values of `lowAddress` and `highAddress`.  An entry is
unchained when both its `dPC` and its `codeAddress` are non-null; `lowAddress`
is then assigned `lastAddress` when it is still `NULL` or when `codeAddress`
lies below it, and `highAddress` is raised to `lastAddress`. -/
def unchainAllLoop (T : Target) : List JitEntry → Mem → Int → Int →
    Except Fault (Mem × Int × Int)
  | [], mem, lowAddress, highAddress => .ok (mem, lowAddress, highAddress)
  | e :: rest, mem, lowAddress, highAddress =>
    if e.dPC ≠ 0 ∧ e.codeAddress ≠ 0 then
      match dvmJitUnchain T mem e.codeAddress with
      | .error er => .error er
      | .ok (mem1, lastAddress) =>
        let low1 :=
          if lowAddress = 0 ∨ e.codeAddress < lowAddress then lastAddress else lowAddress
        let high1 := if lastAddress > highAddress then lastAddress else highAddress
        unchainAllLoop T rest mem1 low1 high1
    else unchainAllLoop T rest mem lowAddress highAddress

/-- Function `dvmJitUnchainAll()`: `table` is `gDvmJit.pJitEntryTable` (`none`
for `NULL`) with its `maxTableEntries` entries.  Returns the memory and the
range `(lowAddress, highAddress)` passed to `cacheflush`, if it is called. -/
def dvmJitUnchainAll (T : Target) (table : Option (List JitEntry)) (mem : Mem) :
    Except Fault (Mem × Option (Int × Int)) :=
  match table with
  | none => .ok (mem, none)
  | some entries =>
    match unchainAllLoop T entries mem 0 0 with
    | .error er => .error er
    | .ok (mem1, lowAddress, highAddress) => .ok (mem1, some (lowAddress, highAddress))

/-! ## Well-formed record lists -/

/-- Following `next` from `p` visits exactly the records of the list, in
order, and then reaches `NULL`. -/
def Chain (lirs : LIRHeap) : Option Nat → List Nat → Prop
  | p, [] => p = none
  | p, i :: rest => p = some i ∧ Chain lirs (lirs i).next rest

/-- Offsets as pass 1 assigns them along a list of records, from the running
offset `o` to the end offset `E`: each record carries the running offset, a
real instruction advances it by 2, an alignment pseudo-op by 2 when bit 1 of
the offset is set (and `operands[0]` records which). -/
def LaidOut (lirs : LIRHeap) : List Nat → Int → Int → Prop
  | [], o, E => E = o
  | i :: rest, o, E =>
    (lirs i).offset = o ∧
    (if (lirs i).opCode ≥ 0 then LaidOut lirs rest (o + 2) E
     else if (lirs i).opCode = ARMV5TE_PSEUDO_ALIGN4 then
       (if bit1 o then (lirs i).operands0 = 1 ∧ LaidOut lirs rest (o + 2) E
        else (lirs i).operands0 = 0 ∧ LaidOut lirs rest o E)
     else LaidOut lirs rest o E)

/-- Two heaps with the same list structure, opcodes and offsets, and the same
pseudo-op records: they differ at most in operands of real instructions. -/
def SameLayout (h h' : LIRHeap) : Prop :=
  ∀ q, (h' q).opCode = (h q).opCode ∧ (h' q).offset = (h q).offset ∧
    (h' q).next = (h q).next ∧ (h' q).prev = (h q).prev ∧
    (h' q).target = (h q).target ∧ ((h q).opCode < 0 → h' q = h q)

/-- Two heaps with the same list structure, opcodes and operands 1 and 2;
offsets may differ, and `operands[0]` of alignment pseudo-ops. -/
def SameProgram (h h' : LIRHeap) : Prop :=
  ∀ q, (h' q).opCode = (h q).opCode ∧ (h' q).next = (h q).next ∧
    (h' q).prev = (h q).prev ∧ (h' q).target = (h q).target ∧
    (h' q).operands1 = (h q).operands1 ∧ (h' q).operands2 = (h q).operands2 ∧
    ((h q).opCode ≠ ARMV5TE_PSEUDO_ALIGN4 → (h' q).operands0 = (h q).operands0)

/-- Offset of the record that follows position `k` of a list, or the end
offset when position `k` is the last. -/
def offsetAfter (lirs : LIRHeap) (E : Int) : List Nat → Int
  | [] => E
  | j :: _ => (lirs j).offset

/-- Index of the code buffer word that belongs to byte offset `off` of the
installed block (the code body starts at offset 2). -/
def wordIndex (off : Int) : Nat := ((off - 2) / 2).toNat

/-- Two heaps that differ at most in the offsets of the records of a list. -/
def OffsetsOnly (l : List Nat) (h h' : LIRHeap) : Prop :=
  (∀ q, h' q = { h q with offset := (h' q).offset }) ∧ (∀ q, q ∉ l → h' q = h q)

/-! ## Chaining cells of an installed trace -/

/-- Memory after storing the word `w` at the first word of `n` consecutive
8-byte cells starting at `p`. -/
def writeStubs (mem : Mem) (p : Int) : Nat → Nat → Mem
  | 0, _ => mem
  | n + 1, w => writeStubs (write32 mem p w) (p + 8) n w

/-- Address `x` lies in the first word of one of the `k` cells that start at
`pStart`. -/
def inCellWord (pStart : Int) (k : Nat) (x : Int) : Prop :=
  pStart ≤ x ∧ x < pStart + 8 * (k : Int) ∧ (x - pStart) % 8 < 4

instance (pStart : Int) (k : Nat) (x : Int) : Decidable (inCellWord pStart k x) := by
  unfold inCellWord; infer_instance

/-- Kind of cell number `j` of a trace with `c0` cells of the first kind and
`c1` of the second: the cells are grouped by kind, in the order of the enum. -/
def cellKind (c0 c1 j : Nat) : Nat :=
  if j < c0 then CHAINING_CELL_GENERIC
  else if j < c0 + c1 then CHAINING_CELL_POST_INVOKE
  else CHAINING_CELL_INVOKE

/-- Start of the chaining cell region of the trace at `codeAddr`, as
`dvmJitUnchain` computes it (`pStart`). -/
def unchainCellStart (mem : Mem) (codeAddr : Int) : Int :=
  unchainCountsAddr mem codeAddr
    - (unchainCellCount mem (unchainCountsAddr mem codeAddr) : Int) * 8

/-- The chaining cells of the trace at `codeAddr` overlap neither its 2-byte
header nor its count block (the cells end where the count block starts). -/
def cellsClearOfHeader (mem : Mem) (codeAddr : Int) : Prop :=
  unchainOffsetAddr codeAddr + 2 ≤ unchainCellStart mem codeAddr ∨
  unchainCountsAddr mem codeAddr ≤ unchainOffsetAddr codeAddr

/-- Closed form of the memory `dvmJitUnchain` leaves: the generic stub in the
first word of the cells of the first kind, the trace-select stub in the first
word of the cells of the other two kinds. -/
def unchainedMem (T : Target) (mem : Mem) (codeAddr : Int) : Mem :=
  let P := unchainCountsAddr mem codeAddr
  let c0 := read8 mem (P + 0)
  let c1 := read8 mem (P + 1)
  let c2 := read8 mem (P + 2)
  let p0 := unchainCellStart mem codeAddr
  writeStubs
    (writeStubs (writeStubs mem p0 c0 (unchainStub T T.offNormal))
      (p0 + 8 * (c0 : Int)) c1 (unchainStub T T.offTraceSelect))
    (p0 + 8 * (c0 : Int) + 8 * (c1 : Int)) c2 (unchainStub T T.offTraceSelect)

instance (mem : Mem) (codeAddr : Int) : Decidable (cellsClearOfHeader mem codeAddr) := by
  unfold cellsClearOfHeader; infer_instance

/-! ## Trace tables and reference functions of the chain claims -/

/-- Entry that `dvmJitUnchainAll` unchains: neither pointer is null. -/
def JitEntry.live (e : JitEntry) : Prop := e.dPC ≠ 0 ∧ e.codeAddress ≠ 0

instance (e : JitEntry) : Decidable e.live := by
  unfold JitEntry.live; infer_instance

/-- Address `x` is a byte that `dvmJitUnchain` reads to find the cells of the
trace at `codeAddr`: one of the two bytes of the header or one of the three
counts. -/
def traceMeta (mem : Mem) (codeAddr : Int) (x : Int) : Prop :=
  x = unchainOffsetAddr codeAddr ∨ x = unchainOffsetAddr codeAddr + 1 ∨
  x = unchainCountsAddr mem codeAddr ∨ x = unchainCountsAddr mem codeAddr + 1 ∨
  x = unchainCountsAddr mem codeAddr + 2

/-- Address `x` lies in the first word of a chaining cell of the trace at
`codeAddr`: these are the bytes `dvmJitUnchain` writes. -/
def traceCellWord (mem : Mem) (codeAddr : Int) (x : Int) : Prop :=
  inCellWord (unchainCellStart mem codeAddr)
    (unchainCellCount mem (unchainCountsAddr mem codeAddr)) x

instance (mem : Mem) (codeAddr : Int) (x : Int) : Decidable (traceCellWord mem codeAddr x) := by
  unfold traceCellWord; infer_instance

/-- The live entries of the table are installed traces laid out apart: no
first word of a chaining cell of one live trace is a header byte or a count
byte of a live trace (the same one or another). -/
def tableWellFormed (mem : Mem) (entries : List JitEntry) : Prop :=
  ∀ e ∈ entries, e.live → ∀ e2 ∈ entries, e2.live →
    ∀ x, traceCellWord mem e.codeAddress x → ¬ traceMeta mem e2.codeAddress x

/-- Two's complement reading of the low `w` bits of `v`. -/
def signExtend (w : Nat) (v : Nat) : Int :=
  if v % 2 ^ w < 2 ^ (w - 1) then ((v % 2 ^ w : Nat) : Int)
  else ((v % 2 ^ w : Nat) : Int) - 2 ^ w

/-- Patch word of `chain` in the words of the specification, for the
displacement `d`: the long form (two halves of a branch-and-link pair) outside
the single-instruction range, one branch plus a no-op inside it. -/
def specPatchWord (d : Int) : Nat :=
  if d < -2048 ∨ d > 2046 then
    ((0xf800 ||| ((d / 2) % 2048).toNat) <<< 16) ||| (0xf000 ||| ((d / 4096) % 2048).toNat)
  else (0x4300 <<< 16) ||| (0xe000 ||| ((d / 2) % 2048).toNat)

/-- High half of the long-branch split, `(d >> 12) & 0x7ff`. -/
def specHigh (d : Int) : Int := (d / 4096) % 2048

/-- Low half of the long-branch split, `(d >> 1) & 0x7ff`. -/
def specLow (d : Int) : Int := (d / 2) % 2048

/-- Truncation of `x` to its low `w` bits (two's complement), as a number in
`[0, 2^w)`. -/
def specTruncate (w : Nat) (x : Int) : Nat := (x % 2 ^ w).toNat

/-- Closed form of the memory the loop of `dvmJitUnchainAll` leaves: every
live entry is unchained in turn. -/
def unchainAllMem (T : Target) : List JitEntry → Mem → Mem
  | [], mem => mem
  | e :: rest, mem =>
    if e.live then unchainAllMem T rest (unchainedMem T mem e.codeAddress)
    else unchainAllMem T rest mem

/-- Address `x` lies in the first word of a chaining cell of a live entry of
the list. -/
def tableCellWord (mem : Mem) (entries : List JitEntry) (x : Int) : Prop :=
  ∃ e ∈ entries, e.live ∧ traceCellWord mem e.codeAddress x

/-! ## Doubly linked lists -/

/-- Following the link `f` from `p` visits exactly the records of the list, in
order, and the link of the last one is `q`. -/
def Linked (f : Nat → Option Nat) : Option Nat → List Nat → Option Nat → Prop
  | p, [], q => p = q
  | p, i :: rest, q => p = some i ∧ Linked f (f i) rest q

/-- The `next` link of the records of a heap. -/
def nextOf (lirs : LIRHeap) : Nat → Option Nat := fun i => (lirs i).next

/-- The `prev` link of the records of a heap. -/
def prevOf (lirs : LIRHeap) : Nat → Option Nat := fun i => (lirs i).prev

/-- The records of the list form a doubly linked list in the heap: `next`
runs through the list from its first record to `NULL`, and `prev` runs through
the reversed list from its last record to `NULL`. -/
def DoublyLinked (lirs : LIRHeap) (l : List Nat) : Prop :=
  Linked (nextOf lirs) l.head? l none ∧ Linked (prevOf lirs) l.reverse.head? l.reverse none

/-- First record of a list, or `q` when the list is empty. -/
def headOr (l : List Nat) (q : Option Nat) : Option Nat :=
  match l with
  | [] => q
  | i :: _ => some i

instance Linked.dec (f : Nat → Option Nat) :
    ∀ (p : Option Nat) (l : List Nat) (q : Option Nat), Decidable (Linked f p l q)
  | p, [], q => inferInstanceAs (Decidable (p = q))
  | _, i :: rest, q => @instDecidableAnd _ _ _ (Linked.dec f (f i) rest q)

instance (lirs : LIRHeap) (l : List Nat) : Decidable (DoublyLinked lirs l) := by
  unfold DoublyLinked; infer_instance

/-! ## Concrete units -/

/-- Heap holding the records of a list at the indices `0, 1, ..`. -/
def heapOfList (l : List Armv5teLIR) : LIRHeap := fun i => l.getD i zeroLIR

/-- Record `mov r1, r2` with the given list links. -/
def movLIR (prev next : Option Nat) : Armv5teLIR :=
  { zeroLIR with opCode := ARMV5TE_MOV_RR, operands0 := 1, operands1 := 2,
                 prev := prev, next := next }

/-- Target constants of the examples: a code cache of 64 bytes, 4-byte
`JitCodeDesc` and `JitTraceRun`, dispatcher entries at offsets 8 and 12,
`rGLUE` = r6. -/
def exampleTarget : Target :=
  { CODE_CACHE_SIZE := 64, sizeofJitCodeDesc := 4, sizeofJitTraceRun := 4,
    offNormal := 8, offTraceSelect := 12, rGLUE := 6, r0 := 0,
    codeBufferAlloc := fun _ => true, countsPad := 0 }

/-- Trace description with a single run fragment. -/
def exampleTraceDesc : JitTraceDescription := { runEnd := [true], bytes := fun _ => 0xAA }

/-- Unit over a heap with the given instruction list head and literal list
head, no chaining cells. -/
def unitOf (lirs : LIRHeap) (numLIR : Nat) (first wordList : Option Nat) : CompilationUnit :=
  { lirs := lirs, numLIR := numLIR, firstLIRInsn := first, wordList := wordList,
    numChainingCells := fun _ => 0, traceDesc := exampleTraceDesc, codeBuffer := [],
    dataOffset := 0, totalSize := 0, baseAddr := none }

/-- Three records: `mov`, an alignment pseudo-op, `mov`. -/
def alignHeap : LIRHeap :=
  heapOfList [movLIR none (some 1),
    { zeroLIR with opCode := ARMV5TE_PSEUDO_ALIGN4, prev := some 0, next := some 2 },
    movLIR (some 1) none]

/-- Heap of a unit whose first record is a conditional branch to a
PC-reconstruction marker 258 bytes ahead: record 0 is the branch, records
1..129 are `mov`, record 130 is an alignment pseudo-op, record 131 the marker,
record 132 the unconditional branch that ends the reconstruction block, record
133 a final `mov`. -/
def farBranchHeap : LIRHeap := fun i =>
  if i = 0 then
    { zeroLIR with opCode := ARMV5TE_B_COND, next := some 1, target := some 131 }
  else if i < 130 then movLIR (some (i - 1)) (some (i + 1))
  else if i = 130 then
    { zeroLIR with opCode := ARMV5TE_PSEUDO_ALIGN4, prev := some 129, next := some 131 }
  else if i = 131 then
    { zeroLIR with opCode := ARMV5TE_PSEUDO_PC_RECONSTRUCTION_CELL, prev := some 130,
                   next := some 132 }
  else if i = 132 then
    { zeroLIR with opCode := ARMV5TE_B_UNCOND, prev := some 131, next := some 133,
                   target := some 133 }
  else if i = 133 then movLIR (some 132) none
  else zeroLIR

/-- Unit over `farBranchHeap`. -/
def farBranchUnit : CompilationUnit := unitOf farBranchHeap 134 (some 0) none

/-- Observation of a layout at record `i`: opcode, offset, `operands[0]`. -/
def layoutAt (r : Except Fault Layout) (i : Nat) : Option (Int × Int × Int) :=
  match r with
  | .error _ => none
  | .ok L => some ((L.cUnit.lirs i).opCode, (L.cUnit.lirs i).offset, (L.cUnit.lirs i).operands0)

/-- Observation of pass 2 run on a layout: the words stored and the retry
flag. -/
def pass2Of (fuel : Nat) (startAddr : Int) (r : Except Fault Layout) :
    Option (List Nat × Bool) :=
  match r with
  | .error _ => none
  | .ok L =>
    match assembleInstructions fuel L.cUnit startAddr with
    | .error _ => none
    | .ok (cUnit, retry) => some (cUnit.codeBuffer, retry)

/-- Heap of a straight run of `n` records `mov r1, r2`, record `i` linked to
`i - 1` and `i + 1`. -/
def movRunHeap (n : Nat) : LIRHeap := fun i =>
  movLIR (if i = 0 then none else some (i - 1)) (if i + 1 < n then some (i + 1) else none)

/-- Unit whose instruction list is a run of `n` records `mov r1, r2` (`n` at
least 1), without literals. -/
def movRunUnit (n : Nat) : CompilationUnit := unitOf (movRunHeap n) n (some 0) none

/-- Result of a round that returned with a published code address. -/
def installedView (r : Except Fault Attempt) : Option (Mem × DvmJitGlobals × CompilationUnit) :=
  match r with
  | .ok (.done mem g cUnit) => if cUnit.baseAddr ≠ none then some (mem, g, cUnit) else none
  | _ => none

/-- Observation of a call of `dvmCompilerAssembleLIR`: the published code
address, the cache-full flag and the used-bytes cursor. -/
def resultView (r : Except Fault (Mem × DvmJitGlobals × CompilationUnit)) :
    Option (Option Int × Bool × Int) :=
  match r with
  | .ok (_, g, cUnit) => some (cUnit.baseAddr, g.codeCacheFull, g.codeCacheByteUsed)
  | .error _ => none

/-- Observation of a call of `dvmCompilerAssembleLIR`: the 16-bit value read
at address `a` of the memory it leaves. -/
def read16View (r : Except Fault (Mem × DvmJitGlobals × CompilationUnit)) (a : Int) :
    Option Nat :=
  match r with
  | .ok (mem, _, _) => some (read16 mem a)
  | .error _ => none

/-- A second call of `dvmCompilerAssembleLIR`, on the memory and globals the
first call left. -/
def thenAssemble (T : Target) (fuel rounds : Nat)
    (r : Except Fault (Mem × DvmJitGlobals × CompilationUnit)) (cUnit : CompilationUnit) :
    Except Fault (Mem × DvmJitGlobals × CompilationUnit) :=
  match r with
  | .ok (mem, g, _) => dvmCompilerAssembleLIR T fuel rounds mem g cUnit
  | .error e => .error e

/-- Memory holding zero everywhere. -/
def zeroMem : Mem := fun _ => 0

/-- Globals of an empty code cache at address `0x1000`. -/
def emptyCache : DvmJitGlobals :=
  { codeCache := 0x1000, codeCacheByteUsed := 0, codeCacheFull := false,
    numCompilations := 0, translationChains := 0 }

/-- Unit with no instruction and the single literal `0x12345678`. -/
def oneLiteralUnit : CompilationUnit :=
  unitOf (heapOfList [{ zeroLIR with operands0 := 0x12345678 }]) 1 none (some 0)

/-- Target constants of the examples with a code cache of 1 MB. -/
def bigTarget : Target := { exampleTarget with CODE_CACHE_SIZE := 1024 * 1024 }

/-- Observation of a layout: the end offset of pass 1 and the 16-bit
`chainCellOffset`. -/
def layoutView (r : Except Fault Layout) : Option (Int × Nat) :=
  match r with
  | .ok L => some (L.endOffset, L.chainCellOffset)
  | .error _ => none

/-- Observation of a call of `dvmCompilerAssembleLIR`: the two addresses
`dvmJitUnchain(codeAddr)` would read from in the memory the call leaves,
`pChainCellOffset` and `pChainCellCounts`. -/
def unchainAddrView (r : Except Fault (Mem × DvmJitGlobals × CompilationUnit))
    (codeAddr : Int) : Option (Int × Int) :=
  match r with
  | .ok (mem, _, _) => some (unchainOffsetAddr codeAddr, unchainCountsAddr mem codeAddr)
  | .error _ => none

/-- Memory holding one installed trace at block base `0x1000` (code address
`0x1003` with the Thumb bit): chain cell offset 24, so the count block is at
`0x1018`; one generic cell at `0x1008` and one invoke cell at `0x1010`. -/
def traceMem : Mem := fun a =>
  if a = 0x1000 then 24 else if a = 0x1018 then 1 else if a = 0x101A then 1 else 0

/-! ## Further concrete units -/

/-- Unit of two records: a conditional branch (condition `1`) to the record
that follows it, a `mov`. -/
def nextBranchUnit : CompilationUnit :=
  unitOf (heapOfList
    [{ zeroLIR with opCode := ARMV5TE_B_COND, operands1 := 1, next := some 1,
                    target := some 1 },
     movLIR (some 0) none]) 2 (some 0) none

/-- Heap of a unit with one PC-relative load and 257 literals: record 0 is
`ldr r0, [pc, #..]` with the last literal as target, records 1..257 are the
literals (literal `i` has the value `i`). -/
def farLiteralHeap : LIRHeap := fun i =>
  if i = 0 then { zeroLIR with opCode := ARMV5TE_LDR_PC_REL, target := some 257 }
  else if i < 257 then { zeroLIR with operands0 := i, next := some (i + 1) }
  else if i = 257 then { zeroLIR with operands0 := 257 }
  else zeroLIR

/-- Unit over `farLiteralHeap`. -/
def farLiteralUnit : CompilationUnit := unitOf farLiteralHeap 258 (some 0) (some 1)

/-- Unit of one `BLX_1`/`BLX_2` pair whose target operand is `0x2002` (bit 1
set). -/
def blxUnit : CompilationUnit :=
  unitOf (heapOfList
    [{ zeroLIR with opCode := ARMV5TE_BLX_1, operands1 := 0x2002, next := some 1 },
     { zeroLIR with opCode := ARMV5TE_BLX_2, prev := some 0 }]) 2 (some 0) none

/-- Table of two entries over `traceMem`: an entry with a null key, and the
trace installed at `0x1000` (code address `0x1003`). -/
def exampleTable : List JitEntry :=
  [{ dPC := 0, codeAddress := 0x1003 }, { dPC := 0x4000, codeAddress := 0x1003 }]

/-- Observation of a call of `dvmJitUnchainAll`: the bytes at `a` and `a + 4`
of the memory it leaves, and the range passed to `cacheflush`. -/
def unchainAllView (r : Except Fault (Mem × Option (Int × Int))) (a : Int) :
    Option (Nat × Nat × Option (Int × Int)) :=
  match r with
  | .ok (mem, range) => some (mem a, mem (a + 4), range)
  | .error _ => none

/-- State of pass 2 in front of a conditional branch (record 0, offset 2)
whose target, the PC-reconstruction marker 2, lies at offset 1000: record 1 is
the fall-through, record 3 the unconditional branch that ends the block,
record 4 the record after the block. -/
def spliceState : AsmState :=
  { lirs := heapOfList
      [{ zeroLIR with opCode := ARMV5TE_B_COND, offset := 2, next := some 1, target := some 2 },
       { movLIR (some 0) (some 2) with offset := 4 },
       { zeroLIR with opCode := ARMV5TE_PSEUDO_PC_RECONSTRUCTION_CELL, offset := 1000,
                      prev := some 1, next := some 3 },
       { zeroLIR with opCode := ARMV5TE_B_UNCOND, offset := 1000, prev := some 2,
                      next := some 4, target := some 4 },
       { movLIR (some 3) none with offset := 1002 }],
    numLIR := 5, buffer := [], retry := false }

/-- Heap of a unit with two conditional branches: record 0 branches to the
PC-reconstruction marker (record 130), record 1 to the last record (132);
records 2..129 are `mov`, record 131 is the unconditional branch that ends the
reconstruction block. -/
def staleBranchHeap : LIRHeap := fun i =>
  if i = 0 then
    { zeroLIR with opCode := ARMV5TE_B_COND, next := some 1, target := some 130 }
  else if i = 1 then
    { zeroLIR with opCode := ARMV5TE_B_COND, prev := some 0, next := some 2,
                   target := some 132 }
  else if i < 130 then movLIR (some (i - 1)) (some (i + 1))
  else if i = 130 then
    { zeroLIR with opCode := ARMV5TE_PSEUDO_PC_RECONSTRUCTION_CELL, prev := some 129,
                   next := some 131 }
  else if i = 131 then
    { zeroLIR with opCode := ARMV5TE_B_UNCOND, prev := some 130, next := some 132,
                   target := some 132 }
  else if i = 132 then movLIR (some 131) none
  else zeroLIR

/-- Unit over `staleBranchHeap`. -/
def staleBranchUnit : CompilationUnit := unitOf staleBranchHeap 133 (some 0) none

/-- Fault of a computation, if it ended in one. -/
def faultOf {α : Type} (r : Except Fault α) : Option Fault :=
  match r with
  | .error e => some e
  | .ok _ => none

/-- The unit laid out by pass 1, then the step of pass 2 on record `b` alone
(the rewrite), then the resulting list laid out afresh: the layout a retry would
compute. -/
def layoutAfterRewrite (fuel : Nat) (descSize : Nat) (sa : Int) (cUnit : CompilationUnit)
    (b : Nat) : Except Fault Layout :=
  match layoutPass fuel descSize cUnit with
  | .error e => .error e
  | .ok L =>
    match assembleStep sa fuel b
        { lirs := L.cUnit.lirs, numLIR := L.cUnit.numLIR, buffer := [], retry := false } with
    | .error e => .error e
    | .ok st1 => layoutPass fuel descSize { L.cUnit with lirs := st1.lirs, numLIR := st1.numLIR }

/-- Observation of pass 2: the first `k` words stored, the number of words and
the retry flag. -/
def wordsView (k : Nat) (r : Option (List Nat × Bool)) : Option (List Nat × Nat × Bool) :=
  match r with
  | some (words, retry) => some (words.take k, words.length, retry)
  | none => none

/-- Heap of a unit with one far conditional branch: records `0 .. n-1` are
`mov`, record `n` is a conditional branch to the PC-reconstruction marker,
records `n+1 .. n+m` are `mov`, record `n+m+1` is the marker, record `n+m+2`
the unconditional branch that ends the reconstruction block, record `n+m+3` a
last `mov`. -/
def deepBranchHeap (n m : Nat) : LIRHeap := fun i =>
  if i < n then movLIR (if i = 0 then none else some (i - 1)) (some (i + 1))
  else if i = n then
    { zeroLIR with opCode := ARMV5TE_B_COND, prev := (if i = 0 then none else some (i - 1)),
                   next := some (n + 1), target := some (n + m + 1) }
  else if i < n + m + 1 then movLIR (some (i - 1)) (some (i + 1))
  else if i = n + m + 1 then
    { zeroLIR with opCode := ARMV5TE_PSEUDO_PC_RECONSTRUCTION_CELL, prev := some (i - 1),
                   next := some (i + 1) }
  else if i = n + m + 2 then
    { zeroLIR with opCode := ARMV5TE_B_UNCOND, prev := some (i - 1), next := some (i + 1),
                   target := some (n + m + 3) }
  else if i = n + m + 3 then movLIR (some (i - 1)) none
  else zeroLIR

/-- Unit over `deepBranchHeap`. -/
def deepBranchUnit (n m : Nat) : CompilationUnit :=
  unitOf (deepBranchHeap n m) (n + m + 4) (some 0) none

/-! ## Further examples -/

/-- Memory in which the chaining cell of a trace lies over the trace header:
the 16-bit value at `0x1000` is 8, so for the code address `0x1003` the count
block is at `0x1008`; it counts one generic cell, which starts at `0x1000`. -/
def overlapMem : Mem := fun a =>
  if a = 0x1000 then 8 else if a = 0x1008 then 1 else 0

/-- Byte at address `a` of the memory `dvmJitUnchain` leaves, and the address
it returns. -/
def unchainView (r : Except Fault (Mem × Int)) (a : Int) : Option (Nat × Int) :=
  match r with
  | .ok (mem, p) => some (mem a, p)
  | .error _ => none

/-- Unit with one PC-relative load (record 0) of the single literal
`0x12345678` (record 1). -/
def literalLoadUnit : CompilationUnit :=
  unitOf (heapOfList
    [{ zeroLIR with opCode := ARMV5TE_LDR_PC_REL, target := some 1 },
     { zeroLIR with operands0 := 0x12345678 }]) 2 (some 0) (some 1)

/-- Heap of a unit in which a reconstruction block holds a conditional branch:
record 0 is `mov`; records 1 and 2 are a marker and the unconditional branch
that ends its block; record 3 is a conditional branch to the marker 133;
records 4..132 are `mov`; records 133, 134, 135 are the second marker, a
conditional branch back to the marker 1, and the unconditional branch that
ends the block; record 136 is a final `mov`. -/
def nestedBranchHeap : LIRHeap := fun i =>
  if i = 0 then movLIR none (some 1)
  else if i = 1 then
    { zeroLIR with opCode := ARMV5TE_PSEUDO_PC_RECONSTRUCTION_CELL, prev := some 0,
                   next := some 2 }
  else if i = 2 then
    { zeroLIR with opCode := ARMV5TE_B_UNCOND, prev := some 1, next := some 3,
                   target := some 3 }
  else if i = 3 then
    { zeroLIR with opCode := ARMV5TE_B_COND, prev := some 2, next := some 4,
                   target := some 133 }
  else if i < 133 then movLIR (some (i - 1)) (some (i + 1))
  else if i = 133 then
    { zeroLIR with opCode := ARMV5TE_PSEUDO_PC_RECONSTRUCTION_CELL, prev := some 132,
                   next := some 134 }
  else if i = 134 then
    { zeroLIR with opCode := ARMV5TE_B_COND, prev := some 133, next := some 135,
                   target := some 1 }
  else if i = 135 then
    { zeroLIR with opCode := ARMV5TE_B_UNCOND, prev := some 134, next := some 136,
                   target := some 136 }
  else if i = 136 then movLIR (some 135) none
  else zeroLIR

/-- Unit over `nestedBranchHeap`. -/
def nestedBranchUnit : CompilationUnit := unitOf nestedBranchHeap 137 (some 0) none

/-- Observation of the layout that follows a round which asked for a retry:
for each of the given records its opcode, its `next` link, its target and the
offset the next pass 1 gives it. -/
def retryLayoutView (T : Target) (fuel descSize : Nat) (mem : Mem) (g : DvmJitGlobals)
    (cUnit : CompilationUnit) (l : List Nat) :
    Option (List (Int × Option Nat × Option Nat × Int)) :=
  match assembleAttempt T fuel descSize mem g cUnit with
  | .ok (.again cUnit1) =>
    match layoutPass fuel descSize cUnit1 with
    | .ok L =>
      some (l.map fun i =>
        ((L.cUnit.lirs i).opCode, (L.cUnit.lirs i).next, (L.cUnit.lirs i).target,
          (L.cUnit.lirs i).offset))
    | .error _ => none
  | _ => none

/-- Heap of a list as a rewrite leaves it: the conditional branch 0 with the
marker 2 as its target, the unconditional branch 1 to the record 4, the
reconstruction block 2, 3, and the record 4. -/
def splicedHeap : LIRHeap :=
  heapOfList
    [{ zeroLIR with opCode := ARMV5TE_B_COND, next := some 1, target := some 2 },
     { zeroLIR with opCode := ARMV5TE_B_UNCOND, prev := some 0, next := some 2,
                    target := some 4 },
     { zeroLIR with opCode := ARMV5TE_PSEUDO_PC_RECONSTRUCTION_CELL, prev := some 1,
                    next := some 3 },
     { zeroLIR with opCode := ARMV5TE_B_UNCOND, prev := some 2, next := some 4,
                    target := some 4 },
     movLIR (some 3) none]

/-- Bytes at the addresses `l` of the memory an assembly leaves, each before
and after `dvmJitUnchain` is run on the code address `E`. -/
def unchainInstalledView (T : Target)
    (r : Except Fault (Mem × DvmJitGlobals × CompilationUnit)) (E : Int) (l : List Int) :
    Option (List (Nat × Nat)) :=
  match r with
  | .ok (mem, _, _) =>
    match dvmJitUnchain T mem E with
    | .ok (mem1, _) => some (l.map fun a => (mem a, mem1 a))
    | .error _ => none
  | .error _ => none

/-- State of pass 2 in front of a `BLX_1` record at offset 2 whose target
operand `0x2000` is word-aligned, followed by its `BLX_2` record. -/
def blxAlignedState : AsmState :=
  { lirs := heapOfList
      [{ zeroLIR with opCode := ARMV5TE_BLX_1, operands1 := 0x2000, offset := 2,
                      next := some 1 },
       { zeroLIR with opCode := ARMV5TE_BLX_2, offset := 4, prev := some 0 }],
    numLIR := 2, buffer := [], retry := false }

/-- Heap of a unit in which a conditional branch is followed by a long
reconstruction block and then by its own target block: record 0 is `mov`;
record 1 is a conditional branch to the marker 131; records 2..129 are `mov`;
record 130 is a conditional branch to the marker 261; record 131 is a marker,
records 132..259 are `mov` and record 260 is the unconditional branch that
ends this block; record 261 is a marker and record 262 the unconditional
branch that ends its block; record 263 is a final `mov`. -/
def adjacentBlockHeap : LIRHeap := fun i =>
  if i = 0 then movLIR none (some 1)
  else if i = 1 then
    { zeroLIR with opCode := ARMV5TE_B_COND, prev := some 0, next := some 2,
                   target := some 131 }
  else if i < 130 then movLIR (some (i - 1)) (some (i + 1))
  else if i = 130 then
    { zeroLIR with opCode := ARMV5TE_B_COND, prev := some 129, next := some 131,
                   target := some 261 }
  else if i = 131 then
    { zeroLIR with opCode := ARMV5TE_PSEUDO_PC_RECONSTRUCTION_CELL, prev := some 130,
                   next := some 132 }
  else if i < 260 then movLIR (some (i - 1)) (some (i + 1))
  else if i = 260 then
    { zeroLIR with opCode := ARMV5TE_B_UNCOND, prev := some 259, next := some 261,
                   target := some 263 }
  else if i = 261 then
    { zeroLIR with opCode := ARMV5TE_PSEUDO_PC_RECONSTRUCTION_CELL, prev := some 260,
                   next := some 262 }
  else if i = 262 then
    { zeroLIR with opCode := ARMV5TE_B_UNCOND, prev := some 261, next := some 263,
                   target := some 263 }
  else if i = 263 then movLIR (some 262) none
  else zeroLIR

/-- Unit over `adjacentBlockHeap`. -/
def adjacentBlockUnit : CompilationUnit := unitOf adjacentBlockHeap 264 (some 0) none

/-- The first `n` iterations of the loop of `assembleInstructions`: the record
the walk has reached, and the state. -/
def assembleSteps (startAddr : Int) (walk : Nat) :
    Nat → Option Nat → AsmState → Except Fault (Option Nat × AsmState)
  | 0, p, st => .ok (p, st)
  | _ + 1, none, st => .ok (none, st)
  | n + 1, some p, st =>
    match assembleStep startAddr walk p st with
    | .error e => .error e
    | .ok st1 => assembleSteps startAddr walk n (st1.lirs p).next st1

/-- Pass 1 on a unit, followed by the first `n` iterations of pass 2: the
layout, the record the walk has reached, and the state. -/
def layoutThenSteps (fuel descSize n : Nat) (sa : Int) (cUnit : CompilationUnit) :
    Except Fault (Layout × Option Nat × AsmState) :=
  match layoutPass fuel descSize cUnit with
  | .error e => .error e
  | .ok L =>
    match assembleSteps sa fuel n L.cUnit.firstLIRInsn
        { lirs := L.cUnit.lirs, numLIR := L.cUnit.numLIR, buffer := [], retry := false } with
    | .error e => .error e
    | .ok r => .ok (L, r)

/-- Observation of a point of the walk of pass 2: the chain cell offset and the
total size of the layout, the record reached, the retry flag, and for each of
the records asked for its opcode, `next` link, target and offset. -/
structure WalkPoint where
  chainCellOffset : Nat
  totalSize : Int
  pos : Option Nat
  retry : Bool
  records : List (Int × Option Nat × Option Nat × Int)
deriving DecidableEq

/-- The point a computation of `layoutThenSteps` has reached, observed at the
records of `l`. -/
def walkView (r : Except Fault (Layout × Option Nat × AsmState)) (l : List Nat) :
    Option WalkPoint :=
  match r with
  | .ok (L, p, st) =>
    some { chainCellOffset := L.chainCellOffset, totalSize := L.cUnit.totalSize,
           pos := p, retry := st.retry,
           records := l.map fun i =>
            ((st.lirs i).opCode, (st.lirs i).next, (st.lirs i).target, (st.lirs i).offset) }
  | .error _ => none

/-! # Part II: theorems -/

/-! ## Arithmetic of the encoder -/

theorem toU32_mod_two_pow (x : Int) (w : Nat) (hw : w ≤ 32) :
    toU32 x % 2 ^ w = (x % 2 ^ w).toNat := by
  unfold toU32
  have h32 : (0 : Int) ≤ x % 2 ^ 32 := Int.emod_nonneg _ (by positivity)
  have hw0 : (0 : Int) ≤ x % 2 ^ w := Int.emod_nonneg _ (by positivity)
  have hdvd : ((2 : Int) ^ w) ∣ 2 ^ 32 := pow_dvd_pow 2 hw
  have h1 : (x % 2 ^ 32) % 2 ^ w = x % 2 ^ w := Int.emod_emod_of_dvd x hdvd
  have h2 : (((x % 2 ^ 32).toNat % 2 ^ w : Nat) : Int) = ((x % 2 ^ w).toNat : Int) := by
    rw [Int.toNat_of_nonneg hw0, Int.natCast_mod, Int.toNat_of_nonneg h32]
    exact_mod_cast h1
  exact_mod_cast h2

/-- Shift-then-mask agrees with mask-then-shift on natural numbers. -/
theorem shift_mask_nat (u s e : Nat) (hse : s ≤ e) (he : e ≤ 15) :
    (((u <<< s) % 2 ^ 32) &&& (((1 <<< (e + 1)) - 1) % 2 ^ 32)) % 2 ^ 16
      = (u % 2 ^ (e - s + 1)) <<< s := by
  have hmask : ((1 <<< (e + 1)) - 1) % 2 ^ 32 = 2 ^ (e + 1) - 1 := by
    rw [Nat.one_shiftLeft]
    apply Nat.mod_eq_of_lt
    have : 2 ^ (e + 1) ≤ 2 ^ 32 := Nat.pow_le_pow_right (by norm_num) (by omega)
    have : 0 < 2 ^ (e + 1) := by positivity
    omega
  rw [hmask, Nat.and_pow_two_sub_one_eq_mod, Nat.shiftLeft_eq, Nat.shiftLeft_eq]
  have hd1 : 2 ^ (e + 1) ∣ 2 ^ 32 := pow_dvd_pow 2 (by omega)
  have hd2 : 2 ^ (e + 1) ∣ 2 ^ 16 := pow_dvd_pow 2 (by omega)
  rw [Nat.mod_mod_of_dvd _ hd1]
  have hlt : u * 2 ^ s % 2 ^ (e + 1) < 2 ^ 16 :=
    lt_of_lt_of_le (Nat.mod_lt _ (by positivity)) (Nat.le_of_dvd (by positivity) hd2)
  rw [Nat.mod_eq_of_lt hlt]
  have hsplit : 2 ^ (e + 1) = 2 ^ (e - s + 1) * 2 ^ s := by
    rw [← pow_add]; congr 1; omega
  rw [hsplit, Nat.mul_mod_mul_right]

/-- The value of one slot as the code computes it is the reference value. -/
theorem fieldValue_eq_spec (operand : Int) (loc : FieldLoc) (h : loc.inWord) :
    fieldValue operand loc = specFieldValue operand loc := by
  obtain ⟨h0, h1, h2⟩ := h
  unfold fieldValue specFieldValue
  obtain ⟨s, hs⟩ := Int.eq_ofNat_of_zero_le h0
  obtain ⟨e, he⟩ := Int.eq_ofNat_of_zero_le (le_trans h0 h1)
  rw [hs, he] at h1
  rw [he] at h2
  rw [hs, he]
  have hse : s ≤ e := by exact_mod_cast h1
  have he15 : e ≤ 15 := by exact_mod_cast h2
  have e1 : ((e : Int) + 1).toNat = e + 1 := by omega
  have e2 : ((e : Int) - (s : Int) + 1).toNat = e - s + 1 := by omega
  rw [e1, e2, Int.toNat_ofNat, shift_mask_nat _ _ _ hse he15,
    toU32_mod_two_pow _ _ (by omega)]

theorem EncodingMap_fields_ok : ∀ d ∈ EncodingMap, rowFieldsOk d := by
  decide

theorem encodeBits_unfold (d : Armv5teEncodingMap) (ops : Nat → Int) :
    encodeBits d ops =
      (let b0 := if d.fieldLoc0.end_ ≠ -1 then d.skeleton ||| fieldValue (ops 0) d.fieldLoc0
                 else d.skeleton
       let b1 := if d.fieldLoc1.end_ ≠ -1 then b0 ||| fieldValue (ops 1) d.fieldLoc1 else b0
       if d.fieldLoc2.end_ ≠ -1 then b1 ||| fieldValue (ops 2) d.fieldLoc2 else b1) := by
  simp [encodeBits, List.range_succ, Armv5teEncodingMap.fieldLoc]

/-- The encoder loop computes the reference encoding on every row whose
defined fields lie inside the word. -/
theorem encodeBits_eq_spec_of_ok (d : Armv5teEncodingMap) (h : rowFieldsOk d)
    (o0 o1 o2 : Int) :
    encodeBits d (operandArray o0 o1 o2) = specEncode d o0 o1 o2 := by
  obtain ⟨h0, h1, h2⟩ := h
  rw [encodeBits_unfold]
  unfold specEncode
  simp only [operandArray]
  have k0 : d.fieldLoc0.end_ ≠ -1 →
      fieldValue o0 d.fieldLoc0 = specFieldValue o0 d.fieldLoc0 := fun hne =>
    fieldValue_eq_spec _ _ (h0.resolve_left hne)
  have k1 : d.fieldLoc1.end_ ≠ -1 →
      fieldValue o1 d.fieldLoc1 = specFieldValue o1 d.fieldLoc1 := fun hne =>
    fieldValue_eq_spec _ _ (h1.resolve_left hne)
  have k2 : d.fieldLoc2.end_ ≠ -1 →
      fieldValue o2 d.fieldLoc2 = specFieldValue o2 d.fieldLoc2 := fun hne =>
    fieldValue_eq_spec _ _ (h2.resolve_left hne)
  by_cases c0 : d.fieldLoc0.end_ = -1 <;> by_cases c1 : d.fieldLoc1.end_ = -1 <;>
    by_cases c2 : d.fieldLoc2.end_ = -1 <;> simp [c0, c1, c2, k0, k1, k2]

/-! ## Bit-level view of the encoded word -/

theorem testBit_fieldValue (operand : Int) (loc : FieldLoc) (h : loc.inWord)
    (hdef : loc.end_ ≠ -1) (j : Nat) :
    (fieldValue operand loc).testBit j = slotBit loc operand j := by
  rw [fieldValue_eq_spec _ _ h]
  obtain ⟨h0, h1, h2⟩ := h
  unfold specFieldValue slotBit FieldLoc.covers
  obtain ⟨le, ls⟩ := loc
  simp only at h0 h1 h2 hdef ⊢
  obtain ⟨s, rfl⟩ := Int.eq_ofNat_of_zero_le h0
  obtain ⟨e, rfl⟩ := Int.eq_ofNat_of_zero_le (le_trans h0 h1)
  have hse : s ≤ e := by exact_mod_cast h1
  have e2 : ((e : Int) - (s : Int) + 1).toNat = e - s + 1 := by omega
  rw [e2, Int.toNat_ofNat, ← toU32_mod_two_pow _ _ (by omega : e - s + 1 ≤ 32) ]
  rw [Nat.testBit_shiftLeft, Nat.testBit_mod_two_pow]
  have hne : ((e : Int)) ≠ -1 := by omega
  by_cases c1 : s ≤ j <;> by_cases c2 : j ≤ e
  · have : j - s < e - s + 1 := by omega
    simp [c1, c2, this, hne]
  · have : ¬ (j - s < e - s + 1) := by omega
    simp [c1, c2, this, hne]
  · simp [c1, c2, hne]
  · simp [c1, c2, hne]

theorem slotBit_undefined (loc : FieldLoc) (operand : Int) (j : Nat) (h : loc.end_ = -1) :
    slotBit loc operand j = false := by
  simp [slotBit, FieldLoc.covers, h]

/-- Bit `j` of the encoded word: a skeleton bit or a bit of one of the slots. -/
theorem testBit_encodeBits (d : Armv5teEncodingMap) (h : rowFieldsOk d)
    (ops : Nat → Int) (j : Nat) :
    (encodeBits d ops).testBit j =
      (d.skeleton.testBit j || slotBit d.fieldLoc0 (ops 0) j ||
        slotBit d.fieldLoc1 (ops 1) j || slotBit d.fieldLoc2 (ops 2) j) := by
  obtain ⟨h0, h1, h2⟩ := h
  rw [encodeBits_unfold]
  by_cases c0 : d.fieldLoc0.end_ = -1 <;> by_cases c1 : d.fieldLoc1.end_ = -1 <;>
    by_cases c2 : d.fieldLoc2.end_ = -1 <;>
    simp [c0, c1, c2, Nat.testBit_or, slotBit_undefined, testBit_fieldValue,
      h0.resolve_left, h1.resolve_left, h2.resolve_left]

theorem testBit_extractBits (w : Nat) (loc : FieldLoc) (h : loc.inWord) (j : Nat) :
    (extractBits w loc).testBit j =
      (decide ((j : Int) ≤ loc.end_ - loc.start) && w.testBit (loc.start.toNat + j)) := by
  obtain ⟨h0, h1, h2⟩ := h
  unfold extractBits
  obtain ⟨le, ls⟩ := loc
  simp only at h0 h1 h2 ⊢
  obtain ⟨s, rfl⟩ := Int.eq_ofNat_of_zero_le h0
  obtain ⟨e, rfl⟩ := Int.eq_ofNat_of_zero_le (le_trans h0 h1)
  have hse : s ≤ e := by exact_mod_cast h1
  have e2 : ((e : Int) - (s : Int) + 1).toNat = e - s + 1 := by omega
  rw [e2, Int.toNat_ofNat, Nat.testBit_mod_two_pow, Nat.testBit_shiftRight]
  by_cases c : j < e - s + 1
  · have : (j : Int) ≤ (e : Int) - (s : Int) := by omega
    simp [c, this]
  · have : ¬ ((j : Int) ≤ (e : Int) - (s : Int)) := by omega
    simp [c, this]

theorem testBit_clearField (w : Nat) (loc : FieldLoc)
    (h : loc.end_ = -1 ∨ loc.inWord) (j : Nat) :
    (clearField w loc).testBit j = (!decide (loc.covers j) && w.testBit j) := by
  unfold clearField FieldLoc.covers
  by_cases c : loc.end_ = -1
  · simp [c]
  · obtain ⟨h0, h1, h2⟩ := h.resolve_left c
    obtain ⟨le, ls⟩ := loc
    simp only at h0 h1 h2 c ⊢
    obtain ⟨s, rfl⟩ := Int.eq_ofNat_of_zero_le h0
    obtain ⟨e, rfl⟩ := Int.eq_ofNat_of_zero_le (le_trans h0 h1)
    have hne : ((e : Int)) ≠ -1 := by omega
    have hse : s ≤ e := by exact_mod_cast h1
    have e1 : ((e : Int) + 1).toNat = e + 1 := by omega
    rw [if_pos hne, e1, Int.toNat_ofNat, Nat.testBit_or, Nat.testBit_shiftLeft,
      Nat.testBit_shiftRight, Nat.testBit_mod_two_pow]
    by_cases c1 : j < s
    · have n1 : ¬ (j ≥ e + 1) := by omega
      have n2 : ¬ ((s : Int) ≤ (j : Int)) := by omega
      simp [c1, n1, n2]
    · by_cases c2 : j ≤ e
      · have n1 : ¬ (j ≥ e + 1) := by omega
        have n2 : ((s : Int) ≤ (j : Int)) := by omega
        have n3 : ((j : Int) ≤ (e : Int)) := by omega
        simp [c1, n1, n2, n3, hne]
      · have n1 : (j ≥ e + 1) := by omega
        have n3 : ¬ ((j : Int) ≤ (e : Int)) := by omega
        have n4 : e + 1 + (j - (e + 1)) = j := by omega
        simp [c1, n1, n3, n4]

theorem EncodingMap_layout_ok : ∀ d ∈ EncodingMap, rowLayoutOk d := by
  decide

theorem covers_of_disjoint {a b : FieldLoc} (h : a.disjoint b) (j : Nat) :
    ¬ (a.covers j ∧ b.covers j) := by
  unfold FieldLoc.disjoint at h
  unfold FieldLoc.covers
  omega

theorem slotBit_of_not_covers (loc : FieldLoc) (operand : Int) (j : Nat)
    (h : ¬ loc.covers j) : slotBit loc operand j = false := by
  simp [slotBit, h]

theorem slotBit_of_covers (loc : FieldLoc) (operand : Int) (j : Nat)
    (h : loc.covers j) :
    slotBit loc operand j = (toU32 operand).testBit (j - loc.start.toNat) := by
  simp [slotBit, h]

/-- A word that carries the operand bits on the range of a slot decodes to the
operand masked to the field width. -/
theorem extractBits_of_bits (w : Nat) (loc : FieldLoc) (operand : Int)
    (h : loc.inWord) (hdef : loc.end_ ≠ -1)
    (hw : ∀ j, loc.covers j → w.testBit j = (toU32 operand).testBit (j - loc.start.toNat)) :
    extractBits w loc = (operand % 2 ^ (loc.end_ - loc.start + 1).toNat).toNat := by
  have hin := h
  obtain ⟨h0, h1, h2⟩ := h
  have hwd : (loc.end_ - loc.start + 1).toNat ≤ 32 := by omega
  rw [← toU32_mod_two_pow _ _ hwd]
  apply Nat.eq_of_testBit_eq
  intro j
  rw [testBit_extractBits _ _ hin, Nat.testBit_mod_two_pow]
  by_cases c : (j : Int) ≤ loc.end_ - loc.start
  · have hc : loc.covers (loc.start.toNat + j) := by
      unfold FieldLoc.covers
      refine ⟨hdef, ?_, ?_⟩ <;> omega
    have hj : j < (loc.end_ - loc.start + 1).toNat := by omega
    have hsub : loc.start.toNat + j - loc.start.toNat = j := by omega
    rw [hw _ hc, hsub]
    simp [c, hj]
  · have hj : ¬ j < (loc.end_ - loc.start + 1).toNat := by omega
    simp [c, hj]

theorem skeleton_bit_outside (d : Armv5teEncodingMap) (h : rowLayoutOk d) (j : Nat)
    (hj : d.skeleton.testBit j = true) :
    ¬ d.fieldLoc0.covers j ∧ ¬ d.fieldLoc1.covers j ∧ ¬ d.fieldLoc2.covers j := by
  obtain ⟨_, _, _, _, hsk, hout⟩ := h
  by_cases c : j < 16
  · exact hout j c hj
  · have hlt : d.skeleton < 2 ^ j :=
      lt_of_lt_of_le hsk (Nat.pow_le_pow_right (by norm_num) (by omega))
    rw [Nat.testBit_lt_two_pow hlt] at hj
    exact absurd hj (by simp)

theorem skeleton_bit_false_of_covers (d : Armv5teEncodingMap) (h : rowLayoutOk d) (j : Nat)
    (hc : d.fieldLoc0.covers j ∨ d.fieldLoc1.covers j ∨ d.fieldLoc2.covers j) :
    d.skeleton.testBit j = false := by
  by_contra hne
  have ht : d.skeleton.testBit j = true := by simpa using hne
  obtain ⟨n0, n1, n2⟩ := skeleton_bit_outside d h j ht
  rcases hc with c | c | c
  · exact n0 c
  · exact n1 c
  · exact n2 c

/-- Clearing every declared field of an encoded word leaves the skeleton. -/
theorem clearFields_encodeBits (d : Armv5teEncodingMap) (h : rowLayoutOk d)
    (ops : Nat → Int) : clearFields (encodeBits d ops) d = d.skeleton := by
  have hf := h.1
  apply Nat.eq_of_testBit_eq
  intro j
  unfold clearFields
  rw [testBit_clearField _ _ hf.2.2, testBit_clearField _ _ hf.2.1,
    testBit_clearField _ _ hf.1, testBit_encodeBits d hf]
  by_cases c0 : d.fieldLoc0.covers j
  · simp [c0, skeleton_bit_false_of_covers d h j (Or.inl c0)]
  · by_cases c1 : d.fieldLoc1.covers j
    · simp [c1, skeleton_bit_false_of_covers d h j (Or.inr (Or.inl c1))]
    · by_cases c2 : d.fieldLoc2.covers j
      · simp [c2, skeleton_bit_false_of_covers d h j (Or.inr (Or.inr c2))]
      · simp [c0, c1, c2, slotBit_of_not_covers]

/-- Every set bit of an encoded word is a skeleton bit or lies in a declared
field range. -/
theorem encodeBits_bits_inside (d : Armv5teEncodingMap) (h : rowFieldsOk d)
    (ops : Nat → Int) (j : Nat) (hj : (encodeBits d ops).testBit j = true) :
    d.skeleton.testBit j = true ∨ d.fieldLoc0.covers j ∨ d.fieldLoc1.covers j ∨
      d.fieldLoc2.covers j := by
  rw [testBit_encodeBits d h] at hj
  simp only [Bool.or_eq_true] at hj
  rcases hj with ((hs | h0) | h1) | h2
  · exact Or.inl hs
  · right; left
    by_contra c; rw [slotBit_of_not_covers _ _ _ c] at h0; exact absurd h0 (by simp)
  · right; right; left
    by_contra c; rw [slotBit_of_not_covers _ _ _ c] at h1; exact absurd h1 (by simp)
  · right; right; right
    by_contra c; rw [slotBit_of_not_covers _ _ _ c] at h2; exact absurd h2 (by simp)

/-- Each defined slot of an encoded word decodes to its operand masked to the
field width. -/
theorem extractBits_encodeBits (d : Armv5teEncodingMap) (h : rowLayoutOk d)
    (ops : Nat → Int) (i : Nat) (hi : i < 3) (hdef : (d.fieldLoc i).end_ ≠ -1) :
    extractBits (encodeBits d ops) (d.fieldLoc i) =
      (ops i % 2 ^ ((d.fieldLoc i).end_ - (d.fieldLoc i).start + 1).toNat).toNat := by
  have hf := h.1
  have hall := h
  obtain ⟨_, d01, d02, d12, _, _⟩ := h
  have hcases : i = 0 ∨ i = 1 ∨ i = 2 := by omega
  rcases hcases with rfl | rfl | rfl
  · simp only [Armv5teEncodingMap.fieldLoc] at hdef ⊢
    apply extractBits_of_bits _ _ _ (hf.1.resolve_left hdef) hdef
    intro j hc
    have n1 : ¬ d.fieldLoc1.covers j := fun c => covers_of_disjoint d01 j ⟨hc, c⟩
    have n2 : ¬ d.fieldLoc2.covers j := fun c => covers_of_disjoint d02 j ⟨hc, c⟩
    rw [testBit_encodeBits d hf, skeleton_bit_false_of_covers d hall j (Or.inl hc),
      slotBit_of_not_covers _ _ _ n1, slotBit_of_not_covers _ _ _ n2,
      slotBit_of_covers _ _ _ hc]
    simp
  · simp only [Armv5teEncodingMap.fieldLoc] at hdef ⊢
    apply extractBits_of_bits _ _ _ (hf.2.1.resolve_left hdef) hdef
    intro j hc
    have n0 : ¬ d.fieldLoc0.covers j := fun c => covers_of_disjoint d01 j ⟨c, hc⟩
    have n2 : ¬ d.fieldLoc2.covers j := fun c => covers_of_disjoint d12 j ⟨hc, c⟩
    rw [testBit_encodeBits d hf,
      skeleton_bit_false_of_covers d hall j (Or.inr (Or.inl hc)),
      slotBit_of_not_covers _ _ _ n0, slotBit_of_not_covers _ _ _ n2,
      slotBit_of_covers _ _ _ hc]
    simp
  · simp only [Armv5teEncodingMap.fieldLoc] at hdef ⊢
    apply extractBits_of_bits _ _ _ (hf.2.2.resolve_left hdef) hdef
    intro j hc
    have n0 : ¬ d.fieldLoc0.covers j := fun c => covers_of_disjoint d02 j ⟨c, hc⟩
    have n1 : ¬ d.fieldLoc1.covers j := fun c => covers_of_disjoint d12 j ⟨c, hc⟩
    rw [testBit_encodeBits d hf,
      skeleton_bit_false_of_covers d hall j (Or.inr (Or.inr hc)),
      slotBit_of_not_covers _ _ _ n0, slotBit_of_not_covers _ _ _ n1,
      slotBit_of_covers _ _ _ hc]
    simp

/-- The encoded word is a 16-bit pattern. -/
theorem encodeBits_lt (d : Armv5teEncodingMap) (h : rowLayoutOk d) (ops : Nat → Int) :
    encodeBits d ops < 2 ^ 16 := by
  apply Nat.lt_pow_two_of_testBit
  intro j hj
  by_contra hne
  have ht : (encodeBits d ops).testBit j = true := by simpa using hne
  have hsk : d.skeleton.testBit j = false :=
    Nat.testBit_lt_two_pow (lt_of_lt_of_le h.2.2.2.2.1 (Nat.pow_le_pow_right (by norm_num) hj))
  have hc : ∀ loc : FieldLoc, loc.end_ = -1 ∨ loc.inWord → ¬ loc.covers j := by
    intro loc hl hcov
    unfold FieldLoc.covers at hcov
    rcases hl with hl | ⟨_, _, h15⟩
    · exact hcov.1 hl
    · omega
  rcases encodeBits_bits_inside d h.1 ops j ht with c | c | c | c
  · rw [hsk] at c; exact absurd c (by simp)
  · exact hc _ h.1.1 c
  · exact hc _ h.1.2.1 c
  · exact hc _ h.1.2.2 c

/-- C1: for every opcode id of the encoding table and every operand triple, the
word produced by the encoder loop of `assembleInstructions` is a 16-bit word and equals the
reference definition (skeleton OR-ed with each defined operand masked to
`end - start + 1` bits and shifted left by `start`); the shift-then-mask form
of the code agrees with the mask-then-shift form of the specification. -/
theorem C1_encoder_matches_reference (op : Nat) (d : Armv5teEncodingMap)
    (hd : EncodingMap[op]? = some d) (o0 o1 o2 : Int) :
    encodeBits d (operandArray o0 o1 o2) < 2 ^ 16 ∧
    encodeBits d (operandArray o0 o1 o2) = specEncode d o0 o1 o2 ∧
    (∀ i, i < 3 → (d.fieldLoc i).end_ ≠ -1 →
      fieldValue (operandArray o0 o1 o2 i) (d.fieldLoc i)
        = specFieldValue (operandArray o0 o1 o2 i) (d.fieldLoc i)) := by
  have hmem : d ∈ EncodingMap := List.getElem?_mem hd
  have hok := EncodingMap_fields_ok d hmem
  refine ⟨encodeBits_lt d (EncodingMap_layout_ok d hmem) _,
    encodeBits_eq_spec_of_ok d hok o0 o1 o2, ?_⟩
  intro i hi hne
  obtain ⟨h0, h1, h2⟩ := hok
  have hcases : i = 0 ∨ i = 1 ∨ i = 2 := by omega
  rcases hcases with rfl | rfl | rfl
  · exact fieldValue_eq_spec _ _ (h0.resolve_left hne)
  · exact fieldValue_eq_spec _ _ (h1.resolve_left hne)
  · exact fieldValue_eq_spec _ _ (h2.resolve_left hne)

/-- Witness of C1 at `add r1, r2, #3` (row 2) with a negative third operand. -/
theorem C1_encoder_matches_reference_witness :
    EncodingMap[2]? = some (ENCODING_MAP 0x1c00 2 0 5 3 8 6 3 "add") ∧
    encodeBits (ENCODING_MAP 0x1c00 2 0 5 3 8 6 3 "add") (operandArray 1 2 (-5)) =
      specEncode (ENCODING_MAP 0x1c00 2 0 5 3 8 6 3 "add") 1 2 (-5) :=
  ⟨by decide, (C1_encoder_matches_reference 2 _ (by decide) 1 2 (-5)).2.1⟩

/-- C2: for every descriptor of `EncodingMap` and every choice of operands the
encoded word decodes field by field: bits `[end..start]` of the word give the
operand modulo `2^(end-start+1)` for each defined field, and clearing all
declared field ranges gives exactly the skeleton.  Equivalently the declared
ranges of one descriptor are pairwise disjoint, no skeleton bit lies inside a
declared range, and no bit is set outside the skeleton bits and the declared
ranges. -/
theorem C2_fieldwise_decoding (op : Nat) (d : Armv5teEncodingMap)
    (hd : EncodingMap[op]? = some d) (o0 o1 o2 : Int) :
    (∀ i, i < 3 → (d.fieldLoc i).end_ ≠ -1 →
      extractBits (encodeBits d (operandArray o0 o1 o2)) (d.fieldLoc i) =
        (operandArray o0 o1 o2 i %
          2 ^ ((d.fieldLoc i).end_ - (d.fieldLoc i).start + 1).toNat).toNat) ∧
    clearFields (encodeBits d (operandArray o0 o1 o2)) d = d.skeleton ∧
    (d.fieldLoc0.disjoint d.fieldLoc1 ∧ d.fieldLoc0.disjoint d.fieldLoc2 ∧
      d.fieldLoc1.disjoint d.fieldLoc2) ∧
    (∀ j, d.skeleton.testBit j = true →
      ¬ d.fieldLoc0.covers j ∧ ¬ d.fieldLoc1.covers j ∧ ¬ d.fieldLoc2.covers j) ∧
    (∀ j, (encodeBits d (operandArray o0 o1 o2)).testBit j = true →
      d.skeleton.testBit j = true ∨ d.fieldLoc0.covers j ∨ d.fieldLoc1.covers j ∨
        d.fieldLoc2.covers j) := by
  have hok := EncodingMap_layout_ok d (List.getElem?_mem hd)
  refine ⟨fun i hi hdef => extractBits_encodeBits d hok _ i hi hdef,
    clearFields_encodeBits d hok _, ⟨hok.2.1, hok.2.2.1, hok.2.2.2.1⟩,
    fun j hj => skeleton_bit_outside d hok j hj,
    fun j hj => encodeBits_bits_inside d hok.1 _ j hj⟩

/-- Witness of C2 at `ldr r1, [r2, #12]` (row 32, operands 1, 2, 3). -/
theorem C2_fieldwise_decoding_witness :
    EncodingMap[32]? = some (ENCODING_MAP 0x6800 2 0 5 3 10 6 3 "ldr") ∧
    clearFields (encodeBits (ENCODING_MAP 0x6800 2 0 5 3 10 6 3 "ldr")
      (operandArray 1 2 3)) (ENCODING_MAP 0x6800 2 0 5 3 10 6 3 "ldr") = 0x6800 :=
  ⟨by decide, (C2_fieldwise_decoding 32 _ (by decide) 1 2 3).2.1⟩

/-! ## Heap and list lemmas -/

@[simp] theorem LIRHeap.set_same (h : LIRHeap) (p : Nat) (r : Armv5teLIR) :
    (h.set p r) p = r := by
  simp [LIRHeap.set]

theorem LIRHeap.set_other (h : LIRHeap) (p q : Nat) (r : Armv5teLIR) (hq : q ≠ p) :
    (h.set p r) q = h q := by
  simp [LIRHeap.set, hq]

theorem Chain_congr {h h' : LIRHeap} (hn : ∀ q, (h' q).next = (h q).next) :
    ∀ (l : List Nat) (p : Option Nat), Chain h p l → Chain h' p l
  | [], _, hc => hc
  | i :: rest, _, hc => ⟨hc.1, by rw [hn i]; exact Chain_congr hn rest _ hc.2⟩

theorem SameProgram_refl (h : LIRHeap) : SameProgram h h := by
  intro q; simp

theorem SameProgram_trans {a b c : LIRHeap} (h1 : SameProgram a b) (h2 : SameProgram b c) :
    SameProgram a c := by
  intro q
  obtain ⟨a1, a2, a3, a4, a5, a6, a7⟩ := h1 q
  obtain ⟨b1, b2, b3, b4, b5, b6, b7⟩ := h2 q
  refine ⟨b1.trans a1, b2.trans a2, b3.trans a3, b4.trans a4, b5.trans a5, b6.trans a6, ?_⟩
  intro hne
  rw [b7 (by rw [a1]; exact hne), a7 hne]

theorem SameProgram_set_offset (h : LIRHeap) (p : Nat) (o : Int) :
    SameProgram h (h.set p { h p with offset := o }) := by
  intro q
  by_cases c : q = p
  · subst c; simp
  · simp [LIRHeap.set_other _ _ _ _ c]

theorem SameProgram_set_align (h : LIRHeap) (p : Nat) (o v : Int)
    (ha : (h p).opCode = ARMV5TE_PSEUDO_ALIGN4) :
    SameProgram h (h.set p { h p with offset := o, operands0 := v }) := by
  intro q
  by_cases c : q = p
  · subst c; simp [ha]
  · simp [LIRHeap.set_other _ _ _ _ c]

/-! ## Pass 1 -/

/-- Pass 1 on a well-formed list returns, assigns the offsets described by
`LaidOut`, and touches no record outside the list. -/
theorem assignOffsets_spec : ∀ (ixs : List Nat) (fuel : Nat) (lirs : LIRHeap)
    (p : Option Nat) (o : Int),
    Chain lirs p ixs → ixs.Nodup → ixs.length < fuel →
    ∃ lirs' E, assignOffsets fuel lirs p o = .ok (lirs', E) ∧ LaidOut lirs' ixs o E ∧
      SameProgram lirs lirs' ∧ (∀ q, q ∉ ixs → lirs' q = lirs q)
  | [], fuel, lirs, p, o, hc, _, hf => by
    cases fuel with
    | zero => simp at hf
    | succ f =>
      simp only [Chain] at hc
      subst hc
      exact ⟨lirs, o, by simp [assignOffsets], by simp [LaidOut], SameProgram_refl _,
        fun _ _ => rfl⟩
  | i :: rest, fuel, lirs, p, o, hc, hnd, hf => by
    cases fuel with
    | zero => simp at hf
    | succ f =>
      obtain ⟨hp, hrest⟩ := hc
      subst hp
      have hirest : i ∉ rest := (List.nodup_cons.mp hnd).1
      have hndr : rest.Nodup := (List.nodup_cons.mp hnd).2
      have hfr : rest.length < f := by simp at hf; omega
      -- the three shapes of the updated head record
      have key : ∀ (r1 : Armv5teLIR) (o1 : Int),
          SameProgram lirs (lirs.set i r1) → r1.next = (lirs i).next →
          (LaidOut (lirs.set i r1) [] o1 o1 → ∀ lirs' E, LaidOut lirs' rest o1 E →
            lirs' i = r1 → LaidOut lirs' (i :: rest) o E) →
          ∃ lirs' E, assignOffsets f (lirs.set i r1) (lirs i).next o1 = .ok (lirs', E) ∧
            LaidOut lirs' (i :: rest) o E ∧ SameProgram lirs lirs' ∧
            (∀ q, q ∉ i :: rest → lirs' q = lirs q) := by
        intro r1 o1 hsp hnext hlay
        have hch : Chain (lirs.set i r1) (lirs i).next rest :=
          Chain_congr (fun q => (hsp q).2.1) rest _ hrest
        obtain ⟨lirs', E, he, hl, hs, hfr'⟩ :=
          assignOffsets_spec rest f (lirs.set i r1) (lirs i).next o1 hch hndr hfr
        refine ⟨lirs', E, he, ?_, SameProgram_trans hsp hs, ?_⟩
        · apply hlay (by simp [LaidOut]) lirs' E hl
          rw [hfr' i hirest]; simp
        · intro q hq
          have hqi : q ≠ i := fun c => hq (by simp [c])
          have hqr : q ∉ rest := fun c => hq (by simp [c])
          rw [hfr' q hqr, LIRHeap.set_other _ _ _ _ hqi]
      unfold assignOffsets
      simp only []
      by_cases c1 : (lirs i).opCode ≥ 0
      · rw [if_pos c1]
        refine key { lirs i with offset := o } (o + 2) (SameProgram_set_offset _ _ _) rfl ?_
        intro _ lirs' E hl hi
        simp only [LaidOut, hi]
        exact ⟨trivial, by rw [if_pos c1]; exact hl⟩
      · rw [if_neg c1]
        by_cases c2 : (lirs i).opCode = ARMV5TE_PSEUDO_ALIGN4
        · rw [if_pos c2]
          by_cases c3 : bit1 o = true
          · rw [if_pos c3]
            refine key { lirs i with offset := o, operands0 := 1 } (o + 2)
              (SameProgram_set_align _ _ _ _ c2) rfl ?_
            intro _ lirs' E hl hi
            simp only [LaidOut, hi]
            refine ⟨trivial, ?_⟩
            rw [if_neg c1, if_pos c2, if_pos c3]
            exact ⟨trivial, hl⟩
          · rw [if_neg c3]
            refine key { lirs i with offset := o, operands0 := 0 } o
              (SameProgram_set_align _ _ _ _ c2) rfl ?_
            intro _ lirs' E hl hi
            simp only [LaidOut, hi]
            refine ⟨trivial, ?_⟩
            rw [if_neg c1, if_pos c2, if_neg c3]
            exact ⟨trivial, hl⟩
        · rw [if_neg c2]
          refine key { lirs i with offset := o } o (SameProgram_set_offset _ _ _) rfl ?_
          intro _ lirs' E hl hi
          simp only [LaidOut, hi]
          refine ⟨trivial, ?_⟩
          rw [if_neg c1, if_neg c2]
          exact hl

/-! ## Pass 2, one record -/

theorem SameLayout_refl (h : LIRHeap) : SameLayout h h := by
  intro q; simp

theorem SameLayout_trans {a b c : LIRHeap} (h1 : SameLayout a b) (h2 : SameLayout b c) :
    SameLayout a c := by
  intro q
  obtain ⟨a1, a2, a3, a4, a5, a6⟩ := h1 q
  obtain ⟨b1, b2, b3, b4, b5, b6⟩ := h2 q
  refine ⟨b1.trans a1, b2.trans a2, b3.trans a3, b4.trans a4, b5.trans a5, ?_⟩
  intro hneg
  rw [b6 (by rw [a1]; exact hneg), a6 hneg]

theorem SameLayout_set (h : LIRHeap) (p : Nat) (r : Armv5teLIR) (hop : 0 ≤ (h p).opCode)
    (h1 : r.opCode = (h p).opCode) (h2 : r.offset = (h p).offset) (h3 : r.next = (h p).next)
    (h4 : r.prev = (h p).prev) (h5 : r.target = (h p).target) :
    SameLayout h (h.set p r) := by
  intro q
  by_cases c : q = p
  · subst c
    simp only [LIRHeap.set_same]
    exact ⟨h1, h2, h3, h4, h5, fun hneg => absurd hneg (by omega)⟩
  · simp [LIRHeap.set_other _ _ _ _ c]

theorem pullInPCReconstruction_retry (fuel : Nat) (st st1 : AsmState) (lir targetLIR : Nat)
    (h : pullInPCReconstruction fuel st lir targetLIR = .ok st1) : st1.retry = true := by
  unfold pullInPCReconstruction at h
  simp only [] at h
  split at h
  · exact absurd h (by simp)
  · split at h
    · exact absurd h (by simp)
    · split at h
      · exact absurd h (by simp)
      · split at h
        · exact absurd h (by simp)
        · simp only [Except.ok.injEq] at h
          rw [← h]

/-- What the resolver does to the state when it leaves `retry` unset: only
operands of the record itself, and `operands[0]` of its successor, change. -/
theorem resolveDisplacement_noRetry (sa : Int) (walk p : Nat) (st st1 : AsmState)
    (h : resolveDisplacement sa walk p st = .ok st1) (hr : st1.retry = false) :
    st.retry = false ∧ st1.buffer = st.buffer ∧ st1.numLIR = st.numLIR ∧
    SameLayout st.lirs st1.lirs ∧
    (∀ q, q ≠ p → (st.lirs p).next ≠ some q → st1.lirs q = st.lirs q) := by
  unfold resolveDisplacement at h
  simp only [] at h
  split at h
  · -- PC-relative load or add
    rename_i hop
    have hop0 : 0 ≤ (st.lirs p).opCode := by
      rcases hop with c | c <;> rw [c] <;> decide
    split at h
    · exact absurd h (by simp)
    · split at h
      · exact absurd h (by simp)
      · simp only [Except.ok.injEq] at h
        subst h
        refine ⟨hr, rfl, rfl, SameLayout_set _ _ _ hop0 rfl rfl rfl rfl rfl, ?_⟩
        intro q hq _
        exact LIRHeap.set_other _ _ _ _ hq
  · split at h
    · -- conditional branch
      rename_i hop
      have hop0 : 0 ≤ (st.lirs p).opCode := by rw [hop]; decide
      split at h
      · exact absurd h (by simp)
      · split at h
        · split at h
          · have := pullInPCReconstruction_retry _ _ _ _ _ h
            rw [hr] at this
            exact absurd this (by simp)
          · exact absurd h (by simp)
        · simp only [Except.ok.injEq] at h
          subst h
          refine ⟨hr, rfl, rfl, SameLayout_set _ _ _ hop0 rfl rfl rfl rfl rfl, ?_⟩
          intro q hq _
          exact LIRHeap.set_other _ _ _ _ hq
    · split at h
      · -- unconditional branch
        rename_i hop
        have hop0 : 0 ≤ (st.lirs p).opCode := by rw [hop]; decide
        split at h
        · exact absurd h (by simp)
        · split at h
          · exact absurd h (by simp)
          · simp only [Except.ok.injEq] at h
            subst h
            refine ⟨hr, rfl, rfl, SameLayout_set _ _ _ hop0 rfl rfl rfl rfl rfl, ?_⟩
            intro q hq _
            exact LIRHeap.set_other _ _ _ _ hq
      · split at h
        · -- first half of a long branch
          rename_i hop
          have hop0 : 0 ≤ (st.lirs p).opCode := by rw [hop]; decide
          split at h
          · exact absurd h (by simp)
          · rename_i nextLIR hnext
            split at h
            · exact absurd h (by simp)
            · rename_i hop2
              split at h
              · exact absurd h (by simp)
              · simp only [Except.ok.injEq] at h
                subst h
                have hop2' : (st.lirs nextLIR).opCode = ARMV5TE_BLX_2 := by
                  simpa using hop2
                have hl1 : ∀ v : Int, SameLayout st.lirs
                    (st.lirs.set p { st.lirs p with operands0 := v }) := fun v =>
                  SameLayout_set _ _ _ hop0 rfl rfl rfl rfl rfl
                refine ⟨hr, rfl, rfl, ?_, ?_⟩
                · refine SameLayout_trans (hl1 _) (SameLayout_set _ _ _ ?_ rfl rfl rfl rfl rfl)
                  rw [((hl1 _) nextLIR).1, hop2']; decide
                · intro q hq hqn
                  have hqn' : q ≠ nextLIR := fun c => hqn (by rw [hnext, c])
                  simp only []
                  rw [LIRHeap.set_other _ _ _ _ hqn', LIRHeap.set_other _ _ _ _ hq]
        · simp only [Except.ok.injEq] at h
          subst h
          exact ⟨hr, rfl, rfl, SameLayout_refl _, fun _ _ _ => rfl⟩

theorem resolveDisplacement_retry_mono (sa : Int) (walk p : Nat) (st st1 : AsmState)
    (h : resolveDisplacement sa walk p st = .ok st1) (hr : st.retry = true) :
    st1.retry = true := by
  by_contra c
  have hc : st1.retry = false := by simpa using c
  have := (resolveDisplacement_noRetry sa walk p st st1 h hc).1
  rw [hr] at this
  exact absurd this (by simp)

theorem emitInstruction_spec (p : Nat) (st st1 : AsmState)
    (h : emitInstruction p st = .ok st1) :
    st1.lirs = st.lirs ∧ st1.numLIR = st.numLIR ∧ st1.retry = st.retry ∧
    ∃ enc, EncodingMap[(st.lirs p).opCode.toNat]? = some enc ∧
      st1.buffer = st.buffer ++ [encodeBits enc (st.lirs p).operands] := by
  unfold emitInstruction at h
  simp only [] at h
  split at h
  · exact absurd h (by simp)
  · rename_i enc henc
    simp only [Except.ok.injEq] at h
    subst h
    exact ⟨rfl, rfl, rfl, enc, henc, rfl⟩

/-- Pass 2 on a pseudo-op: the padding word is stored exactly when the record
is an alignment pseudo-op marked by pass 1 and no retry is pending. -/
theorem assembleStep_pseudo (sa : Int) (walk p : Nat) (st : AsmState)
    (hop : (st.lirs p).opCode < 0) :
    assembleStep sa walk p st =
      .ok (if (st.lirs p).opCode = ARMV5TE_PSEUDO_ALIGN4 ∧ (st.lirs p).operands0 = 1 ∧
              st.retry = false
           then { st with buffer := st.buffer ++ [PADDING_MOV_R0_R0] } else st) := by
  unfold assembleStep
  simp only [hop, if_true]
  split <;> rfl

/-- Pass 2 on a real instruction when no retry is pending afterwards: one word
is stored, the encoding of the record with its resolved operands. -/
theorem assembleStep_real (sa : Int) (walk p : Nat) (st st1 : AsmState)
    (h : assembleStep sa walk p st = .ok st1) (hr : st1.retry = false)
    (hop : 0 ≤ (st.lirs p).opCode) :
    st.retry = false ∧ st1.numLIR = st.numLIR ∧ SameLayout st.lirs st1.lirs ∧
    (∀ q, q ≠ p → (st.lirs p).next ≠ some q → st1.lirs q = st.lirs q) ∧
    ∃ enc, EncodingMap[(st.lirs p).opCode.toNat]? = some enc ∧
      st1.buffer = st.buffer ++ [encodeBits enc (st1.lirs p).operands] := by
  unfold assembleStep at h
  have hn : ¬ (st.lirs p).opCode < 0 := by omega
  simp only [hn, if_false] at h
  split at h
  · exact absurd h (by simp)
  · rename_i st2 hres
    split at h
    · rename_i hret
      simp only [Except.ok.injEq] at h
      subst h
      rw [hr] at hret
      exact absurd hret (by simp)
    · rename_i hret
      have hret' : st2.retry = false := by simpa using hret
      obtain ⟨e1, e2, e3, enc, henc, hbuf⟩ := emitInstruction_spec p st2 st1 h
      obtain ⟨r1, r2, r3, r4, r5⟩ := resolveDisplacement_noRetry sa walk p st st2 hres hret'
      refine ⟨r1, by rw [e2, r3], by rw [e1]; exact r4, by rw [e1]; exact r5, enc, ?_, ?_⟩
      · rw [← (r4 p).1]; exact henc
      · rw [hbuf, r2, e1]

theorem assembleStep_retry_mono (sa : Int) (walk p : Nat) (st st1 : AsmState)
    (h : assembleStep sa walk p st = .ok st1) (hr : st.retry = true) : st1.retry = true := by
  by_cases hop : (st.lirs p).opCode < 0
  · rw [assembleStep_pseudo sa walk p st hop] at h
    simp only [Except.ok.injEq] at h
    subst h
    simp [hr]
  · by_contra c
    have hc : st1.retry = false := by simpa using c
    have := (assembleStep_real sa walk p st st1 h hc (by omega)).1
    rw [hr] at this
    exact absurd this (by simp)

theorem assembleLoop_retry_mono (sa : Int) (walk : Nat) :
    ∀ (fuel : Nat) (p : Option Nat) (st st1 : AsmState),
      assembleLoop sa walk fuel p st = .ok st1 → st.retry = true → st1.retry = true
  | 0, _, _, _, h, _ => by simp [assembleLoop] at h
  | _ + 1, none, st, st1, h, hr => by
    simp only [assembleLoop, Except.ok.injEq] at h
    subst h; exact hr
  | f + 1, some p, st, st1, h, hr => by
    simp only [assembleLoop] at h
    split at h
    · exact absurd h (by simp)
    · rename_i st2 hstep
      exact assembleLoop_retry_mono sa walk f _ st2 st1 h
        (assembleStep_retry_mono sa walk p st st2 hstep hr)

/-! ## Pass 2, the whole walk -/

theorem LaidOut_congr {h h' : LIRHeap} (hs : SameLayout h h') :
    ∀ (l : List Nat) (o E : Int), LaidOut h l o E → LaidOut h' l o E
  | [], _, _, hl => hl
  | i :: rest, o, E, hl => by
    obtain ⟨s1, s2, _, _, _, s6⟩ := hs i
    simp only [LaidOut] at hl ⊢
    obtain ⟨ho, hrest⟩ := hl
    refine ⟨by rw [s2]; exact ho, ?_⟩
    rw [s1]
    by_cases c1 : (h i).opCode ≥ 0
    · rw [if_pos c1] at hrest ⊢
      exact LaidOut_congr hs rest _ _ hrest
    · rw [if_neg c1] at hrest ⊢
      have hrec : h' i = h i := s6 (by omega)
      by_cases c2 : (h i).opCode = ARMV5TE_PSEUDO_ALIGN4
      · rw [if_pos c2] at hrest ⊢
        by_cases c3 : bit1 o = true
        · rw [if_pos c3] at hrest ⊢
          exact ⟨by rw [hrec]; exact hrest.1, LaidOut_congr hs rest _ _ hrest.2⟩
        · rw [if_neg c3] at hrest ⊢
          exact ⟨by rw [hrec]; exact hrest.1, LaidOut_congr hs rest _ _ hrest.2⟩
      · rw [if_neg c2] at hrest ⊢
        exact LaidOut_congr hs rest _ _ hrest

theorem Chain_next_mem {h : LIRHeap} {p : Option Nat} {l : List Nat} (hc : Chain h p l)
    (n : Nat) (hn : p = some n) : n ∈ l := by
  cases l with
  | nil => simp only [Chain] at hc; rw [hc] at hn; exact absurd hn (by simp)
  | cons i rest =>
    obtain ⟨hp, _⟩ := hc
    rw [hp] at hn
    simp only [Option.some.injEq] at hn
    simp [hn]

theorem wordIndex_running (n : Nat) : wordIndex (2 + 2 * (n : Int)) = n := by
  unfold wordIndex
  omega

theorem getElem?_append_singleton_tail (a tail : List Nat) (w : Nat) :
    (a ++ [w] ++ tail)[a.length]? = some w := by
  rw [List.append_assoc, List.getElem?_append_right (le_refl _)]
  simp

/-- Pass 2 on a laid-out, well-formed list, when it finishes without asking
for a retry: the words stored follow the offsets of pass 1. -/
theorem assembleLoop_noRetry (sa : Int) (walk : Nat) :
    ∀ (ixs : List Nat) (fuel : Nat) (p : Option Nat) (st st' : AsmState) (o E : Int),
      Chain st.lirs p ixs → ixs.Nodup → LaidOut st.lirs ixs o E →
      assembleLoop sa walk fuel p st = .ok st' → st'.retry = false →
      o = 2 + 2 * (st.buffer.length : Int) →
        st.retry = false ∧ st'.numLIR = st.numLIR ∧
        E = 2 + 2 * (st'.buffer.length : Int) ∧
        (∃ tail, st'.buffer = st.buffer ++ tail) ∧
        SameLayout st.lirs st'.lirs ∧
        (∀ q, q ∉ ixs → st'.lirs q = st.lirs q) ∧
        (∀ i ∈ ixs, 0 ≤ (st.lirs i).opCode →
          ∃ enc, EncodingMap[(st.lirs i).opCode.toNat]? = some enc ∧
            st'.buffer[wordIndex (st.lirs i).offset]? =
              some (encodeBits enc (st'.lirs i).operands)) ∧
        (∀ i ∈ ixs, (st.lirs i).opCode = ARMV5TE_PSEUDO_ALIGN4 → (st.lirs i).operands0 = 1 →
          st'.buffer[wordIndex (st.lirs i).offset]? = some PADDING_MOV_R0_R0)
  | [], fuel, p, st, st', o, E, hc, _, hl, h, hr, ho => by
    simp only [Chain] at hc
    subst hc
    cases fuel with
    | zero => simp [assembleLoop] at h
    | succ f =>
      simp only [assembleLoop, Except.ok.injEq] at h
      subst h
      simp only [LaidOut] at hl
      refine ⟨hr, rfl, by rw [hl, ho], ⟨[], by simp⟩, SameLayout_refl _, fun _ _ => rfl, ?_, ?_⟩
      · intro i hi; simp at hi
      · intro i hi; simp at hi
  | i :: rest, fuel, p, st, st', o, E, hc, hnd, hl, h, hr, ho => by
    obtain ⟨hp, hrest⟩ := hc
    subst hp
    have hirest : i ∉ rest := (List.nodup_cons.mp hnd).1
    have hndr : rest.Nodup := (List.nodup_cons.mp hnd).2
    cases fuel with
    | zero => simp [assembleLoop] at h
    | succ f =>
      simp only [assembleLoop] at h
      split at h
      · exact absurd h (by simp)
      · rename_i st1 hstep
        have hr1 : st1.retry = false := by
          by_contra c
          have hc1 : st1.retry = true := by simpa using c
          have := assembleLoop_retry_mono sa walk f _ st1 st' h hc1
          rw [hr] at this
          exact absurd this (by simp)
        simp only [LaidOut] at hl
        obtain ⟨hoff, hlrest⟩ := hl
        -- common continuation: the state after the head record
        have cont : ∀ (o1 : Int), SameLayout st.lirs st1.lirs →
            (∀ q, q ≠ i → (st.lirs i).next ≠ some q → st1.lirs q = st.lirs q) →
            LaidOut st.lirs rest o1 E → st1.numLIR = st.numLIR → st.retry = false →
            o1 = 2 + 2 * (st1.buffer.length : Int) →
            (∃ t1, st1.buffer = st.buffer ++ t1) →
            (0 ≤ (st.lirs i).opCode →
              ∃ enc, EncodingMap[(st.lirs i).opCode.toNat]? = some enc ∧
                ∀ tail, (st1.buffer ++ tail)[wordIndex (st.lirs i).offset]? =
                  some (encodeBits enc (st1.lirs i).operands)) →
            ((st.lirs i).opCode = ARMV5TE_PSEUDO_ALIGN4 → (st.lirs i).operands0 = 1 →
                ∀ tail, (st1.buffer ++ tail)[wordIndex (st.lirs i).offset]? =
                  some PADDING_MOV_R0_R0) →
            st.retry = false ∧ st'.numLIR = st.numLIR ∧
            E = 2 + 2 * (st'.buffer.length : Int) ∧
            (∃ tail, st'.buffer = st.buffer ++ tail) ∧
            SameLayout st.lirs st'.lirs ∧
            (∀ q, q ∉ i :: rest → st'.lirs q = st.lirs q) ∧
            (∀ j ∈ i :: rest, 0 ≤ (st.lirs j).opCode →
              ∃ enc, EncodingMap[(st.lirs j).opCode.toNat]? = some enc ∧
                st'.buffer[wordIndex (st.lirs j).offset]? =
                  some (encodeBits enc (st'.lirs j).operands)) ∧
            (∀ j ∈ i :: rest, (st.lirs j).opCode = ARMV5TE_PSEUDO_ALIGN4 →
              (st.lirs j).operands0 = 1 →
              st'.buffer[wordIndex (st.lirs j).offset]? = some PADDING_MOV_R0_R0) := by
          intro o1 hsl hframe hlay hnum hret ho1 hpre hreal halign
          have hch1 : Chain st1.lirs (st1.lirs i).next rest := by
            rw [(hsl i).2.2.1]
            exact Chain_congr (fun q => (hsl q).2.2.1) rest _ hrest
          obtain ⟨_, i2, i3, ⟨tail, i4⟩, i5, i6, i7, i8⟩ :=
            assembleLoop_noRetry sa walk rest f _ st1 st' o1 E hch1 hndr
              (LaidOut_congr hsl rest _ _ hlay) h hr ho1
          have hhead : st'.lirs i = st1.lirs i := i6 i hirest
          obtain ⟨t1, ht1⟩ := hpre
          refine ⟨hret, by rw [i2, hnum], i3, ⟨t1 ++ tail, by rw [i4, ht1]; simp⟩,
            SameLayout_trans hsl i5, ?_, ?_, ?_⟩
          · intro q hq
            have hqi : q ≠ i := fun c => hq (by simp [c])
            have hqr : q ∉ rest := fun c => hq (by simp [c])
            rw [i6 q hqr]
            apply hframe q hqi
            intro hn
            exact hqr (Chain_next_mem hrest q hn)
          · intro j hj hop
            rcases List.mem_cons.mp hj with rfl | hjr
            · obtain ⟨enc, henc, hw⟩ := hreal hop
              exact ⟨enc, henc, by rw [i4, hhead]; exact hw tail⟩
            · obtain ⟨enc, henc, hw⟩ := i7 j hjr (by rw [(hsl j).1]; exact hop)
              rw [(hsl j).1, (hsl j).2.1] at *
              exact ⟨enc, henc, hw⟩
          · intro j hj hop h1
            rcases List.mem_cons.mp hj with rfl | hjr
            · rw [i4]; exact halign hop h1 tail
            · have hneg : (st.lirs j).opCode < 0 := by rw [hop]; decide
              have hrec := (hsl j).2.2.2.2.2 hneg
              have := i8 j hjr (by rw [hrec]; exact hop) (by rw [hrec]; exact h1)
              rw [hrec] at this
              exact this
        by_cases hop : (st.lirs i).opCode < 0
        · -- pseudo-op
          rw [assembleStep_pseudo sa walk i st hop] at hstep
          simp only [Except.ok.injEq] at hstep
          have hn0 : ¬ (st.lirs i).opCode ≥ 0 := by omega
          rw [if_neg hn0] at hlrest
          have hnr : ¬ (0 ≤ (st.lirs i).opCode) := by omega
          by_cases c2 : (st.lirs i).opCode = ARMV5TE_PSEUDO_ALIGN4
          · rw [if_pos c2] at hlrest
            by_cases c3 : bit1 o = true
            · rw [if_pos c3] at hlrest
              obtain ⟨hop1, hlay⟩ := hlrest
              have hret : st.retry = false := by
                by_contra c
                have hc1 : st.retry = true := by simpa using c
                rw [← hstep] at hr1
                simp [hc1] at hr1
              have hst1 : st1 = { st with buffer := st.buffer ++ [PADDING_MOV_R0_R0] } := by
                rw [← hstep, if_pos ⟨c2, hop1, hret⟩]
              subst hst1
              refine cont (o + 2) (SameLayout_refl _) (fun _ _ _ => rfl) hlay rfl hret
                (by simp only [List.length_append, List.length_singleton]; push_cast; omega)
                ⟨[PADDING_MOV_R0_R0], rfl⟩ (fun h0 => absurd h0 hnr) ?_
              intro _ _ tail
              rw [hoff, ho, wordIndex_running]
              exact getElem?_append_singleton_tail _ _ _
            · rw [if_neg c3] at hlrest
              obtain ⟨hop1, hlay⟩ := hlrest
              have hst1 : st1 = st := by
                rw [← hstep, if_neg]
                intro hcon
                rw [hop1] at hcon
                exact absurd hcon.2.1 (by decide)
              subst hst1
              refine cont o (SameLayout_refl _) (fun _ _ _ => rfl) hlay rfl hr1 ho
                ⟨[], by simp⟩ (fun h0 => absurd h0 hnr) ?_
              intro _ h1
              rw [hop1] at h1
              exact absurd h1 (by decide)
          · rw [if_neg c2] at hlrest
            have hst1 : st1 = st := by
              rw [← hstep, if_neg]
              intro hcon
              exact c2 hcon.1
            subst hst1
            exact cont o (SameLayout_refl _) (fun _ _ _ => rfl) hlrest rfl hr1 ho
              ⟨[], by simp⟩ (fun h0 => absurd h0 hnr) (fun h0 => absurd h0 c2)
        · -- real instruction
          have hop0 : 0 ≤ (st.lirs i).opCode := by omega
          rw [if_pos hop0] at hlrest
          obtain ⟨r1, r2, r3, r4, enc, henc, hbuf⟩ :=
            assembleStep_real sa walk i st st1 hstep hr1 hop0
          refine cont (o + 2) r3 r4 hlrest r2 r1
            (by rw [hbuf]; simp only [List.length_append, List.length_singleton]; push_cast; omega)
            ⟨_, hbuf⟩ ?_ ?_
          · intro _
            refine ⟨enc, henc, ?_⟩
            intro tail
            rw [hoff, ho, wordIndex_running, hbuf]
            exact getElem?_append_singleton_tail _ _ _
          · intro hal
            rw [hal] at hop0
            exact absurd hop0 (by decide)

/-! ## Alignment pseudo-op -/

theorem bit1_iff_of_even (o : Int) (he : o % 2 = 0) : bit1 o = true ↔ o % 4 = 2 := by
  unfold bit1
  simp only [ne_eq, decide_eq_true_eq, decide_not, Bool.not_eq_true', decide_eq_false_iff_not]
  omega

theorem LaidOut_split (lirs : LIRHeap) :
    ∀ (pre l : List Nat) (o E : Int), LaidOut lirs (pre ++ l) o E → o % 2 = 0 →
      ∃ o', o' % 2 = 0 ∧ o ≤ o' ∧ LaidOut lirs l o' E
  | [], l, o, E, hl, he => ⟨o, he, le_refl _, by simpa using hl⟩
  | i :: pre, l, o, E, hl, he => by
    simp only [List.cons_append, LaidOut] at hl
    obtain ⟨_, hrest⟩ := hl
    have step : ∀ o1, o1 % 2 = 0 → o ≤ o1 → LaidOut lirs (pre ++ l) o1 E →
        ∃ o', o' % 2 = 0 ∧ o ≤ o' ∧ LaidOut lirs l o' E := by
      intro o1 h1 hle hl1
      obtain ⟨o', a, b, c⟩ := LaidOut_split lirs pre l o1 E hl1 h1
      exact ⟨o', a, le_trans hle b, c⟩
    split at hrest
    · exact step _ (by omega) (by omega) hrest
    · split at hrest
      · split at hrest
        · exact step _ (by omega) (by omega) hrest.2
        · exact step _ he (le_refl _) hrest.2
      · exact step _ he (le_refl _) hrest

theorem LaidOut_le (lirs : LIRHeap) :
    ∀ (l : List Nat) (o E : Int), LaidOut lirs l o E → o ≤ E ∧ (o % 2 = 0 → E % 2 = 0)
  | [], o, E, hl => by simp only [LaidOut] at hl; subst hl; exact ⟨le_refl _, id⟩
  | i :: rest, o, E, hl => by
    simp only [LaidOut] at hl
    obtain ⟨_, hrest⟩ := hl
    split at hrest
    · have := LaidOut_le lirs rest _ _ hrest
      exact ⟨by omega, fun h => this.2 (by omega)⟩
    · split at hrest
      · split at hrest
        · have := LaidOut_le lirs rest _ _ hrest.2
          exact ⟨by omega, fun h => this.2 (by omega)⟩
        · exact LaidOut_le lirs rest _ _ hrest.2
      · exact LaidOut_le lirs rest _ _ hrest

theorem LaidOut_offsetAfter (lirs : LIRHeap) (post : List Nat) (o E : Int)
    (hl : LaidOut lirs post o E) : offsetAfter lirs E post = o := by
  cases post with
  | nil => simp only [LaidOut] at hl; simp [offsetAfter, hl]
  | cons j rest => simp only [LaidOut] at hl; simp [offsetAfter, hl.1]

/-- C4 (as amended): pass 1 reaches every alignment pseudo-op at an even
running offset `o`.  If `o` is a multiple of 4 the pseudo-op consumes nothing,
`operands[0]` is set to 0 and pass 2 stores no word for it; if `o` is 2 modulo
4 it consumes 2 bytes, `operands[0]` is set to 1 and pass 2 stores exactly the
one word `0x1C00` for it, provided no retry is pending in that pass (with a
retry pending pass 2 stores nothing).  In both cases the offset of the record
that follows (the end offset for the last record) is a multiple of 4. -/
theorem C4_alignment_pseudo_op (lirs : LIRHeap) (first : Option Nat) (pre post : List Nat)
    (i fuel : Nat) (hc : Chain lirs first (pre ++ i :: post))
    (hnd : (pre ++ i :: post).Nodup) (hf : (pre ++ i :: post).length < fuel)
    (hal : (lirs i).opCode = ARMV5TE_PSEUDO_ALIGN4) :
    ∃ lirs' E, assignOffsets fuel lirs first CHAIN_CELL_OFFSET_SIZE = .ok (lirs', E) ∧
      (lirs' i).offset % 2 = 0 ∧
      ((lirs' i).offset % 4 = 0 →
        (lirs' i).operands0 = 0 ∧ offsetAfter lirs' E post = (lirs' i).offset) ∧
      ((lirs' i).offset % 4 = 2 →
        (lirs' i).operands0 = 1 ∧ offsetAfter lirs' E post = (lirs' i).offset + 2) ∧
      offsetAfter lirs' E post % 4 = 0 ∧
      (∀ (sa : Int) (walk : Nat) (st : AsmState),
        (st.lirs i).opCode = ARMV5TE_PSEUDO_ALIGN4 →
        (st.lirs i).operands0 = (lirs' i).operands0 →
        assembleStep sa walk i st =
          .ok (if (lirs' i).offset % 4 = 2 ∧ st.retry = false
               then { st with buffer := st.buffer ++ [PADDING_MOV_R0_R0] } else st)) := by
  obtain ⟨lirs', E, he, hl, hsp, _⟩ :=
    assignOffsets_spec (pre ++ i :: post) fuel lirs first CHAIN_CELL_OFFSET_SIZE hc hnd hf
  refine ⟨lirs', E, he, ?_⟩
  obtain ⟨o, heven, _, hl'⟩ :=
    LaidOut_split lirs' pre (i :: post) _ E hl (by decide)
  simp only [LaidOut] at hl'
  obtain ⟨hoff, hrest⟩ := hl'
  have hal' : (lirs' i).opCode = ARMV5TE_PSEUDO_ALIGN4 := by rw [(hsp i).1]; exact hal
  have hneg : ¬ (lirs' i).opCode ≥ 0 := by rw [hal']; decide
  rw [if_neg hneg, if_pos hal'] at hrest
  rw [hoff]
  have hstep : ∀ (sa : Int) (walk : Nat) (st : AsmState),
      (st.lirs i).opCode = ARMV5TE_PSEUDO_ALIGN4 →
      (st.lirs i).operands0 = (lirs' i).operands0 →
      assembleStep sa walk i st =
        .ok (if (lirs' i).operands0 = 1 ∧ st.retry = false
             then { st with buffer := st.buffer ++ [PADDING_MOV_R0_R0] } else st) := by
    intro sa walk st h1 h2
    rw [assembleStep_pseudo sa walk i st (by rw [h1]; decide)]
    simp only [h1, h2, true_and]
  by_cases c3 : bit1 o = true
  · rw [if_pos c3] at hrest
    obtain ⟨hop, hlay⟩ := hrest
    have hmod : o % 4 = 2 := (bit1_iff_of_even o heven).mp c3
    have hafter := LaidOut_offsetAfter lirs' post _ E hlay
    refine ⟨heven, fun h0 => absurd h0 (by omega), fun _ => ⟨hop, hafter⟩,
      by rw [hafter]; omega, ?_⟩
    intro sa walk st h1 h2
    rw [hstep sa walk st h1 h2, hop]
    simp [hmod]
  · rw [if_neg c3] at hrest
    obtain ⟨hop, hlay⟩ := hrest
    have hmod : o % 4 = 0 := by
      have := (bit1_iff_of_even o heven).not.mp c3
      omega
    have hafter := LaidOut_offsetAfter lirs' post _ E hlay
    refine ⟨heven, fun _ => ⟨hop, hafter⟩, fun h2 => absurd h2 (by omega),
      by rw [hafter]; omega, ?_⟩
    intro sa walk st h1 h2
    rw [hstep sa walk st h1 h2, hop]
    simp [hmod]

/-- Witness of C4: the alignment pseudo-op of `mov; align; mov` is reached at
offset 4 and consumes nothing. -/
theorem C4_alignment_pseudo_op_witness :
    Chain alignHeap (some 0) ([0] ++ 1 :: [2]) ∧
    ∃ lirs' E, assignOffsets 8 alignHeap (some 0) CHAIN_CELL_OFFSET_SIZE = .ok (lirs', E) ∧
      (lirs' 1).offset % 2 = 0 := by
  have hc : Chain alignHeap (some 0) ([0] ++ 1 :: [2]) := ⟨rfl, rfl, rfl, rfl⟩
  refine ⟨hc, ?_⟩
  obtain ⟨lirs', E, h1, h2, _⟩ :=
    C4_alignment_pseudo_op alignHeap (some 0) [0] [2] 1 8 hc (by decide) (by decide) rfl
  exact ⟨lirs', E, h1, h2⟩

set_option maxRecDepth 100000 in
/-- Counterexample to C4 as stated: in `farBranchUnit` pass 1 reaches the
alignment pseudo-op (record 130) at offset 262, which is 2 modulo 4, and marks
it (`operands[0] = 1`); pass 2 of the same round has a retry pending when it
comes to the record and stores no word at all. -/
theorem C4_counterexample :
    layoutAt (layoutPass 200 8 farBranchUnit) 130 = some (ARMV5TE_PSEUDO_ALIGN4, 262, 1) ∧
    (262 : Int) % 4 = 2 ∧
    pass2Of 200 0x1000 (layoutPass 200 8 farBranchUnit) = some ([], true) := by
  decide

/-! ## Lists of records -/

theorem Chain_unique {h : LIRHeap} :
    ∀ (l1 l2 : List Nat) (p : Option Nat), Chain h p l1 → Chain h p l2 → l1 = l2
  | [], [], _, _, _ => rfl
  | [], j :: _, _, h1, h2 => by
    simp only [Chain] at h1 h2
    rw [h1] at h2
    exact absurd h2.1 (by simp)
  | i :: _, [], _, h1, h2 => by
    simp only [Chain] at h1 h2
    rw [h2] at h1
    exact absurd h1.1 (by simp)
  | i :: r1, j :: r2, _, h1, h2 => by
    obtain ⟨a1, a2⟩ := h1
    obtain ⟨b1, b2⟩ := h2
    rw [a1] at b1
    simp only [Option.some.injEq] at b1
    subst b1
    rw [Chain_unique r1 r2 _ a2 b2]

theorem Chain_suffix {h : LIRHeap} :
    ∀ (pre l : List Nat) (p : Option Nat), Chain h p (pre ++ l) → ∃ q, Chain h q l
  | [], _, p, hc => ⟨p, hc⟩
  | _ :: pre, l, _, hc => Chain_suffix pre l _ hc.2

/-- A finite list that ends in `NULL` visits no record twice. -/
theorem Chain_nodup {h : LIRHeap} :
    ∀ (l : List Nat) (p : Option Nat), Chain h p l → l.Nodup
  | [], _, _ => List.nodup_nil
  | i :: rest, p, hc => by
    refine List.nodup_cons.mpr ⟨?_, Chain_nodup rest _ hc.2⟩
    intro hmem
    obtain ⟨a, b, hab⟩ := List.append_of_mem hmem
    have hc2 : Chain h (h i).next (a ++ i :: b) := by rw [← hab]; exact hc.2
    obtain ⟨q, hq⟩ := Chain_suffix a (i :: b) _ hc2
    have hq' : Chain h (some i) (i :: b) := by
      have := hq.1
      rw [this] at hq
      exact hq
    have hfull : Chain h (some i) (i :: rest) := ⟨rfl, hc.2⟩
    have := Chain_unique _ _ _ hq' hfull
    have hlen := congrArg List.length this
    rw [hab] at hlen
    simp at hlen
    omega

/-! ## Pass 1 without a list -/

theorem assignOffsets_sameProgram :
    ∀ (fuel : Nat) (lirs : LIRHeap) (p : Option Nat) (o : Int) (lirs' : LIRHeap) (E : Int),
      assignOffsets fuel lirs p o = .ok (lirs', E) → SameProgram lirs lirs' ∧ o ≤ E
  | 0, _, _, _, _, _, h => by simp [assignOffsets] at h
  | _ + 1, lirs, none, o, lirs', E, h => by
    simp only [assignOffsets, Except.ok.injEq, Prod.mk.injEq] at h
    obtain ⟨rfl, rfl⟩ := h
    exact ⟨SameProgram_refl _, le_refl _⟩
  | f + 1, lirs, some p, o, lirs', E, h => by
    unfold assignOffsets at h
    simp only [] at h
    split at h
    · obtain ⟨a, b⟩ := assignOffsets_sameProgram f _ _ _ _ _ h
      exact ⟨SameProgram_trans (SameProgram_set_offset _ _ _) a, by omega⟩
    · split at h
      · rename_i hal
        split at h
        · obtain ⟨a, b⟩ := assignOffsets_sameProgram f _ _ _ _ _ h
          exact ⟨SameProgram_trans (SameProgram_set_align _ _ _ _ hal) a, by omega⟩
        · obtain ⟨a, b⟩ := assignOffsets_sameProgram f _ _ _ _ _ h
          exact ⟨SameProgram_trans (SameProgram_set_align _ _ _ _ hal) a, by omega⟩
      · obtain ⟨a, b⟩ := assignOffsets_sameProgram f _ _ _ _ _ h
        exact ⟨SameProgram_trans (SameProgram_set_offset _ _ _) a, by omega⟩

/-- A walk that returned had enough fuel for the list. -/
theorem assignOffsets_fuel :
    ∀ (ixs : List Nat) (fuel : Nat) (lirs : LIRHeap) (p : Option Nat) (o : Int)
      (r : LIRHeap × Int),
      Chain lirs p ixs → assignOffsets fuel lirs p o = .ok r → ixs.length < fuel
  | _, 0, _, _, _, _, _, h => by simp [assignOffsets] at h
  | [], _ + 1, _, _, _, _, _, _ => by simp
  | i :: rest, f + 1, lirs, p, o, r, hc, h => by
    obtain ⟨hp, hrest⟩ := hc
    subst hp
    unfold assignOffsets at h
    simp only [] at h
    have key : ∀ (r1 : Armv5teLIR) (o1 : Int),
        assignOffsets f (lirs.set i r1) (lirs i).next o1 = .ok r →
        r1.next = (lirs i).next → rest.length < f := by
      intro r1 o1 hr hn
      refine assignOffsets_fuel rest f _ _ o1 r (Chain_congr ?_ rest _ hrest) hr
      intro q
      by_cases c : q = i
      · subst c; simp [hn]
      · rw [LIRHeap.set_other _ _ _ _ c]
    simp only [List.length_cons]
    split at h
    · have := key _ _ h rfl; omega
    · split at h
      · split at h
        · have := key _ _ h rfl; omega
        · have := key _ _ h rfl; omega
      · have := key _ _ h rfl; omega

/-- Pass 1, for a walk that returned. -/
theorem assignOffsets_ok (ixs : List Nat) (fuel : Nat) (lirs : LIRHeap) (p : Option Nat)
    (o : Int) (lirs' : LIRHeap) (E : Int) (hc : Chain lirs p ixs)
    (h : assignOffsets fuel lirs p o = .ok (lirs', E)) :
    LaidOut lirs' ixs o E ∧ SameProgram lirs lirs' ∧ (∀ q, q ∉ ixs → lirs' q = lirs q) := by
  have hf := assignOffsets_fuel ixs fuel lirs p o _ hc h
  obtain ⟨l2, E2, he, a, b, c⟩ :=
    assignOffsets_spec ixs fuel lirs p o hc (Chain_nodup _ _ hc) hf
  rw [h] at he
  simp only [Except.ok.injEq, Prod.mk.injEq] at he
  obtain ⟨rfl, rfl⟩ := he
  exact ⟨a, b, c⟩

/-! ## Literal offsets -/

theorem assignLiteralOffsets_ok :
    ∀ (ws : List Nat) (fuel : Nat) (lirs : LIRHeap) (p : Option Nat) (o : Int)
      (lirs' : LIRHeap) (total : Int),
      Chain lirs p ws → assignLiteralOffsets fuel lirs p o = .ok (lirs', total) →
      total = o + 4 * (ws.length : Int) ∧
      (∀ k (hk : k < ws.length), (lirs' (ws.get ⟨k, hk⟩)).offset = o + 4 * (k : Int)) ∧
      OffsetsOnly ws lirs lirs'
  | _, 0, _, _, _, _, _, _, h => by simp [assignLiteralOffsets] at h
  | [], _ + 1, lirs, p, o, lirs', total, hc, h => by
    simp only [Chain] at hc
    subst hc
    simp only [assignLiteralOffsets, Except.ok.injEq, Prod.mk.injEq] at h
    obtain ⟨rfl, rfl⟩ := h
    refine ⟨by simp, fun k hk => absurd hk (by simp), fun _ => rfl, fun _ _ => rfl⟩
  | i :: rest, f + 1, lirs, p, o, lirs', total, hc, h => by
    have hnd := Chain_nodup _ _ hc
    obtain ⟨hp, hrest⟩ := hc
    subst hp
    have hirest : i ∉ rest := (List.nodup_cons.mp hnd).1
    simp only [assignLiteralOffsets] at h
    have hch : Chain (lirs.set i { lirs i with offset := o }) (lirs i).next rest := by
      refine Chain_congr ?_ rest _ hrest
      intro q
      by_cases c : q = i
      · subst c; simp
      · rw [LIRHeap.set_other _ _ _ _ c]
    obtain ⟨a, b, c1, c2⟩ := assignLiteralOffsets_ok rest f _ _ _ _ _ hch h
    refine ⟨by rw [a]; simp only [List.length_cons]; push_cast; omega, ?_, ?_, ?_⟩
    · intro k hk
      cases k with
      | zero =>
        simp only [List.get_eq_getElem, List.getElem_cons_zero]
        rw [c2 i hirest]; simp
      | succ k =>
        have hk' : k < rest.length := by simpa using hk
        have := b k hk'
        simp only [List.get_eq_getElem, List.getElem_cons_succ] at this ⊢
        rw [this]; push_cast; omega
    · intro q
      have h1 := c1 q
      by_cases c : q = i
      · subst c
        rw [h1]; simp
      · rw [LIRHeap.set_other _ _ _ _ c] at h1
        exact h1
    · intro q hq
      have hqi : q ≠ i := fun c => hq (by simp [c])
      have hqr : q ∉ rest := fun c => hq (by simp [c])
      rw [c2 q hqr, LIRHeap.set_other _ _ _ _ hqi]

theorem assignLiteralOffsets_offsetsOnly :
    ∀ (fuel : Nat) (lirs : LIRHeap) (p : Option Nat) (o : Int) (lirs' : LIRHeap) (total : Int),
      assignLiteralOffsets fuel lirs p o = .ok (lirs', total) →
      (∀ q, lirs' q = { lirs q with offset := (lirs' q).offset }) ∧ o ≤ total
  | 0, _, _, _, _, _, h => by simp [assignLiteralOffsets] at h
  | _ + 1, lirs, none, o, lirs', total, h => by
    simp only [assignLiteralOffsets, Except.ok.injEq, Prod.mk.injEq] at h
    obtain ⟨rfl, rfl⟩ := h
    exact ⟨fun _ => rfl, le_refl _⟩
  | f + 1, lirs, some p, o, lirs', total, h => by
    simp only [assignLiteralOffsets] at h
    obtain ⟨a, b⟩ := assignLiteralOffsets_offsetsOnly f _ _ _ _ _ h
    refine ⟨?_, by omega⟩
    intro q
    have h1 := a q
    by_cases c : q = p
    · subst c
      rw [h1]; simp
    · rw [LIRHeap.set_other _ _ _ _ c] at h1
      exact h1

/-! ## One round: layout and pass 2 together -/

theorem LaidOut_congr_on {h h' : LIRHeap} :
    ∀ (l : List Nat) (o E : Int), (∀ q, q ∈ l → h' q = h q) → LaidOut h l o E →
      LaidOut h' l o E
  | [], _, _, _, hl => hl
  | i :: rest, o, E, hq, hl => by
    have hi : h' i = h i := hq i (by simp)
    have hr : ∀ q, q ∈ rest → h' q = h q := fun q hm => hq q (by simp [hm])
    simp only [LaidOut, hi] at hl ⊢
    obtain ⟨ho, hrest⟩ := hl
    refine ⟨ho, ?_⟩
    split
    · rename_i c; rw [if_pos c] at hrest; exact LaidOut_congr_on rest _ _ hr hrest
    · rename_i c; rw [if_neg c] at hrest
      split
      · rename_i c2; rw [if_pos c2] at hrest
        split
        · rename_i c3; rw [if_pos c3] at hrest
          exact ⟨hrest.1, LaidOut_congr_on rest _ _ hr hrest.2⟩
        · rename_i c3; rw [if_neg c3] at hrest
          exact ⟨hrest.1, LaidOut_congr_on rest _ _ hr hrest.2⟩
      · rename_i c2; rw [if_neg c2] at hrest
        exact LaidOut_congr_on rest _ _ hr hrest

/-- What `layoutPass` computes, for a round that got past the assertion. -/
theorem layoutPass_inv (fuel descSize : Nat) (cUnit : CompilationUnit) (L : Layout)
    (h : layoutPass fuel descSize cUnit = .ok L) :
    ∃ lirs1,
      assignOffsets fuel cUnit.lirs cUnit.firstLIRInsn CHAIN_CELL_OFFSET_SIZE
        = .ok (lirs1, L.endOffset) ∧
      L.chainCellOffset = (alignDown4 (L.endOffset + 3) % 65536).toNat ∧
      L.cUnit.dataOffset = alignDown4 (L.endOffset + 3) + sizeofChainCellCounts + descSize ∧
      assignLiteralOffsets fuel lirs1 cUnit.wordList L.cUnit.dataOffset
        = .ok (L.cUnit.lirs, L.cUnit.totalSize) ∧
      L.offset = L.cUnit.totalSize ∧
      L.cUnit = { cUnit with lirs := L.cUnit.lirs, dataOffset := L.cUnit.dataOffset,
                             totalSize := L.cUnit.totalSize } := by
  unfold layoutPass at h
  split at h
  · exact absurd h (by simp)
  · rename_i lirs1 E h1
    simp only [] at h
    split at h
    · exact absurd h (by simp)
    · split at h
      · exact absurd h (by simp)
      · rename_i lirs2 total h2
        simp only [Except.ok.injEq] at h
        subst h
        exact ⟨lirs1, h1, rfl, rfl, h2, rfl, rfl⟩

theorem assembleInstructions_inv (fuel : Nat) (cUnit cUnit2 : CompilationUnit) (sa : Int)
    (r : Bool) (h : assembleInstructions fuel cUnit sa = .ok (cUnit2, r)) :
    ∃ st, assembleLoop sa fuel fuel cUnit.firstLIRInsn
        { lirs := cUnit.lirs, numLIR := cUnit.numLIR, buffer := [], retry := false } = .ok st ∧
      cUnit2 = { cUnit with lirs := st.lirs, numLIR := st.numLIR, codeBuffer := st.buffer } ∧
      r = st.retry := by
  unfold assembleInstructions at h
  split at h
  · exact absurd h (by simp)
  · rename_i st hst
    simp only [Except.ok.injEq, Prod.mk.injEq] at h
    exact ⟨st, hst, h.1.symm, h.2.symm⟩

/-- Layout followed by a pass 2 that asks for no retry, on a unit whose
instruction list and literal list are well formed and separate. -/
theorem layout_then_pass2 (fuel descSize : Nat) (cUnit : CompilationUnit)
    (ixs ws : List Nat) (L : Layout) (cUnit2 : CompilationUnit) (sa : Int)
    (hi : Chain cUnit.lirs cUnit.firstLIRInsn ixs)
    (hw : Chain cUnit.lirs cUnit.wordList ws)
    (hd : ∀ q, q ∈ ixs → q ∉ ws)
    (hL : layoutPass fuel descSize cUnit = .ok L)
    (hP : assembleInstructions fuel L.cUnit sa = .ok (cUnit2, false)) :
    LaidOut cUnit2.lirs ixs CHAIN_CELL_OFFSET_SIZE L.endOffset ∧
    L.endOffset = 2 + 2 * (cUnit2.codeBuffer.length : Int) ∧
    SameLayout L.cUnit.lirs cUnit2.lirs ∧
    SameProgram cUnit.lirs L.cUnit.lirs ∧
    (∀ q, q ∉ ixs → cUnit2.lirs q = L.cUnit.lirs q) ∧
    (∀ q, q ∉ ixs → q ∉ ws → cUnit2.lirs q = cUnit.lirs q) ∧
    (∀ q, q ∈ ws → cUnit2.lirs q = { cUnit.lirs q with offset := (cUnit2.lirs q).offset }) ∧
    (∀ i ∈ ixs, 0 ≤ (cUnit2.lirs i).opCode →
      ∃ enc, EncodingMap[(cUnit2.lirs i).opCode.toNat]? = some enc ∧
        cUnit2.codeBuffer[wordIndex (cUnit2.lirs i).offset]? =
          some (encodeBits enc (cUnit2.lirs i).operands)) ∧
    (∀ i ∈ ixs, (cUnit2.lirs i).opCode = ARMV5TE_PSEUDO_ALIGN4 →
      (cUnit2.lirs i).operands0 = 1 →
      cUnit2.codeBuffer[wordIndex (cUnit2.lirs i).offset]? = some PADDING_MOV_R0_R0) := by
  obtain ⟨lirs1, h1, _, _, h2, _, hLc⟩ := layoutPass_inv fuel descSize cUnit L hL
  obtain ⟨lay1, sp1, fr1⟩ := assignOffsets_ok ixs fuel _ _ _ _ _ hi h1
  have hw1 : Chain lirs1 cUnit.wordList ws := Chain_congr (fun q => (sp1 q).2.1) ws _ hw
  obtain ⟨_, _, oo1, oo2⟩ := assignLiteralOffsets_ok ws fuel _ _ _ _ _ hw1 h2
  have hfirst : L.cUnit.firstLIRInsn = cUnit.firstLIRInsn := by rw [hLc]
  have hnext2 : ∀ q, (L.cUnit.lirs q).next = (lirs1 q).next := fun q => by rw [oo1 q]
  have hi2 : Chain L.cUnit.lirs L.cUnit.firstLIRInsn ixs := by
    rw [hfirst]
    exact Chain_congr hnext2 ixs _ (Chain_congr (fun q => (sp1 q).2.1) ixs _ hi)
  have lay2 : LaidOut L.cUnit.lirs ixs CHAIN_CELL_OFFSET_SIZE L.endOffset :=
    LaidOut_congr_on ixs _ _ (fun q hq => oo2 q (hd q hq)) lay1
  obtain ⟨st, hst, hc2, hret⟩ := assembleInstructions_inv fuel L.cUnit cUnit2 sa false hP
  obtain ⟨_, _, e1, _, sl, fr2, hreal, hal⟩ :=
    assembleLoop_noRetry sa fuel ixs fuel _ _ st CHAIN_CELL_OFFSET_SIZE L.endOffset hi2
      (Chain_nodup _ _ hi) lay2 hst hret.symm (by simp [CHAIN_CELL_OFFSET_SIZE])
  have hl2 : cUnit2.lirs = st.lirs := by rw [hc2]
  have hb2 : cUnit2.codeBuffer = st.buffer := by rw [hc2]
  have sp2 : SameProgram cUnit.lirs L.cUnit.lirs := by
    refine SameProgram_trans sp1 ?_
    intro q
    rw [oo1 q]
    simp
  rw [hl2, hb2]
  simp only [] at sl fr2 hreal hal
  refine ⟨LaidOut_congr sl ixs _ _ lay2, e1, sl, sp2, fr2, ?_, ?_, ?_, ?_⟩
  · intro q hq1 hq2
    rw [fr2 q hq1, oo2 q hq2, fr1 q hq1]
  · intro q hq
    have hqi : q ∉ ixs := fun c => hd q c hq
    rw [fr2 q hqi, oo1 q, fr1 q hqi]
  · intro i hi' hop
    have hop' : 0 ≤ (L.cUnit.lirs i).opCode := by rw [← (sl i).1]; exact hop
    obtain ⟨enc, henc, hword⟩ := hreal i hi' hop'
    refine ⟨enc, by rw [(sl i).1]; exact henc, ?_⟩
    rw [(sl i).2.1]; exact hword
  · intro i hi' hop h1'
    have hneg : (L.cUnit.lirs i).opCode < 0 := by rw [← (sl i).1, hop]; decide
    have hrec := (sl i).2.2.2.2.2 hneg
    rw [hrec] at hop h1' ⊢
    exact hal i hi' hop h1'

/-! ## Memory -/

theorem write8_same (m : Mem) (a : Int) (v : Nat) : write8 m a v a = v % 256 := by
  simp [write8]

theorem write8_other (m : Mem) (a x : Int) (v : Nat) (h : x ≠ a) : write8 m a v x = m x := by
  simp [write8, h]

theorem write32_other (m : Mem) (a x : Int) (v : Nat) (h : x < a ∨ a + 4 ≤ x) :
    write32 m a v x = m x := by
  unfold write32
  rw [write8_other _ _ _ _ (by omega), write8_other _ _ _ _ (by omega),
    write8_other _ _ _ _ (by omega), write8_other _ _ _ _ (by omega)]

theorem write32_byte (m : Mem) (a : Int) (v k : Nat) (hk : k < 4) :
    write32 m a v (a + k) = (v / 256 ^ k) % 256 := by
  unfold write32
  have hcases : k = 0 ∨ k = 1 ∨ k = 2 ∨ k = 3 := by omega
  rcases hcases with rfl | rfl | rfl | rfl
  · rw [write8_other _ _ _ _ (by omega), write8_other _ _ _ _ (by omega),
      write8_other _ _ _ _ (by omega)]
    simp [write8]
  · rw [write8_other _ _ _ _ (by omega), write8_other _ _ _ _ (by omega)]
    simp [write8]
  · rw [write8_other _ _ _ _ (by omega)]
    simp [write8]
  · simp [write8]

theorem read32_write32 (m : Mem) (a : Int) (v : Nat) :
    read32 (write32 m a v) a = v % 2 ^ 32 := by
  have h0 := write32_byte m a v 0 (by decide)
  have h1 := write32_byte m a v 1 (by decide)
  have h2 := write32_byte m a v 2 (by decide)
  have h3 := write32_byte m a v 3 (by decide)
  simp only [Nat.cast_zero, add_zero, Nat.cast_one, Nat.cast_ofNat, pow_zero, Nat.div_one,
    pow_one] at h0 h1 h2 h3
  unfold read32 read8
  rw [h0, h1, h2, h3]
  omega

theorem read32_congr (m m' : Mem) (a : Int)
    (h : ∀ x, a ≤ x → x < a + 4 → m' x = m x) : read32 m' a = read32 m a := by
  unfold read32 read8
  rw [h a (by omega) (by omega), h (a + 1) (by omega) (by omega),
    h (a + 2) (by omega) (by omega), h (a + 3) (by omega) (by omega)]

theorem memcpy_inside (m : Mem) (dst : Int) (src : Nat → Nat) (n x : Int)
    (h1 : dst ≤ x) (h2 : x < dst + n) : memcpy m dst src n x = src (x - dst).toNat % 256 := by
  simp [memcpy, h1, h2]

theorem memcpy_outside (m : Mem) (dst : Int) (src : Nat → Nat) (n x : Int)
    (h : x < dst ∨ dst + n ≤ x) : memcpy m dst src n x = m x := by
  unfold memcpy
  rw [if_neg]
  omega

/-- Two consecutive bytes of the code buffer make up the word stored there. -/
theorem codeBufferByte_word (buffer : List Nat) (k w : Nat) (hk : buffer[k]? = some w) :
    codeBufferByte buffer (2 * k) % 256 + 256 * (codeBufferByte buffer (2 * k + 1) % 256)
      = w % 65536 := by
  have hd : buffer.getD k 0 = w := by simp [List.getD, hk]
  have e1 : 2 * k / 2 = k := by omega
  have e2 : (2 * k + 1) / 2 = k := by omega
  have e3 : 2 * k % 2 = 0 := by omega
  have e4 : (2 * k + 1) % 2 = 1 := by omega
  unfold codeBufferByte
  rw [e1, e2, e3, e4, hd]
  simp only [pow_zero, Nat.div_one, pow_one, Nat.mod_mod]
  omega

/-! ## Installation of the literals -/

theorem installDataContent_ok :
    ∀ (ws : List Nat) (fuel : Nat) (lirs : LIRHeap) (p : Option Nat) (mem mem' : Mem)
      (d : Int),
      Chain lirs p ws → installDataContent fuel lirs p mem d = .ok mem' →
      (∀ k (hk : k < ws.length),
        read32 mem' (d + 4 * (k : Int)) = toU32 (lirs (ws.get ⟨k, hk⟩)).operands0 % 2 ^ 32) ∧
      (∀ x, x < d ∨ d + 4 * (ws.length : Int) ≤ x → mem' x = mem x)
  | _, 0, _, _, _, _, _, _, h => by simp [installDataContent] at h
  | [], _ + 1, lirs, p, mem, mem', d, hc, h => by
    simp only [Chain] at hc
    subst hc
    simp only [installDataContent, Except.ok.injEq] at h
    subst h
    exact ⟨fun k hk => absurd hk (by simp), fun _ _ => rfl⟩
  | i :: rest, f + 1, lirs, p, mem, mem', d, hc, h => by
    obtain ⟨hp, hrest⟩ := hc
    subst hp
    simp only [installDataContent] at h
    obtain ⟨a, b⟩ := installDataContent_ok rest f lirs _ _ _ _ hrest h
    refine ⟨?_, ?_⟩
    · intro k hk
      cases k with
      | zero =>
        simp only [List.get_eq_getElem, List.getElem_cons_zero, Nat.cast_zero, mul_zero,
          add_zero]
        rw [read32_congr _ mem' d (fun x h1 h2 => b x (by omega)), read32_write32]
      | succ k =>
        have hk' : k < rest.length := by simpa using hk
        have := a k hk'
        simp only [List.get_eq_getElem, List.getElem_cons_succ] at this ⊢
        rw [← this]
        congr 1
        push_cast
        omega
    · intro x hx
      simp only [List.length_cons, Nat.cast_add, Nat.cast_one] at hx
      rw [b x (by omega), write32_other _ _ _ _ (by omega)]

theorem installDataContent_below :
    ∀ (fuel : Nat) (lirs : LIRHeap) (p : Option Nat) (mem mem' : Mem) (d : Int),
      installDataContent fuel lirs p mem d = .ok mem' → ∀ x, x < d → mem' x = mem x
  | 0, _, _, _, _, _, h => by simp [installDataContent] at h
  | _ + 1, _, none, mem, mem', _, h => by
    simp only [installDataContent, Except.ok.injEq] at h
    subst h
    exact fun _ _ => rfl
  | f + 1, lirs, some p, mem, mem', d, h => by
    simp only [installDataContent] at h
    intro x hx
    rw [installDataContent_below f lirs _ _ _ _ h x (by omega),
      write32_other _ _ _ _ (by omega)]

/-! ## Installation of one unit -/

theorem installUnit_inv (T : Target) (fuel descSize : Nat) (mem mem' : Mem)
    (g g' : DvmJitGlobals) (cUnit cUnit' : CompilationUnit) (cco : Nat) (offset : Int)
    (h : installUnit T fuel descSize mem g cUnit cco offset = .ok (mem', g', cUnit')) :
    2 ≤ cco ∧
    g' = { g with codeCacheByteUsed := g.codeCacheByteUsed + offset,
                  numCompilations := g.numCompilations + 1 } ∧
    cUnit' = { cUnit with
      baseAddr := some (g.codeCache + g.codeCacheByteUsed + CHAIN_CELL_OFFSET_SIZE) } ∧
    installDataContent fuel cUnit.lirs cUnit.wordList
      (memcpy
        (memcpy
          (memcpy (write8 mem (g.codeCache + g.codeCacheByteUsed) cco)
            (g.codeCache + g.codeCacheByteUsed + 2) (codeBufferByte cUnit.codeBuffer) (cco - 2))
          (g.codeCache + g.codeCacheByteUsed + cco) (chainCellCountsBytes T cUnit)
          sizeofChainCellCounts)
        (g.codeCache + g.codeCacheByteUsed + cco + sizeofChainCellCounts)
        cUnit.traceDesc.bytes descSize)
      (g.codeCache + g.codeCacheByteUsed + cUnit.dataOffset) = .ok mem' := by
  unfold installUnit at h
  simp only [] at h
  split at h
  · exact absurd h (by simp)
  · rename_i hc
    split at h
    · exact absurd h (by simp)
    · rename_i mem5 h5
      simp only [Except.ok.injEq, Prod.mk.injEq] at h
      obtain ⟨rfl, rfl, rfl⟩ := h
      exact ⟨by omega, rfl, rfl, h5⟩

/-- Memory after the installation of a unit whose literals lie behind the
metadata: the header byte, the untouched byte after it, the code, the chain
cell counts, the trace description, and the memory below the block. -/
theorem installUnit_memory (T : Target) (fuel descSize : Nat) (mem mem' : Mem)
    (g g' : DvmJitGlobals) (cUnit cUnit' : CompilationUnit) (cco : Nat) (offset : Int)
    (h : installUnit T fuel descSize mem g cUnit cco offset = .ok (mem', g', cUnit'))
    (hdo : (cco : Int) + sizeofChainCellCounts + descSize ≤ cUnit.dataOffset) :
    mem' (g.codeCache + g.codeCacheByteUsed) = cco % 256 ∧
    mem' (g.codeCache + g.codeCacheByteUsed + 1) = mem (g.codeCache + g.codeCacheByteUsed + 1) ∧
    (∀ x, g.codeCache + g.codeCacheByteUsed + 2 ≤ x → x < g.codeCache + g.codeCacheByteUsed + cco →
      mem' x = codeBufferByte cUnit.codeBuffer
        (x - (g.codeCache + g.codeCacheByteUsed + 2)).toNat % 256) ∧
    (∀ k : Nat, k < sizeofChainCellCounts →
      mem' (g.codeCache + g.codeCacheByteUsed + cco + k) = chainCellCountsBytes T cUnit k % 256) ∧
    (∀ k : Nat, k < descSize →
      mem' (g.codeCache + g.codeCacheByteUsed + cco + sizeofChainCellCounts + k)
        = cUnit.traceDesc.bytes k % 256) ∧
    (∀ x, x < g.codeCache + g.codeCacheByteUsed → mem' x = mem x) := by
  obtain ⟨h2, _, _, h5⟩ := installUnit_inv T fuel descSize mem mem' g g' cUnit cUnit' cco offset h
  have below := installDataContent_below fuel _ _ _ _ _ h5
  simp only [sizeofChainCellCounts] at hdo below ⊢
  generalize g.codeCache + g.codeCacheByteUsed = base at *
  refine ⟨?_, ?_, ?_, ?_, ?_, ?_⟩
  · rw [below _ (by omega), memcpy_outside _ _ _ _ _ (by omega),
      memcpy_outside _ _ _ _ _ (by omega), memcpy_outside _ _ _ _ _ (by omega), write8_same]
  · rw [below _ (by omega), memcpy_outside _ _ _ _ _ (by omega),
      memcpy_outside _ _ _ _ _ (by omega), memcpy_outside _ _ _ _ _ (by omega),
      write8_other _ _ _ _ (by omega)]
  · intro x h1 hx
    rw [below _ (by omega), memcpy_outside _ _ _ _ _ (by omega),
      memcpy_outside _ _ _ _ _ (by omega), memcpy_inside _ _ _ _ _ h1 (by omega)]
  · intro k hk
    rw [below _ (by omega), memcpy_outside _ _ _ _ _ (by omega),
      memcpy_inside _ _ _ _ _ (by omega) (by omega)]
    congr 2
    omega
  · intro k hk
    rw [below _ (by omega), memcpy_inside _ _ _ _ _ (by omega) (by omega)]
    congr 2
    omega
  · intro x hx
    rw [below _ (by omega), memcpy_outside _ _ _ _ _ (by omega),
      memcpy_outside _ _ _ _ _ (by omega), memcpy_outside _ _ _ _ _ (by omega),
      write8_other _ _ _ _ (by omega)]

/-- The ways one round can end with a `return`. -/
theorem assembleAttempt_done (T : Target) (fuel descSize : Nat) (mem mem' : Mem)
    (g g' : DvmJitGlobals) (cUnit cUnit' : CompilationUnit)
    (h : assembleAttempt T fuel descSize mem g cUnit = .ok (.done mem' g' cUnit')) :
    ∃ L, layoutPass fuel descSize cUnit = .ok L ∧ cUnit'.totalSize = L.cUnit.totalSize ∧
      cUnit'.dataOffset = L.cUnit.dataOffset ∧
      ((g.codeCacheByteUsed + L.cUnit.totalSize > T.CODE_CACHE_SIZE ∧ mem' = mem ∧
          g' = { g with codeCacheFull := true } ∧ cUnit'.baseAddr = none) ∨
       (¬ g.codeCacheByteUsed + L.cUnit.totalSize > T.CODE_CACHE_SIZE ∧
          T.codeBufferAlloc L.chainCellOffset = false ∧ mem' = mem ∧ g' = g ∧
          cUnit'.baseAddr = none) ∨
       (¬ g.codeCacheByteUsed + L.cUnit.totalSize > T.CODE_CACHE_SIZE ∧
          T.codeBufferAlloc L.chainCellOffset = true ∧
          ∃ cUnit2, assembleInstructions fuel L.cUnit (g.codeCache + g.codeCacheByteUsed)
              = .ok (cUnit2, false) ∧
            2 * cUnit2.codeBuffer.length ≤ L.chainCellOffset ∧
            installUnit T fuel descSize mem g cUnit2 L.chainCellOffset L.offset
              = .ok (mem', g', cUnit'))) := by
  unfold assembleAttempt at h
  split at h
  · exact absurd h (by simp)
  · rename_i L hL
    refine ⟨L, hL, ?_⟩
    split at h
    · rename_i hfull
      simp only [Except.ok.injEq, Attempt.done.injEq] at h
      obtain ⟨rfl, rfl, rfl⟩ := h
      exact ⟨rfl, rfl, Or.inl ⟨hfull, rfl, rfl, rfl⟩⟩
    · rename_i hfull
      split at h
      · rename_i halloc
        simp only [Except.ok.injEq, Attempt.done.injEq] at h
        obtain ⟨rfl, rfl, rfl⟩ := h
        exact ⟨rfl, rfl, Or.inr (Or.inl ⟨hfull, halloc, rfl, rfl, rfl⟩)⟩
      · rename_i halloc
        split at h
        · exact absurd h (by simp)
        · rename_i cUnit2 needRetry hP
          split at h
          · exact absurd h (by simp)
          · rename_i hover
            split at h
            · exact absurd h (by simp)
            · rename_i hretry
              split at h
              · exact absurd h (by simp)
              · rename_i mem1 g1 cUnit3 hinst
                simp only [Except.ok.injEq, Attempt.done.injEq] at h
                obtain ⟨rfl, rfl, rfl⟩ := h
                have hnr : needRetry = false := by simpa using hretry
                subst hnr
                obtain ⟨_, _, hc3, _⟩ := installUnit_inv _ _ _ _ _ _ _ _ _ _ _ hinst
                obtain ⟨st, _, hc2, _⟩ := assembleInstructions_inv _ _ _ _ _ hP
                refine ⟨by rw [hc3, hc2], by rw [hc3, hc2], Or.inr (Or.inr ⟨hfull, ?_, cUnit2, hP,
                  by omega, hinst⟩)⟩
                simpa using halloc

/-- A round that publishes a code address has gone through the installation. -/
theorem assembleAttempt_installed (T : Target) (fuel descSize : Nat) (mem mem' : Mem)
    (g g' : DvmJitGlobals) (cUnit cUnit' : CompilationUnit)
    (h : assembleAttempt T fuel descSize mem g cUnit = .ok (.done mem' g' cUnit'))
    (hb : cUnit'.baseAddr ≠ none) :
    ∃ L cUnit2, layoutPass fuel descSize cUnit = .ok L ∧
      ¬ g.codeCacheByteUsed + L.cUnit.totalSize > T.CODE_CACHE_SIZE ∧
      assembleInstructions fuel L.cUnit (g.codeCache + g.codeCacheByteUsed)
        = .ok (cUnit2, false) ∧
      2 * cUnit2.codeBuffer.length ≤ L.chainCellOffset ∧
      installUnit T fuel descSize mem g cUnit2 L.chainCellOffset L.offset
        = .ok (mem', g', cUnit') := by
  obtain ⟨L, hL, _, _, hcase⟩ := assembleAttempt_done T fuel descSize mem mem' g g' cUnit cUnit' h
  rcases hcase with ⟨_, _, _, hn⟩ | ⟨_, _, _, _, hn⟩ | ⟨hfit, _, cUnit2, hP, hlen, hinst⟩
  · exact absurd hn hb
  · exact absurd hn hb
  · exact ⟨L, cUnit2, hL, hfit, hP, hlen, hinst⟩

/-- Sizes computed by the layout are not negative and grow from the code end
offset to the total size. -/
theorem layoutPass_sizes (fuel descSize : Nat) (cUnit : CompilationUnit) (L : Layout)
    (h : layoutPass fuel descSize cUnit = .ok L) :
    2 ≤ L.endOffset ∧ L.endOffset ≤ alignDown4 (L.endOffset + 3) ∧
    alignDown4 (L.endOffset + 3) % 4 = 0 ∧
    (L.chainCellOffset : Int) ≤ alignDown4 (L.endOffset + 3) ∧
    L.cUnit.dataOffset ≤ L.cUnit.totalSize ∧
    (L.chainCellOffset : Int) + sizeofChainCellCounts + descSize ≤ L.cUnit.dataOffset := by
  obtain ⟨lirs1, h1, hcco, hdo, h2, _, _⟩ := layoutPass_inv fuel descSize cUnit L h
  have hE := (assignOffsets_sameProgram _ _ _ _ _ _ h1).2
  have ht := (assignLiteralOffsets_offsetsOnly _ _ _ _ _ _ h2).2
  simp only [CHAIN_CELL_OFFSET_SIZE] at hE
  simp only [alignDown4, sizeofChainCellCounts] at *
  refine ⟨hE, by omega, by omega, by omega, ht, by omega⟩

/-! ## Layout and emission agree -/

theorem LaidOut_offset_mem (lirs : LIRHeap) (l : List Nat) (o E : Int)
    (hl : LaidOut lirs l o E) (he : o % 2 = 0) (i : Nat) (hi : i ∈ l) :
    (lirs i).offset % 2 = 0 ∧ o ≤ (lirs i).offset := by
  obtain ⟨pre, post, rfl⟩ := List.append_of_mem hi
  obtain ⟨o', a, b, c⟩ := LaidOut_split lirs pre (i :: post) o E hl he
  simp only [LaidOut] at c
  rw [c.1]
  exact ⟨a, b⟩

/-- The 16-bit word read from an installed block at an offset of the code
body is the word of the code buffer that belongs to the offset. -/
theorem read16_installed_code (mem' : Mem) (base : Int) (cco : Nat) (buffer : List Nat)
    (off : Int) (w : Nat)
    (hcode : ∀ x, base + 2 ≤ x → x < base + cco →
      mem' x = codeBufferByte buffer (x - (base + 2)).toNat % 256)
    (heven : off % 2 = 0) (h2 : 2 ≤ off) (hlen : 2 * buffer.length + 2 ≤ cco)
    (hw : buffer[wordIndex off]? = some w) (hw16 : w < 2 ^ 16) :
    read16 mem' (base + off) = w := by
  have hk : wordIndex off < buffer.length := by
    by_contra c
    rw [List.getElem?_eq_none (by omega)] at hw
    exact absurd hw (by simp)
  have hoff : off = 2 + 2 * (wordIndex off : Int) := by
    unfold wordIndex
    omega
  have e1 : (base + off - (base + 2)).toNat = 2 * wordIndex off := by omega
  have e2 : (base + off + 1 - (base + 2)).toNat = 2 * wordIndex off + 1 := by omega
  unfold read16 read8
  rw [hcode (base + off) (by omega) (by omega), hcode (base + off + 1) (by omega) (by omega),
    e1, e2, Nat.mod_mod, Nat.mod_mod, codeBufferByte_word buffer _ w hw]
  exact Nat.mod_eq_of_lt hw16

/-- C3 (as amended): in a round whose pass 2 finishes without asking for a
retry, on a unit with a well-formed instruction list and a separate literal
list, the word at index `(r.offset - 2) / 2` of the code buffer is the encoding
of `r` for every real instruction `r`, and `0x1C00` for every alignment
pseudo-op that pass 1 marked as padded; pass 2 stores exactly `(E - 2) / 2`
words, `E` being the end offset of pass 1.  Provided `E` rounded up to 4 is
below 65536 (so that the 16-bit `chainCellOffset` holds it), the words fit the
buffer of `chainCellOffset` bytes.  When the round installs the unit at
`base`, the 16-bit word at `base + r.offset` of the installed block is the
encoding of `r`, and `0x1C00` for a padded alignment pseudo-op. -/
theorem C3_layout_emission_agree (T : Target) (fuel descSize : Nat) (cUnit : CompilationUnit)
    (ixs ws : List Nat) (L : Layout) (cUnit2 : CompilationUnit) (sa : Int)
    (hi : Chain cUnit.lirs cUnit.firstLIRInsn ixs)
    (hw : Chain cUnit.lirs cUnit.wordList ws)
    (hd : ∀ q, q ∈ ixs → q ∉ ws)
    (hL : layoutPass fuel descSize cUnit = .ok L)
    (hP : assembleInstructions fuel L.cUnit sa = .ok (cUnit2, false)) :
    (∀ i ∈ ixs, (cUnit2.lirs i).offset = (L.cUnit.lirs i).offset) ∧
    (∀ i ∈ ixs, 0 ≤ (cUnit2.lirs i).opCode →
      ∃ enc, EncodingMap[(cUnit2.lirs i).opCode.toNat]? = some enc ∧
        cUnit2.codeBuffer[wordIndex (cUnit2.lirs i).offset]? =
          some (encodeBits enc (cUnit2.lirs i).operands)) ∧
    (∀ i ∈ ixs, (L.cUnit.lirs i).opCode = ARMV5TE_PSEUDO_ALIGN4 →
      (L.cUnit.lirs i).operands0 = 1 →
      cUnit2.codeBuffer[wordIndex (cUnit2.lirs i).offset]? = some PADDING_MOV_R0_R0) ∧
    (cUnit2.codeBuffer.length : Int) = (L.endOffset - 2) / 2 ∧
    (alignDown4 (L.endOffset + 3) < 65536 →
      2 * cUnit2.codeBuffer.length + 2 ≤ L.chainCellOffset) ∧
    (∀ (mem mem' : Mem) (g g' : DvmJitGlobals) (cUnit' : CompilationUnit),
      sa = g.codeCache + g.codeCacheByteUsed →
      assembleAttempt T fuel descSize mem g cUnit = .ok (.done mem' g' cUnit') →
      cUnit'.baseAddr ≠ none →
      (∀ i ∈ ixs, 0 ≤ (cUnit'.lirs i).opCode →
        ∃ enc, EncodingMap[(cUnit'.lirs i).opCode.toNat]? = some enc ∧
          read16 mem' (g.codeCache + g.codeCacheByteUsed + (cUnit'.lirs i).offset) =
            encodeBits enc (cUnit'.lirs i).operands) ∧
      (∀ i ∈ ixs, (cUnit'.lirs i).opCode = ARMV5TE_PSEUDO_ALIGN4 →
        (cUnit'.lirs i).operands0 = 1 →
        read16 mem' (g.codeCache + g.codeCacheByteUsed + (cUnit'.lirs i).offset) =
          PADDING_MOV_R0_R0)) := by
  obtain ⟨lay, hE, sl, _, _, _, _, hreal, hal⟩ :=
    layout_then_pass2 fuel descSize cUnit ixs ws L cUnit2 sa hi hw hd hL hP
  obtain ⟨hE2, hEle, _, hccole, _, hdo⟩ := layoutPass_sizes fuel descSize cUnit L hL
  obtain ⟨_, _, hcco, _, _, _, _⟩ := layoutPass_inv fuel descSize cUnit L hL
  have halign : ∀ i ∈ ixs, (L.cUnit.lirs i).opCode = ARMV5TE_PSEUDO_ALIGN4 →
      (L.cUnit.lirs i).operands0 = 1 →
      cUnit2.codeBuffer[wordIndex (cUnit2.lirs i).offset]? = some PADDING_MOV_R0_R0 := by
    intro i hi' hop h1
    have hneg : (L.cUnit.lirs i).opCode < 0 := by rw [hop]; decide
    have hrec := (sl i).2.2.2.2.2 hneg
    exact hal i hi' (by rw [hrec]; exact hop) (by rw [hrec]; exact h1)
  have hfitOf : alignDown4 (L.endOffset + 3) < 65536 →
      2 * cUnit2.codeBuffer.length + 2 ≤ L.chainCellOffset := by
    intro hsmall
    have hccoeq : (L.chainCellOffset : Int) = alignDown4 (L.endOffset + 3) := by
      rw [hcco]
      have h0 : 0 ≤ alignDown4 (L.endOffset + 3) := by omega
      omega
    omega
  refine ⟨fun i _ => (sl i).2.1, hreal, halign, by omega, hfitOf, ?_⟩
  intro mem mem' g g' cUnit' hsa hatt hb
  obtain ⟨L', cUnit2', hL', _, hP', hlen', hinst⟩ :=
    assembleAttempt_installed T fuel descSize mem mem' g g' cUnit cUnit' hatt hb
  rw [hL] at hL'
  simp only [Except.ok.injEq] at hL'
  subst hL'
  rw [← hsa, hP] at hP'
  simp only [Except.ok.injEq, Prod.mk.injEq, and_true] at hP'
  subst hP'
  have hfit : 2 * cUnit2.codeBuffer.length + 2 ≤ L.chainCellOffset := by
    apply hfitOf
    by_contra hbig
    have hccoeq : (L.chainCellOffset : Int) = alignDown4 (L.endOffset + 3) % 65536 := by
      rw [hcco]
      have h0 : 0 ≤ alignDown4 (L.endOffset + 3) % 65536 := Int.emod_nonneg _ (by norm_num)
      omega
    simp only [alignDown4] at hbig hccoeq hEle
    omega
  obtain ⟨_, _, hc', _⟩ := installUnit_inv _ _ _ _ _ _ _ _ _ _ _ hinst
  have hdo2 : (L.chainCellOffset : Int) + sizeofChainCellCounts + descSize
      ≤ cUnit2.dataOffset := by
    obtain ⟨st, _, hc2, _⟩ := assembleInstructions_inv _ _ _ _ _ hP
    rw [hc2]; exact hdo
  obtain ⟨_, _, hcode, _, _, _⟩ :=
    installUnit_memory T fuel descSize mem mem' g g' cUnit2 cUnit' _ _ hinst hdo2
  have hlirs : cUnit'.lirs = cUnit2.lirs := by rw [hc']
  rw [hlirs]
  constructor
  · intro i hi' hop
    obtain ⟨enc, henc, hword⟩ := hreal i hi' hop
    obtain ⟨hev, h2⟩ := LaidOut_offset_mem _ _ _ _ lay (by decide) i hi'
    simp only [CHAIN_CELL_OFFSET_SIZE] at h2
    refine ⟨enc, henc, ?_⟩
    exact read16_installed_code mem' _ _ _ _ _ hcode hev h2 hfit hword
      (encodeBits_lt enc (EncodingMap_layout_ok enc (List.getElem?_mem henc)) _)
  · intro i hi' hop h1
    have hneg : (L.cUnit.lirs i).opCode < 0 := by rw [← (sl i).1, hop]; decide
    have hrec := (sl i).2.2.2.2.2 hneg
    have hword := halign i hi' (by rw [← hrec]; exact hop) (by rw [← hrec]; exact h1)
    obtain ⟨hev, h2⟩ := LaidOut_offset_mem _ _ _ _ lay (by decide) i hi'
    simp only [CHAIN_CELL_OFFSET_SIZE] at h2
    exact read16_installed_code mem' _ _ _ _ _ hcode hev h2 hfit hword (by decide)

/-! ## A straight run of instructions -/

theorem movRunHeap_chain (n : Nat) :
    ∀ (m k : Nat), k + m = n →
      Chain (movRunHeap n) (if m = 0 then none else some k) (List.range' k m)
  | 0, _, _ => by simp [Chain]
  | m + 1, k, h => by
    rw [List.range'_succ]
    refine ⟨by simp, ?_⟩
    have := movRunHeap_chain n m (k + 1) (by omega)
    have hnext : (movRunHeap n k).next = if m = 0 then none else some (k + 1) := by
      simp only [movRunHeap, movLIR]
      by_cases c : m = 0
      · have : ¬ (k + 1 < n) := by omega
        simp [c, this]
      · have : k + 1 < n := by omega
        simp [c, this]
    rw [hnext]
    exact this

theorem LaidOut_all_real (lirs : LIRHeap) :
    ∀ (l : List Nat) (o E : Int), (∀ i ∈ l, 0 ≤ (lirs i).opCode) → LaidOut lirs l o E →
      E = o + 2 * (l.length : Int)
  | [], o, E, _, hl => by simp only [LaidOut] at hl; simp [hl]
  | i :: rest, o, E, hall, hl => by
    simp only [LaidOut] at hl
    obtain ⟨_, hrest⟩ := hl
    have hi : (lirs i).opCode ≥ 0 := hall i (by simp)
    rw [if_pos hi] at hrest
    have := LaidOut_all_real lirs rest _ _ (fun j hj => hall j (by simp [hj])) hrest
    rw [this]
    simp only [List.length_cons]
    push_cast
    omega

/-- Pass 2 on an instruction without a displacement: the word is stored. -/
theorem assembleStep_mov (sa : Int) (walk p : Nat) (st : AsmState)
    (hop : (st.lirs p).opCode = ARMV5TE_MOV_RR) (hr : st.retry = false) :
    ∃ w, assembleStep sa walk p st = .ok { st with buffer := st.buffer ++ [w] } := by
  have henc : EncodingMap[47]? = some (ENCODING_MAP 0x1c00 2 0 5 3 (-1) (-1) 2 "mov") := by
    decide
  refine ⟨encodeBits (ENCODING_MAP 0x1c00 2 0 5 3 (-1) (-1) 2 "mov") (st.lirs p).operands, ?_⟩
  simp [assembleStep, resolveDisplacement, emitInstruction, hop, hr, ARMV5TE_MOV_RR,
    ARMV5TE_LDR_PC_REL, ARMV5TE_ADD_PC_REL, ARMV5TE_B_COND, ARMV5TE_B_UNCOND, ARMV5TE_BLX_1,
    henc]

theorem assembleLoop_movs (sa : Int) (walk : Nat) :
    ∀ (ixs : List Nat) (fuel : Nat) (p : Option Nat) (st : AsmState),
      Chain st.lirs p ixs → (∀ i ∈ ixs, (st.lirs i).opCode = ARMV5TE_MOV_RR) →
      ixs.length < fuel → st.retry = false →
      ∃ st', assembleLoop sa walk fuel p st = .ok st' ∧ st'.retry = false
  | [], fuel, p, st, hc, _, hf, hr => by
    simp only [Chain] at hc
    subst hc
    cases fuel with
    | zero => simp at hf
    | succ f => exact ⟨st, by simp [assembleLoop], hr⟩
  | i :: rest, fuel, p, st, hc, hall, hf, hr => by
    obtain ⟨hp, hrest⟩ := hc
    subst hp
    cases fuel with
    | zero => simp at hf
    | succ f =>
      obtain ⟨w, hw⟩ := assembleStep_mov sa walk i st (hall i (by simp)) hr
      simp only [assembleLoop, hw]
      exact assembleLoop_movs sa walk rest f _ _ hrest (fun j hj => hall j (by simp [hj]))
        (by simp at hf; omega) hr

/-- One round on a run of `n` instructions: the layout succeeds, pass 2 asks
for no retry and stores `n` words. -/
theorem movRun_round (n fuel : Nat) (sa : Int) (hn : 0 < n) (hf : n < fuel) :
    ∃ L cUnit2, layoutPass fuel 8 (movRunUnit n) = .ok L ∧
      assembleInstructions fuel L.cUnit sa = .ok (cUnit2, false) ∧
      L.endOffset = 2 + 2 * (n : Int) ∧
      L.chainCellOffset = (alignDown4 (2 + 2 * (n : Int) + 3) % 65536).toNat ∧
      cUnit2.codeBuffer.length = n := by
  have hchain : Chain (movRunHeap n) (some 0) (List.range' 0 n) := by
    have := movRunHeap_chain n n 0 (by omega)
    rw [if_neg (by omega)] at this
    exact this
  have hlen : (List.range' 0 n).length = n := by simp
  obtain ⟨lirs1, E, h1, lay1, sp1, _⟩ :=
    assignOffsets_spec (List.range' 0 n) fuel (movRunHeap n) (some 0) CHAIN_CELL_OFFSET_SIZE
      hchain (Chain_nodup _ _ hchain) (by omega)
  have hmov : ∀ i, (lirs1 i).opCode = ARMV5TE_MOV_RR := by
    intro i
    rw [(sp1 i).1]
    simp [movRunHeap, movLIR]
  have hE : E = 2 + 2 * (n : Int) := by
    have := LaidOut_all_real lirs1 _ _ _ (fun i _ => by rw [hmov i]; decide) lay1
    rw [this, hlen]
    simp [CHAIN_CELL_OFFSET_SIZE]
  obtain ⟨f, rfl⟩ : ∃ f, fuel = f + 1 := ⟨fuel - 1, by omega⟩
  have hL : layoutPass (f + 1) 8 (movRunUnit n) = .ok
      { cUnit :=
          { movRunUnit n with
            lirs := lirs1,
            dataOffset := alignDown4 (E + 3) + sizeofChainCellCounts + (8 : Nat),
            totalSize := alignDown4 (E + 3) + sizeofChainCellCounts + (8 : Nat) },
        endOffset := E,
        chainCellOffset := (alignDown4 (E + 3) % 65536).toNat,
        offset := alignDown4 (E + 3) + sizeofChainCellCounts + (8 : Nat) } := by
    unfold layoutPass
    have hfirst : (movRunUnit n).firstLIRInsn = some 0 := rfl
    have hlirs : (movRunUnit n).lirs = movRunHeap n := rfl
    have hwl : (movRunUnit n).wordList = none := rfl
    rw [hfirst, hlirs, h1]
    simp only [hwl, assignLiteralOffsets]
    rw [if_neg]
    · rfl
    · simp only [alignDown4, sizeofChainCellCounts]
      omega
  have hchain1 : Chain lirs1 (some 0) (List.range' 0 n) :=
    Chain_congr (fun q => (sp1 q).2.1) _ _ hchain
  obtain ⟨st', hst, hret⟩ := assembleLoop_movs sa (f + 1) (List.range' 0 n) (f + 1) (some 0)
    { lirs := lirs1, numLIR := n, buffer := [], retry := false } hchain1
    (fun i _ => hmov i) (by rw [hlen]; omega) rfl
  have hP : assembleInstructions (f + 1)
      { movRunUnit n with
        lirs := lirs1,
        dataOffset := alignDown4 (E + 3) + sizeofChainCellCounts + (8 : Nat),
        totalSize := alignDown4 (E + 3) + sizeofChainCellCounts + (8 : Nat) } sa
      = .ok ({ movRunUnit n with
               lirs := st'.lirs,
               numLIR := st'.numLIR,
               codeBuffer := st'.buffer,
               dataOffset := alignDown4 (E + 3) + sizeofChainCellCounts + (8 : Nat),
               totalSize := alignDown4 (E + 3) + sizeofChainCellCounts + (8 : Nat) },
             false) := by
    unfold assembleInstructions
    have hfirst : (movRunUnit n).firstLIRInsn = some 0 := rfl
    have hnum : (movRunUnit n).numLIR = n := rfl
    simp only [hfirst, hnum, hst, hret]
  refine ⟨_, _, hL, hP, hE, by rw [hE], ?_⟩
  have hw : Chain (movRunUnit n).lirs (movRunUnit n).wordList [] := by
    simp [Chain, movRunUnit, unitOf]
  obtain ⟨_, hE', _⟩ := layout_then_pass2 (f + 1) 8 (movRunUnit n) (List.range' 0 n) [] _ _ sa
    hchain hw (fun _ _ => by simp) hL hP
  have hE'' : E = 2 + 2 * (st'.buffer.length : Int) := hE'
  show st'.buffer.length = n
  omega

/-- Counterexample to C3 as stated: on a run of 32767 instructions pass 1 ends
at offset 65536, the 16-bit `chainCellOffset` (the size of the code buffer) is
0, and pass 2 finishes without asking for a retry after storing 32767 words,
that is 65534 bytes. -/
theorem C3_counterexample :
    ∃ L cUnit2, layoutPass 32768 8 (movRunUnit 32767) = .ok L ∧
      assembleInstructions 32768 L.cUnit 0x1000 = .ok (cUnit2, false) ∧
      L.endOffset = 65536 ∧ L.chainCellOffset = 0 ∧ cUnit2.codeBuffer.length = 32767 ∧
      L.chainCellOffset < 2 * cUnit2.codeBuffer.length := by
  obtain ⟨L, cUnit2, h1, h2, h3, h4, h5⟩ :=
    movRun_round 32767 32768 0x1000 (by decide) (by decide)
  have h0 : L.chainCellOffset = 0 := by
    rw [h4]
    simp only [alignDown4]
    decide
  exact ⟨L, cUnit2, h1, h2, by rw [h3]; norm_num, h0, h5, by rw [h0, h5]; decide⟩

/-- Witness of C3 on a run of two instructions. -/
theorem C3_layout_emission_agree_witness :
    ∃ L cUnit2, layoutPass 8 8 (movRunUnit 2) = .ok L ∧
      assembleInstructions 8 L.cUnit 0x1000 = .ok (cUnit2, false) ∧
      (cUnit2.codeBuffer.length : Int) = (L.endOffset - 2) / 2 := by
  obtain ⟨L, cUnit2, h1, h2, _⟩ := movRun_round 2 8 0x1000 (by decide) (by decide)
  have hchain : Chain (movRunUnit 2).lirs (movRunUnit 2).firstLIRInsn [0, 1] :=
    ⟨rfl, rfl, rfl⟩
  have hw : Chain (movRunUnit 2).lirs (movRunUnit 2).wordList [] := rfl
  exact ⟨L, cUnit2, h1, h2,
    (C3_layout_emission_agree exampleTarget 8 8 (movRunUnit 2) [0, 1] [] L cUnit2 0x1000
      hchain hw (fun _ _ => by simp) h1 h2).2.2.2.1⟩

/-! ## Literal pool -/

theorem toU32_lt (x : Int) : toU32 x < 2 ^ 32 := by
  unfold toU32
  have h1 : (0 : Int) ≤ x % 2 ^ 32 := Int.emod_nonneg _ (by norm_num)
  have h2 : x % 2 ^ 32 < 2 ^ 32 := Int.emod_lt_of_pos _ (by norm_num)
  omega

theorem installedView_some (r : Except Fault Attempt) (mem : Mem) (g : DvmJitGlobals)
    (cUnit : CompilationUnit) (h : installedView r = some (mem, g, cUnit)) :
    r = .ok (.done mem g cUnit) ∧ cUnit.baseAddr ≠ none := by
  unfold installedView at h
  split at h
  · rename_i m g1 c
    split at h
    · rename_i hb
      simp only [Option.some.injEq, Prod.mk.injEq] at h
      obtain ⟨rfl, rfl, rfl⟩ := h
      exact ⟨rfl, hb⟩
    · exact absurd h (by simp)
  · exact absurd h (by simp)

theorem installedView_isSome (r : Except Fault Attempt) (h : (installedView r).isSome = true) :
    ∃ mem g cUnit, r = .ok (.done mem g cUnit) ∧ cUnit.baseAddr ≠ none := by
  obtain ⟨⟨mem, g, cUnit⟩, hx⟩ := Option.isSome_iff_exists.mp h
  exact ⟨mem, g, cUnit, installedView_some r mem g cUnit hx⟩

/-- C5: for a unit with a well-formed instruction list and a separate literal
list `ws` that a round installs at block base `B = codeCache + used`, the data
offset is the code end offset rounded up to 4 plus the size of the chain cell
counts plus the size of the trace description, literal `k` is assigned offset
`dataOffset + 4 k`, the total size is `dataOffset + 4 n`, and after the
installation the 32-bit word at `B + dataOffset + 4 k` is literal `k`. -/
theorem C5_literal_pool (T : Target) (fuel descSize : Nat) (mem mem' : Mem)
    (g g' : DvmJitGlobals) (cUnit cUnit' : CompilationUnit) (ixs ws : List Nat)
    (hi : Chain cUnit.lirs cUnit.firstLIRInsn ixs)
    (hw : Chain cUnit.lirs cUnit.wordList ws)
    (hd : ∀ q, q ∈ ixs → q ∉ ws)
    (hatt : assembleAttempt T fuel descSize mem g cUnit = .ok (.done mem' g' cUnit'))
    (hb : cUnit'.baseAddr ≠ none) :
    ∃ L, layoutPass fuel descSize cUnit = .ok L ∧
      cUnit'.dataOffset = alignDown4 (L.endOffset + 3) + sizeofChainCellCounts + descSize ∧
      (∀ k (hk : k < ws.length),
        (cUnit'.lirs (ws.get ⟨k, hk⟩)).offset = cUnit'.dataOffset + 4 * (k : Int)) ∧
      cUnit'.totalSize = cUnit'.dataOffset + 4 * (ws.length : Int) ∧
      (∀ k (hk : k < ws.length),
        read32 mem' (g.codeCache + g.codeCacheByteUsed + cUnit'.dataOffset + 4 * (k : Int)) =
          toU32 (cUnit.lirs (ws.get ⟨k, hk⟩)).operands0) := by
  obtain ⟨L, cUnit2, hL, _, hP, _, hinst⟩ :=
    assembleAttempt_installed T fuel descSize mem mem' g g' cUnit cUnit' hatt hb
  obtain ⟨lirs1, h1, _, hdo, h2, _, hLc⟩ := layoutPass_inv fuel descSize cUnit L hL
  obtain ⟨_, _, sl, sp, _, _, hws, _, _⟩ :=
    layout_then_pass2 fuel descSize cUnit ixs ws L cUnit2 _ hi hw hd hL hP
  have sp1 := (assignOffsets_sameProgram _ _ _ _ _ _ h1).1
  have hw1 : Chain lirs1 cUnit.wordList ws := Chain_congr (fun q => (sp1 q).2.1) ws _ hw
  obtain ⟨htot, hoffs, _, _⟩ := assignLiteralOffsets_ok ws fuel _ _ _ _ _ hw1 h2
  obtain ⟨st, _, hc2, _⟩ := assembleInstructions_inv _ _ _ _ _ hP
  obtain ⟨_, _, hc', hdata⟩ := installUnit_inv _ _ _ _ _ _ _ _ _ _ _ hinst
  have hlirs : cUnit'.lirs = cUnit2.lirs := by rw [hc']
  have hdo' : cUnit'.dataOffset = L.cUnit.dataOffset := by rw [hc', hc2]
  have hdo2 : cUnit2.dataOffset = L.cUnit.dataOffset := by rw [hc2]
  have htot' : cUnit'.totalSize = L.cUnit.totalSize := by rw [hc', hc2]
  have hwl : cUnit2.wordList = cUnit.wordList := by rw [hc2, hLc]
  have hw2 : Chain cUnit2.lirs cUnit2.wordList ws := by
    rw [hwl]
    exact Chain_congr (fun q => (sl q).2.2.1) ws _
      (Chain_congr (fun q => (sp q).2.1) ws _ hw)
  obtain ⟨hread, _⟩ := installDataContent_ok ws fuel _ _ _ _ _ hw2 hdata
  refine ⟨L, hL, by rw [hdo', hdo], ?_, by rw [htot', hdo', htot], ?_⟩
  · intro k hk
    rw [hlirs, (sl _).2.1, hoffs k hk, hdo']
  · intro k hk
    have := hread k hk
    rw [hdo2] at this
    rw [hdo', this, hws _ (List.get_mem ws k hk), Nat.mod_eq_of_lt (toU32_lt _)]

set_option maxRecDepth 100000 in
/-- Witness of C5, the scenario of the specification: a unit with the single
literal `0x12345678` and no instruction, installed into an empty cache at
`0x1000`; the literal sits behind the metadata, at offset 16, and the word
installed there is `0x12345678`. -/
theorem C5_literal_pool_witness :
    ∃ mem' g' cUnit',
      assembleAttempt exampleTarget 4 8 zeroMem emptyCache oneLiteralUnit
        = .ok (.done mem' g' cUnit') ∧
      cUnit'.baseAddr ≠ none ∧ cUnit'.dataOffset = 16 ∧
      read32 mem' (0x1000 + 0 + cUnit'.dataOffset + 4 * ((0 : Nat) : Int)) = 0x12345678 := by
  obtain ⟨mem', g', cUnit', hatt, hb⟩ :=
    installedView_isSome
      (assembleAttempt exampleTarget 4 8 zeroMem emptyCache oneLiteralUnit) (by decide)
  have hi : Chain oneLiteralUnit.lirs oneLiteralUnit.firstLIRInsn [] := rfl
  have hw : Chain oneLiteralUnit.lirs oneLiteralUnit.wordList [0] := ⟨rfl, rfl⟩
  obtain ⟨L, hL, h1, _, _, h4⟩ :=
    C5_literal_pool exampleTarget 4 8 zeroMem mem' emptyCache g' oneLiteralUnit cUnit' [] [0]
      hi hw (fun _ hq => by simp at hq) hatt hb
  have hE : L.endOffset = 2 := by
    have : (match layoutPass 4 8 oneLiteralUnit with
        | .ok L => L.endOffset | .error _ => 0) = 2 := by decide
    rw [hL] at this
    exact this
  refine ⟨mem', g', cUnit', hatt, hb, ?_, ?_⟩
  · rw [h1, hE]; decide
  · have := h4 0 (by decide)
    exact this.trans (by decide)

/-! ## Admission check -/

/-- The result of the retry loop is the result of its last round. -/
theorem assembleRounds_last (T : Target) (fuel descSize : Nat) :
    ∀ (rounds : Nat) (mem mem' : Mem) (g g' : DvmJitGlobals) (cUnit cUnit' : CompilationUnit),
      assembleRounds T fuel descSize rounds mem g cUnit = .ok (mem', g', cUnit') →
      ∃ cUnitK, assembleAttempt T fuel descSize mem g cUnitK = .ok (.done mem' g' cUnit')
  | 0, _, _, _, _, _, _, h => by simp [assembleRounds] at h
  | n + 1, mem, mem', g, g', cUnit, cUnit', h => by
    simp only [assembleRounds] at h
    split at h
    · exact absurd h (by simp)
    · exact assembleRounds_last T fuel descSize n mem mem' g g' _ cUnit' h
    · rename_i mem1 g1 cUnit1 hatt
      simp only [Except.ok.injEq, Prod.mk.injEq] at h
      obtain ⟨rfl, rfl, rfl⟩ := h
      exact ⟨cUnit, hatt⟩

theorem dvmCompilerAssembleLIR_last (T : Target) (fuel rounds : Nat) (mem mem' : Mem)
    (g g' : DvmJitGlobals) (cUnit cUnit' : CompilationUnit)
    (h : dvmCompilerAssembleLIR T fuel rounds mem g cUnit = .ok (mem', g', cUnit')) :
    ∃ descSize cUnitK,
      assembleAttempt T fuel descSize mem g cUnitK = .ok (.done mem' g' cUnit') := by
  unfold dvmCompilerAssembleLIR at h
  split at h
  · exact absurd h (by simp)
  · rename_i descSize _
    obtain ⟨cUnitK, hk⟩ := assembleRounds_last T fuel descSize rounds mem mem' g g' cUnit cUnit' h
    exact ⟨descSize, cUnitK, hk⟩

/-- The three ways a call of `dvmCompilerAssembleLIR` returns: the unit does
not fit, the scratch buffer cannot be had, or the unit is installed. -/
theorem assemble_admission (T : Target) (fuel rounds : Nat) (mem mem' : Mem)
    (g g' : DvmJitGlobals) (cUnit cUnit' : CompilationUnit)
    (h : dvmCompilerAssembleLIR T fuel rounds mem g cUnit = .ok (mem', g', cUnit')) :
    0 ≤ cUnit'.totalSize ∧
    ((g.codeCacheByteUsed + cUnit'.totalSize > T.CODE_CACHE_SIZE ∧ mem' = mem ∧
        g' = { g with codeCacheFull := true } ∧ cUnit'.baseAddr = none) ∨
     (¬ g.codeCacheByteUsed + cUnit'.totalSize > T.CODE_CACHE_SIZE ∧
        (∃ n, T.codeBufferAlloc n = false) ∧ mem' = mem ∧ g' = g ∧ cUnit'.baseAddr = none) ∨
     (¬ g.codeCacheByteUsed + cUnit'.totalSize > T.CODE_CACHE_SIZE ∧
        g' = { g with codeCacheByteUsed := g.codeCacheByteUsed + cUnit'.totalSize,
                      numCompilations := g.numCompilations + 1 } ∧
        cUnit'.baseAddr = some (g.codeCache + g.codeCacheByteUsed + 2))) := by
  obtain ⟨descSize, cUnitK, hatt⟩ := dvmCompilerAssembleLIR_last T fuel rounds mem mem' g g' cUnit cUnit' h
  obtain ⟨L, hL, htot, _, hcase⟩ := assembleAttempt_done T fuel descSize mem mem' g g' cUnitK cUnit' hatt
  obtain ⟨_, _, _, _, hs5, hs6⟩ := layoutPass_sizes fuel descSize cUnitK L hL
  obtain ⟨_, _, _, _, _, hoff, _⟩ := layoutPass_inv fuel descSize cUnitK L hL
  have hnn : 0 ≤ cUnit'.totalSize := by
    rw [htot]
    simp only [sizeofChainCellCounts] at hs6
    omega
  refine ⟨hnn, ?_⟩
  rw [htot]
  rcases hcase with ⟨a, b, c, d⟩ | ⟨a, b, c, d, e⟩ | ⟨a, _, cUnit2, _, _, hinst⟩
  · exact Or.inl ⟨a, b, c, d⟩
  · exact Or.inr (Or.inl ⟨a, ⟨_, b⟩, c, d, e⟩)
  · obtain ⟨_, hg, hc, _⟩ := installUnit_inv _ _ _ _ _ _ _ _ _ _ _ hinst
    refine Or.inr (Or.inr ⟨a, by rw [hg, hoff], ?_⟩)
    rw [hc]
    simp [CHAIN_CELL_OFFSET_SIZE]

/-- C6: admission check of `dvmCompilerAssembleLIR`, for a call that returns
and whose scratch allocation succeeds.  The unit is rejected (null base
address) exactly when used bytes + total size exceed the capacity.  On
rejection the cache-full flag is set and the cursor and the whole memory are
unchanged.  On acceptance the cursor advances by exactly the total size, the
published address is cache start + old cursor + 2, and the cursor is at most
the capacity.  The cursor never decreases. -/
theorem C6_admission_check (T : Target) (fuel rounds : Nat) (mem mem' : Mem)
    (g g' : DvmJitGlobals) (cUnit cUnit' : CompilationUnit)
    (halloc : ∀ n, T.codeBufferAlloc n = true)
    (h : dvmCompilerAssembleLIR T fuel rounds mem g cUnit = .ok (mem', g', cUnit')) :
    (cUnit'.baseAddr = none ↔
      g.codeCacheByteUsed + cUnit'.totalSize > T.CODE_CACHE_SIZE) ∧
    (cUnit'.baseAddr = none →
      g'.codeCacheFull = true ∧ g'.codeCacheByteUsed = g.codeCacheByteUsed ∧ mem' = mem) ∧
    (cUnit'.baseAddr ≠ none →
      g'.codeCacheByteUsed = g.codeCacheByteUsed + cUnit'.totalSize ∧
      cUnit'.baseAddr = some (g.codeCache + g.codeCacheByteUsed + 2) ∧
      g'.codeCacheByteUsed ≤ T.CODE_CACHE_SIZE) ∧
    g.codeCacheByteUsed ≤ g'.codeCacheByteUsed := by
  obtain ⟨hnn, hcase⟩ := assemble_admission T fuel rounds mem mem' g g' cUnit cUnit' h
  rcases hcase with ⟨a, b, c, d⟩ | ⟨_, ⟨n, hn⟩, _⟩ | ⟨a, b, c⟩
  · refine ⟨⟨fun _ => a, fun _ => d⟩, fun _ => ⟨by rw [c], by rw [c], b⟩,
      fun hne => absurd d hne, by rw [c]⟩
  · rw [halloc n] at hn
    exact absurd hn (by simp)
  · have hsome : cUnit'.baseAddr ≠ none := by rw [c]; simp
    refine ⟨⟨fun hn => absurd hn hsome, fun hgt => absurd hgt a⟩,
      fun hn => absurd hn hsome, fun _ => ⟨by rw [b], c, by rw [b]; simp only []; omega⟩, ?_⟩
    rw [b]
    simp only []
    omega

set_option maxRecDepth 100000 in
/-- Witness of C6: a run of four instructions needs 24 bytes and is rejected by
a cache with 20 bytes left. -/
theorem C6_admission_check_witness :
    ∃ mem' g' cUnit',
      dvmCompilerAssembleLIR exampleTarget 8 2 zeroMem
          { emptyCache with codeCacheByteUsed := 44 } (movRunUnit 4) = .ok (mem', g', cUnit') ∧
      (cUnit'.baseAddr = none ↔ 44 + cUnit'.totalSize > 64) := by
  have hsome : (resultView (dvmCompilerAssembleLIR exampleTarget 8 2 zeroMem
      { emptyCache with codeCacheByteUsed := 44 } (movRunUnit 4))).isSome = true := by decide
  generalize hr : dvmCompilerAssembleLIR exampleTarget 8 2 zeroMem
      { emptyCache with codeCacheByteUsed := 44 } (movRunUnit 4) = r at hsome
  match r, hr with
  | .ok (mem', g', cUnit'), hr =>
    exact ⟨mem', g', cUnit', rfl,
      (C6_admission_check exampleTarget 8 2 zeroMem mem'
        { emptyCache with codeCacheByteUsed := 44 } g' (movRunUnit 4) cUnit'
        (fun _ => rfl) hr).1⟩
  | .error e, _ => exact absurd hsome (by simp [resultView])

/-! ## A full cache -/

set_option maxRecDepth 100000 in
/-- Counterexample to C7 as stated: a cache of 64 bytes with 44 used.  A run of
four instructions needs 24 bytes: the call leaves the base address null and
sets the cache-full flag.  The next call, for a single instruction (16 bytes),
installs the unit at cursor 44 and moves the cursor to 60, although the flag is
set. -/
theorem C7_counterexample :
    resultView (dvmCompilerAssembleLIR exampleTarget 8 2 zeroMem
      { emptyCache with codeCacheByteUsed := 44 } (movRunUnit 4)) = some (none, true, 44) ∧
    resultView (thenAssemble exampleTarget 8 2
      (dvmCompilerAssembleLIR exampleTarget 8 2 zeroMem
        { emptyCache with codeCacheByteUsed := 44 } (movRunUnit 4)) (movRunUnit 1))
      = some (some (0x1000 + 44 + 2), true, 60) := by
  decide

/-- C7 (as amended): once a call of `dvmCompilerAssembleLIR` has rejected a
unit and marked the code cache full, the flag stays set, and a later call
leaves the base address null and the cursor and the memory unchanged exactly
when its unit does not fit the remaining space, in particular for every unit
at least as large as the rejected one.  (The function itself never reads the
flag; a unit that still fits is installed.) -/
theorem C7_full_cache (T : Target) (fuel rounds fuel2 rounds2 : Nat) (mem mem1 mem2 : Mem)
    (g g1 g2 : DvmJitGlobals) (cUnitA cUnitA' cUnitB cUnitB' : CompilationUnit)
    (halloc : ∀ n, T.codeBufferAlloc n = true)
    (h1 : dvmCompilerAssembleLIR T fuel rounds mem g cUnitA = .ok (mem1, g1, cUnitA'))
    (hrej : cUnitA'.baseAddr = none)
    (h2 : dvmCompilerAssembleLIR T fuel2 rounds2 mem1 g1 cUnitB = .ok (mem2, g2, cUnitB')) :
    g1.codeCacheFull = true ∧ g2.codeCacheFull = true ∧
    (cUnitB'.baseAddr = none ↔
      g1.codeCacheByteUsed + cUnitB'.totalSize > T.CODE_CACHE_SIZE) ∧
    (cUnitB'.baseAddr = none → g2.codeCacheByteUsed = g1.codeCacheByteUsed ∧ mem2 = mem1) ∧
    (cUnitA'.totalSize ≤ cUnitB'.totalSize →
      cUnitB'.baseAddr = none ∧ g2.codeCacheByteUsed = g1.codeCacheByteUsed ∧ mem2 = mem1) := by
  obtain ⟨_, hc1⟩ := assemble_admission T fuel rounds mem mem1 g g1 cUnitA cUnitA' h1
  obtain ⟨_, hc2⟩ := assemble_admission T fuel2 rounds2 mem1 mem2 g1 g2 cUnitB cUnitB' h2
  have hA : g.codeCacheByteUsed + cUnitA'.totalSize > T.CODE_CACHE_SIZE ∧
      g1 = { g with codeCacheFull := true } := by
    rcases hc1 with ⟨a, _, c, _⟩ | ⟨_, ⟨n, hn⟩, _⟩ | ⟨_, _, c⟩
    · exact ⟨a, c⟩
    · rw [halloc n] at hn; exact absurd hn (by simp)
    · rw [c] at hrej; exact absurd hrej (by simp)
  obtain ⟨hgt, hg1⟩ := hA
  have hfull1 : g1.codeCacheFull = true := by rw [hg1]
  have hused1 : g1.codeCacheByteUsed = g.codeCacheByteUsed := by rw [hg1]
  rcases hc2 with ⟨a, b, c, d⟩ | ⟨_, ⟨n, hn⟩, _⟩ | ⟨a, b, c⟩
  · refine ⟨hfull1, by rw [c], ⟨fun _ => a, fun _ => d⟩, fun _ => ⟨by rw [c], b⟩,
      fun _ => ⟨d, by rw [c], b⟩⟩
  · rw [halloc n] at hn; exact absurd hn (by simp)
  · have hsome : cUnitB'.baseAddr ≠ none := by rw [c]; simp
    refine ⟨hfull1, by rw [b]; exact hfull1,
      ⟨fun hn => absurd hn hsome, fun hgt2 => absurd hgt2 a⟩, fun hn => absurd hn hsome, ?_⟩
    intro hle
    exfalso
    apply a
    rw [hused1]
    omega

set_option maxRecDepth 100000 in
/-- Witness of C7: after the rejection of a run of four instructions, a run of
five is rejected as well. -/
theorem C7_full_cache_witness :
    ∃ mem1 g1 cUnitA' mem2 g2 cUnitB',
      dvmCompilerAssembleLIR exampleTarget 8 2 zeroMem
          { emptyCache with codeCacheByteUsed := 44 } (movRunUnit 4)
        = .ok (mem1, g1, cUnitA') ∧
      cUnitA'.baseAddr = none ∧
      dvmCompilerAssembleLIR exampleTarget 8 2 mem1 g1 (movRunUnit 5)
        = .ok (mem2, g2, cUnitB') ∧
      g2.codeCacheFull = true := by
  have hv1 : resultView (dvmCompilerAssembleLIR exampleTarget 8 2 zeroMem
      { emptyCache with codeCacheByteUsed := 44 } (movRunUnit 4)) = some (none, true, 44) := by
    decide
  have hv2 : (resultView (thenAssemble exampleTarget 8 2
      (dvmCompilerAssembleLIR exampleTarget 8 2 zeroMem
        { emptyCache with codeCacheByteUsed := 44 } (movRunUnit 4)) (movRunUnit 5))).isSome
      = true := by decide
  generalize hr : dvmCompilerAssembleLIR exampleTarget 8 2 zeroMem
      { emptyCache with codeCacheByteUsed := 44 } (movRunUnit 4) = r at hv1 hv2
  match r, hr with
  | .error e, _ => exact absurd hv1 (by simp [resultView])
  | .ok (mem1, g1, cUnitA'), hr =>
    have hrej : cUnitA'.baseAddr = none := by
      simp only [resultView, Option.some.injEq, Prod.mk.injEq] at hv1
      exact hv1.1
    simp only [thenAssemble] at hv2
    generalize hr2 : dvmCompilerAssembleLIR exampleTarget 8 2 mem1 g1 (movRunUnit 5) = r2 at hv2
    match r2, hr2 with
    | .error e, _ => exact absurd hv2 (by simp [resultView])
    | .ok (mem2, g2, cUnitB'), hr2 =>
      exact ⟨mem1, g1, cUnitA', mem2, g2, cUnitB', rfl, hrej, hr2,
        (C7_full_cache exampleTarget 8 2 8 2 zeroMem mem1 mem2
          { emptyCache with codeCacheByteUsed := 44 } g1 g2 (movRunUnit 4) cUnitA'
          (movRunUnit 5) cUnitB' (fun _ => rfl) hr hrej hr2).2.1⟩

/-! ## Header of an installed block -/

/-- The 16-bit value read at the base of an installed block: the low byte is
the low byte of the chain cell offset, the high byte is whatever the memory
held at `base + 1` before the installation. -/
theorem installed_header_value (T : Target) (fuel descSize : Nat) (mem mem' : Mem)
    (g g' : DvmJitGlobals) (cUnit cUnit' : CompilationUnit)
    (hatt : assembleAttempt T fuel descSize mem g cUnit = .ok (.done mem' g' cUnit'))
    (hb : cUnit'.baseAddr ≠ none) :
    ∃ L, layoutPass fuel descSize cUnit = .ok L ∧
      read16 mem' (g.codeCache + g.codeCacheByteUsed) =
        L.chainCellOffset % 256 + 256 * (mem (g.codeCache + g.codeCacheByteUsed + 1) % 256) := by
  obtain ⟨L, cUnit2, hL, _, hP, _, hinst⟩ :=
    assembleAttempt_installed T fuel descSize mem mem' g g' cUnit cUnit' hatt hb
  obtain ⟨_, _, _, _, _, hdo⟩ := layoutPass_sizes fuel descSize cUnit L hL
  obtain ⟨st, _, hc2, _⟩ := assembleInstructions_inv _ _ _ _ _ hP
  have hdo2 : (L.chainCellOffset : Int) + sizeofChainCellCounts + descSize
      ≤ cUnit2.dataOffset := by rw [hc2]; exact hdo
  obtain ⟨m0, m1, _⟩ :=
    installUnit_memory T fuel descSize mem mem' g g' cUnit2 cUnit' _ _ hinst hdo2
  refine ⟨L, hL, ?_⟩
  unfold read16 read8
  rw [m0, m1, Nat.mod_mod]

set_option maxRecDepth 1000000 in
/-- C8, the code at a failing input: a run of 127 instructions installed into
an empty, zero-filled cache at `0x1000`.  The layout computes the chain cell
offset 256, the unit is installed (code address `0x1002`, 268 bytes), and the
16-bit header read at the block base is 0, not 256: the store through a `char`
pointer wrote the low byte only. -/
theorem C8_header_low_byte_only :
    layoutView (layoutPass 200 8 (movRunUnit 127)) = some (256, 256) ∧
    resultView (dvmCompilerAssembleLIR bigTarget 200 2 zeroMem emptyCache (movRunUnit 127))
      = some (some 0x1002, false, 268) ∧
    read16View (dvmCompilerAssembleLIR bigTarget 200 2 zeroMem emptyCache (movRunUnit 127))
      0x1000 = some 0 := by
  decide

/-! ## Installer and unchain -/

set_option maxRecDepth 100000 in
/-- Counterexample to C9 as stated: a run of two instructions installed into an
empty, zero-filled cache at `B = 0x1000`; the chain cell offset is `C = 8` and
the published base address is `B + 2 = 0x1002`.  Called on that address,
`dvmJitUnchain` reads the offset at `0xFFF`, one byte below the block, where it
finds 2048, and takes the count block to be at `0x1002 + 2048 - 3`, not at
`B + C = 0x1008`. -/
theorem C9_counterexample :
    layoutView (layoutPass 8 8 (movRunUnit 2)) = some (6, 8) ∧
    resultView (dvmCompilerAssembleLIR exampleTarget 8 2 zeroMem emptyCache (movRunUnit 2))
      = some (some 0x1002, false, 20) ∧
    unchainAddrView (dvmCompilerAssembleLIR exampleTarget 8 2 zeroMem emptyCache (movRunUnit 2))
      0x1002 = some (0xFFF, 0x1002 + 2048 - 3) := by
  decide

/-- C9 (as amended): for a unit installed by a round at block base `B` with
chain cell offset `C`, the published base address is `B + 2`; called on the
Thumb code address, published address + 1 (low bit set, as the comment of
`dvmJitUnchain` requires), `dvmJitUnchain` reads the chain cell offset at
address `B`, where the installer stored (the low byte of) `C`, and, when the
two header bytes read back as `C`, the chain cell counts at address `B + C`,
where the installer copied them. -/
theorem C9_unchain_addresses (T : Target) (fuel descSize : Nat) (mem mem' : Mem)
    (g g' : DvmJitGlobals) (cUnit cUnit' : CompilationUnit) (E : Int)
    (hatt : assembleAttempt T fuel descSize mem g cUnit = .ok (.done mem' g' cUnit'))
    (hE : cUnit'.baseAddr = some E) :
    ∃ L, layoutPass fuel descSize cUnit = .ok L ∧
      E = g.codeCache + g.codeCacheByteUsed + 2 ∧
      unchainOffsetAddr (E + 1) = g.codeCache + g.codeCacheByteUsed ∧
      mem' (g.codeCache + g.codeCacheByteUsed) = L.chainCellOffset % 256 ∧
      (read16 mem' (g.codeCache + g.codeCacheByteUsed) = L.chainCellOffset →
        unchainCountsAddr mem' (E + 1) =
          g.codeCache + g.codeCacheByteUsed + L.chainCellOffset) ∧
      (∀ i : Nat, i < CHAINING_CELL_LAST →
        read8 mem' (g.codeCache + g.codeCacheByteUsed + L.chainCellOffset + i) =
          (cUnit.numChainingCells i % 256).toNat) := by
  have hb : cUnit'.baseAddr ≠ none := by rw [hE]; simp
  obtain ⟨L, cUnit2, hL, _, hP, _, hinst⟩ :=
    assembleAttempt_installed T fuel descSize mem mem' g g' cUnit cUnit' hatt hb
  obtain ⟨_, _, _, _, _, hdo⟩ := layoutPass_sizes fuel descSize cUnit L hL
  obtain ⟨_, _, _, _, _, _, hLc⟩ := layoutPass_inv fuel descSize cUnit L hL
  obtain ⟨st, _, hc2, _⟩ := assembleInstructions_inv _ _ _ _ _ hP
  have hdo2 : (L.chainCellOffset : Int) + sizeofChainCellCounts + descSize
      ≤ cUnit2.dataOffset := by rw [hc2]; exact hdo
  obtain ⟨m0, _, _, mc, _, _⟩ :=
    installUnit_memory T fuel descSize mem mem' g g' cUnit2 cUnit' _ _ hinst hdo2
  obtain ⟨_, _, hc', _⟩ := installUnit_inv _ _ _ _ _ _ _ _ _ _ _ hinst
  have hEq : E = g.codeCache + g.codeCacheByteUsed + 2 := by
    rw [hc'] at hE
    simp only [Option.some.injEq, CHAIN_CELL_OFFSET_SIZE] at hE
    exact hE.symm
  have hoff : unchainOffsetAddr (E + 1) = g.codeCache + g.codeCacheByteUsed := by
    unfold unchainOffsetAddr
    omega
  refine ⟨L, hL, hEq, hoff, m0, ?_, ?_⟩
  · intro hhdr
    unfold unchainCountsAddr
    rw [hoff, hhdr]
    omega
  · intro i hi
    have hnum : cUnit2.numChainingCells = cUnit.numChainingCells := by rw [hc2, hLc]
    have h4 : i < sizeofChainCellCounts := by
      simp only [CHAINING_CELL_LAST, sizeofChainCellCounts] at hi ⊢
      omega
    unfold read8
    rw [mc i h4, Nat.mod_mod]
    unfold chainCellCountsBytes
    rw [if_pos hi, hnum]
    have h0 : (0 : Int) ≤ cUnit.numChainingCells i % 256 := Int.emod_nonneg _ (by norm_num)
    have h1 : cUnit.numChainingCells i % 256 < 256 := Int.emod_lt_of_pos _ (by norm_num)
    omega

set_option maxRecDepth 100000 in
/-- Witness of C9: a run of two instructions installed at `0x1000`. -/
theorem C9_unchain_addresses_witness :
    ∃ mem' g' cUnit',
      assembleAttempt exampleTarget 8 8 zeroMem emptyCache (movRunUnit 2)
        = .ok (.done mem' g' cUnit') ∧
      cUnit'.baseAddr = some 0x1002 ∧ unchainOffsetAddr (0x1002 + 1) = 0x1000 + 0 := by
  obtain ⟨mem', g', cUnit', hatt, hb⟩ :=
    installedView_isSome
      (assembleAttempt exampleTarget 8 8 zeroMem emptyCache (movRunUnit 2)) (by decide)
  obtain ⟨E, hE⟩ := Option.ne_none_iff_exists'.mp hb
  obtain ⟨L, _, h1, h2, _⟩ :=
    C9_unchain_addresses exampleTarget 8 8 zeroMem mem' emptyCache g' (movRunUnit 2) cUnit' E
      hatt hE
  have hE2 : E = 0x1002 := by rw [h1]; decide
  subst hE2
  exact ⟨mem', g', cUnit', hatt, hE, h2⟩

/-! ## Unchaining -/

theorem read8_lt (m : Mem) (a : Int) : read8 m a < 256 := by
  unfold read8
  omega

theorem write32_apply (m : Mem) (a x : Int) (v : Nat) :
    write32 m a v x =
      if a ≤ x ∧ x < a + 4 then (v / 256 ^ (x - a).toNat) % 256 else m x := by
  by_cases c : a ≤ x ∧ x < a + 4
  · rw [if_pos c]
    have hk : (x - a).toNat < 4 := by omega
    have hx : x = a + ((x - a).toNat : Int) := by omega
    have := write32_byte m a v (x - a).toNat hk
    rw [← hx] at this
    exact this
  · rw [if_neg c]
    exact write32_other m a x v (by omega)

theorem writeStubs_apply :
    ∀ (n : Nat) (mem : Mem) (p : Int) (w : Nat) (x : Int),
      writeStubs mem p n w x =
        if inCellWord p n x then (w / 256 ^ ((x - p) % 8).toNat) % 256 else mem x
  | 0, mem, p, w, x => by
    have : ¬ inCellWord p 0 x := by
      unfold inCellWord
      simp only [Nat.cast_zero, mul_zero, add_zero]
      omega
    simp [writeStubs, this]
  | n + 1, mem, p, w, x => by
    simp only [writeStubs]
    rw [writeStubs_apply n, write32_apply]
    unfold inCellWord
    by_cases c1 : p ≤ x ∧ x < p + 4
    · have h1 : ¬ (p + 8 ≤ x ∧ x < p + 8 + 8 * (n : Int) ∧ (x - (p + 8)) % 8 < 4) := by omega
      have h2 : p ≤ x ∧ x < p + 8 * ((n + 1 : Nat) : Int) ∧ (x - p) % 8 < 4 := by
        push_cast; omega
      have h3 : (x - p) % 8 = x - p := by omega
      rw [if_neg h1, if_pos c1, if_pos h2, h3]
    · rw [if_neg c1]
      by_cases c2 : p + 8 ≤ x ∧ x < p + 8 + 8 * (n : Int) ∧ (x - (p + 8)) % 8 < 4
      · have h2 : p ≤ x ∧ x < p + 8 * ((n + 1 : Nat) : Int) ∧ (x - p) % 8 < 4 := by
          push_cast; omega
        have h3 : (x - (p + 8)) % 8 = (x - p) % 8 := by omega
        rw [if_pos c2, if_pos h2, h3]
      · have h2 : ¬ (p ≤ x ∧ x < p + 8 * ((n + 1 : Nat) : Int) ∧ (x - p) % 8 < 4) := by
          push_cast; omega
        rw [if_neg c2, if_neg h2]

theorem writeStubs_above (n : Nat) (mem : Mem) (p : Int) (w : Nat) (x : Int)
    (h : p + 8 * (n : Int) ≤ x) : writeStubs mem p n w x = mem x := by
  rw [writeStubs_apply, if_neg]
  unfold inCellWord
  omega

theorem unchainTargetOffset_ok (T : Target) (i : Nat) (hi : i < CHAINING_CELL_LAST) :
    unchainTargetOffset T i =
      .ok (if i = CHAINING_CELL_GENERIC then T.offNormal else T.offTraceSelect) := by
  unfold unchainTargetOffset
  simp only [CHAINING_CELL_LAST, CHAINING_CELL_GENERIC, CHAINING_CELL_POST_INVOKE,
    CHAINING_CELL_INVOKE] at hi ⊢
  by_cases c : i = 0
  · simp [c]
  · have : i = 1 ∨ i = 2 := by omega
    simp [c, this]

/-- Inner loop of `dvmJitUnchain` for one kind, when the cells still to do end
at or below the count block: it stores the stub of the kind in the first word
of each of them and stops after the last. -/
theorem unchainCells_closed (T : Target) (P : Int) (i : Nat) (hi : i < CHAINING_CELL_LAST) :
    ∀ (n left j : Nat) (mem : Mem) (pc : Int),
      left + j = 256 → read8 mem (P + i) = j + n → pc + 8 * (n : Int) ≤ P →
      unchainCells T P i left j mem pc =
        .ok (writeStubs mem pc n
              (unchainStub T (if i = CHAINING_CELL_GENERIC then T.offNormal
                              else T.offTraceSelect)),
             pc + 8 * (n : Int))
  | 0, left, j, mem, pc, _, hc, _ => by
    cases left with
    | zero => simp [unchainCells, writeStubs]
    | succ l =>
      have : ¬ j < read8 mem (P + i) := by omega
      simp [unchainCells, this, writeStubs]
  | n + 1, left, j, mem, pc, hl, hc, hp => by
    have hlt := read8_lt mem (P + i)
    cases left with
    | zero => omega
    | succ l =>
      have hj : j < read8 mem (P + i) := by omega
      simp only [unchainCells, hj, if_true, unchainTargetOffset_ok T i hi]
      have hcount : read8 (write32 mem pc (unchainStub T
          (if i = CHAINING_CELL_GENERIC then T.offNormal else T.offTraceSelect))) (P + i)
          = (j + 1) + n := by
        unfold read8
        rw [write32_other _ _ _ _ (by push_cast at hp; omega)]
        unfold read8 at hc
        omega
      rw [unchainCells_closed T P i hi n l (j + 1) _ (pc + 8) (by omega) hcount
        (by push_cast at hp; omega)]
      simp only [writeStubs]
      congr 2
      push_cast
      omega

theorem unchainCellCount_eq (mem : Mem) (P : Int) :
    unchainCellCount mem P = read8 mem (P + 0) + read8 mem (P + 1) + read8 mem (P + 2) := by
  simp [unchainCellCount, CHAINING_CELL_LAST, List.range_succ]

/-- Function `dvmJitUnchain` returns, with the closed-form memory and the
address of the count block (the address just past the last cell). -/
theorem dvmJitUnchain_closed (T : Target) (mem : Mem) (codeAddr : Int) :
    dvmJitUnchain T mem codeAddr =
      .ok (unchainedMem T mem codeAddr, unchainCountsAddr mem codeAddr) := by
  unfold dvmJitUnchain unchainedMem unchainCellStart
  simp only []
  generalize hP : unchainCountsAddr mem codeAddr = P
  rw [unchainCellCount_eq]
  generalize hc0 : read8 mem (P + 0) = c0
  generalize hc1 : read8 mem (P + 1) = c1
  generalize hc2 : read8 mem (P + 2) = c2
  have e0 : read8 mem (P + ((0 : Nat) : Int)) = 0 + c0 := by simpa using hc0
  have k0 := unchainCells_closed T P 0 (by decide) c0 256 0 mem
    (P - ((c0 + c1 + c2 : Nat) : Int) * 8) rfl e0 (by push_cast; omega)
  have e1 : read8 (writeStubs mem (P - ((c0 + c1 + c2 : Nat) : Int) * 8) c0
      (unchainStub T T.offNormal)) (P + ((1 : Nat) : Int)) = 0 + c1 := by
    unfold read8
    rw [writeStubs_above _ _ _ _ _ (by push_cast; omega)]
    unfold read8 at hc1
    simpa using hc1
  have k1 := unchainCells_closed T P 1 (by decide) c1 256 0 _
    (P - ((c0 + c1 + c2 : Nat) : Int) * 8 + 8 * (c0 : Int)) rfl e1 (by push_cast; omega)
  have e2 : read8 (writeStubs (writeStubs mem (P - ((c0 + c1 + c2 : Nat) : Int) * 8) c0
      (unchainStub T T.offNormal)) (P - ((c0 + c1 + c2 : Nat) : Int) * 8 + 8 * (c0 : Int)) c1
      (unchainStub T T.offTraceSelect)) (P + ((2 : Nat) : Int)) = 0 + c2 := by
    unfold read8
    rw [writeStubs_above _ _ _ _ _ (by push_cast; omega),
      writeStubs_above _ _ _ _ _ (by push_cast; omega)]
    unfold read8 at hc2
    simpa using hc2
  have k2 := unchainCells_closed T P 2 (by decide) c2 256 0 _
    (P - ((c0 + c1 + c2 : Nat) : Int) * 8 + 8 * (c0 : Int) + 8 * (c1 : Int)) rfl e2
    (by push_cast; omega)
  simp only [CHAINING_CELL_GENERIC, if_true, OfNat.ofNat_ne_zero, if_false,
    one_ne_zero] at k0 k1 k2
  simp only [unchainKinds, CHAINING_CELL_LAST, k0, zero_add, k1, Nat.reduceAdd, k2]
  congr 2
  push_cast
  omega

theorem read32_of_bytes (m : Mem) (a : Int) (w : Nat)
    (h : ∀ b : Nat, b < 4 → m (a + b) = (w / 256 ^ b) % 256) : read32 m a = w % 2 ^ 32 := by
  have h0 := h 0 (by decide)
  have h1 := h 1 (by decide)
  have h2 := h 2 (by decide)
  have h3 := h 3 (by decide)
  simp only [Nat.cast_zero, add_zero, Nat.cast_one, Nat.cast_ofNat, pow_zero, Nat.div_one,
    pow_one] at h0 h1 h2 h3
  unfold read32 read8
  rw [h0, h1, h2, h3]
  omega

theorem unchainStub_lt (T : Target) (off : Nat) : unchainStub T off < 2 ^ 32 := by
  unfold unchainStub
  exact Nat.mod_lt _ (by norm_num)

/-- Outside the first words of the cells `dvmJitUnchain` changes nothing. -/
theorem unchainedMem_outside (T : Target) (mem : Mem) (codeAddr : Int) (x : Int)
    (h : ¬ inCellWord (unchainCellStart mem codeAddr)
      (unchainCellCount mem (unchainCountsAddr mem codeAddr)) x) :
    unchainedMem T mem codeAddr x = mem x := by
  rw [unchainCellCount_eq] at h
  unfold unchainedMem
  unfold inCellWord at h
  push_cast at h
  rw [writeStubs_apply, if_neg (by unfold inCellWord; omega),
    writeStubs_apply, if_neg (by unfold inCellWord; omega),
    writeStubs_apply, if_neg (by unfold inCellWord; omega)]

/-- Inside the first word of a cell `dvmJitUnchain` leaves the byte of the
stub of the cell's kind. -/
theorem unchainedMem_inside (T : Target) (mem : Mem) (codeAddr : Int) (j b : Nat)
    (hj : j < unchainCellCount mem (unchainCountsAddr mem codeAddr)) (hb : b < 4) :
    unchainedMem T mem codeAddr (unchainCellStart mem codeAddr + 8 * (j : Int) + b) =
      (unchainStub T
        (if cellKind (read8 mem (unchainCountsAddr mem codeAddr + 0))
              (read8 mem (unchainCountsAddr mem codeAddr + 1)) j = CHAINING_CELL_GENERIC
         then T.offNormal else T.offTraceSelect) / 256 ^ b) % 256 := by
  rw [unchainCellCount_eq] at hj
  unfold unchainedMem cellKind
  generalize unchainCellStart mem codeAddr = p0 at *
  generalize read8 mem (unchainCountsAddr mem codeAddr + 0) = c0 at *
  generalize read8 mem (unchainCountsAddr mem codeAddr + 1) = c1 at *
  generalize read8 mem (unchainCountsAddr mem codeAddr + 2) = c2 at *
  by_cases g0 : j < c0
  · have i2 : ¬ inCellWord (p0 + 8 * (c0 : Int) + 8 * (c1 : Int)) c2
        (p0 + 8 * (j : Int) + b) := by unfold inCellWord; omega
    have i1 : ¬ inCellWord (p0 + 8 * (c0 : Int)) c1 (p0 + 8 * (j : Int) + b) := by
      unfold inCellWord; omega
    have i0 : inCellWord p0 c0 (p0 + 8 * (j : Int) + b) := by unfold inCellWord; omega
    have e : ((p0 + 8 * (j : Int) + b - p0) % 8).toNat = b := by omega
    rw [writeStubs_apply, if_neg i2, writeStubs_apply, if_neg i1, writeStubs_apply, if_pos i0, e]
    simp [g0, CHAINING_CELL_GENERIC]
  · by_cases g1 : j < c0 + c1
    · have i2 : ¬ inCellWord (p0 + 8 * (c0 : Int) + 8 * (c1 : Int)) c2
          (p0 + 8 * (j : Int) + b) := by unfold inCellWord; omega
      have i1 : inCellWord (p0 + 8 * (c0 : Int)) c1 (p0 + 8 * (j : Int) + b) := by
        unfold inCellWord; omega
      have e : ((p0 + 8 * (j : Int) + b - (p0 + 8 * (c0 : Int))) % 8).toNat = b := by omega
      rw [writeStubs_apply, if_neg i2, writeStubs_apply, if_pos i1, e]
      simp [g0, g1, CHAINING_CELL_GENERIC, CHAINING_CELL_POST_INVOKE]
    · have i2 : inCellWord (p0 + 8 * (c0 : Int) + 8 * (c1 : Int)) c2
          (p0 + 8 * (j : Int) + b) := by unfold inCellWord; omega
      have e : ((p0 + 8 * (j : Int) + b - (p0 + 8 * (c0 : Int) + 8 * (c1 : Int))) % 8).toNat
          = b := by omega
      rw [writeStubs_apply, if_pos i2, e]
      simp [g0, g1, CHAINING_CELL_GENERIC, CHAINING_CELL_INVOKE]

/-- Two memories that differ only in the first words of the cells of a
well-formed trace describe the same trace: same header, counts and cell
region. -/
theorem same_trace_of_agree (m m2 : Mem) (codeAddr : Int)
    (hwf : cellsClearOfHeader m codeAddr)
    (hag : ∀ x, ¬ inCellWord (unchainCellStart m codeAddr)
      (unchainCellCount m (unchainCountsAddr m codeAddr)) x → m2 x = m x) :
    unchainCountsAddr m2 codeAddr = unchainCountsAddr m codeAddr ∧
    (∀ i : Int, 0 ≤ i → read8 m2 (unchainCountsAddr m codeAddr + i)
        = read8 m (unchainCountsAddr m codeAddr + i)) ∧
    unchainCellCount m2 (unchainCountsAddr m2 codeAddr)
      = unchainCellCount m (unchainCountsAddr m codeAddr) ∧
    unchainCellStart m2 codeAddr = unchainCellStart m codeAddr := by
  have hstart : unchainCellStart m codeAddr = unchainCountsAddr m codeAddr
      - (unchainCellCount m (unchainCountsAddr m codeAddr) : Int) * 8 := rfl
  have hcounts : ∀ i : Int, 0 ≤ i → read8 m2 (unchainCountsAddr m codeAddr + i)
      = read8 m (unchainCountsAddr m codeAddr + i) := by
    intro i hi
    unfold read8
    rw [hag _ (by unfold inCellWord; omega)]
  have hhdr : read16 m2 (unchainOffsetAddr codeAddr) = read16 m (unchainOffsetAddr codeAddr) := by
    unfold cellsClearOfHeader at hwf
    unfold read16 read8
    rw [hag _ (by unfold inCellWord; omega), hag _ (by unfold inCellWord; omega)]
  have hP : unchainCountsAddr m2 codeAddr = unchainCountsAddr m codeAddr := by
    unfold unchainCountsAddr
    rw [hhdr]
  have hk : unchainCellCount m2 (unchainCountsAddr m2 codeAddr)
      = unchainCellCount m (unchainCountsAddr m codeAddr) := by
    rw [hP, unchainCellCount_eq, unchainCellCount_eq, hcounts 0 (by omega),
      hcounts 1 (by omega), hcounts 2 (by omega)]
  refine ⟨hP, hcounts, hk, ?_⟩
  unfold unchainCellStart
  rw [hk, hP]

/-- The memory after `dvmJitUnchain` does not depend on what the first words
of the cells held before. -/
theorem dvmJitUnchain_agree (T : Target) (m m2 : Mem) (codeAddr : Int)
    (hwf : cellsClearOfHeader m codeAddr)
    (hag : ∀ x, ¬ inCellWord (unchainCellStart m codeAddr)
      (unchainCellCount m (unchainCountsAddr m codeAddr)) x → m2 x = m x) :
    dvmJitUnchain T m2 codeAddr = dvmJitUnchain T m codeAddr := by
  obtain ⟨hP, hcounts, hk, hs⟩ := same_trace_of_agree m m2 codeAddr hwf hag
  rw [dvmJitUnchain_closed, dvmJitUnchain_closed, hP]
  congr 2
  funext x
  by_cases c : inCellWord (unchainCellStart m codeAddr)
      (unchainCellCount m (unchainCountsAddr m codeAddr)) x
  · -- a byte of a first word: the stub, in both
    obtain ⟨c1, c2, c3⟩ := c
    have hj : ((x - unchainCellStart m codeAddr) / 8).toNat
        < unchainCellCount m (unchainCountsAddr m codeAddr) := by omega
    have hb : ((x - unchainCellStart m codeAddr) % 8).toNat < 4 := by omega
    have hx : x = unchainCellStart m codeAddr
        + 8 * (((x - unchainCellStart m codeAddr) / 8).toNat : Int)
        + (((x - unchainCellStart m codeAddr) % 8).toNat : Int) := by omega
    have r1 := unchainedMem_inside T m codeAddr _ _ hj hb
    have r2 := unchainedMem_inside T m2 codeAddr _ _ (by rw [hk]; exact hj) hb
    rw [hs, hP, hcounts 0 (by omega), hcounts 1 (by omega), ← hx] at r2
    rw [← hx] at r1
    rw [r1, r2]
  · rw [unchainedMem_outside T m codeAddr x c,
      unchainedMem_outside T m2 codeAddr x (by rw [hs, hk]; exact c)]
    exact hag x c

theorem wrap32_of_range (x : Int) (h1 : -(2 ^ 31) ≤ x) (h2 : x < 2 ^ 31) : wrap32 x = x := by
  unfold wrap32; omega

theorem wrap32_sub_wrap32 (a b : Int) : wrap32 (a - wrap32 b) = wrap32 (a - b) := by
  unfold wrap32; omega

/-- The 32-bit `branchOffset` of `dvmJitChain` is the exact displacement when
that lies in the 23-bit range. -/
theorem chain_branchOffset (tgt site : Int) (hlo : -(2 ^ 22) ≤ tgt - (site + 4))
    (hhi : tgt - (site + 4) ≤ 2 ^ 22 - 2) :
    wrap32 (tgt - wrap32 (site + 4)) = tgt - (site + 4) := by
  rw [wrap32_sub_wrap32]; exact wrap32_of_range _ (by omega) (by omega)

theorem chain_half_lt (x : Int) : (x % 2048).toNat < 2 ^ 11 := by
  have h1 : 0 ≤ x % 2048 := Int.emod_nonneg _ (by decide)
  have h2 : x % 2048 < 2048 := Int.emod_lt_of_pos _ (by decide)
  omega

theorem chain_word_lt (a b : Nat) (ha : a < 2 ^ 16) (hb : b < 2 ^ 16) :
    (a <<< 16) ||| b < 2 ^ 32 := by
  apply Nat.or_lt_two_pow
  · rw [Nat.shiftLeft_eq]; omega
  · omega

theorem chain_or_lt (c x : Nat) (hc : c < 2 ^ 16) (hx : x < 2 ^ 11) : c ||| x < 2 ^ 16 :=
  Nat.or_lt_two_pow hc (by omega)

/-- Closed form of `dvmJitChain` with no thread suspended and a displacement in
range. -/
theorem dvmJitChain_closed (mem : Mem) (g : DvmJitGlobals) (tgt site : Int)
    (hlo : -(2 ^ 22) ≤ tgt - (site + 4)) (hhi : tgt - (site + 4) ≤ 2 ^ 22 - 2) :
    dvmJitChain 0 mem g tgt site =
      .ok (write32 mem site
            (if tgt - (site + 4) < -2048 ∨ tgt - (site + 4) > 2046 then
              ((0xf800 ||| (((tgt - (site + 4)) / 2) % 2048).toNat) <<< 16) |||
                (0xf000 ||| (((tgt - (site + 4)) / 4096) % 2048).toNat)
             else (0x4300 <<< 16) ||| (0xe000 ||| (((tgt - (site + 4)) / 2) % 2048).toNat)),
           { g with translationChains := g.translationChains + 1 }, tgt) := by
  unfold dvmJitChain
  simp only [chain_branchOffset tgt site hlo hhi]
  rw [if_pos trivial, if_neg (by simp only [not_not]; exact ⟨by omega, hhi⟩)]
  congr 2
  by_cases hfar : tgt - (site + 4) < -2048 ∨ tgt - (site + 4) > 2046
  · simp only [if_pos hfar]
    rw [Nat.mod_eq_of_lt]
    exact chain_word_lt _ _ (chain_or_lt _ _ (by decide) (chain_half_lt _))
      (chain_or_lt _ _ (by decide) (chain_half_lt _))
  · simp only [if_neg hfar]
    rw [Nat.mod_eq_of_lt]
    exact chain_word_lt _ _ (by decide) (chain_or_lt _ _ (by decide) (chain_half_lt _))

/-- C12: with no thread suspended and a displacement `d = target - (patchSite + 4)`
in `[-2^22, 2^22 - 2]`, `dvmJitChain` returns and the 32-bit word it leaves at
the patch site is the word of the specification: two halves of a long branch
when `d < -2048` or `d > 2046`, a short branch and a no-op otherwise.  For
the target `0x1000` and the patch site `0` the long form is written, with the
high half `0` and the low half `0x7fe`. -/
theorem C12_chain_patch_word (mem : Mem) (g : DvmJitGlobals) (tgt site : Int)
    (hlo : -(2 ^ 22) ≤ tgt - (site + 4)) (hhi : tgt - (site + 4) ≤ 2 ^ 22 - 2) :
    (∃ mem1 g1, dvmJitChain 0 mem g tgt site = .ok (mem1, g1, tgt) ∧
      read32 mem1 site = specPatchWord (tgt - (site + 4))) ∧
    (∃ mem1 g1, dvmJitChain 0 mem g 0x1000 0 = .ok (mem1, g1, 0x1000) ∧
      read32 mem1 0 = ((0xf800 ||| 0x7fe) <<< 16) ||| (0xf000 ||| 0) ∧
      specHigh (0x1000 - (0 + 4)) = 0 ∧ specLow (0x1000 - (0 + 4)) = 0x7fe) := by
  have key : ∀ t s : Int, -(2 ^ 22) ≤ t - (s + 4) → t - (s + 4) ≤ 2 ^ 22 - 2 →
      ∃ mem1 g1, dvmJitChain 0 mem g t s = .ok (mem1, g1, t) ∧
        read32 mem1 s = specPatchWord (t - (s + 4)) := by
    intro t s h1 h2
    refine ⟨_, _, dvmJitChain_closed mem g t s h1 h2, ?_⟩
    rw [read32_write32, Nat.mod_eq_of_lt]
    · rfl
    · by_cases hfar : t - (s + 4) < -2048 ∨ t - (s + 4) > 2046
      · rw [if_pos hfar]
        exact chain_word_lt _ _ (chain_or_lt _ _ (by decide) (chain_half_lt _))
          (chain_or_lt _ _ (by decide) (chain_half_lt _))
      · rw [if_neg hfar]
        exact chain_word_lt _ _ (by decide) (chain_or_lt _ _ (by decide) (chain_half_lt _))
  refine ⟨key tgt site hlo hhi, ?_⟩
  obtain ⟨mem1, g1, h1, h2⟩ := key 0x1000 0 (by decide) (by decide)
  exact ⟨mem1, g1, h1, by rw [h2]; decide, by decide, by decide⟩

theorem C12_chain_patch_word_witness :
    (∃ mem1 g1, dvmJitChain 0 zeroMem emptyCache 0x3000 0x1000 = .ok (mem1, g1, 0x3000) ∧
      read32 mem1 0x1000 = specPatchWord (0x3000 - (0x1000 + 4))) ∧
    (∃ mem1 g1, dvmJitChain 0 zeroMem emptyCache 0x1000 0 = .ok (mem1, g1, 0x1000) ∧
      read32 mem1 0 = ((0xf800 ||| 0x7fe) <<< 16) ||| (0xf000 ||| 0) ∧
      specHigh (0x1000 - (0 + 4)) = 0 ∧ specLow (0x1000 - (0 + 4)) = 0x7fe) :=
  C12_chain_patch_word zeroMem emptyCache 0x3000 0x1000 (by decide) (by decide)

/-- The two builds of `dvmJitChain` differ in the `assert` only: with
assertions the call stops there when no thread is suspended and the 32-bit
branch offset is out of range, and otherwise both return the same. -/
theorem dvmJitChain_eq_noAssert (susp : Int) (mem : Mem) (g : DvmJitGlobals) (tgt site : Int) :
    dvmJitChain susp mem g tgt site =
      if susp = 0 ∧ ¬ (wrap32 (tgt - wrap32 (site + 4)) ≥ -(2 ^ 22) ∧
                       wrap32 (tgt - wrap32 (site + 4)) ≤ 2 ^ 22 - 2)
      then .error .assertion
      else .ok (dvmJitChainNoAssert susp mem g tgt site) := by
  unfold dvmJitChain dvmJitChainNoAssert
  simp only
  by_cases hs : susp = 0
  · by_cases hr : wrap32 (tgt - wrap32 (site + 4)) ≥ -(2 ^ 22) ∧
        wrap32 (tgt - wrap32 (site + 4)) ≤ 2 ^ 22 - 2
    · simp [hs, hr]
    · simp [hs, hr]
  · simp [hs]

theorem specHigh_range (d : Int) : 0 ≤ specHigh d ∧ specHigh d < 2048 := by
  unfold specHigh
  exact ⟨Int.emod_nonneg _ (by decide), Int.emod_lt_of_pos _ (by decide)⟩

theorem specLow_range (d : Int) : 0 ≤ specLow d ∧ specLow d < 2048 := by
  unfold specLow
  exact ⟨Int.emod_nonneg _ (by decide), Int.emod_lt_of_pos _ (by decide)⟩

/-- The 23-bit value `(high << 12) | (low << 1)` as a sum. -/
theorem long_split_value (d : Int) :
    (((specHigh d).toNat <<< 12) ||| ((specLow d).toNat <<< 1) : Nat) =
      (specHigh d).toNat * 4096 + (specLow d).toNat * 2 := by
  have hl := specLow_range d
  have hb : (specLow d).toNat * 2 < 2 ^ 12 := by omega
  rw [Nat.shiftLeft_eq, Nat.shiftLeft_eq, Nat.mul_comm _ (2 ^ 12), ← Nat.mul_add_lt_is_or hb]

theorem long_split_round_trip (d : Int) (heven : d % 2 = 0) (hlo : -(2 ^ 22) ≤ d)
    (hhi : d ≤ 2 ^ 22 - 2) :
    signExtend 23 (((specHigh d).toNat <<< 12) ||| ((specLow d).toNat <<< 1)) = d := by
  rw [long_split_value]
  have hh := specHigh_range d
  have hl := specLow_range d
  unfold signExtend
  unfold specHigh specLow at *
  norm_num
  split <;> omega

/-- A value in `[0, 2048)` passes the encoder's 11-bit field `[10..0]`
unchanged. -/
theorem fieldValue_eleven (v : Int) (h0 : 0 ≤ v) (h1 : v < 2048) :
    fieldValue v { end_ := 10, start := 0 } = v.toNat := by
  unfold fieldValue
  have e1 : (({ end_ := 10, start := 0 } : FieldLoc).start).toNat = 0 := rfl
  have e2 : (({ end_ := 10, start := 0 } : FieldLoc).end_ + 1).toNat = 10 + 1 := rfl
  rw [e1, e2, shift_mask_nat _ 0 10 (by omega) (by omega)]
  unfold toU32
  rw [Nat.shiftLeft_eq]
  norm_num
  omega

/-- Resolution of a `BLX_1` record whose displacement passes the range
assertion: the two halves of the split go to `operands[0]` of the record and of
the `BLX_2` record that follows. -/
theorem resolveDisplacement_blx (sa : Int) (walk p nxt : Nat) (st : AsmState)
    (hop : (st.lirs p).opCode = ARMV5TE_BLX_1) (hnext : (st.lirs p).next = some nxt)
    (hop2 : (st.lirs nxt).opCode = ARMV5TE_BLX_2)
    (hlo : -(2 ^ 22) ≤ blxDisplacement sa (st.lirs p))
    (hhi : blxDisplacement sa (st.lirs p) ≤ 2 ^ 22 - 2) :
    ∃ st1, resolveDisplacement sa walk p st = .ok st1 ∧ st1.retry = st.retry ∧
      st1.buffer = st.buffer ∧
      (st1.lirs p).operands0 = specHigh (blxDisplacement sa (st.lirs p)) ∧
      (st1.lirs nxt).operands0 = specLow (blxDisplacement sa (st.lirs p)) ∧
      (st1.lirs p).opCode = ARMV5TE_BLX_1 ∧ (st1.lirs nxt).opCode = ARMV5TE_BLX_2 := by
  have hne : nxt ≠ p := by
    intro h; rw [h, hop] at hop2; exact absurd hop2 (by decide)
  unfold resolveDisplacement
  simp only [hop, hnext]
  rw [if_neg (by decide), if_neg (by decide), if_neg (by decide), if_pos trivial]
  simp only [hop2, ne_eq, not_true_eq_false, if_false]
  rw [if_neg (by simp only [not_not]; exact ⟨by omega, hhi⟩)]
  refine ⟨_, rfl, rfl, rfl, ?_, ?_, ?_, ?_⟩
  · simp only [LIRHeap.set_other _ _ _ _ (Ne.symm hne), LIRHeap.set_same]; rfl
  · simp only [LIRHeap.set_same]; rfl
  · simp only [LIRHeap.set_other _ _ _ _ (Ne.symm hne), LIRHeap.set_same]
  · simp only [LIRHeap.set_same, LIRHeap.set_other _ _ _ _ hne]
    exact hop2

/-- C17: for every even displacement `d` in `[-2^22, 2^22 - 2]` the halves
`high = (d >> 12) & 0x7ff` and `low = (d >> 1) & 0x7ff` lie in `[0, 2048)`, the
encoder's 11-bit field stores each unmasked, and the sign extension of the
23-bit value `(high << 12) | (low << 1)` is `d`.  The resolver stores these
halves in the `BLX_1`/`BLX_2` pair, and `dvmJitChain` in the two half-words of
the long form of its patch word. -/
theorem C17_long_branch_round_trip (d : Int) (heven : d % 2 = 0) (hlo : -(2 ^ 22) ≤ d)
    (hhi : d ≤ 2 ^ 22 - 2) :
    (0 ≤ specHigh d ∧ specHigh d < 2048 ∧ 0 ≤ specLow d ∧ specLow d < 2048) ∧
    fieldValue (specHigh d) { end_ := 10, start := 0 } = (specHigh d).toNat ∧
    fieldValue (specLow d) { end_ := 10, start := 0 } = (specLow d).toNat ∧
    signExtend 23 (((specHigh d).toNat <<< 12) ||| ((specLow d).toNat <<< 1)) = d ∧
    (∀ (sa : Int) (walk p nxt : Nat) (st : AsmState),
      (st.lirs p).opCode = ARMV5TE_BLX_1 → (st.lirs p).next = some nxt →
      (st.lirs nxt).opCode = ARMV5TE_BLX_2 → blxDisplacement sa (st.lirs p) = d →
      ∃ st1, resolveDisplacement sa walk p st = .ok st1 ∧
        (st1.lirs p).operands0 = specHigh d ∧ (st1.lirs nxt).operands0 = specLow d) ∧
    (∀ (mem : Mem) (g : DvmJitGlobals) (tgt site : Int),
      tgt - (site + 4) = d → (d < -2048 ∨ d > 2046) →
      ∃ mem1 g1, dvmJitChain 0 mem g tgt site = .ok (mem1, g1, tgt) ∧
        read32 mem1 site =
          ((0xf800 ||| (specLow d).toNat) <<< 16) ||| (0xf000 ||| (specHigh d).toNat)) := by
  have hh := specHigh_range d
  have hl := specLow_range d
  refine ⟨⟨hh.1, hh.2, hl.1, hl.2⟩, fieldValue_eleven _ hh.1 hh.2,
    fieldValue_eleven _ hl.1 hl.2, long_split_round_trip d heven hlo hhi, ?_, ?_⟩
  · intro sa walk p nxt st hop hnext hop2 hd
    obtain ⟨st1, h1, _, _, h2, h3, _⟩ :=
      resolveDisplacement_blx sa walk p nxt st hop hnext hop2 (by rw [hd]; exact hlo)
        (by rw [hd]; exact hhi)
    exact ⟨st1, h1, by rw [h2, hd], by rw [h3, hd]⟩
  · intro mem g tgt site hd hfar
    subst hd
    refine ⟨_, _, dvmJitChain_closed mem g tgt site hlo hhi, ?_⟩
    rw [read32_write32, if_pos hfar, Nat.mod_eq_of_lt]
    · rfl
    · exact chain_word_lt _ _ (chain_or_lt _ _ (by decide) (chain_half_lt _))
        (chain_or_lt _ _ (by decide) (chain_half_lt _))

theorem C17_long_branch_round_trip_witness :
    signExtend 23 (((specHigh (-4100)).toNat <<< 12) ||| ((specLow (-4100)).toNat <<< 1))
      = -4100 :=
  (C17_long_branch_round_trip (-4100) (by decide) (by decide) (by decide)).2.2.2.1

/-! ## Conditional branches and PC-relative loads: one step of pass 2 -/

theorem EncodingMap_B_COND :
    EncodingMap[ARMV5TE_B_COND.toNat]? =
      some (ENCODING_MAP 0xd000 7 0 11 8 (-1) (-1) 2 "!1c") := by
  rfl

/-- Step of pass 2 on a conditional branch whose displacement is in range, no
retry pending: the halved displacement goes to `operands[0]`, nothing else
changes in the list, and one word is stored. -/
theorem assembleStep_bcond (sa : Int) (walk p t : Nat) (st : AsmState)
    (hop : (st.lirs p).opCode = ARMV5TE_B_COND) (htgt : (st.lirs p).target = some t)
    (hlo : -256 ≤ (st.lirs t).offset - ((st.lirs p).offset + 4))
    (hhi : (st.lirs t).offset - ((st.lirs p).offset + 4) ≤ 254)
    (hr : st.retry = false) :
    assembleStep sa walk p st =
      .ok { st with
            lirs := st.lirs.set p
              { st.lirs p with
                operands0 := ((st.lirs t).offset - ((st.lirs p).offset + 4)) / 2 },
            buffer := st.buffer ++
              [encodeBits (ENCODING_MAP 0xd000 7 0 11 8 (-1) (-1) 2 "!1c")
                (operandArray (((st.lirs t).offset - ((st.lirs p).offset + 4)) / 2)
                  (st.lirs p).operands1 (st.lirs p).operands2)] } := by
  unfold assembleStep
  simp only
  rw [if_neg (by rw [hop]; decide)]
  unfold resolveDisplacement
  simp only
  rw [if_neg (by rw [hop]; decide), if_pos hop]
  simp only [htgt]
  rw [if_neg (by omega)]
  simp only [hr, Bool.false_eq_true, if_false]
  unfold emitInstruction
  simp only [LIRHeap.set_same, hop, EncodingMap_B_COND]
  rfl

theorem signExtend_truncate_8 (x : Int) (hlo : -128 ≤ x) (hhi : x ≤ 127) :
    signExtend 8 (specTruncate 8 x) = x := by
  unfold signExtend specTruncate
  norm_num
  split <;> omega

theorem signExtend_double_9 (x : Int) (hlo : -128 ≤ x) (hhi : x ≤ 127) :
    signExtend 9 (2 * specTruncate 8 x) = 2 * x := by
  unfold signExtend specTruncate
  norm_num
  split <;> omega

/-- C15 (amended): for a conditional branch whose displacement `delta` is even
and lies in `[-256, 254]`, with no retry pending, the step of pass 2 returns,
sets no retry, leaves the list as it is, and stores one word whose bits `7..0`
are `delta >> 1` truncated to 8 bits: read as an 8-bit two's complement number
they give `delta >> 1`, doubled and read as a 9-bit number they give `delta`.
Bits `11..8` hold the condition code `operands[1]`. -/
theorem C15_conditional_branch_field (sa : Int) (walk p t : Nat) (st : AsmState) (delta : Int)
    (hop : (st.lirs p).opCode = ARMV5TE_B_COND) (htgt : (st.lirs p).target = some t)
    (hdelta : delta = (st.lirs t).offset - ((st.lirs p).offset + 4))
    (heven : delta % 2 = 0) (hlo : -256 ≤ delta) (hhi : delta ≤ 254)
    (hr : st.retry = false) :
    ∃ st1 w, assembleStep sa walk p st = .ok st1 ∧ st1.retry = false ∧
      st1.numLIR = st.numLIR ∧ SameLayout st.lirs st1.lirs ∧
      (st1.lirs p).operands0 = delta / 2 ∧
      st1.buffer = st.buffer ++ [w] ∧
      extractBits w { end_ := 7, start := 0 } = specTruncate 8 (delta / 2) ∧
      signExtend 8 (extractBits w { end_ := 7, start := 0 }) = delta / 2 ∧
      signExtend 9 (2 * extractBits w { end_ := 7, start := 0 }) = delta ∧
      extractBits w { end_ := 11, start := 8 } = specTruncate 4 (st.lirs p).operands1 := by
  subst hdelta
  have hstep := assembleStep_bcond sa walk p t st hop htgt hlo hhi hr
  have hrow : rowLayoutOk (ENCODING_MAP 0xd000 7 0 11 8 (-1) (-1) 2 "!1c") := by decide
  have hf0 := extractBits_encodeBits _ hrow
    (operandArray (((st.lirs t).offset - ((st.lirs p).offset + 4)) / 2)
      (st.lirs p).operands1 (st.lirs p).operands2) 0 (by decide) (by decide)
  have hf1 := extractBits_encodeBits _ hrow
    (operandArray (((st.lirs t).offset - ((st.lirs p).offset + 4)) / 2)
      (st.lirs p).operands1 (st.lirs p).operands2) 1 (by decide) (by decide)
  have hf0' : extractBits (encodeBits (ENCODING_MAP 0xd000 7 0 11 8 (-1) (-1) 2 "!1c")
      (operandArray (((st.lirs t).offset - ((st.lirs p).offset + 4)) / 2)
        (st.lirs p).operands1 (st.lirs p).operands2)) { end_ := 7, start := 0 } =
      specTruncate 8 (((st.lirs t).offset - ((st.lirs p).offset + 4)) / 2) := hf0
  have hf1' : extractBits (encodeBits (ENCODING_MAP 0xd000 7 0 11 8 (-1) (-1) 2 "!1c")
      (operandArray (((st.lirs t).offset - ((st.lirs p).offset + 4)) / 2)
        (st.lirs p).operands1 (st.lirs p).operands2)) { end_ := 11, start := 8 } =
      specTruncate 4 (st.lirs p).operands1 := hf1
  refine ⟨_, _, hstep, hr, rfl, ?_, ?_, rfl, hf0', ?_, ?_, hf1'⟩
  · intro q
    by_cases hq : q = p
    · subst hq
      simp only [LIRHeap.set_same, true_and]
      intro hneg; rw [hop] at hneg; exact absurd hneg (by decide)
    · simp only [LIRHeap.set_other _ _ _ _ hq, true_and]
      intro _; trivial
  · simp only [LIRHeap.set_same]
  · rw [hf0']; exact signExtend_truncate_8 _ (by omega) (by omega)
  · rw [hf0', signExtend_double_9 _ (by omega) (by omega)]; omega

set_option maxRecDepth 100000 in
theorem C15_conditional_branch_field_witness :
    ∃ st1 w, assembleStep 0 4 0
        { lirs := heapOfList
            [{ zeroLIR with opCode := ARMV5TE_B_COND, operands1 := 1, offset := 2,
                            next := some 1, target := some 1 },
             { movLIR (some 0) none with offset := 4 }],
          numLIR := 2, buffer := [], retry := false } = .ok st1 ∧ st1.retry = false ∧
      st1.numLIR = 2 ∧ st1.buffer = [] ++ [w] ∧
      extractBits w { end_ := 7, start := 0 } = specTruncate 8 (-2 / 2) ∧
      signExtend 9 (2 * extractBits w { end_ := 7, start := 0 }) = -2 := by
  obtain ⟨st1, w, h1, h2, h3, _, _, h5, h6, _, h8, _⟩ :=
    C15_conditional_branch_field 0 4 0 1
      { lirs := heapOfList
          [{ zeroLIR with opCode := ARMV5TE_B_COND, operands1 := 1, offset := 2,
                          next := some 1, target := some 1 },
           { movLIR (some 0) none with offset := 4 }],
        numLIR := 2, buffer := [], retry := false } (-2) (by decide) (by decide) (by decide)
      (by decide) (by decide) (by decide) rfl
  exact ⟨st1, w, h1, h2, h3, h5, h6, h8⟩

/-- C15, the claim as stated fails: in the unit `nextBranchUnit` the branch is
laid out at offset 2 and its target at offset 4, so `delta = -2`; the word
stored is `0xD1FF`, whose displacement field (bits `7..0`) is `0xFF`, while
`delta >> 1` truncated to 9 bits is `0x1FF`. -/
theorem C15_counterexample :
    layoutAt (layoutPass 10 8 nextBranchUnit) 0 = some (ARMV5TE_B_COND, 2, 0) ∧
    layoutAt (layoutPass 10 8 nextBranchUnit) 1 = some (ARMV5TE_MOV_RR, 4, 1) ∧
    pass2Of 10 0x1002 (layoutPass 10 8 nextBranchUnit) = some ([0xD1FF, 0x1C11], false) ∧
    extractBits 0xD1FF { end_ := 7, start := 0 } = 0xFF ∧
    specTruncate 9 ((4 - (2 + 4)) / 2) = 0x1FF ∧
    extractBits 0xD1FF { end_ := 7, start := 0 } ≠ specTruncate 9 ((4 - (2 + 4)) / 2) := by
  decide

theorem EncodingMap_LDR_PC_REL :
    EncodingMap[ARMV5TE_LDR_PC_REL.toNat]? =
      some (ENCODING_MAP 0x4800 10 8 7 0 (-1) (-1) 2 "ldr") := by
  rfl

theorem EncodingMap_ADD_PC_REL :
    EncodingMap[ARMV5TE_ADD_PC_REL.toNat]? =
      some (ENCODING_MAP 0xa000 10 8 7 0 (-1) (-1) 2 "add") := by
  rfl

/-- Step of pass 2 on a PC-relative load or add whose displacement is a
multiple of 4, no retry pending: the displacement divided by 4 goes to
`operands[1]`, whatever its size, and one word is stored. -/
theorem assembleStep_pcrel (sa : Int) (walk p t : Nat) (st : AsmState)
    (hop : (st.lirs p).opCode = ARMV5TE_LDR_PC_REL ∨ (st.lirs p).opCode = ARMV5TE_ADD_PC_REL)
    (htgt : (st.lirs p).target = some t)
    (hal : ((st.lirs t).offset - alignDown4 ((st.lirs p).offset + 4)) % 4 = 0)
    (hr : st.retry = false) :
    ∃ enc, (enc = ENCODING_MAP 0x4800 10 8 7 0 (-1) (-1) 2 "ldr" ∨
        enc = ENCODING_MAP 0xa000 10 8 7 0 (-1) (-1) 2 "add") ∧
    assembleStep sa walk p st =
      .ok { st with
            lirs := st.lirs.set p
              { st.lirs p with
                operands1 := ((st.lirs t).offset - alignDown4 ((st.lirs p).offset + 4)) / 4 },
            buffer := st.buffer ++
              [encodeBits enc
                (operandArray (st.lirs p).operands0
                  (((st.lirs t).offset - alignDown4 ((st.lirs p).offset + 4)) / 4)
                  (st.lirs p).operands2)] } := by
  have hnn : ¬ (st.lirs p).opCode < 0 := by
    rcases hop with h | h <;> rw [h] <;> decide
  unfold assembleStep
  simp only
  rw [if_neg hnn]
  unfold resolveDisplacement
  simp only
  rw [if_pos hop]
  simp only [htgt]
  rw [if_neg (by simp only [ne_eq, not_not]; exact hal)]
  simp only [hr, Bool.false_eq_true, if_false]
  unfold emitInstruction
  simp only [LIRHeap.set_same]
  rcases hop with h | h
  · refine ⟨_, Or.inl rfl, ?_⟩
    simp only [h, EncodingMap_LDR_PC_REL]
    rfl
  · refine ⟨_, Or.inr rfl, ?_⟩
    simp only [h, EncodingMap_ADD_PC_REL]
    rfl

/-- The immediate field of a PC-relative load or add holds the operand
truncated to 8 bits. -/
theorem pcrel_immediate (enc : Armv5teEncodingMap)
    (henc : enc = ENCODING_MAP 0x4800 10 8 7 0 (-1) (-1) 2 "ldr" ∨
      enc = ENCODING_MAP 0xa000 10 8 7 0 (-1) (-1) 2 "add") (o0 o1 o2 : Int) :
    extractBits (encodeBits enc (operandArray o0 o1 o2)) { end_ := 7, start := 0 } =
      specTruncate 8 o1 := by
  rcases henc with h | h <;> subst h
  · exact extractBits_encodeBits _ (by decide) (operandArray o0 o1 o2) 1 (by decide)
      (by decide)
  · exact extractBits_encodeBits _ (by decide) (operandArray o0 o1 o2) 1 (by decide)
      (by decide)

set_option maxRecDepth 1000000 in
/-- C16: the resolver does not check the range of a PC-relative displacement.
Every PC-relative load or add whose displacement `delta` is a multiple of 4 is
accepted; the 8-bit immediate of the stored word is `delta >> 2` truncated to
8 bits, and four times the immediate equals `delta` exactly when
`0 ≤ delta ≤ 1020`.  In `farLiteralUnit` the load lies at offset 2 and its
literal at offset 1040, so `delta = 1036`: the unit is assembled and installed,
and the word stored is `0x4803`, whose immediate 3 addresses offset 16. -/
theorem C16_pc_relative_unchecked :
    (∀ (sa : Int) (walk p t : Nat) (st : AsmState),
      ((st.lirs p).opCode = ARMV5TE_LDR_PC_REL ∨ (st.lirs p).opCode = ARMV5TE_ADD_PC_REL) →
      (st.lirs p).target = some t →
      ((st.lirs t).offset - alignDown4 ((st.lirs p).offset + 4)) % 4 = 0 →
      st.retry = false →
      ∃ st1 w, assembleStep sa walk p st = .ok st1 ∧ st1.retry = false ∧
        st1.buffer = st.buffer ++ [w] ∧
        extractBits w { end_ := 7, start := 0 } =
          specTruncate 8 (((st.lirs t).offset - alignDown4 ((st.lirs p).offset + 4)) / 4) ∧
        (4 * (extractBits w { end_ := 7, start := 0 } : Int) =
            (st.lirs t).offset - alignDown4 ((st.lirs p).offset + 4) ↔
          0 ≤ (st.lirs t).offset - alignDown4 ((st.lirs p).offset + 4) ∧
          (st.lirs t).offset - alignDown4 ((st.lirs p).offset + 4) ≤ 1020)) ∧
    layoutAt (layoutPass 300 8 farLiteralUnit) 0 = some (ARMV5TE_LDR_PC_REL, 2, 0) ∧
    layoutAt (layoutPass 300 8 farLiteralUnit) 257 = some (0, 1040, 257) ∧
    pass2Of 300 0x1002 (layoutPass 300 8 farLiteralUnit) = some ([0x4803], false) ∧
    resultView (dvmCompilerAssembleLIR bigTarget 300 3 zeroMem emptyCache farLiteralUnit) =
      some (some 0x1002, false, 1044) ∧
    read16View (dvmCompilerAssembleLIR bigTarget 300 3 zeroMem emptyCache farLiteralUnit)
      0x1002 = some 0x4803 ∧
    4 * (extractBits 0x4803 { end_ := 7, start := 0 } : Int) = 12 ∧
    (1040 : Int) - alignDown4 (2 + 4) = 1036 := by
  refine ⟨?_, by decide, by decide, by decide, by decide, by decide, by decide, by decide⟩
  intro sa walk p t st hop htgt hal hr
  obtain ⟨enc, henc, hstep⟩ := assembleStep_pcrel sa walk p t st hop htgt hal hr
  have hf := pcrel_immediate enc henc (st.lirs p).operands0
    (((st.lirs t).offset - alignDown4 ((st.lirs p).offset + 4)) / 4) (st.lirs p).operands2
  refine ⟨_, _, hstep, hr, rfl, hf, ?_⟩
  rw [hf]
  unfold specTruncate
  norm_num
  omega

/-! ## The long branch/link pair -/

/-- An address rounded down to 4 has bit 1 clear: the test `curPC & 0x2` of
line 361 never succeeds. -/
theorem bit1_alignDown4 (x : Int) : bit1 (alignDown4 x) = false := by
  unfold bit1 alignDown4
  have h : (x - x % 4) / 2 % 2 = 0 := by omega
  simp [h]

theorem blxDisplacement_eq (sa : Int) (lir : Armv5teLIR) :
    blxDisplacement sa lir = wrap32 (lir.operands1 - alignDown4 (sa + lir.offset + 4)) := by
  unfold blxDisplacement
  simp only [bit1_alignDown4]
  rfl

theorem bit1_blxDisplacement (sa : Int) (lir : Armv5teLIR) :
    bit1 (blxDisplacement sa lir) = bit1 lir.operands1 := by
  rw [blxDisplacement_eq]
  unfold bit1 wrap32 alignDown4
  have h : ((lir.operands1 - (sa + lir.offset + 4 - (sa + lir.offset + 4) % 4) + 2 ^ 31)
      % 2 ^ 32 - 2 ^ 31) / 2 % 2 = lir.operands1 / 2 % 2 := by omega
  rw [h]

set_option maxRecDepth 100000 in
/-- C18, the claim as stated fails for a target operand with bit 1 set.
`curPC` is rounded down to 4, so its bit 1 is clear and the statement
`target |= 0x2` is never reached: the displacement is the target operand minus
`curPC`, and its bit 1 is bit 1 of the target operand, whatever that is.  In
`blxUnit` (target `0x2002`, `curPC = 0x1004`) the displacement is `0xFFE`, the
unit is assembled and installed with the words `0xF000`, `0xEFFF`, and bit 0
of the low half is 1. -/
theorem C18_counterexample :
    (∀ x : Int, bit1 (alignDown4 x) = false) ∧
    (∀ (sa : Int) (lir : Armv5teLIR),
      blxDisplacement sa lir = wrap32 (lir.operands1 - alignDown4 (sa + lir.offset + 4)) ∧
      bit1 (blxDisplacement sa lir) = bit1 lir.operands1) ∧
    layoutAt (layoutPass 10 8 blxUnit) 0 = some (ARMV5TE_BLX_1, 2, 0) ∧
    blxDisplacement 0x1000 { zeroLIR with operands1 := 0x2002, offset := 2 } = 0xFFE ∧
    resultView (dvmCompilerAssembleLIR bigTarget 10 3 zeroMem emptyCache blxUnit) =
      some (some 0x1002, false, 20) ∧
    read16View (dvmCompilerAssembleLIR bigTarget 10 3 zeroMem emptyCache blxUnit) 0x1002 =
      some 0xF000 ∧
    read16View (dvmCompilerAssembleLIR bigTarget 10 3 zeroMem emptyCache blxUnit) 0x1004 =
      some 0xEFFF ∧
    extractBits 0xEFFF { end_ := 10, start := 0 } % 2 = 1 := by
  refine ⟨bit1_alignDown4, fun sa lir => ⟨blxDisplacement_eq sa lir, bit1_blxDisplacement sa lir⟩,
    by decide, by decide, by decide, by decide, by decide, by decide⟩

/-- A `BLX_1` record whose displacement fails the range assertion stops the
resolver. -/
theorem resolveDisplacement_blx_range (sa : Int) (walk p nxt : Nat) (st st1 : AsmState)
    (hop : (st.lirs p).opCode = ARMV5TE_BLX_1) (hnext : (st.lirs p).next = some nxt)
    (h : resolveDisplacement sa walk p st = .ok st1) :
    -(2 ^ 22) ≤ blxDisplacement sa (st.lirs p) ∧ blxDisplacement sa (st.lirs p) ≤ 2 ^ 22 - 2 := by
  unfold resolveDisplacement at h
  simp only [hop, hnext] at h
  rw [if_neg (by decide), if_neg (by decide), if_neg (by decide), if_pos trivial] at h
  split at h
  · exact absurd h (by simp)
  · split at h
    · exact absurd h (by simp)
    · rename_i hr
      simp only [not_not] at hr
      exact ⟨by omega, hr.2⟩

/-- C18 (amended): for a `BLX_1` record whose target operand is word-aligned
the resolver computes the displacement against `curPC`, the address of the
record plus 4 rounded down to 4; bit 1 of `curPC` is clear, the target is left
as it is, and the displacement is a multiple of 4: its bit 1, which is bit 0
of the low half, is 0.  When the displacement passes the range assertion the
resolver returns with an even low half in operand 0 of the `BLX_2` record, and
whenever it returns the low half is even. -/
theorem C18_blx_aligned_target (sa : Int) (walk p nxt : Nat) (st : AsmState)
    (hop : (st.lirs p).opCode = ARMV5TE_BLX_1) (hnext : (st.lirs p).next = some nxt)
    (hop2 : (st.lirs nxt).opCode = ARMV5TE_BLX_2)
    (hal : (st.lirs p).operands1 % 4 = 0) :
    bit1 (alignDown4 (sa + (st.lirs p).offset + 4)) = false ∧
    blxDisplacement sa (st.lirs p) =
      wrap32 ((st.lirs p).operands1 - alignDown4 (sa + (st.lirs p).offset + 4)) ∧
    blxDisplacement sa (st.lirs p) % 4 = 0 ∧
    bit1 (blxDisplacement sa (st.lirs p)) = false ∧
    specLow (blxDisplacement sa (st.lirs p)) % 2 = 0 ∧
    (-(2 ^ 22) ≤ blxDisplacement sa (st.lirs p) →
      blxDisplacement sa (st.lirs p) ≤ 2 ^ 22 - 2 →
      ∃ st1, resolveDisplacement sa walk p st = .ok st1 ∧
        (st1.lirs nxt).operands0 = specLow (blxDisplacement sa (st.lirs p))) ∧
    (∀ st1, resolveDisplacement sa walk p st = .ok st1 →
      (st1.lirs nxt).operands0 = specLow (blxDisplacement sa (st.lirs p)) ∧
      (st1.lirs nxt).operands0 % 2 = 0) := by
  have hd : blxDisplacement sa (st.lirs p) % 4 = 0 := by
    rw [blxDisplacement_eq]
    unfold wrap32 alignDown4
    omega
  have hlow : specLow (blxDisplacement sa (st.lirs p)) % 2 = 0 := by
    unfold specLow
    omega
  have hb : bit1 (blxDisplacement sa (st.lirs p)) = false := by
    unfold bit1
    have : blxDisplacement sa (st.lirs p) / 2 % 2 = 0 := by omega
    simp [this]
  refine ⟨bit1_alignDown4 _, blxDisplacement_eq sa _, hd, hb, hlow, ?_, ?_⟩
  · intro hlo hhi
    obtain ⟨st1, h1, _, _, _, h5, _⟩ :=
      resolveDisplacement_blx sa walk p nxt st hop hnext hop2 hlo hhi
    exact ⟨st1, h1, h5⟩
  · intro st1 h
    obtain ⟨hlo, hhi⟩ := resolveDisplacement_blx_range sa walk p nxt st st1 hop hnext h
    obtain ⟨st2, h1, _, _, _, h5, _⟩ :=
      resolveDisplacement_blx sa walk p nxt st hop hnext hop2 hlo hhi
    rw [h] at h1
    simp only [Except.ok.injEq] at h1
    subst h1
    exact ⟨h5, by rw [h5]; exact hlow⟩

set_option maxRecDepth 100000 in
/-- Witness of C18 on `blxAlignedState` at start address `0x1000`: `curPC` is
`0x1004`, the displacement `0xFFC`, the low half `0x7FE`. -/
theorem C18_blx_aligned_target_witness :
    blxDisplacement 0x1000 (blxAlignedState.lirs 0) = 0xFFC ∧
    specLow (blxDisplacement 0x1000 (blxAlignedState.lirs 0)) = 0x7FE ∧
    ∃ st1, resolveDisplacement 0x1000 10 0 blxAlignedState = .ok st1 ∧
      (st1.lirs 1).operands0 = specLow (blxDisplacement 0x1000 (blxAlignedState.lirs 0)) := by
  have h := C18_blx_aligned_target 0x1000 10 0 1 blxAlignedState (by decide) (by decide)
    (by decide) (by decide)
  exact ⟨by decide, by decide, h.2.2.2.2.2.1 (by decide) (by decide)⟩

/-! ## Unchaining every trace -/

/-- The loop of `dvmJitUnchainAll` returns, with the memory `unchainAllMem`. -/
theorem unchainAllLoop_closed (T : Target) :
    ∀ (l : List JitEntry) (mem : Mem) (low high : Int),
      ∃ low1 high1, unchainAllLoop T l mem low high = .ok (unchainAllMem T l mem, low1, high1)
  | [], mem, low, high => ⟨low, high, rfl⟩
  | e :: rest, mem, low, high => by
    unfold unchainAllLoop unchainAllMem
    by_cases hl : e.dPC ≠ 0 ∧ e.codeAddress ≠ 0
    · have hl2 : e.live := hl
      rw [if_pos hl, if_pos hl2, dvmJitUnchain_closed]
      exact unchainAllLoop_closed T rest _ _ _
    · have hl2 : ¬ e.live := hl
      rw [if_neg hl, if_neg hl2]
      exact unchainAllLoop_closed T rest _ _ _

/-- A memory that agrees with `m0` on the header and the counts of a trace
describes the same chaining cells. -/
theorem trace_data_of_meta (m0 m : Mem) (c : Int)
    (h : ∀ x, traceMeta m0 c x → m x = m0 x) :
    unchainCountsAddr m c = unchainCountsAddr m0 c ∧
    (∀ i : Int, (i = 0 ∨ i = 1 ∨ i = 2) →
      read8 m (unchainCountsAddr m0 c + i) = read8 m0 (unchainCountsAddr m0 c + i)) ∧
    unchainCellCount m (unchainCountsAddr m c) = unchainCellCount m0 (unchainCountsAddr m0 c) ∧
    unchainCellStart m c = unchainCellStart m0 c := by
  have hhdr : read16 m (unchainOffsetAddr c) = read16 m0 (unchainOffsetAddr c) := by
    unfold read16 read8
    rw [h _ (Or.inl rfl), h _ (Or.inr (Or.inl rfl))]
  have hP : unchainCountsAddr m c = unchainCountsAddr m0 c := by
    unfold unchainCountsAddr
    rw [hhdr]
  have hcounts : ∀ i : Int, (i = 0 ∨ i = 1 ∨ i = 2) →
      read8 m (unchainCountsAddr m0 c + i) = read8 m0 (unchainCountsAddr m0 c + i) := by
    intro i hi
    unfold read8
    rw [h _ (by
      unfold traceMeta
      rcases hi with r | r | r <;> subst r
      · right; right; left; omega
      · right; right; right; left; rfl
      · right; right; right; right; rfl)]
  have hk : unchainCellCount m (unchainCountsAddr m c)
      = unchainCellCount m0 (unchainCountsAddr m0 c) := by
    rw [hP, unchainCellCount_eq, unchainCellCount_eq, hcounts 0 (Or.inl rfl),
      hcounts 1 (Or.inr (Or.inl rfl)), hcounts 2 (Or.inr (Or.inr rfl))]
  refine ⟨hP, hcounts, hk, ?_⟩
  unfold unchainCellStart
  rw [hk, hP]

theorem unchainedMem_off_cell (T : Target) (m0 m : Mem) (c x : Int)
    (h : ∀ y, traceMeta m0 c y → m y = m0 y) (hx : ¬ traceCellWord m0 c x) :
    unchainedMem T m c x = m x := by
  obtain ⟨_, _, hk, hs⟩ := trace_data_of_meta m0 m c h
  apply unchainedMem_outside
  rw [hk, hs]
  exact hx

theorem unchainedMem_cell_agree (T : Target) (m0 m : Mem) (c x : Int)
    (h : ∀ y, traceMeta m0 c y → m y = m0 y) (hx : traceCellWord m0 c x) :
    unchainedMem T m c x = unchainedMem T m0 c x := by
  obtain ⟨hP, hc, hk, hs⟩ := trace_data_of_meta m0 m c h
  unfold traceCellWord inCellWord at hx
  obtain ⟨h1, h2, h3⟩ := hx
  have hx' : x = unchainCellStart m0 c
      + 8 * (((x - unchainCellStart m0 c) / 8).toNat : Int)
      + (((x - unchainCellStart m0 c) % 8).toNat : Nat) := by omega
  have hj : ((x - unchainCellStart m0 c) / 8).toNat
      < unchainCellCount m0 (unchainCountsAddr m0 c) := by omega
  have hb : ((x - unchainCellStart m0 c) % 8).toNat < 4 := by omega
  have e0 := unchainedMem_inside T m0 c _ _ hj hb
  have e1 := unchainedMem_inside T m c ((x - unchainCellStart m0 c) / 8).toNat
    ((x - unchainCellStart m0 c) % 8).toNat (by rw [hk]; exact hj) hb
  rw [hs, hP, hc 0 (Or.inl rfl), hc 1 (Or.inr (Or.inl rfl))] at e1
  rw [hx', e0, e1]

/-- Unchaining the live entries of a well-formed table: the header and count
bytes of the live traces are kept, the result on the cell words does not depend
on the memory the loop starts from, and nothing else is written. -/
theorem unchainAllMem_inv (T : Target) (m0 : Mem) (es : List JitEntry)
    (hwf : tableWellFormed m0 es) :
    ∀ (l : List JitEntry), (∀ e ∈ l, e ∈ es) → ∀ (m1 m2 : Mem),
      (∀ e ∈ es, e.live → ∀ y, traceMeta m0 e.codeAddress y → m1 y = m0 y) →
      (∀ e ∈ es, e.live → ∀ y, traceMeta m0 e.codeAddress y → m2 y = m0 y) →
      (∀ e ∈ es, e.live → ∀ y, traceMeta m0 e.codeAddress y →
        unchainAllMem T l m1 y = m0 y) ∧
      (∀ x, (m1 x = m2 x ∨ tableCellWord m0 l x) →
        unchainAllMem T l m1 x = unchainAllMem T l m2 x) ∧
      (∀ x, ¬ tableCellWord m0 l x → unchainAllMem T l m1 x = m1 x)
  | [], _, m1, m2, h1, _ => by
    refine ⟨h1, ?_, fun x _ => rfl⟩
    intro x hx
    rcases hx with hx | ⟨e, he, _⟩
    · exact hx
    · exact absurd he (List.not_mem_nil e)
  | e :: rest, hsub, m1, m2, h1, h2 => by
    have hsub' : ∀ e' ∈ rest, e' ∈ es := fun e' he' => hsub e' (List.mem_cons_of_mem _ he')
    have hmem : e ∈ es := hsub e (List.mem_cons_self _ _)
    by_cases hl : e.live
    · have hstep : ∀ (m : Mem),
          (∀ e' ∈ es, e'.live → ∀ y, traceMeta m0 e'.codeAddress y → m y = m0 y) →
          (∀ e' ∈ es, e'.live → ∀ y, traceMeta m0 e'.codeAddress y →
            unchainedMem T m e.codeAddress y = m0 y) := by
        intro m hm e' he' hl' y hy
        rw [unchainedMem_off_cell T m0 m e.codeAddress y (hm e hmem hl)
          (fun hc => hwf e hmem hl e' he' hl' y hc hy)]
        exact hm e' he' hl' y hy
      obtain ⟨ia, ib, ic⟩ := unchainAllMem_inv T m0 es hwf rest hsub'
        (unchainedMem T m1 e.codeAddress) (unchainedMem T m2 e.codeAddress)
        (hstep m1 h1) (hstep m2 h2)
      simp only [unchainAllMem, if_pos hl]
      refine ⟨ia, ?_, ?_⟩
      · intro x hx
        apply ib
        by_cases hc : traceCellWord m0 e.codeAddress x
        · left
          rw [unchainedMem_cell_agree T m0 m1 e.codeAddress x (h1 e hmem hl) hc,
            unchainedMem_cell_agree T m0 m2 e.codeAddress x (h2 e hmem hl) hc]
        · rw [unchainedMem_off_cell T m0 m1 e.codeAddress x (h1 e hmem hl) hc,
            unchainedMem_off_cell T m0 m2 e.codeAddress x (h2 e hmem hl) hc]
          rcases hx with hx | ⟨e', he', hl', hw'⟩
          · exact Or.inl hx
          · rcases List.mem_cons.mp he' with r | r
            · subst r; exact absurd hw' hc
            · exact Or.inr ⟨e', r, hl', hw'⟩
      · intro x hx
        have hc : ¬ traceCellWord m0 e.codeAddress x :=
          fun hc => hx ⟨e, List.mem_cons_self _ _, hl, hc⟩
        rw [ic x (fun ⟨e', he', hl', hw'⟩ => hx ⟨e', List.mem_cons_of_mem _ he', hl', hw'⟩)]
        exact unchainedMem_off_cell T m0 m1 e.codeAddress x (h1 e hmem hl) hc
    · obtain ⟨ia, ib, ic⟩ := unchainAllMem_inv T m0 es hwf rest hsub' m1 m2 h1 h2
      simp only [unchainAllMem, if_neg hl]
      refine ⟨ia, ?_, ?_⟩
      · intro x hx
        apply ib
        rcases hx with hx | ⟨e', he', hl', hw'⟩
        · exact Or.inl hx
        · rcases List.mem_cons.mp he' with r | r
          · subst r; exact absurd hl' hl
          · exact Or.inr ⟨e', r, hl', hw'⟩
      · intro x hx
        exact ic x (fun ⟨e', he', hl', hw'⟩ => hx ⟨e', List.mem_cons_of_mem _ he', hl', hw'⟩)

/-- On a well-formed table, unchaining every trace a second time changes no
byte. -/
theorem unchainAllMem_idem (T : Target) (m0 : Mem) (es : List JitEntry)
    (hwf : tableWellFormed m0 es) :
    unchainAllMem T es (unchainAllMem T es m0) = unchainAllMem T es m0 := by
  have hself : ∀ e ∈ es, e.live → ∀ y, traceMeta m0 e.codeAddress y → m0 y = m0 y :=
    fun _ _ _ _ _ => rfl
  obtain ⟨ia, _, ic⟩ := unchainAllMem_inv T m0 es hwf es (fun _ h => h) m0 m0 hself hself
  obtain ⟨_, jb, _⟩ := unchainAllMem_inv T m0 es hwf es (fun _ h => h)
    (unchainAllMem T es m0) m0 ia hself
  funext x
  apply jb
  by_cases hc : tableCellWord m0 es x
  · exact Or.inr hc
  · exact Or.inl (ic x hc)

/-- Result of `dvmJitUnchainAll` on a table that is present. -/
theorem dvmJitUnchainAll_closed (T : Target) (es : List JitEntry) (mem : Mem) :
    ∃ low high, dvmJitUnchainAll T (some es) mem =
      .ok (unchainAllMem T es mem, some (low, high)) := by
  obtain ⟨low, high, h⟩ := unchainAllLoop_closed T es mem 0 0
  exact ⟨low, high, by simp only [dvmJitUnchainAll, h]⟩

/-- C11: on a trace table whose live entries are installed traces laid out
apart (no chaining-cell word of one is a header or count byte of one),
`dvmJitUnchainAll` returns, and called again on the memory it left it returns
that memory unchanged. -/
theorem C11_unchainAll_idempotent (T : Target) (mem : Mem) (table : Option (List JitEntry))
    (hwf : ∀ es, table = some es → tableWellFormed mem es) :
    ∃ mem1 r1 r2, dvmJitUnchainAll T table mem = .ok (mem1, r1) ∧
      dvmJitUnchainAll T table mem1 = .ok (mem1, r2) := by
  cases table with
  | none => exact ⟨mem, none, none, rfl, rfl⟩
  | some es =>
    obtain ⟨l1, h1, e1⟩ := dvmJitUnchainAll_closed T es mem
    obtain ⟨l2, h2, e2⟩ := dvmJitUnchainAll_closed T es (unchainAllMem T es mem)
    rw [unchainAllMem_idem T mem es (hwf es rfl)] at e2
    exact ⟨_, _, _, e1, e2⟩

theorem exampleTable_wf : tableWellFormed traceMem exampleTable := by
  intro e he hl e2 he2 hl2 x hx hm
  have hc : ∀ e' ∈ exampleTable, e'.live → e'.codeAddress = 0x1003 := by decide
  rw [hc e he hl] at hx
  rw [hc e2 he2 hl2] at hm
  have h1 : unchainCellStart traceMem 0x1003 = 0x1008 := by decide
  have h2 : unchainCellCount traceMem (unchainCountsAddr traceMem 0x1003) = 2 := by decide
  have h3 : unchainCountsAddr traceMem 0x1003 = 0x1018 := by decide
  have h4 : unchainOffsetAddr 0x1003 = 0x1000 := by decide
  unfold traceCellWord inCellWord at hx
  unfold traceMeta at hm
  rw [h1, h2] at hx
  rw [h3, h4] at hm
  omega

theorem C11_unchainAll_idempotent_witness :
    ∃ mem1 r1 r2, dvmJitUnchainAll exampleTarget (some exampleTable) traceMem = .ok (mem1, r1) ∧
      dvmJitUnchainAll exampleTarget (some exampleTable) mem1 = .ok (mem1, r2) :=
  C11_unchainAll_idempotent exampleTarget traceMem (some exampleTable)
    (fun es h => by
      simp only [Option.some.injEq] at h
      subst h
      exact exampleTable_wf)

/-- C19: the range `dvmJitUnchainAll` passes to `cacheflush` does not contain
the bytes it wrote.  Entries with a null `dPC` or a null `codeAddress` are
skipped, but for a live entry `lowAddress` is assigned `lastAddress`, the
address past the last cell of that trace: on a table with one live entry the
range is `[lastAddress, lastAddress)`.  On `exampleTable` over `traceMem` the
call writes the stub at `0x1008` (byte `0xB0`, before `0`) and at `0x1010`,
and the range is `[0x1018, 0x1018)`. -/
theorem C19_flush_range_misses_writes :
    (∀ (T : Target) (e : JitEntry) (rest : List JitEntry) (mem : Mem) (low high : Int),
      ¬ e.live →
      unchainAllLoop T (e :: rest) mem low high = unchainAllLoop T rest mem low high) ∧
    (∀ (T : Target) (e : JitEntry) (mem : Mem), e.live →
      dvmJitUnchainAll T (some [e]) mem =
        .ok (unchainedMem T mem e.codeAddress,
          some (unchainCountsAddr mem e.codeAddress,
            if unchainCountsAddr mem e.codeAddress > 0 then unchainCountsAddr mem e.codeAddress
            else 0))) ∧
    unchainAllView (dvmJitUnchainAll exampleTarget (some exampleTable) traceMem) 0x1008 =
      some (0xB0, 0, some (0x1018, 0x1018)) ∧
    unchainAllView (dvmJitUnchainAll exampleTarget (some exampleTable) traceMem) 0x1010 =
      some (0xF0, 0, some (0x1018, 0x1018)) ∧
    traceMem 0x1008 = 0 ∧ traceMem 0x1010 = 0 ∧
    ¬ ((0x1018 : Int) ≤ 0x1008 ∧ (0x1008 : Int) < 0x1018) := by
  refine ⟨?_, ?_, by decide, by decide, by decide, by decide, by decide⟩
  · intro T e rest mem low high hl
    have hl2 : ¬ (e.dPC ≠ 0 ∧ e.codeAddress ≠ 0) := hl
    rw [unchainAllLoop, if_neg hl2]
  · intro T e mem hl
    have hl2 : e.dPC ≠ 0 ∧ e.codeAddress ≠ 0 := hl
    simp only [dvmJitUnchainAll, unchainAllLoop, if_pos hl2, dvmJitUnchain_closed, true_or,
      if_true]

/-! ## Linked lists: generic lemmas -/

theorem Linked_headOr (f : Nat → Option Nat) :
    ∀ (l : List Nat) (p q : Option Nat), Linked f p l q → p = headOr l q
  | [], _, _, h => h
  | _ :: _, _, _, h => h.1

theorem Linked_congr (f g : Nat → Option Nat) :
    ∀ (l : List Nat) (p q : Option Nat), (∀ y ∈ l, g y = f y) → Linked f p l q →
      Linked g p l q
  | [], _, _, _, h => h
  | i :: rest, _, _, hfg, h =>
    ⟨h.1, by
      rw [hfg i (List.mem_cons_self _ _)]
      exact Linked_congr f g rest _ _ (fun y hy => hfg y (List.mem_cons_of_mem _ hy)) h.2⟩

theorem Linked_append (f : Nat → Option Nat) :
    ∀ (l1 l2 : List Nat) (p r q : Option Nat), Linked f p l1 r → Linked f r l2 q →
      Linked f p (l1 ++ l2) q
  | [], _, _, _, _, h1, h2 => by
    have : _ = _ := h1
    subst this; exact h2
  | i :: rest, l2, _, r, q, h1, h2 =>
    ⟨h1.1, Linked_append f rest l2 _ r q h1.2 h2⟩

theorem Linked_split (f : Nat → Option Nat) :
    ∀ (l1 l2 : List Nat) (p q : Option Nat), Linked f p (l1 ++ l2) q →
      Linked f p l1 (headOr l2 q) ∧ Linked f (headOr l2 q) l2 q
  | [], l2, p, q, h => by
    have hp := Linked_headOr f l2 p q h
    subst hp
    exact ⟨rfl, h⟩
  | i :: rest, l2, _, q, h => by
    obtain ⟨h1, h2⟩ := Linked_split f rest l2 _ q h.2
    exact ⟨⟨h.1, h1⟩, h2⟩

theorem Linked_snoc (f : Nat → Option Nat) :
    ∀ (l : List Nat) (x : Nat) (p q : Option Nat), Linked f p (l ++ [x]) q →
      Linked f p l (some x) ∧ f x = q := by
  intro l x p q h
  obtain ⟨h1, h2⟩ := Linked_split f l [x] p q h
  exact ⟨h1, h2.2⟩

/-- A segment whose last record gets a new link. -/
theorem Linked_retarget (f g : Nat → Option Nat) (l : List Nat) (x : Nat) (p q r : Option Nat)
    (h : Linked f p (l ++ [x]) q) (hfg : ∀ y ∈ l, g y = f y) (hx : g x = r) :
    Linked g p (l ++ [x]) r := by
  obtain ⟨h1, _⟩ := Linked_snoc f l x p q h
  exact Linked_append g l [x] p (some x) r (Linked_congr f g l p _ hfg h1) ⟨rfl, hx⟩

theorem Chain_iff_Linked (lirs : LIRHeap) :
    ∀ (l : List Nat) (p : Option Nat), Chain lirs p l ↔ Linked (nextOf lirs) p l none
  | [], _ => Iff.rfl
  | i :: rest, _ => by
    constructor
    · intro h; exact ⟨h.1, (Chain_iff_Linked lirs rest _).mp h.2⟩
    · intro h; exact ⟨h.1, (Chain_iff_Linked lirs rest _).mpr h.2⟩

theorem headOr_append_cons (l : List Nat) (x : Nat) (m : List Nat) (q : Option Nat) :
    headOr ((l ++ [x]) ++ m) q = headOr (l ++ [x]) none := by
  cases l <;> rfl

theorem headOr_of_head (l : List Nat) (x : Nat) (q : Option Nat) (h : l.head? = some x) :
    headOr l q = some x := by
  cases l with
  | nil => simp at h
  | cons y t => simp only [List.head?_cons, Option.some.injEq] at h; subst h; rfl

theorem headOr_cons_append (x : Nat) (l m : List Nat) (q : Option Nat) :
    headOr ((x :: l) ++ m) q = some x := rfl

theorem headOr_snoc_append (l : List Nat) (x : Nat) (m : List Nat) (q r : Option Nat) :
    headOr ((l ++ [x]) ++ m) q = headOr (l ++ [x]) r := by
  cases l <;> rfl

/-- Rearrangement of a linked list made of four segments `A B C D` into
`A X1 C X2 B X3 D`, where `X1`, `X2`, `X3` are new segments: the links inside
the old segments are kept, and each segment's last link leads to the segment
that now follows it. -/
theorem Linked_rearrange (f g : Nat → Option Nat) (p : Option Nat)
    (Ai : List Nat) (a : Nat) (Bi : List Nat) (b : Nat) (Ci : List Nat) (c : Nat)
    (D X1 X2 X3 : List Nat)
    (h0 : Linked f p ((Ai ++ [a]) ++ ((Bi ++ [b]) ++ ((Ci ++ [c]) ++ D))) none)
    (hAi : ∀ y ∈ Ai, g y = f y) (hBi : ∀ y ∈ Bi, g y = f y) (hCi : ∀ y ∈ Ci, g y = f y)
    (hD : ∀ y ∈ D, g y = f y)
    (ha : g a = headOr (X1 ++ (Ci ++ [c])) none)
    (hX1 : Linked g (headOr (X1 ++ (Ci ++ [c])) none) X1 (headOr (Ci ++ [c]) none))
    (hc : g c = headOr (X2 ++ (Bi ++ [b])) none)
    (hX2 : Linked g (headOr (X2 ++ (Bi ++ [b])) none) X2 (headOr (Bi ++ [b]) none))
    (hb : g b = headOr (X3 ++ D) none)
    (hX3 : Linked g (headOr (X3 ++ D) none) X3 (headOr D none)) :
    Linked g p ((Ai ++ [a]) ++ (X1 ++ ((Ci ++ [c]) ++ (X2 ++ ((Bi ++ [b]) ++ (X3 ++ D))))))
      none := by
  obtain ⟨hA, h1⟩ := Linked_split f _ _ _ _ h0
  obtain ⟨hB, h2⟩ := Linked_split f _ _ _ _ h1
  obtain ⟨hC, hDl⟩ := Linked_split f _ _ _ _ h2
  rw [headOr_snoc_append _ _ _ _ none] at hA hB
  have hB' : Linked f (headOr (Bi ++ [b]) none) (Bi ++ [b]) (headOr ((Ci ++ [c]) ++ D) none) :=
    hB
  have hC' : Linked f (headOr (Ci ++ [c]) none) (Ci ++ [c]) (headOr D none) := by
    rw [headOr_snoc_append _ _ _ _ none] at hC; exact hC
  have gA := Linked_retarget f g Ai a p _ _ hA hAi ha
  have gC := Linked_retarget f g Ci c _ _ _ hC' hCi hc
  have gB := Linked_retarget f g Bi b _ _ _ hB' hBi hb
  have gD := Linked_congr f g D _ _ hD hDl
  exact Linked_append g _ _ _ _ _ gA
    (Linked_append g _ _ _ _ _ hX1
      (Linked_append g _ _ _ _ _ gC
        (Linked_append g _ _ _ _ _ hX2
          (Linked_append g _ _ _ _ _ gB (Linked_append g _ _ _ _ _ hX3 gD)))))

/-! ## The rewrite of an out-of-range conditional branch -/

theorem setNext_next (h : LIRHeap) (p : Nat) (v : Option Nat) (q : Nat) :
    (setNext h p v q).next = if q = p then v else (h q).next := by
  unfold setNext LIRHeap.set
  by_cases c : q = p <;> simp [c]

theorem setPrev_prev (h : LIRHeap) (p : Nat) (v : Option Nat) (q : Nat) :
    (setPrev h p v q).prev = if q = p then v else (h q).prev := by
  unfold setPrev LIRHeap.set
  by_cases c : q = p <;> simp [c]

theorem setNext_opCode (h : LIRHeap) (p : Nat) (v : Option Nat) (q : Nat) :
    (setNext h p v q).opCode = (h q).opCode := by
  unfold setNext LIRHeap.set
  by_cases c : q = p <;> simp [c]

theorem setNext_operands0 (h : LIRHeap) (p : Nat) (v : Option Nat) (q : Nat) :
    (setNext h p v q).operands0 = (h q).operands0 := by
  unfold setNext LIRHeap.set
  by_cases c : q = p <;> simp [c]

theorem setNext_operands1 (h : LIRHeap) (p : Nat) (v : Option Nat) (q : Nat) :
    (setNext h p v q).operands1 = (h q).operands1 := by
  unfold setNext LIRHeap.set
  by_cases c : q = p <;> simp [c]

theorem setNext_operands2 (h : LIRHeap) (p : Nat) (v : Option Nat) (q : Nat) :
    (setNext h p v q).operands2 = (h q).operands2 := by
  unfold setNext LIRHeap.set
  by_cases c : q = p <;> simp [c]

theorem setNext_offset (h : LIRHeap) (p : Nat) (v : Option Nat) (q : Nat) :
    (setNext h p v q).offset = (h q).offset := by
  unfold setNext LIRHeap.set
  by_cases c : q = p <;> simp [c]

theorem setNext_target (h : LIRHeap) (p : Nat) (v : Option Nat) (q : Nat) :
    (setNext h p v q).target = (h q).target := by
  unfold setNext LIRHeap.set
  by_cases c : q = p <;> simp [c]

theorem setNext_prev (h : LIRHeap) (p : Nat) (v : Option Nat) (q : Nat) :
    (setNext h p v q).prev = (h q).prev := by
  unfold setNext LIRHeap.set
  by_cases c : q = p <;> simp [c]

theorem setPrev_opCode (h : LIRHeap) (p : Nat) (v : Option Nat) (q : Nat) :
    (setPrev h p v q).opCode = (h q).opCode := by
  unfold setPrev LIRHeap.set
  by_cases c : q = p <;> simp [c]

theorem setPrev_operands0 (h : LIRHeap) (p : Nat) (v : Option Nat) (q : Nat) :
    (setPrev h p v q).operands0 = (h q).operands0 := by
  unfold setPrev LIRHeap.set
  by_cases c : q = p <;> simp [c]

theorem setPrev_operands1 (h : LIRHeap) (p : Nat) (v : Option Nat) (q : Nat) :
    (setPrev h p v q).operands1 = (h q).operands1 := by
  unfold setPrev LIRHeap.set
  by_cases c : q = p <;> simp [c]

theorem setPrev_operands2 (h : LIRHeap) (p : Nat) (v : Option Nat) (q : Nat) :
    (setPrev h p v q).operands2 = (h q).operands2 := by
  unfold setPrev LIRHeap.set
  by_cases c : q = p <;> simp [c]

theorem setPrev_offset (h : LIRHeap) (p : Nat) (v : Option Nat) (q : Nat) :
    (setPrev h p v q).offset = (h q).offset := by
  unfold setPrev LIRHeap.set
  by_cases c : q = p <;> simp [c]

theorem setPrev_target (h : LIRHeap) (p : Nat) (v : Option Nat) (q : Nat) :
    (setPrev h p v q).target = (h q).target := by
  unfold setPrev LIRHeap.set
  by_cases c : q = p <;> simp [c]

theorem setPrev_next (h : LIRHeap) (p : Nat) (v : Option Nat) (q : Nat) :
    (setPrev h p v q).next = (h q).next := by
  unfold setPrev LIRHeap.set
  by_cases c : q = p <;> simp [c]

theorem findLastLIR_block (h : LIRHeap) :
    ∀ (bl : List Nat) (L : Nat) (p q : Option Nat) (fuel : Nat),
      Linked (nextOf h) p (bl ++ [L]) q → (∀ i ∈ bl, (h i).opCode ≠ ARMV5TE_B_UNCOND) →
      (h L).opCode = ARMV5TE_B_UNCOND → bl.length < fuel → findLastLIR h fuel p = .ok L
  | [], L, p, q, fuel, hl, _, hL, hf => by
    obtain ⟨hp, _⟩ := hl
    subst hp
    obtain ⟨n, rfl⟩ : ∃ n, fuel = n + 1 := ⟨fuel - 1, by simp at hf; omega⟩
    simp only [findLastLIR, hL, ne_eq, not_true_eq_false, if_false]
  | i :: rest, L, p, q, fuel, hl, hbl, hL, hf => by
    obtain ⟨hp, hrest⟩ := hl
    subst hp
    obtain ⟨n, rfl⟩ : ∃ n, fuel = n + 1 := ⟨fuel - 1, by simp at hf; omega⟩
    have hi := hbl i (List.mem_cons_self _ _)
    simp only [findLastLIR, if_pos hi]
    exact findLastLIR_block h rest L _ q n hrest
      (fun j hj => hbl j (List.mem_cons_of_mem _ hj)) hL (by simp at hf; omega)

/-- Effect of the rewrite on the heap, link by link: `lir` is the conditional
branch, `T` its target, `L` the last record of the block, `F` the record after
the branch, `bt` the record before the block and `aft` the record after it;
the new record has the index `st.numLIR`. -/
theorem pullInPCReconstruction_links (fuel : Nat) (st : AsmState) (b T L F bt aft : Nat)
    (hfind : findLastLIR st.lirs fuel (some T) = .ok L)
    (hLn : (st.lirs L).next = some aft) (hTp : (st.lirs T).prev = some bt)
    (hbn : (st.lirs b).next = some F) :
    ∃ st1, pullInPCReconstruction fuel st b T = .ok st1 ∧ st1.retry = true ∧
      st1.buffer = st.buffer ∧ st1.numLIR = st.numLIR + 1 ∧
      (∀ q, nextOf st1.lirs q =
        if q = L then some F else if q = st.numLIR then some T
        else if q = b then some st.numLIR else if q = bt then some aft
        else nextOf st.lirs q) ∧
      (∀ q, prevOf st1.lirs q =
        if q = F then some L else if q = T then some st.numLIR
        else if q = st.numLIR then some b else if q = aft then some bt
        else prevOf st.lirs q) ∧
      (∀ q, q ≠ st.numLIR →
        st1.lirs q = { st.lirs q with next := (st1.lirs q).next, prev := (st1.lirs q).prev }) ∧
      (∀ r, st1.lirs st.numLIR = r →
        r.opCode = ARMV5TE_B_UNCOND ∧ r.target = some F ∧ r.offset = 0 ∧
        r.operands0 = 0 ∧ r.operands1 = 0 ∧ r.operands2 = 0) := by
  have hT1 : (setPrev st.lirs aft (st.lirs T).prev T).prev = some bt := by
    rw [setPrev_prev, hTp]; simp
  have hL1 : (setPrev st.lirs aft (st.lirs T).prev L).next = some aft := by
    rw [setPrev_next, hLn]
  unfold pullInPCReconstruction
  simp only [hfind, hLn, hT1, hL1, hbn]
  refine ⟨_, rfl, rfl, rfl, rfl, ?_, ?_, ?_, ?_⟩
  · intro q
    simp only [nextOf, setPrev_next, setNext_next, LIRHeap.set]
    by_cases c1 : q = L
    · simp [c1]
    · by_cases c2 : q = st.numLIR
      · simp [c1, c2]
      · by_cases c3 : q = b
        · simp [c1, c2, c3]
        · simp [c1, c2, c3, setNext_next, setPrev_next]
  · intro q
    simp only [prevOf, setPrev_prev, setNext_prev, LIRHeap.set, hTp]
    by_cases c1 : q = F
    · simp [c1]
    · by_cases c2 : q = T
      · simp [c1, c2]
      · by_cases c3 : q = st.numLIR
        · simp [c1, c2, c3]
        · simp [c1, c2, c3, setNext_prev, setPrev_prev]
  · intro q hq
    have key : ∀ r r2 : Armv5teLIR, r2.opCode = r.opCode → r2.operands0 = r.operands0 →
        r2.operands1 = r.operands1 → r2.operands2 = r.operands2 → r2.offset = r.offset →
        r2.target = r.target → r2 = { r with next := r2.next, prev := r2.prev } := by
      intro r r2 h1 h2 h3 h4 h5 h6
      cases r; cases r2
      simp only at h1 h2 h3 h4 h5 h6
      simp only [h1, h2, h3, h4, h5, h6]
    apply key <;>
      simp only [setPrev_opCode, setNext_opCode, setPrev_operands0, setNext_operands0,
        setPrev_operands1, setNext_operands1, setPrev_operands2, setNext_operands2,
        setPrev_offset, setNext_offset, setPrev_target, setNext_target,
        LIRHeap.set_other _ _ _ _ hq]
  · intro r hr
    subst hr
    simp only [setPrev_opCode, setNext_opCode, setPrev_operands0, setNext_operands0,
      setPrev_operands1, setNext_operands1, setPrev_operands2, setNext_operands2,
      setPrev_offset, setNext_offset, setPrev_target, setNext_target, LIRHeap.set_same]
    simp [zeroLIR]

/-! ## Once a retry is pending, pass 2 stores nothing -/

theorem pullInPCReconstruction_buffer (fuel : Nat) (st st1 : AsmState) (lir targetLIR : Nat)
    (h : pullInPCReconstruction fuel st lir targetLIR = .ok st1) : st1.buffer = st.buffer := by
  unfold pullInPCReconstruction at h
  simp only [] at h
  split at h
  · exact absurd h (by simp)
  · split at h
    · exact absurd h (by simp)
    · split at h
      · exact absurd h (by simp)
      · split at h
        · exact absurd h (by simp)
        · simp only [Except.ok.injEq] at h
          rw [← h]

theorem resolveDisplacement_buffer (sa : Int) (walk p : Nat) (st st1 : AsmState)
    (h : resolveDisplacement sa walk p st = .ok st1) : st1.buffer = st.buffer := by
  unfold resolveDisplacement at h
  simp only [] at h
  repeat' split at h
  all_goals
    first
    | exact pullInPCReconstruction_buffer _ _ _ _ _ h
    | (cases h; done)
    | (cases h; rfl)

theorem assembleStep_retry_buffer (sa : Int) (walk p : Nat) (st st1 : AsmState)
    (h : assembleStep sa walk p st = .ok st1) (hr : st.retry = true) :
    st1.buffer = st.buffer := by
  by_cases hop : (st.lirs p).opCode < 0
  · rw [assembleStep_pseudo sa walk p st hop] at h
    simp only [Except.ok.injEq] at h
    subst h
    simp [hr]
  · unfold assembleStep at h
    simp only [if_neg hop] at h
    split at h
    · exact absurd h (by simp)
    · rename_i st2 hres
      have hr2 := resolveDisplacement_retry_mono sa walk p st st2 hres hr
      simp only [hr2, if_true, Except.ok.injEq] at h
      subst h
      exact resolveDisplacement_buffer sa walk p st st2 hres

theorem assembleLoop_retry_buffer (sa : Int) (walk : Nat) :
    ∀ (fuel : Nat) (p : Option Nat) (st st1 : AsmState),
      assembleLoop sa walk fuel p st = .ok st1 → st.retry = true →
      st1.buffer = st.buffer ∧ st1.retry = true
  | 0, _, _, _, h, _ => by simp [assembleLoop] at h
  | _ + 1, none, st, st1, h, hr => by
    simp only [assembleLoop, Except.ok.injEq] at h
    subst h; exact ⟨rfl, hr⟩
  | f + 1, some p, st, st1, h, hr => by
    simp only [assembleLoop] at h
    split at h
    · exact absurd h (by simp)
    · rename_i st2 hstep
      have hb := assembleStep_retry_buffer sa walk p st st2 hstep hr
      have hr2 := assembleStep_retry_mono sa walk p st st2 hstep hr
      obtain ⟨h1, h2⟩ := assembleLoop_retry_buffer sa walk f _ st2 st1 h hr2
      exact ⟨by rw [h1, hb], h2⟩

/-! ## The rewrite when the block lies after the branch -/

/-- Records of the list before the rewrite are pairwise distinct, and the new
record is none of them (block after the branch). -/
theorem forward_distinct (P Mi Mt mid Q : List Nat) (b F bt T L aft J : Nat)
    (hM : Mi ++ [bt] = F :: Mt)
    (hnd : ((P ++ [b]) ++ ((Mi ++ [bt]) ++ (((T :: mid) ++ [L]) ++ (aft :: Q)))).Nodup)
    (hJ : J ∉ ((P ++ [b]) ++ ((Mi ++ [bt]) ++ (((T :: mid) ++ [L]) ++ (aft :: Q))))) :
    (∀ y ∈ P, y ≠ L ∧ y ≠ J ∧ y ≠ b ∧ y ≠ bt ∧ y ≠ F ∧ y ≠ T ∧ y ≠ aft) ∧
    (∀ y ∈ Mi, y ≠ L ∧ y ≠ J ∧ y ≠ b ∧ y ≠ bt) ∧
    (∀ y ∈ Mt, y ≠ F ∧ y ≠ T ∧ y ≠ J ∧ y ≠ aft) ∧
    (∀ y ∈ T :: mid, y ≠ L ∧ y ≠ J ∧ y ≠ b ∧ y ≠ bt) ∧
    (∀ y ∈ L :: mid.reverse, y ≠ F ∧ y ≠ T ∧ y ≠ J ∧ y ≠ aft) ∧
    (∀ y ∈ aft :: Q, y ≠ L ∧ y ≠ J ∧ y ≠ b ∧ y ≠ bt) ∧
    (∀ y ∈ Q, y ≠ F ∧ y ≠ T ∧ y ≠ J ∧ y ≠ aft) ∧
    (b ≠ L ∧ b ≠ J ∧ b ≠ F ∧ b ≠ T ∧ b ≠ aft) ∧ (bt ≠ L ∧ bt ≠ J ∧ bt ≠ b) ∧ L ≠ J ∧
    (T ≠ F ∧ J ≠ F ∧ J ≠ T ∧ aft ≠ F ∧ aft ≠ T ∧ aft ≠ J) := by
  have hnd2 := hnd
  have hJ2 := hJ
  rw [hM] at hnd2 hJ2
  simp only [List.nodup_append, List.nodup_cons, List.mem_append, List.mem_cons,
    List.mem_singleton, List.disjoint_append_left, List.disjoint_append_right,
    List.disjoint_cons_left, List.disjoint_cons_right, List.disjoint_singleton,
    List.singleton_disjoint, List.not_mem_nil, List.nodup_nil, List.mem_reverse,
    not_or] at hnd hJ hnd2 hJ2 ⊢
  refine ⟨?_, ?_, ?_, ?_, ?_, ?_, ?_, ?_, ?_, ?_, ?_⟩
  · intro y hy
    refine ⟨?_, ?_, ?_, ?_, ?_, ?_, ?_⟩ <;> rintro rfl <;> simp_all
  · intro y hy
    refine ⟨?_, ?_, ?_, ?_⟩ <;> rintro rfl <;> simp_all
  · intro y hy
    refine ⟨?_, ?_, ?_, ?_⟩ <;> rintro rfl <;> simp_all
  · intro y hy
    refine ⟨?_, ?_, ?_, ?_⟩ <;> rintro rfl <;> simp_all
  · intro y hy
    refine ⟨?_, ?_, ?_, ?_⟩ <;> rintro rfl <;> simp_all
  · intro y hy
    refine ⟨?_, ?_, ?_, ?_⟩ <;> rintro rfl <;> simp_all
  · intro y hy
    refine ⟨?_, ?_, ?_, ?_⟩ <;> rintro rfl <;> simp_all
  · refine ⟨?_, ?_, ?_, ?_, ?_⟩ <;> rintro rfl <;> simp_all
  · refine ⟨?_, ?_, ?_⟩ <;> rintro rfl <;> simp_all
  · rintro rfl; simp_all
  · refine ⟨?_, ?_, ?_, ?_, ?_, ?_⟩ <;> rintro rfl <;> simp_all

/-- The rewrite on a doubly linked list in which the block `T .. L` lies after
the branch `b`: the list `P, b, F .., bt, T .., L, aft, Q` becomes
`P, b, J, T .., L, F .., bt, aft, Q`. -/
theorem splice_forward (fuel : Nat) (st : AsmState) (P Mi Mt mid Q : List Nat)
    (b F bt T L aft : Nat)
    (hM : Mi ++ [bt] = F :: Mt)
    (hdl : DoublyLinked st.lirs
      ((P ++ [b]) ++ ((Mi ++ [bt]) ++ (((T :: mid) ++ [L]) ++ (aft :: Q)))))
    (hJ : st.numLIR ∉ ((P ++ [b]) ++ ((Mi ++ [bt]) ++ (((T :: mid) ++ [L]) ++ (aft :: Q)))))
    (hmid : ∀ i ∈ T :: mid, (st.lirs i).opCode ≠ ARMV5TE_B_UNCOND)
    (hL : (st.lirs L).opCode = ARMV5TE_B_UNCOND) (hfuel : mid.length + 1 < fuel) :
    ∃ st1, pullInPCReconstruction fuel st b T = .ok st1 ∧ st1.retry = true ∧
      st1.buffer = st.buffer ∧ st1.numLIR = st.numLIR + 1 ∧
      DoublyLinked st1.lirs
        ((P ++ [b]) ++ ([st.numLIR] ++ (((T :: mid) ++ [L]) ++ ((Mi ++ [bt]) ++ (aft :: Q))))) ∧
      (∀ q, q ≠ st.numLIR →
        st1.lirs q = { st.lirs q with next := (st1.lirs q).next, prev := (st1.lirs q).prev }) ∧
      (∀ r, st1.lirs st.numLIR = r →
        r.opCode = ARMV5TE_B_UNCOND ∧ r.target = some F ∧ r.offset = 0 ∧
        r.operands0 = 0 ∧ r.operands1 = 0 ∧ r.operands2 = 0) := by
  obtain ⟨hn, hp⟩ := hdl
  have hnd := Chain_nodup _ _ ((Chain_iff_Linked st.lirs _ _).mpr hn)
  obtain ⟨dP, dMi, dMt, dB, dBr, dA, dQ, db, dbt, dLJ, dX⟩ :=
    forward_distinct P Mi Mt mid Q b F bt T L aft st.numLIR hM hnd hJ
  -- the links read from the list
  obtain ⟨hA, h1⟩ := Linked_split _ _ _ _ _ hn
  obtain ⟨hB, h2⟩ := Linked_split _ _ _ _ _ h1
  obtain ⟨hC, hD⟩ := Linked_split _ _ _ _ _ h2
  have hbn : (st.lirs b).next = some F := by
    have := (Linked_snoc _ _ _ _ _ hA).2
    rw [headOr_snoc_append _ _ _ _ none, hM] at this
    exact this
  have hLn : (st.lirs L).next = some aft := (Linked_snoc _ _ _ _ _ hC).2
  have hT : Linked (nextOf st.lirs) (some T) ((T :: mid) ++ [L]) (some aft) := by
    have := Linked_headOr _ _ _ _ hC
    rw [this] at hC
    exact hC
  have hfind : findLastLIR st.lirs fuel (some T) = .ok L :=
    findLastLIR_block st.lirs (T :: mid) L _ _ fuel hT hmid hL (by simpa using hfuel)
  have hS2r : Mt.reverse ++ [F] = bt :: Mi.reverse := by
    rw [← List.reverse_cons, ← hM]; simp
  have hrev : ((P ++ [b]) ++ ((Mi ++ [bt]) ++ (((T :: mid) ++ [L]) ++ (aft :: Q)))).reverse =
      (Q.reverse ++ [aft]) ++ (((L :: mid.reverse) ++ [T]) ++
        ((Mt.reverse ++ [F]) ++ (b :: P.reverse))) := by
    rw [hS2r]; simp
  rw [hrev] at hp
  obtain ⟨pA, p1⟩ := Linked_split _ _ _ _ _ hp
  obtain ⟨pB, p2⟩ := Linked_split _ _ _ _ _ p1
  have hTp : (st.lirs T).prev = some bt := by
    have := (Linked_snoc _ _ _ _ _ pB).2
    rw [headOr_snoc_append _ _ _ _ none, hS2r] at this
    exact this
  obtain ⟨st1, hok, hr, hbuf, hnum, hf, hg, hkeep, hnew⟩ :=
    pullInPCReconstruction_links fuel st b T L F bt aft hfind hLn hTp hbn
  refine ⟨st1, hok, hr, hbuf, hnum, ⟨?_, ?_⟩, hkeep, hnew⟩
  · -- next links
    have key := Linked_rearrange (nextOf st.lirs) (nextOf st1.lirs) _ P b Mi bt (T :: mid) L
      (aft :: Q) [st.numLIR] [] [] hn
      (fun y hy => by
        obtain ⟨a1, a2, a3, a4, _⟩ := dP y hy
        rw [hf y, if_neg a1, if_neg a2, if_neg a3, if_neg a4])
      (fun y hy => by
        obtain ⟨a1, a2, a3, a4⟩ := dMi y hy
        rw [hf y, if_neg a1, if_neg a2, if_neg a3, if_neg a4])
      (fun y hy => by
        obtain ⟨a1, a2, a3, a4⟩ := dB y hy
        rw [hf y, if_neg a1, if_neg a2, if_neg a3, if_neg a4])
      (fun y hy => by
        obtain ⟨a1, a2, a3, a4⟩ := dA y hy
        rw [hf y, if_neg a1, if_neg a2, if_neg a3, if_neg a4])
      (by rw [hf b, if_neg db.1, if_neg db.2.1, if_pos rfl]; rfl)
      ⟨rfl, by rw [hf st.numLIR, if_neg (Ne.symm dLJ), if_pos rfl]; rfl⟩
      (by rw [hf L, if_pos rfl, List.nil_append, hM]; rfl)
      rfl
      (by rw [hf bt, if_neg dbt.1, if_neg dbt.2.1, if_neg dbt.2.2, if_pos rfl]; rfl)
      rfl
    have hhead : ((P ++ [b]) ++ ([st.numLIR] ++ (((T :: mid) ++ [L]) ++
        ((Mi ++ [bt]) ++ (aft :: Q))))).head? =
        ((P ++ [b]) ++ ((Mi ++ [bt]) ++ (((T :: mid) ++ [L]) ++ (aft :: Q)))).head? := by
      cases P <;> rfl
    rw [hhead]
    exact key
  · -- prev links
    have hrev1 : ((P ++ [b]) ++ ([st.numLIR] ++ (((T :: mid) ++ [L]) ++
        ((Mi ++ [bt]) ++ (aft :: Q))))).reverse =
        (Q.reverse ++ [aft]) ++ ([] ++ ((Mt.reverse ++ [F]) ++ ([] ++
          (((L :: mid.reverse) ++ [T]) ++ ([st.numLIR] ++ (b :: P.reverse)))))) := by
      rw [hS2r]; simp
    have key := Linked_rearrange (prevOf st.lirs) (prevOf st1.lirs) _ Q.reverse aft
      (L :: mid.reverse) T Mt.reverse F (b :: P.reverse) [] [] [st.numLIR] hp
      (fun y hy => by
        obtain ⟨a1, a2, a3, a4⟩ := dQ y (List.mem_reverse.mp hy)
        rw [hg y, if_neg a1, if_neg a2, if_neg a3, if_neg a4])
      (fun y hy => by
        obtain ⟨a1, a2, a3, a4⟩ := dBr y hy
        rw [hg y, if_neg a1, if_neg a2, if_neg a3, if_neg a4])
      (fun y hy => by
        obtain ⟨a1, a2, a3, a4⟩ := dMt y (List.mem_reverse.mp hy)
        rw [hg y, if_neg a1, if_neg a2, if_neg a3, if_neg a4])
      (fun y hy => by
        rcases List.mem_cons.mp hy with r | r
        · subst r
          rw [hg y, if_neg db.2.2.1, if_neg db.2.2.2.1, if_neg db.2.1, if_neg db.2.2.2.2]
        · obtain ⟨_, a2, _, _, a5, a6, a7⟩ := dP y (List.mem_reverse.mp r)
          rw [hg y, if_neg a5, if_neg a6, if_neg a2, if_neg a7])
      (by rw [hg aft, if_neg dX.2.2.2.1, if_neg dX.2.2.2.2.1, if_neg dX.2.2.2.2.2, if_pos rfl,
            List.nil_append, hS2r]; rfl)
      rfl
      (by rw [hg F, if_pos rfl]; rfl)
      rfl
      (by rw [hg T, if_neg dX.1, if_pos rfl]; rfl)
      ⟨rfl, by rw [hg st.numLIR, if_neg dX.2.1, if_neg dX.2.2.1, if_pos rfl]; rfl⟩
    rw [hrev1]
    have hhead : ((Q.reverse ++ [aft]) ++ ([] ++ ((Mt.reverse ++ [F]) ++ ([] ++
          (((L :: mid.reverse) ++ [T]) ++ ([st.numLIR] ++ (b :: P.reverse))))))).head? =
        ((Q.reverse ++ [aft]) ++ (((L :: mid.reverse) ++ [T]) ++
          ((Mt.reverse ++ [F]) ++ (b :: P.reverse)))).head? := by
      generalize Q.reverse = R
      cases R <;> rfl
    rw [hhead]
    exact key

/-! ## The rewrite when the block lies before the branch -/

/-- Records of the list before the rewrite are pairwise distinct, and the new
record is none of them (block before the branch). -/
theorem backward_distinct (P Ma Mt mid Q : List Nat) (b F bt T L aft J : Nat)
    (hM : Ma ++ [b] = aft :: Mt)
    (hnd : ((P ++ [bt]) ++ (((T :: mid) ++ [L]) ++ ((Ma ++ [b]) ++ (F :: Q)))).Nodup)
    (hJ : J ∉ ((P ++ [bt]) ++ (((T :: mid) ++ [L]) ++ ((Ma ++ [b]) ++ (F :: Q))))) :
    (∀ y ∈ P, y ≠ L ∧ y ≠ J ∧ y ≠ b ∧ y ≠ bt ∧ y ≠ F ∧ y ≠ T ∧ y ≠ aft) ∧
    (∀ y ∈ Ma, y ≠ L ∧ y ≠ J ∧ y ≠ b ∧ y ≠ bt) ∧
    (∀ y ∈ Mt, y ≠ F ∧ y ≠ T ∧ y ≠ J ∧ y ≠ aft) ∧
    (∀ y ∈ T :: mid, y ≠ L ∧ y ≠ J ∧ y ≠ b ∧ y ≠ bt) ∧
    (∀ y ∈ L :: mid.reverse, y ≠ F ∧ y ≠ T ∧ y ≠ J ∧ y ≠ aft) ∧
    (∀ y ∈ F :: Q, y ≠ L ∧ y ≠ J ∧ y ≠ b ∧ y ≠ bt) ∧
    (∀ y ∈ Q, y ≠ F ∧ y ≠ T ∧ y ≠ J ∧ y ≠ aft) ∧
    (bt ≠ L ∧ bt ≠ J ∧ bt ≠ b ∧ bt ≠ F ∧ bt ≠ T ∧ bt ≠ aft) ∧ (b ≠ L ∧ b ≠ J) ∧ L ≠ J ∧
    (T ≠ F ∧ J ≠ F ∧ J ≠ T ∧ aft ≠ F ∧ aft ≠ T ∧ aft ≠ J) := by
  have hnd2 := hnd
  have hJ2 := hJ
  rw [hM] at hnd2 hJ2
  simp only [List.nodup_append, List.nodup_cons, List.mem_append, List.mem_cons,
    List.mem_singleton, List.disjoint_append_left, List.disjoint_append_right,
    List.disjoint_cons_left, List.disjoint_cons_right, List.disjoint_singleton,
    List.singleton_disjoint, List.not_mem_nil, List.nodup_nil, List.mem_reverse,
    not_or] at hnd hJ hnd2 hJ2 ⊢
  refine ⟨?_, ?_, ?_, ?_, ?_, ?_, ?_, ?_, ?_, ?_, ?_⟩
  · intro y hy
    refine ⟨?_, ?_, ?_, ?_, ?_, ?_, ?_⟩ <;> rintro rfl <;> simp_all
  · intro y hy
    refine ⟨?_, ?_, ?_, ?_⟩ <;> rintro rfl <;> simp_all
  · intro y hy
    refine ⟨?_, ?_, ?_, ?_⟩ <;> rintro rfl <;> simp_all
  · intro y hy
    refine ⟨?_, ?_, ?_, ?_⟩ <;> rintro rfl <;> simp_all
  · intro y hy
    refine ⟨?_, ?_, ?_, ?_⟩ <;> rintro rfl <;> simp_all
  · intro y hy
    refine ⟨?_, ?_, ?_, ?_⟩ <;> rintro rfl <;> simp_all
  · intro y hy
    refine ⟨?_, ?_, ?_, ?_⟩ <;> rintro rfl <;> simp_all
  · refine ⟨?_, ?_, ?_, ?_, ?_, ?_⟩ <;> rintro rfl <;> simp_all
  · refine ⟨?_, ?_⟩ <;> rintro rfl <;> simp_all
  · rintro rfl; simp_all
  · refine ⟨?_, ?_, ?_, ?_, ?_, ?_⟩ <;> rintro rfl <;> simp_all

/-- The rewrite on a doubly linked list in which the block `T .. L` lies
before the branch `b`: the list `P, bt, T .., L, aft .., b, F, Q` becomes
`P, bt, aft .., b, J, T .., L, F, Q`. -/
theorem splice_backward (fuel : Nat) (st : AsmState) (P Ma Mt mid Q : List Nat)
    (b F bt T L aft : Nat)
    (hM : Ma ++ [b] = aft :: Mt)
    (hdl : DoublyLinked st.lirs
      ((P ++ [bt]) ++ (((T :: mid) ++ [L]) ++ ((Ma ++ [b]) ++ (F :: Q)))))
    (hJ : st.numLIR ∉ ((P ++ [bt]) ++ (((T :: mid) ++ [L]) ++ ((Ma ++ [b]) ++ (F :: Q)))))
    (hmid : ∀ i ∈ T :: mid, (st.lirs i).opCode ≠ ARMV5TE_B_UNCOND)
    (hL : (st.lirs L).opCode = ARMV5TE_B_UNCOND) (hfuel : mid.length + 1 < fuel) :
    ∃ st1, pullInPCReconstruction fuel st b T = .ok st1 ∧ st1.retry = true ∧
      st1.buffer = st.buffer ∧ st1.numLIR = st.numLIR + 1 ∧
      DoublyLinked st1.lirs
        ((P ++ [bt]) ++ ((Ma ++ [b]) ++ ([st.numLIR] ++ (((T :: mid) ++ [L]) ++ (F :: Q))))) ∧
      (∀ q, q ≠ st.numLIR →
        st1.lirs q = { st.lirs q with next := (st1.lirs q).next, prev := (st1.lirs q).prev }) ∧
      (∀ r, st1.lirs st.numLIR = r →
        r.opCode = ARMV5TE_B_UNCOND ∧ r.target = some F ∧ r.offset = 0 ∧
        r.operands0 = 0 ∧ r.operands1 = 0 ∧ r.operands2 = 0) := by
  obtain ⟨hn, hp⟩ := hdl
  have hnd := Chain_nodup _ _ ((Chain_iff_Linked st.lirs _ _).mpr hn)
  obtain ⟨dP, dMa, dMt, dB, dBr, dF, dQ, dbt, db, dLJ, dX⟩ :=
    backward_distinct P Ma Mt mid Q b F bt T L aft st.numLIR hM hnd hJ
  obtain ⟨hA, h1⟩ := Linked_split _ _ _ _ _ hn
  obtain ⟨hB, h2⟩ := Linked_split _ _ _ _ _ h1
  obtain ⟨hC, hD⟩ := Linked_split _ _ _ _ _ h2
  have hbn : (st.lirs b).next = some F := (Linked_snoc _ _ _ _ _ hC).2
  have hLn : (st.lirs L).next = some aft := by
    have := (Linked_snoc _ _ _ _ _ hB).2
    rw [headOr_snoc_append _ _ _ _ none, hM] at this
    exact this
  have hT : Linked (nextOf st.lirs) (some T) ((T :: mid) ++ [L])
      (headOr ((Ma ++ [b]) ++ (F :: Q)) none) := by
    have := Linked_headOr _ _ _ _ hB
    rw [this] at hB
    exact hB
  have hfind : findLastLIR st.lirs fuel (some T) = .ok L :=
    findLastLIR_block st.lirs (T :: mid) L _ _ fuel hT hmid hL (by simpa using hfuel)
  have hS2r : Mt.reverse ++ [aft] = b :: Ma.reverse := by
    rw [← List.reverse_cons, ← hM]; simp
  have hrev : ((P ++ [bt]) ++ (((T :: mid) ++ [L]) ++ ((Ma ++ [b]) ++ (F :: Q)))).reverse =
      (Q.reverse ++ [F]) ++ ((Mt.reverse ++ [aft]) ++
        (((L :: mid.reverse) ++ [T]) ++ (bt :: P.reverse))) := by
    rw [hS2r]; simp
  rw [hrev] at hp
  obtain ⟨pA, p1⟩ := Linked_split _ _ _ _ _ hp
  obtain ⟨pB, p2⟩ := Linked_split _ _ _ _ _ p1
  obtain ⟨pC, pD⟩ := Linked_split _ _ _ _ _ p2
  have hTp : (st.lirs T).prev = some bt := (Linked_snoc _ _ _ _ _ pC).2
  obtain ⟨st1, hok, hr, hbuf, hnum, hf, hg, hkeep, hnew⟩ :=
    pullInPCReconstruction_links fuel st b T L F bt aft hfind hLn hTp hbn
  refine ⟨st1, hok, hr, hbuf, hnum, ⟨?_, ?_⟩, hkeep, hnew⟩
  · -- next links
    have key := Linked_rearrange (nextOf st.lirs) (nextOf st1.lirs) _ P bt (T :: mid) L Ma b
      (F :: Q) [] [st.numLIR] [] hn
      (fun y hy => by
        obtain ⟨a1, a2, a3, a4, _⟩ := dP y hy
        rw [hf y, if_neg a1, if_neg a2, if_neg a3, if_neg a4])
      (fun y hy => by
        obtain ⟨a1, a2, a3, a4⟩ := dB y hy
        rw [hf y, if_neg a1, if_neg a2, if_neg a3, if_neg a4])
      (fun y hy => by
        obtain ⟨a1, a2, a3, a4⟩ := dMa y hy
        rw [hf y, if_neg a1, if_neg a2, if_neg a3, if_neg a4])
      (fun y hy => by
        obtain ⟨a1, a2, a3, a4⟩ := dF y hy
        rw [hf y, if_neg a1, if_neg a2, if_neg a3, if_neg a4])
      (by rw [hf bt, if_neg dbt.1, if_neg dbt.2.1, if_neg dbt.2.2.1, if_pos rfl,
            List.nil_append, hM]; rfl)
      rfl
      (by rw [hf b, if_neg db.1, if_neg db.2, if_pos rfl]; rfl)
      ⟨rfl, by rw [hf st.numLIR, if_neg (Ne.symm dLJ), if_pos rfl]; rfl⟩
      (by rw [hf L, if_pos rfl]; rfl)
      rfl
    have hhead : ((P ++ [bt]) ++ ((Ma ++ [b]) ++ ([st.numLIR] ++ (((T :: mid) ++ [L]) ++
        (F :: Q))))).head? =
        ((P ++ [bt]) ++ (((T :: mid) ++ [L]) ++ ((Ma ++ [b]) ++ (F :: Q)))).head? := by
      cases P <;> rfl
    rw [hhead]
    exact key
  · -- prev links
    have hrev1 : ((P ++ [bt]) ++ ((Ma ++ [b]) ++ ([st.numLIR] ++ (((T :: mid) ++ [L]) ++
        (F :: Q))))).reverse =
        (Q.reverse ++ [F]) ++ ([] ++ (((L :: mid.reverse) ++ [T]) ++ ([st.numLIR] ++
          ((Mt.reverse ++ [aft]) ++ ([] ++ (bt :: P.reverse)))))) := by
      rw [hS2r]; simp
    have key := Linked_rearrange (prevOf st.lirs) (prevOf st1.lirs) _ Q.reverse F
      Mt.reverse aft (L :: mid.reverse) T (bt :: P.reverse) [] [st.numLIR] [] hp
      (fun y hy => by
        obtain ⟨a1, a2, a3, a4⟩ := dQ y (List.mem_reverse.mp hy)
        rw [hg y, if_neg a1, if_neg a2, if_neg a3, if_neg a4])
      (fun y hy => by
        obtain ⟨a1, a2, a3, a4⟩ := dMt y (List.mem_reverse.mp hy)
        rw [hg y, if_neg a1, if_neg a2, if_neg a3, if_neg a4])
      (fun y hy => by
        obtain ⟨a1, a2, a3, a4⟩ := dBr y hy
        rw [hg y, if_neg a1, if_neg a2, if_neg a3, if_neg a4])
      (fun y hy => by
        rcases List.mem_cons.mp hy with r | r
        · subst r
          rw [hg y, if_neg dbt.2.2.2.1, if_neg dbt.2.2.2.2.1, if_neg dbt.2.1,
            if_neg dbt.2.2.2.2.2]
        · obtain ⟨_, a2, _, _, a5, a6, a7⟩ := dP y (List.mem_reverse.mp r)
          rw [hg y, if_neg a5, if_neg a6, if_neg a2, if_neg a7])
      (by rw [hg F, if_pos rfl]; rfl)
      rfl
      (by rw [hg T, if_neg dX.1, if_pos rfl]; rfl)
      ⟨rfl, by
        rw [hg st.numLIR, if_neg dX.2.1, if_neg dX.2.2.1, if_pos rfl, hS2r]; rfl⟩
      (by rw [hg aft, if_neg dX.2.2.2.1, if_neg dX.2.2.2.2.1, if_neg dX.2.2.2.2.2,
            if_pos rfl]; rfl)
      rfl
    rw [hrev1]
    have hhead : ((Q.reverse ++ [F]) ++ ([] ++ (((L :: mid.reverse) ++ [T]) ++
          ([st.numLIR] ++ ((Mt.reverse ++ [aft]) ++ ([] ++ (bt :: P.reverse))))))).head? =
        ((Q.reverse ++ [F]) ++ ((Mt.reverse ++ [aft]) ++
          (((L :: mid.reverse) ++ [T]) ++ (bt :: P.reverse)))).head? := by
      generalize Q.reverse = R
      cases R <;> rfl
    rw [hhead]
    exact key

/-! ## The structural rewrite -/

/-- Where a block taken out of a list sat, relative to two neighbours `b`, `F`
of the remaining list: before `b`, between `b` and `F`, or after `F`. -/
theorem splice_position (X Y U V : List Nat) (b F : Nat) (h : X ++ Y = U ++ b :: F :: V) :
    (∃ Ma, U = X ++ Ma ∧ Y = (Ma ++ [b]) ++ F :: V) ∨ (X = U ++ [b] ∧ Y = F :: V) ∨
    (∃ c, X = U ++ b :: F :: c ∧ V = c ++ Y) := by
  rcases List.append_eq_append_iff.mp h with ⟨a, h1, h2⟩ | ⟨c, h1, h2⟩
  · exact Or.inl ⟨a, h1, by rw [h2]; simp⟩
  · cases c with
    | nil =>
      refine Or.inl ⟨[], by simpa using h1.symm, ?_⟩
      simpa using h2.symm
    | cons x c1 =>
      simp only [List.cons_append, List.cons.injEq] at h2
      obtain ⟨hb, h3⟩ := h2
      subst hb
      cases c1 with
      | nil => exact Or.inr (Or.inl ⟨h1, by simpa using h3.symm⟩)
      | cons y c2 =>
        simp only [List.cons_append, List.cons.injEq] at h3
        obtain ⟨hF, h4⟩ := h3
        subst hF
        exact Or.inr (Or.inr ⟨c2, h1, h4⟩)

/-- The rewrite on a doubly linked list `X, T .., L, Y` whose records other
than the block `T .. L` are `U, b, F, V`: the list becomes
`U, b, J, T .., L, F, V`, where `J` is the new record. -/
theorem splice_general (fuel : Nat) (st : AsmState) (b T L F : Nat) (mid X Y U V : List Nat)
    (hX : X ≠ []) (hY : Y ≠ []) (hUV : X ++ Y = U ++ b :: F :: V)
    (hdl : DoublyLinked st.lirs (X ++ (((T :: mid) ++ [L]) ++ Y)))
    (hbn : (st.lirs b).next = some F)
    (hJ : st.numLIR ∉ X ++ (((T :: mid) ++ [L]) ++ Y))
    (hmid : ∀ i ∈ T :: mid, (st.lirs i).opCode ≠ ARMV5TE_B_UNCOND)
    (hL : (st.lirs L).opCode = ARMV5TE_B_UNCOND) (hfuel : mid.length + 1 < fuel) :
    ∃ st1, pullInPCReconstruction fuel st b T = .ok st1 ∧ st1.retry = true ∧
      st1.buffer = st.buffer ∧ st1.numLIR = st.numLIR + 1 ∧
      DoublyLinked st1.lirs (U ++ b :: st.numLIR :: (((T :: mid) ++ [L]) ++ F :: V)) ∧
      (∀ q, q ≠ st.numLIR →
        st1.lirs q = { st.lirs q with next := (st1.lirs q).next, prev := (st1.lirs q).prev }) ∧
      (∀ r, st1.lirs st.numLIR = r →
        r.opCode = ARMV5TE_B_UNCOND ∧ r.target = some F ∧ r.offset = 0 ∧
        r.operands0 = 0 ∧ r.operands1 = 0 ∧ r.operands2 = 0) := by
  rcases splice_position X Y U V b F hUV with ⟨Ma, hU, hYe⟩ | ⟨hXe, hYe⟩ | ⟨c, hXe, hV⟩
  · -- the block lies before the branch
    obtain ⟨P, bt, hP⟩ : ∃ P bt, X = P ++ [bt] := by
      rcases List.eq_nil_or_concat X with h | ⟨P, bt, h⟩
      · exact absurd h hX
      · exact ⟨P, bt, by rw [h, List.concat_eq_append]⟩
    obtain ⟨aft, Mt, hM⟩ : ∃ aft Mt, Ma ++ [b] = aft :: Mt := by
      cases Ma with
      | nil => exact ⟨b, [], rfl⟩
      | cons a t => exact ⟨a, t ++ [b], rfl⟩
    subst hP hYe hU
    obtain ⟨st1, h1, h2, h3, h4, h5, h6, h7⟩ :=
      splice_backward fuel st P Ma Mt mid V b F bt T L aft hM hdl hJ hmid hL hfuel
    refine ⟨st1, h1, h2, h3, h4, ?_, h6, h7⟩
    have e : (P ++ [bt] ++ Ma) ++ b :: st.numLIR :: (((T :: mid) ++ [L]) ++ F :: V) =
        (P ++ [bt]) ++ ((Ma ++ [b]) ++ ([st.numLIR] ++ (((T :: mid) ++ [L]) ++ (F :: V)))) := by
      simp
    rw [e]
    exact h5
  · -- the block directly after the branch: then `F` is not the record after `b`
    exfalso
    subst hXe hYe
    obtain ⟨hn, _⟩ := hdl
    have hnd := Chain_nodup _ _ ((Chain_iff_Linked st.lirs _ _).mpr hn)
    obtain ⟨hA, _⟩ := Linked_split _ _ _ _ _ hn
    have hb := (Linked_snoc _ _ _ _ _ hA).2
    have hFT : F = T := by
      have : (st.lirs b).next = some T := hb
      rw [hbn] at this
      exact Option.some.inj this
    subst hFT
    simp only [List.nodup_append, List.nodup_cons, List.mem_append, List.mem_cons,
      List.mem_singleton, List.disjoint_append_left, List.disjoint_append_right,
      List.disjoint_cons_left, List.disjoint_cons_right, List.disjoint_singleton,
      List.singleton_disjoint, List.not_mem_nil, List.nodup_nil, not_or] at hnd
    simp_all
  · -- the block lies after the branch
    obtain ⟨Mi, bt, hM⟩ : ∃ Mi bt, F :: c = Mi ++ [bt] := by
      rcases List.eq_nil_or_concat (F :: c) with h | ⟨Mi, bt, h⟩
      · exact absurd h (by simp)
      · exact ⟨Mi, bt, by rw [h, List.concat_eq_append]⟩
    obtain ⟨aft, Q, hQ⟩ : ∃ aft Q, Y = aft :: Q := by
      cases Y with
      | nil => exact absurd rfl hY
      | cons a t => exact ⟨a, t, rfl⟩
    have e0 : X ++ (((T :: mid) ++ [L]) ++ Y) =
        (U ++ [b]) ++ ((Mi ++ [bt]) ++ (((T :: mid) ++ [L]) ++ (aft :: Q))) := by
      rw [hXe, hQ, ← hM]; simp
    rw [e0] at hdl hJ
    obtain ⟨st1, h1, h2, h3, h4, h5, h6, h7⟩ :=
      splice_forward fuel st U Mi c mid Q b F bt T L aft hM.symm hdl hJ hmid hL hfuel
    refine ⟨st1, h1, h2, h3, h4, ?_, h6, h7⟩
    have e : U ++ b :: st.numLIR :: (((T :: mid) ++ [L]) ++ F :: V) =
        (U ++ [b]) ++ ([st.numLIR] ++ (((T :: mid) ++ [L]) ++ ((Mi ++ [bt]) ++ (aft :: Q)))) := by
      rw [hV, hQ, ← hM]; simp
    rw [e]
    exact h5

theorem deepBranchHeap_next (n m i : Nat) (hi : i ≤ n + m + 3) :
    (deepBranchHeap n m i).next = if i < n + m + 3 then some (i + 1) else none := by
  have h3 : (if i < n + m + 3 then some (i + 1) else none) =
      if i = n + m + 3 then none else some (i + 1) := by
    by_cases c : i = n + m + 3
    · rw [if_pos c, if_neg (by omega)]
    · rw [if_neg c, if_pos (by omega)]
  rw [h3]
  unfold deepBranchHeap
  by_cases c1 : i < n
  · simp only [if_pos c1, movLIR]
    rw [if_neg (by omega)]
  · by_cases c2 : i = n
    · subst c2
      simp only [if_neg c1, if_true]
      rw [if_neg (by omega)]
    · by_cases c3 : i < n + m + 1
      · simp only [if_neg c1, if_neg c2, if_pos c3, movLIR]
        rw [if_neg (by omega)]
      · by_cases c4 : i = n + m + 1
        · subst c4
          simp only [if_neg c1, if_neg c2, if_neg c3, if_true]
          rw [if_neg (by omega)]
        · by_cases c5 : i = n + m + 2
          · subst c5
            simp only [if_neg c1, if_neg c2, if_neg c3, if_neg c4, if_true]
            rw [if_neg (by omega)]
          · have c6 : i = n + m + 3 := by omega
            subst c6
            simp only [if_neg c1, if_neg c2, if_neg c3, if_neg c4, if_neg c5, if_true, movLIR]

theorem deepBranchHeap_real (n m i : Nat) (hi : i < n + m + 1) :
    0 ≤ (deepBranchHeap n m i).opCode := by
  unfold deepBranchHeap
  by_cases c1 : i < n
  · simp only [if_pos c1, movLIR]; decide
  · by_cases c2 : i = n
    · simp only [if_neg c1, if_pos c2]; decide
    · simp only [if_neg c1, if_neg c2, if_pos hi, movLIR]; decide

theorem deepBranchHeap_mov (n m i : Nat) (hi : i < n) :
    (deepBranchHeap n m i).opCode = ARMV5TE_MOV_RR := by
  unfold deepBranchHeap
  rw [if_pos hi]; rfl

/-- A heap whose record `i` points to `i + 1`, up to the last record `N - 1`,
holds the list `k, k+1, .., N-1`. -/
theorem Chain_range (h : LIRHeap) (N : Nat)
    (hnext : ∀ i, i < N → (h i).next = if i + 1 < N then some (i + 1) else none) :
    ∀ (len k : Nat), k + len = N →
      Chain h (if len = 0 then none else some k) (List.range' k len)
  | 0, _, _ => by simp [Chain]
  | len + 1, k, hk => by
    rw [List.range'_succ]
    refine ⟨by simp, ?_⟩
    have := Chain_range h N hnext len (k + 1) (by omega)
    rw [hnext k (by omega)]
    by_cases c : len = 0
    · subst c
      simp only [if_true] at this
      rw [if_neg (by omega)]
      exact this
    · rw [if_neg c] at this
      rw [if_pos (by omega)]
      exact this

theorem deepBranch_chain (n m : Nat) :
    Chain (deepBranchHeap n m) (some 0) (List.range' 0 (n + m + 4)) := by
  have := Chain_range (deepBranchHeap n m) (n + m + 4)
    (fun i hi => by
      rw [deepBranchHeap_next n m i (by omega)]
      by_cases c : i < n + m + 3
      · rw [if_pos c, if_pos (by omega)]
      · rw [if_neg c, if_neg (by omega)])
    (n + m + 4) 0 (by omega)
  rw [if_neg (by omega)] at this
  exact this

/-- Offsets along a list whose first records are real instructions. -/
theorem LaidOut_prefix_real (lirs : LIRHeap) :
    ∀ (pre l : List Nat) (o E : Int), LaidOut lirs (pre ++ l) o E →
      (∀ i ∈ pre, 0 ≤ (lirs i).opCode) → LaidOut lirs l (o + 2 * (pre.length : Int)) E
  | [], l, o, E, hl, _ => by simpa using hl
  | i :: pre, l, o, E, hl, hall => by
    simp only [List.cons_append, LaidOut] at hl
    obtain ⟨_, hrest⟩ := hl
    have hi : (lirs i).opCode ≥ 0 := hall i (by simp)
    rw [if_pos hi] at hrest
    have := LaidOut_prefix_real lirs pre l _ E hrest (fun j hj => hall j (by simp [hj]))
    simp only [List.length_cons]
    push_cast
    have e : o + 2 * ((pre.length : Int) + 1) = o + 2 + 2 * (pre.length : Int) := by ring
    rw [e]
    exact this

/-- The end offset is at most 2 bytes per record past the start. -/
theorem LaidOut_upper (lirs : LIRHeap) :
    ∀ (l : List Nat) (o E : Int), LaidOut lirs l o E → E ≤ o + 2 * (l.length : Int)
  | [], o, E, hl => by simp only [LaidOut] at hl; subst hl; simp
  | i :: rest, o, E, hl => by
    simp only [LaidOut] at hl
    obtain ⟨_, hrest⟩ := hl
    simp only [List.length_cons]
    push_cast
    split at hrest
    · have := LaidOut_upper lirs rest _ _ hrest; omega
    · split at hrest
      · split at hrest
        · have := LaidOut_upper lirs rest _ _ hrest.2; omega
        · have := LaidOut_upper lirs rest _ _ hrest.2; omega
      · have := LaidOut_upper lirs rest _ _ hrest; omega

/-- Pass 2 over a run of `mov` records `k, k+1, ..` with no retry pending: the
walk reaches the record after the run with the same heap, only words were
stored. -/
theorem assembleLoop_mov_run (sa : Int) (walk : Nat) :
    ∀ (len k f : Nat) (st : AsmState),
      (∀ i, k ≤ i → i < k + len →
        (st.lirs i).opCode = ARMV5TE_MOV_RR ∧ (st.lirs i).next = some (i + 1)) →
      st.retry = false →
      ∃ buf, assembleLoop sa walk (len + f) (some k) st =
        assembleLoop sa walk f (some (k + len)) { st with buffer := buf }
  | 0, k, f, st, _, _ => ⟨st.buffer, by simp⟩
  | len + 1, k, f, st, hall, hr => by
    obtain ⟨hop, hnext⟩ := hall k (le_refl _) (by omega)
    obtain ⟨w, hw⟩ := assembleStep_mov sa walk k st hop hr
    obtain ⟨buf, hbuf⟩ := assembleLoop_mov_run sa walk len (k + 1) f
      { st with buffer := st.buffer ++ [w] }
      (fun i h1 h2 => hall i (by omega) (by omega)) hr
    refine ⟨buf, ?_⟩
    have e : len + 1 + f = (len + f) + 1 := by omega
    rw [e]
    simp only [assembleLoop, hw, hnext]
    rw [hbuf]
    have e2 : k + 1 + len = k + (len + 1) := by omega
    rw [e2]

/-- Pass 2 at a conditional branch `b` that is rewritten, when the record `F`
after it lies at an offset beyond 2050: the walk goes on with the new
unconditional branch, whose offset is still 0, finds its target `F` out of
range and aborts. -/
theorem assembleLoop_rewrite_abort (sa : Int) (walk f : Nat) (st : AsmState)
    (b T L F bt aft : Nat)
    (hop : (st.lirs b).opCode = ARMV5TE_B_COND) (htgt : (st.lirs b).target = some T)
    (hpcr : (st.lirs T).opCode = ARMV5TE_PSEUDO_PC_RECONSTRUCTION_CELL)
    (hout : (st.lirs T).offset - ((st.lirs b).offset + 4) > 254 ∨
      (st.lirs T).offset - ((st.lirs b).offset + 4) < -256)
    (hfind : findLastLIR st.lirs walk (some T) = .ok L)
    (hLn : (st.lirs L).next = some aft) (hTp : (st.lirs T).prev = some bt)
    (hbn : (st.lirs b).next = some F)
    (hbL : b ≠ L) (hbJ : b ≠ st.numLIR) (hFJ : F ≠ st.numLIR)
    (hfar : (st.lirs F).offset - 4 > 2046) :
    assembleLoop sa walk (f + 2) (some b) st = .error .abort := by
  obtain ⟨st1, hok, hr, _, _, hf, _, hkeep, hnew⟩ :=
    pullInPCReconstruction_links walk st b T L F bt aft hfind hLn hTp hbn
  have hres : resolveDisplacement sa walk b st = .ok st1 := by
    unfold resolveDisplacement
    simp only
    rw [if_neg (by rw [hop]; decide), if_pos hop]
    simp only [htgt]
    rw [if_pos hout, if_pos hpcr]
    exact hok
  have hstep : assembleStep sa walk b st = .ok st1 := by
    unfold assembleStep
    simp only
    rw [if_neg (by rw [hop]; decide), hres]
    simp only [hr, if_true]
  have hnext : (st1.lirs b).next = some st.numLIR := by
    have := hf b
    rw [if_neg hbL, if_neg hbJ, if_pos rfl] at this
    exact this
  obtain ⟨j1, j2, j3, _⟩ := hnew _ rfl
  have hFoff : (st1.lirs F).offset = (st.lirs F).offset := by rw [hkeep F hFJ]
  have hstepJ : assembleStep sa walk st.numLIR st1 = .error .abort := by
    unfold assembleStep
    simp only
    rw [if_neg (by rw [j1]; decide)]
    unfold resolveDisplacement
    simp only
    rw [if_neg (by rw [j1]; decide), if_neg (by rw [j1]; decide), if_pos j1]
    simp only [j2]
    rw [if_pos (by rw [hFoff, j3]; left; omega)]
  have e : f + 2 = (f + 1) + 1 := rfl
  rw [e]
  simp only [assembleLoop, hstep, hnext, hstepJ]

/-- Offset that pass 1 gives to record `k` of a list `0, 1, .., N-1` whose
records before `k` are real instructions. -/
theorem LaidOut_range_offset (lirs : LIRHeap) (N k : Nat) (E : Int) (hk : k < N)
    (hl : LaidOut lirs (List.range' 0 N) 2 E) (hreal : ∀ i, i < k → 0 ≤ (lirs i).opCode) :
    (lirs k).offset = 2 + 2 * (k : Int) := by
  have e : List.range' 0 N = List.range' 0 k ++ List.range' k (N - k) := by
    have := List.range'_append_1 0 k (N - k)
    rw [Nat.zero_add] at this
    rw [this]
    congr 1
    omega
  rw [e] at hl
  have h2 := LaidOut_prefix_real lirs _ _ _ _ hl
    (fun i hi => hreal i (by simp [List.mem_range'_1] at hi; omega))
  obtain ⟨d, hd⟩ : ∃ d, N - k = d + 1 := ⟨N - k - 1, by omega⟩
  rw [hd, List.range'_succ] at h2
  simp only [LaidOut, List.length_range'] at h2
  exact h2.1

theorem deepBranchHeap_branch (n m : Nat) :
    (deepBranchHeap n m n).opCode = ARMV5TE_B_COND ∧
    (deepBranchHeap n m n).target = some (n + m + 1) ∧
    (deepBranchHeap n m n).next = some (n + 1) := by
  unfold deepBranchHeap
  rw [if_neg (by omega), if_pos rfl]
  exact ⟨rfl, rfl, rfl⟩

theorem deepBranchHeap_marker (n m : Nat) :
    (deepBranchHeap n m (n + m + 1)).opCode = ARMV5TE_PSEUDO_PC_RECONSTRUCTION_CELL ∧
    (deepBranchHeap n m (n + m + 1)).prev = some (n + m) ∧
    (deepBranchHeap n m (n + m + 1)).next = some (n + m + 2) := by
  unfold deepBranchHeap
  rw [if_neg (by omega), if_neg (by omega), if_neg (by omega), if_pos rfl]
  exact ⟨rfl, rfl, rfl⟩

theorem deepBranchHeap_last (n m : Nat) :
    (deepBranchHeap n m (n + m + 2)).opCode = ARMV5TE_B_UNCOND ∧
    (deepBranchHeap n m (n + m + 2)).next = some (n + m + 3) := by
  unfold deepBranchHeap
  rw [if_neg (by omega), if_neg (by omega), if_neg (by omega), if_neg (by omega), if_pos rfl]
  exact ⟨rfl, rfl⟩

/-- One round on `deepBranchUnit n m` with `n ≥ 1024` and `m ≥ 129`: pass 1
puts the conditional branch at offset `2 + 2n` and the marker at
`2 + 2(n + m + 1)`; pass 2 rewrites the branch and then aborts on the new
unconditional branch. -/
theorem deepBranch_round (n m fuel : Nat) (sa : Int) (hn : 1024 ≤ n) (hm : 129 ≤ m)
    (hfuel : n + m + 4 < fuel) :
    ∃ L, layoutPass fuel 8 (deepBranchUnit n m) = .ok L ∧
      L.cUnit.totalSize ≤ 2 * ((n : Int) + m) + 24 ∧ 0 ≤ L.cUnit.totalSize ∧
      (L.cUnit.lirs n).offset = 2 + 2 * (n : Int) ∧
      (L.cUnit.lirs (n + m + 1)).offset = 2 + 2 * ((n : Int) + m + 1) ∧
      assembleInstructions fuel L.cUnit sa = .error .abort := by
  have hchain := deepBranch_chain n m
  obtain ⟨lirs1, E, h1, lay1, sp1, _⟩ :=
    assignOffsets_spec (List.range' 0 (n + m + 4)) fuel (deepBranchHeap n m) (some 0)
      CHAIN_CELL_OFFSET_SIZE hchain (Chain_nodup _ _ hchain) (by simp; omega)
  have lay1' : LaidOut lirs1 (List.range' 0 (n + m + 4)) 2 E := lay1
  have hE : E ≤ 2 + 2 * ((n : Int) + m + 4) := by
    have := LaidOut_upper lirs1 _ _ _ lay1'
    simp only [List.length_range'] at this
    push_cast at this
    exact this
  have hE0 : 2 ≤ E := (LaidOut_le lirs1 _ _ _ lay1').1
  have hoff : ∀ k, k ≤ n + m + 1 → (lirs1 k).offset = 2 + 2 * (k : Int) := by
    intro k hk
    exact LaidOut_range_offset lirs1 (n + m + 4) k E (by omega) lay1'
      (fun i hi => by rw [(sp1 i).1]; exact deepBranchHeap_real n m i (by omega))
  obtain ⟨f, rfl⟩ : ∃ f, fuel = f + 1 := ⟨fuel - 1, by omega⟩
  have hL : layoutPass (f + 1) 8 (deepBranchUnit n m) = .ok
      { cUnit :=
          { deepBranchUnit n m with
            lirs := lirs1,
            dataOffset := alignDown4 (E + 3) + sizeofChainCellCounts + (8 : Nat),
            totalSize := alignDown4 (E + 3) + sizeofChainCellCounts + (8 : Nat) },
        endOffset := E,
        chainCellOffset := (alignDown4 (E + 3) % 65536).toNat,
        offset := alignDown4 (E + 3) + sizeofChainCellCounts + (8 : Nat) } := by
    unfold layoutPass
    have hfirst : (deepBranchUnit n m).firstLIRInsn = some 0 := rfl
    have hlirs : (deepBranchUnit n m).lirs = deepBranchHeap n m := rfl
    have hwl : (deepBranchUnit n m).wordList = none := rfl
    rw [hfirst, hlirs, h1]
    simp only [hwl, assignLiteralOffsets]
    rw [if_neg]
    · rfl
    · simp only [alignDown4, sizeofChainCellCounts]
      omega
  refine ⟨_, hL, ?_, ?_, ?_, ?_, ?_⟩
  · simp only [alignDown4, sizeofChainCellCounts]; push_cast; omega
  · simp only [alignDown4, sizeofChainCellCounts]; push_cast; omega
  · exact hoff n (by omega)
  · have := hoff (n + m + 1) (by omega)
    push_cast at this
    exact this
  · -- pass 2
    obtain ⟨b1, b2, b3⟩ := deepBranchHeap_branch n m
    obtain ⟨t1, t2, t3⟩ := deepBranchHeap_marker n m
    obtain ⟨l1, l2⟩ := deepBranchHeap_last n m
    obtain ⟨f2, hf2⟩ : ∃ f2, f + 1 = n + (f2 + 2) := ⟨f + 1 - n - 2, by omega⟩
    obtain ⟨buf, hbuf⟩ := assembleLoop_mov_run sa (f + 1) n 0 (f2 + 2)
      { lirs := lirs1, numLIR := n + m + 4, buffer := [], retry := false }
      (fun i _ hi => by
        refine ⟨?_, ?_⟩
        · show (lirs1 i).opCode = _
          rw [(sp1 i).1]; exact deepBranchHeap_mov n m i (by omega)
        · show (lirs1 i).next = _
          rw [(sp1 i).2.1, deepBranchHeap_next n m i (by omega), if_pos (by omega)])
      rfl
    have hfind : findLastLIR lirs1 (f + 1) (some (n + m + 1)) = .ok (n + m + 2) := by
      apply findLastLIR_block lirs1 [n + m + 1] (n + m + 2) _ (nextOf lirs1 (n + m + 2))
      · refine ⟨rfl, ?_, rfl⟩
        show (lirs1 (n + m + 1)).next = some (n + m + 2)
        rw [(sp1 _).2.1]; exact t3
      · intro i hi
        simp only [List.mem_singleton] at hi
        subst hi
        rw [(sp1 _).1, t1]; decide
      · rw [(sp1 _).1]; exact l1
      · simp; omega
    have habort := assembleLoop_rewrite_abort sa (f + 1) f2
      { lirs := lirs1, numLIR := n + m + 4, buffer := buf, retry := false }
      n (n + m + 1) (n + m + 2) (n + 1) (n + m) (n + m + 3)
      (by show (lirs1 n).opCode = _; rw [(sp1 n).1]; exact b1)
      (by show (lirs1 n).target = _; rw [(sp1 n).2.2.2.1]; exact b2)
      (by show (lirs1 (n + m + 1)).opCode = _; rw [(sp1 _).1]; exact t1)
      (by
        left
        show (lirs1 (n + m + 1)).offset - ((lirs1 n).offset + 4) > 254
        rw [hoff n (by omega), hoff (n + m + 1) (by omega)]
        push_cast; omega)
      hfind
      (by show (lirs1 (n + m + 2)).next = _; rw [(sp1 _).2.1]; exact l2)
      (by show (lirs1 (n + m + 1)).prev = _; rw [(sp1 _).2.2.1]; exact t2)
      (by show (lirs1 n).next = _; rw [(sp1 n).2.1]; exact b3)
      (by omega) (by show n ≠ n + m + 4; omega) (by show n + 1 ≠ n + m + 4; omega)
      (by
        show (lirs1 (n + 1)).offset - 4 > 2046
        rw [hoff (n + 1) (by omega)]
        push_cast; omega)
    unfold assembleInstructions
    have hfirst : (deepBranchUnit n m).firstLIRInsn = some 0 := rfl
    have hnum : (deepBranchUnit n m).numLIR = n + m + 4 := rfl
    simp only [hfirst, hnum]
    rw [hf2] at hbuf habort ⊢
    have hloop : assembleLoop sa (n + (f2 + 2)) (n + (f2 + 2)) (some 0)
        { lirs := lirs1, numLIR := n + m + 4, buffer := [], retry := false } =
        .error .abort := by
      rw [hbuf, Nat.zero_add]
      exact habort
    rw [hloop]

/-- The function `dvmCompilerAssembleLIR` aborts on `deepBranchUnit n m` for
`n ≥ 1024` and `m ≥ 129`, in an empty cache with room for the unit. -/
theorem deepBranch_aborts (n m fuel rounds : Nat) (mem : Mem) (hn : 1024 ≤ n) (hm : 129 ≤ m)
    (hsz : n + m ≤ 500000) (hfuel : n + m + 4 < fuel) :
    dvmCompilerAssembleLIR bigTarget fuel (rounds + 1) mem emptyCache (deepBranchUnit n m) =
      .error .abort := by
  obtain ⟨L, hL, hsize, hsize0, _, _, hP⟩ :=
    deepBranch_round n m fuel (emptyCache.codeCache + emptyCache.codeCacheByteUsed) hn hm hfuel
  have hdesc : jitTraceDescriptionSize bigTarget (deepBranchUnit n m).traceDesc = .ok 8 := by
    have e : (deepBranchUnit n m).traceDesc = exampleTraceDesc := rfl
    rw [e]
    rfl
  unfold dvmCompilerAssembleLIR
  rw [hdesc]
  simp only [assembleRounds, assembleAttempt, hL]
  rw [if_neg, if_neg, hP]
  · simp [bigTarget, exampleTarget]
  · have e1 : emptyCache.codeCacheByteUsed = 0 := rfl
    have e2 : bigTarget.CODE_CACHE_SIZE = 1024 * 1024 := rfl
    rw [e1, e2]
    omega

set_option maxRecDepth 1000000 in
/-- C14: a unit whose out-of-range conditional branch has a rewritable target,
and whose branches are all in range in the layout after the rewrite, on which
`dvmCompilerAssembleLIR` aborts.  In `staleBranchUnit` record 0 (offset 2)
branches to the marker at offset 262, displacement 256: it is rewritten.  The
pass goes on with the offsets of the old layout, in which record 1 (offset 4)
is 256 bytes from its target (offset 264), not a marker: `dvmAbort`.  In the
layout of the rewritten list the block lies before record 1, whose displacement
is then 254; pass 2 on that layout stores 133 words and asks for no retry.
The same pass aborts on a unit with a single branch, `deepBranchUnit n m` with
`n ≥ 1024` and `m ≥ 129`: the new unconditional branch is resolved in the pass
that created it, with its offset still 0, against its target at offset
`2n + 4`. -/
theorem C14_rewrite_pass_aborts :
    layoutAt (layoutPass 300 8 staleBranchUnit) 0 = some (ARMV5TE_B_COND, 2, 0) ∧
    layoutAt (layoutPass 300 8 staleBranchUnit) 130 =
      some (ARMV5TE_PSEUDO_PC_RECONSTRUCTION_CELL, 262, 0) ∧
    layoutAt (layoutPass 300 8 staleBranchUnit) 1 = some (ARMV5TE_B_COND, 4, 0) ∧
    layoutAt (layoutPass 300 8 staleBranchUnit) 132 = some (ARMV5TE_MOV_RR, 264, 1) ∧
    layoutAt (layoutAfterRewrite 300 8 0x1000 staleBranchUnit 0) 0 =
      some (ARMV5TE_B_COND, 2, 0) ∧
    layoutAt (layoutAfterRewrite 300 8 0x1000 staleBranchUnit 0) 133 =
      some (ARMV5TE_B_UNCOND, 4, 0) ∧
    layoutAt (layoutAfterRewrite 300 8 0x1000 staleBranchUnit 0) 130 =
      some (ARMV5TE_PSEUDO_PC_RECONSTRUCTION_CELL, 6, 0) ∧
    layoutAt (layoutAfterRewrite 300 8 0x1000 staleBranchUnit 0) 131 =
      some (ARMV5TE_B_UNCOND, 6, 0) ∧
    layoutAt (layoutAfterRewrite 300 8 0x1000 staleBranchUnit 0) 1 =
      some (ARMV5TE_B_COND, 8, 0) ∧
    layoutAt (layoutAfterRewrite 300 8 0x1000 staleBranchUnit 0) 132 =
      some (ARMV5TE_MOV_RR, 266, 1) ∧
    wordsView 4 (pass2Of 300 0x1000 (layoutAfterRewrite 300 8 0x1000 staleBranchUnit 0)) =
      some ([0xD000, 0xE000, 0xE080, 0xD07F], 133, false) ∧
    faultOf (dvmCompilerAssembleLIR bigTarget 300 5 zeroMem emptyCache staleBranchUnit) =
      some Fault.abort ∧
    (∀ (n m fuel rounds : Nat) (mem : Mem), 1024 ≤ n → 129 ≤ m → n + m ≤ 500000 →
      n + m + 4 < fuel →
      dvmCompilerAssembleLIR bigTarget fuel (rounds + 1) mem emptyCache (deepBranchUnit n m) =
        .error .abort) := by
  refine ⟨by decide, by decide, by decide, by decide, by decide, by decide, by decide,
    by decide, by decide, by decide, by decide, by decide, ?_⟩
  intro n m fuel rounds mem hn hm hsz hfuel
  exact deepBranch_aborts n m fuel rounds mem hn hm hsz hfuel

/-! ## The two kinds of step of pass 2 -/

/-- What `pullInPCReconstruction` leaves of the old records when it returns:
the retry flag is set, and apart from the links every record other than the
new branch is as before. -/
theorem pullInPCReconstruction_keeps (fuel : Nat) (st st1 : AsmState) (lir targetLIR : Nat)
    (h : pullInPCReconstruction fuel st lir targetLIR = .ok st1) :
    st1.retry = true ∧ st1.numLIR = st.numLIR + 1 ∧
    ∀ q, q ≠ st.numLIR →
      (st1.lirs q).opCode = (st.lirs q).opCode ∧ (st1.lirs q).operands0 = (st.lirs q).operands0 ∧
      (st1.lirs q).operands1 = (st.lirs q).operands1 ∧
      (st1.lirs q).operands2 = (st.lirs q).operands2 ∧
      (st1.lirs q).offset = (st.lirs q).offset ∧ (st1.lirs q).target = (st.lirs q).target := by
  unfold pullInPCReconstruction at h
  simp only [] at h
  split at h
  · exact absurd h (by simp)
  · split at h
    · exact absurd h (by simp)
    · split at h
      · exact absurd h (by simp)
      · split at h
        · exact absurd h (by simp)
        · simp only [Except.ok.injEq] at h
          subst h
          refine ⟨rfl, rfl, ?_⟩
          intro q hq
          simp only [setNext_opCode, setPrev_opCode, setNext_operands0, setPrev_operands0,
            setNext_operands1, setPrev_operands1, setNext_operands2, setPrev_operands2,
            setNext_offset, setPrev_offset, setNext_target, setPrev_target,
            LIRHeap.set_other _ _ _ _ hq, and_self]

/-- The rewrite never stops with the fatal abort: its faults are the
dereference of a `NULL` link and the end of the walk fuel. -/
theorem pullInPCReconstruction_no_abort (fuel : Nat) (st : AsmState) (lir targetLIR : Nat) :
    pullInPCReconstruction fuel st lir targetLIR ≠ .error .abort := by
  have hfind : ∀ (k : Nat) (p : Option Nat), findLastLIR st.lirs k p ≠ .error .abort := by
    intro k
    induction k with
    | zero => intro p; cases p <;> simp [findLastLIR]
    | succ k ih =>
      intro p
      cases p with
      | none => simp [findLastLIR]
      | some i =>
        unfold findLastLIR
        split
        · exact ih _
        · simp
  unfold pullInPCReconstruction
  simp only []
  split
  · rename_i e he
    intro c
    simp only [Except.error.injEq] at c
    subst c
    exact hfind _ _ he
  · split
    · simp
    · split
      · simp
      · split
        · simp
        · simp

/-- The record `pullInPCReconstruction` allocates: an unconditional branch at
offset 0 whose target is the old fall-through of the conditional branch. -/
theorem pullInPCReconstruction_new (fuel : Nat) (st st1 : AsmState) (lir targetLIR : Nat)
    (h : pullInPCReconstruction fuel st lir targetLIR = .ok st1) :
    (st1.lirs st.numLIR).opCode = ARMV5TE_B_UNCOND ∧ (st1.lirs st.numLIR).offset = 0 ∧
    (st1.lirs st.numLIR).target = (st.lirs lir).next := by
  unfold pullInPCReconstruction at h
  simp only [] at h
  split at h
  · exact absurd h (by simp)
  · split at h
    · exact absurd h (by simp)
    · split at h
      · exact absurd h (by simp)
      · split at h
        · exact absurd h (by simp)
        · rename_i origNext hnext
          simp only [Except.ok.injEq] at h
          subst h
          simp only [setNext_opCode, setPrev_opCode, setNext_offset, setPrev_offset,
            setNext_target, setPrev_target, LIRHeap.set_same, hnext]
          exact ⟨trivial, rfl, trivial⟩

/-- A call of the resolver that returns either leaves the list as it is (same
links, opcodes, offsets and targets, same retry flag and record count), or it
is the rewrite of a conditional branch whose displacement to a
PC-reconstruction marker is out of range. -/
theorem resolveDisplacement_cases (sa : Int) (walk p : Nat) (st st1 : AsmState)
    (h : resolveDisplacement sa walk p st = .ok st1) :
    (st1.retry = st.retry ∧ st1.buffer = st.buffer ∧ st1.numLIR = st.numLIR ∧
      SameLayout st.lirs st1.lirs) ∨
    ((st.lirs p).opCode = ARMV5TE_B_COND ∧
      ∃ t, (st.lirs p).target = some t ∧
        ((st.lirs t).offset - ((st.lirs p).offset + 4) > 254 ∨
         (st.lirs t).offset - ((st.lirs p).offset + 4) < -256) ∧
        (st.lirs t).opCode = ARMV5TE_PSEUDO_PC_RECONSTRUCTION_CELL ∧
        pullInPCReconstruction walk st p t = .ok st1) := by
  unfold resolveDisplacement at h
  simp only [] at h
  split at h
  · rename_i hop
    have hop0 : 0 ≤ (st.lirs p).opCode := by
      rcases hop with c | c <;> rw [c] <;> decide
    split at h
    · exact absurd h (by simp)
    · split at h
      · exact absurd h (by simp)
      · simp only [Except.ok.injEq] at h
        subst h
        exact Or.inl ⟨rfl, rfl, rfl, SameLayout_set _ _ _ hop0 rfl rfl rfl rfl rfl⟩
  · split at h
    · rename_i hop
      have hop0 : 0 ≤ (st.lirs p).opCode := by rw [hop]; decide
      split at h
      · exact absurd h (by simp)
      · rename_i t ht
        split at h
        · rename_i hrange
          split at h
          · rename_i hm
            exact Or.inr ⟨hop, t, ht, hrange, hm, h⟩
          · exact absurd h (by simp)
        · simp only [Except.ok.injEq] at h
          subst h
          exact Or.inl ⟨rfl, rfl, rfl, SameLayout_set _ _ _ hop0 rfl rfl rfl rfl rfl⟩
    · split at h
      · rename_i hop
        have hop0 : 0 ≤ (st.lirs p).opCode := by rw [hop]; decide
        split at h
        · exact absurd h (by simp)
        · split at h
          · exact absurd h (by simp)
          · simp only [Except.ok.injEq] at h
            subst h
            exact Or.inl ⟨rfl, rfl, rfl, SameLayout_set _ _ _ hop0 rfl rfl rfl rfl rfl⟩
      · split at h
        · rename_i hop
          have hop0 : 0 ≤ (st.lirs p).opCode := by rw [hop]; decide
          split at h
          · exact absurd h (by simp)
          · rename_i nextLIR hnext
            split at h
            · exact absurd h (by simp)
            · rename_i hop2
              split at h
              · exact absurd h (by simp)
              · simp only [Except.ok.injEq] at h
                subst h
                have hop2' : (st.lirs nextLIR).opCode = ARMV5TE_BLX_2 := by
                  simpa using hop2
                have hl1 : ∀ v : Int, SameLayout st.lirs
                    (st.lirs.set p { st.lirs p with operands0 := v }) := fun v =>
                  SameLayout_set _ _ _ hop0 rfl rfl rfl rfl rfl
                refine Or.inl ⟨rfl, rfl, rfl, ?_⟩
                refine SameLayout_trans (hl1 _) (SameLayout_set _ _ _ ?_ rfl rfl rfl rfl rfl)
                rw [((hl1 _) nextLIR).1, hop2']; decide
        · simp only [Except.ok.injEq] at h
          subst h
          exact Or.inl ⟨rfl, rfl, rfl, SameLayout_refl _⟩

/-- A step of pass 2 that returns either leaves the list as it is, or it is
the rewrite of a conditional branch whose displacement to a
PC-reconstruction marker is out of range. -/
theorem assembleStep_cases (sa : Int) (walk p : Nat) (st st1 : AsmState)
    (h : assembleStep sa walk p st = .ok st1) :
    (st1.retry = st.retry ∧ st1.numLIR = st.numLIR ∧ SameLayout st.lirs st1.lirs) ∨
    ((st.lirs p).opCode = ARMV5TE_B_COND ∧
      ∃ t, (st.lirs p).target = some t ∧
        ((st.lirs t).offset - ((st.lirs p).offset + 4) > 254 ∨
         (st.lirs t).offset - ((st.lirs p).offset + 4) < -256) ∧
        (st.lirs t).opCode = ARMV5TE_PSEUDO_PC_RECONSTRUCTION_CELL ∧
        pullInPCReconstruction walk st p t = .ok st1) := by
  by_cases hop : (st.lirs p).opCode < 0
  · rw [assembleStep_pseudo sa walk p st hop] at h
    simp only [Except.ok.injEq] at h
    subst h
    refine Or.inl ?_
    split
    · exact ⟨rfl, rfl, SameLayout_refl _⟩
    · exact ⟨rfl, rfl, SameLayout_refl _⟩
  · unfold assembleStep at h
    simp only [if_neg hop] at h
    split at h
    · exact absurd h (by simp)
    · rename_i st2 hres
      rcases resolveDisplacement_cases sa walk p st st2 hres with c | c
      · obtain ⟨c1, _, c3, c4⟩ := c
        split at h
        · simp only [Except.ok.injEq] at h
          subst h
          exact Or.inl ⟨c1, c3, c4⟩
        · obtain ⟨e1, e2, e3, _⟩ := emitInstruction_spec p st2 st1 h
          refine Or.inl ⟨by rw [e3, c1], by rw [e2, c3], ?_⟩
          rw [e1]
          exact c4
      · obtain ⟨c1, t, c2, c3, c4, c5⟩ := c
        have hr := pullInPCReconstruction_retry _ _ _ _ _ c5
        simp only [hr, if_true, Except.ok.injEq] at h
        subst h
        exact Or.inr ⟨c1, t, c2, c3, c4, c5⟩

/-- A step of pass 2 stops with the fatal abort only in the resolver. -/
theorem assembleStep_abort (sa : Int) (walk p : Nat) (st : AsmState)
    (h : assembleStep sa walk p st = .error .abort) :
    0 ≤ (st.lirs p).opCode ∧ resolveDisplacement sa walk p st = .error .abort := by
  by_cases hop : (st.lirs p).opCode < 0
  · rw [assembleStep_pseudo sa walk p st hop] at h
    exact absurd h (by simp)
  · refine ⟨by omega, ?_⟩
    unfold assembleStep at h
    simp only [if_neg hop] at h
    split at h
    · rename_i e he
      simp only [Except.error.injEq] at h
      subst h
      exact he
    · rename_i st2 _
      split at h
      · exact absurd h (by simp)
      · unfold emitInstruction at h
        simp only [] at h
        split at h
        · exact absurd h (by simp)
        · exact absurd h (by simp)

/-- Invariant reasoning for pass 2: if a property of the state holds at the
start and every returning step keeps it, then a walk that stops with the fatal
abort does so in the resolver, at a real instruction and in a state with the
property. -/
theorem assembleLoop_abort_at (sa : Int) (walk : Nat) (I : AsmState → Prop)
    (hI : ∀ p st st1, I st → assembleStep sa walk p st = .ok st1 → I st1) :
    ∀ (fuel : Nat) (p : Option Nat) (st : AsmState), I st →
      assembleLoop sa walk fuel p st = .error .abort →
      ∃ q st', I st' ∧ 0 ≤ (st'.lirs q).opCode ∧
        resolveDisplacement sa walk q st' = .error .abort
  | 0, _, _, _, h => by simp [assembleLoop] at h
  | _ + 1, none, _, _, h => by simp [assembleLoop] at h
  | f + 1, some p, st, hst, h => by
    unfold assembleLoop at h
    split at h
    · rename_i e he
      simp only [Except.error.injEq] at h
      subst h
      obtain ⟨a, b⟩ := assembleStep_abort sa walk p st he
      exact ⟨p, st, hst, a, b⟩
    · rename_i st1 h1
      exact assembleLoop_abort_at sa walk I hI f _ st1 (hI p st st1 hst h1) h

/-! ## Fatal conditions of branch resolution -/

/-- C21: for a branch record `p` with target `t` and
`delta = target.offset - (record.offset + 4)`: on an unconditional branch the
resolver stops with the fatal abort exactly when `delta > 2046` or
`delta < -2048`, and otherwise returns with `delta >> 1` stored in operand 0
of `p` and nothing else changed; on a conditional branch it stops with the
fatal abort exactly when `delta > 254` or `delta < -256` and the target is not
a PC-reconstruction marker, it returns with `delta >> 1` stored in operand 0
when `delta` is within `[-256, 254]`, and when `delta` is out of range and the
target is a marker it does the list rewrite instead, which leaves operand 0 of
`p` as it was and sets the retry flag. -/
theorem C21_branch_fatal_conditions (sa : Int) (walk p t : Nat) (st : AsmState)
    (htgt : (st.lirs p).target = some t) :
    ((st.lirs p).opCode = ARMV5TE_B_UNCOND →
      (resolveDisplacement sa walk p st = .error .abort ↔
        ((st.lirs t).offset - ((st.lirs p).offset + 4) > 2046 ∨
         (st.lirs t).offset - ((st.lirs p).offset + 4) < -2048)) ∧
      (¬ ((st.lirs t).offset - ((st.lirs p).offset + 4) > 2046 ∨
          (st.lirs t).offset - ((st.lirs p).offset + 4) < -2048) →
        resolveDisplacement sa walk p st =
          .ok { st with lirs := st.lirs.set p { st.lirs p with
                  operands0 := ((st.lirs t).offset - ((st.lirs p).offset + 4)) / 2 } })) ∧
    ((st.lirs p).opCode = ARMV5TE_B_COND →
      (resolveDisplacement sa walk p st = .error .abort ↔
        (((st.lirs t).offset - ((st.lirs p).offset + 4) > 254 ∨
          (st.lirs t).offset - ((st.lirs p).offset + 4) < -256) ∧
         (st.lirs t).opCode ≠ ARMV5TE_PSEUDO_PC_RECONSTRUCTION_CELL)) ∧
      (¬ ((st.lirs t).offset - ((st.lirs p).offset + 4) > 254 ∨
          (st.lirs t).offset - ((st.lirs p).offset + 4) < -256) →
        resolveDisplacement sa walk p st =
          .ok { st with lirs := st.lirs.set p { st.lirs p with
                  operands0 := ((st.lirs t).offset - ((st.lirs p).offset + 4)) / 2 } }) ∧
      (((st.lirs t).offset - ((st.lirs p).offset + 4) > 254 ∨
          (st.lirs t).offset - ((st.lirs p).offset + 4) < -256) →
        (st.lirs t).opCode = ARMV5TE_PSEUDO_PC_RECONSTRUCTION_CELL →
        resolveDisplacement sa walk p st = pullInPCReconstruction walk st p t ∧
        ∀ st1, resolveDisplacement sa walk p st = .ok st1 → p ≠ st.numLIR →
          st1.retry = true ∧ (st1.lirs p).operands0 = (st.lirs p).operands0)) := by
  constructor
  · intro hop
    have e : resolveDisplacement sa walk p st =
        if (st.lirs t).offset - ((st.lirs p).offset + 4) > 2046 ∨
           (st.lirs t).offset - ((st.lirs p).offset + 4) < -2048 then .error .abort
        else .ok { st with lirs := st.lirs.set p { st.lirs p with
                  operands0 := ((st.lirs t).offset - ((st.lirs p).offset + 4)) / 2 } } := by
      unfold resolveDisplacement
      simp only
      rw [if_neg (by rw [hop]; decide), if_neg (by rw [hop]; decide), if_pos hop]
      simp only [htgt]
    constructor
    · constructor
      · intro h
        by_contra c
        rw [e, if_neg c] at h
        exact absurd h (by simp)
      · intro h
        rw [e, if_pos h]
    · intro h
      rw [e, if_neg h]
  · intro hop
    have e : resolveDisplacement sa walk p st =
        if (st.lirs t).offset - ((st.lirs p).offset + 4) > 254 ∨
           (st.lirs t).offset - ((st.lirs p).offset + 4) < -256 then
          (if (st.lirs t).opCode = ARMV5TE_PSEUDO_PC_RECONSTRUCTION_CELL then
            pullInPCReconstruction walk st p t
           else .error .abort)
        else .ok { st with lirs := st.lirs.set p { st.lirs p with
                  operands0 := ((st.lirs t).offset - ((st.lirs p).offset + 4)) / 2 } } := by
      unfold resolveDisplacement
      simp only
      rw [if_neg (by rw [hop]; decide), if_pos hop]
      simp only [htgt]
    refine ⟨⟨?_, ?_⟩, ?_, ?_⟩
    · intro h
      by_cases c : (st.lirs t).offset - ((st.lirs p).offset + 4) > 254 ∨
          (st.lirs t).offset - ((st.lirs p).offset + 4) < -256
      · refine ⟨c, ?_⟩
        intro hm
        rw [e, if_pos c, if_pos hm] at h
        exact pullInPCReconstruction_no_abort walk st p t h
      · rw [e, if_neg c] at h
        exact absurd h (by simp)
    · rintro ⟨c, hm⟩
      rw [e, if_pos c, if_neg hm]
    · intro c
      rw [e, if_neg c]
    · intro c hm
      have e2 : resolveDisplacement sa walk p st = pullInPCReconstruction walk st p t := by
        rw [e, if_pos c, if_pos hm]
      refine ⟨e2, ?_⟩
      intro st1 h1 hp
      rw [e2] at h1
      have hk := pullInPCReconstruction_keeps walk st st1 p t h1
      exact ⟨hk.1, (hk.2.2 p hp).2.1⟩

set_option maxRecDepth 100000 in
/-- Witness of C21 at `spliceState`: the conditional branch 0 at offset 2 has
the marker 2 at offset 1000 as its target. -/
theorem C21_branch_fatal_conditions_witness :
    (spliceState.lirs 0).target = some 2 ∧
    (spliceState.lirs 0).opCode = ARMV5TE_B_COND ∧
    ((spliceState.lirs 2).offset - ((spliceState.lirs 0).offset + 4) > 254 ∨
      (spliceState.lirs 2).offset - ((spliceState.lirs 0).offset + 4) < -256) ∧
    ¬ (resolveDisplacement 0 10 0 spliceState = .error .abort) := by
  have h := (C21_branch_fatal_conditions 0 10 0 2 spliceState (by decide)).2 (by decide)
  refine ⟨by decide, by decide, by decide, ?_⟩
  intro c
  exact (h.1.mp c).2 (by decide)

/-! ## Postcondition and frame of `dvmJitUnchain` -/

/-- The literal walk returns when its fuel exceeds the length of the list. -/
theorem assignLiteralOffsets_total :
    ∀ (ws : List Nat) (fuel : Nat) (lirs : LIRHeap) (p : Option Nat) (o : Int),
      Chain lirs p ws → ws.length < fuel →
      ∃ r, assignLiteralOffsets fuel lirs p o = .ok r
  | _, 0, _, _, _, _, hf => by simp at hf
  | [], _ + 1, lirs, p, o, hc, _ => by
    simp only [Chain] at hc
    subst hc
    exact ⟨_, rfl⟩
  | i :: rest, f + 1, lirs, p, o, hc, hf => by
    have hnd := Chain_nodup _ _ hc
    obtain ⟨hp, hrest⟩ := hc
    subst hp
    simp only [assignLiteralOffsets]
    refine assignLiteralOffsets_total rest f _ _ _ (Chain_congr ?_ rest _ hrest)
      (by simp at hf; omega)
    intro q
    by_cases c : q = i
    · subst c; simp
    · rw [LIRHeap.set_other _ _ _ _ c]

/-- A returning step of pass 2 leaves every offset as it is or, in the fresh
record of a rewrite, zero: offsets that are multiples of 4 stay so. -/
theorem assembleStep_aligned (sa : Int) (walk p : Nat) (st st1 : AsmState) (ws : List Nat)
    (hal : ∀ t ∈ ws, (st.lirs t).offset % 4 = 0)
    (h : assembleStep sa walk p st = .ok st1) :
    ∀ t ∈ ws, (st1.lirs t).offset % 4 = 0 := by
  intro t ht
  rcases assembleStep_cases sa walk p st st1 h with c | c
  · rw [(c.2.2 t).2.1]
    exact hal t ht
  · obtain ⟨_, tg, _, _, _, hpull⟩ := c
    by_cases e : t = st.numLIR
    · rw [e, (pullInPCReconstruction_new walk st st1 p tg hpull).2.1]
      rfl
    · rw [((pullInPCReconstruction_keeps walk st st1 p tg hpull).2.2 t e).2.2.2.2.1]
      exact hal t ht

/-- C24: when the size of the chain cell count block plus the size of the
trace description is a multiple of 4, the layout returns with every literal
record and the total size at a multiple of 4.  In every state in which the
literal records are at multiples of 4, a PC-relative load or add whose target
is a literal record has a displacement that is a multiple of 4, and the
resolver returns on it with the displacement divided by 4 in operand 1; every
returning step of pass 2 keeps the literal records at multiples of 4; so if
pass 2 stops with the fatal abort, it does so at a record that is not a
PC-relative load or add of a literal. -/
theorem C24_literal_loads_aligned (fuel descSize : Nat) (cUnit : CompilationUnit)
    (ixs ws : List Nat) (sa : Int)
    (hi : Chain cUnit.lirs cUnit.firstLIRInsn ixs)
    (hw : Chain cUnit.lirs cUnit.wordList ws)
    (hfi : ixs.length < fuel) (hfw : ws.length < fuel)
    (hsz : (sizeofChainCellCounts + descSize) % 4 = 0) :
    ∃ L, layoutPass fuel descSize cUnit = .ok L ∧
      (∀ t ∈ ws, (L.cUnit.lirs t).offset % 4 = 0) ∧
      L.cUnit.dataOffset % 4 = 0 ∧ L.cUnit.totalSize % 4 = 0 ∧
      (∀ (walk p t : Nat) (st : AsmState),
        (∀ t ∈ ws, (st.lirs t).offset % 4 = 0) →
        (st.lirs p).opCode = ARMV5TE_LDR_PC_REL ∨ (st.lirs p).opCode = ARMV5TE_ADD_PC_REL →
        (st.lirs p).target = some t → t ∈ ws →
        ((st.lirs t).offset - alignDown4 ((st.lirs p).offset + 4)) % 4 = 0 ∧
        resolveDisplacement sa walk p st =
          .ok { st with lirs := st.lirs.set p { st.lirs p with
            operands1 := ((st.lirs t).offset - alignDown4 ((st.lirs p).offset + 4)) / 4 } }) ∧
      (∀ (walk p : Nat) (st st1 : AsmState),
        (∀ t ∈ ws, (st.lirs t).offset % 4 = 0) →
        assembleStep sa walk p st = .ok st1 →
        ∀ t ∈ ws, (st1.lirs t).offset % 4 = 0) ∧
      (assembleInstructions fuel L.cUnit sa = .error .abort →
        ∃ q st', (∀ t ∈ ws, (st'.lirs t).offset % 4 = 0) ∧ 0 ≤ (st'.lirs q).opCode ∧
          resolveDisplacement sa fuel q st' = .error .abort ∧
          ¬ (((st'.lirs q).opCode = ARMV5TE_LDR_PC_REL ∨
              (st'.lirs q).opCode = ARMV5TE_ADD_PC_REL) ∧
             ∃ t ∈ ws, (st'.lirs q).target = some t)) := by
  -- the resolver on a load of an aligned literal
  have hres : ∀ (walk p t : Nat) (st : AsmState),
      (∀ t ∈ ws, (st.lirs t).offset % 4 = 0) →
      (st.lirs p).opCode = ARMV5TE_LDR_PC_REL ∨ (st.lirs p).opCode = ARMV5TE_ADD_PC_REL →
      (st.lirs p).target = some t → t ∈ ws →
      ((st.lirs t).offset - alignDown4 ((st.lirs p).offset + 4)) % 4 = 0 ∧
      resolveDisplacement sa walk p st =
        .ok { st with lirs := st.lirs.set p { st.lirs p with
          operands1 := ((st.lirs t).offset - alignDown4 ((st.lirs p).offset + 4)) / 4 } } := by
    intro walk p t st hal hop htgt ht
    have h4 := hal t ht
    have hd : ((st.lirs t).offset - alignDown4 ((st.lirs p).offset + 4)) % 4 = 0 := by
      unfold alignDown4
      omega
    refine ⟨hd, ?_⟩
    unfold resolveDisplacement
    simp only
    rw [if_pos hop]
    simp only [htgt]
    rw [if_neg (by rw [hd]; simp)]
  -- pass 1
  obtain ⟨lirs1, E, h1, _, sp1, _⟩ :=
    assignOffsets_spec ixs fuel cUnit.lirs cUnit.firstLIRInsn CHAIN_CELL_OFFSET_SIZE hi
      (Chain_nodup _ _ hi) hfi
  have hw1 : Chain lirs1 cUnit.wordList ws :=
    Chain_congr (fun q => (sp1 q).2.1) ws _ hw
  have hoff : (alignDown4 (E + 3) + sizeofChainCellCounts + descSize) % 4 = 0 := by
    have := hsz
    unfold alignDown4
    omega
  obtain ⟨⟨lirs2, total⟩, h2⟩ :=
    assignLiteralOffsets_total ws fuel lirs1 cUnit.wordList
      (alignDown4 (E + 3) + sizeofChainCellCounts + descSize) hw1 hfw
  obtain ⟨htot, hlit, _⟩ := assignLiteralOffsets_ok ws fuel lirs1 _ _ _ _ hw1 h2
  have hL : ∃ L, layoutPass fuel descSize cUnit = .ok L := by
    unfold layoutPass
    simp only [h1]
    rw [if_neg (by rw [hoff]; simp)]
    simp only [h2]
    exact ⟨_, rfl⟩
  obtain ⟨L, hL⟩ := hL
  obtain ⟨l1, g1, _, gdo, g2, _, _⟩ := layoutPass_inv fuel descSize cUnit L hL
  rw [h1] at g1
  simp only [Except.ok.injEq, Prod.mk.injEq] at g1
  obtain ⟨rfl, rfl⟩ := g1
  rw [gdo, h2] at g2
  simp only [Except.ok.injEq, Prod.mk.injEq] at g2
  obtain ⟨gl, gt⟩ := g2
  have hal0 : ∀ t ∈ ws, (L.cUnit.lirs t).offset % 4 = 0 := by
    intro t ht
    obtain ⟨k, rfl⟩ := List.mem_iff_get.mp ht
    rw [← gl, hlit k.1 k.2]
    omega
  refine ⟨L, hL, hal0, by rw [gdo]; exact hoff, by rw [← gt, htot]; omega, hres,
    fun walk p st st1 hal h => assembleStep_aligned sa walk p st st1 ws hal h, ?_⟩
  intro hab
  unfold assembleInstructions at hab
  split at hab
  · rename_i e he
    simp only [Except.error.injEq] at hab
    subst hab
    obtain ⟨q, st', hI, hop, hr⟩ :=
      assembleLoop_abort_at sa fuel (fun st => ∀ t ∈ ws, (st.lirs t).offset % 4 = 0)
        (fun p st st1 hal h => assembleStep_aligned sa fuel p st st1 ws hal h)
        fuel _ _ hal0 he
    refine ⟨q, st', hI, hop, hr, ?_⟩
    rintro ⟨hpc, t, ht, htgt⟩
    rw [(hres fuel q t st' hI hpc htgt ht).2] at hr
    exact absurd hr (by simp)
  · exact absurd hab (by simp)

/-- Witness of C24 on `literalLoadUnit` with a trace description of 8 bytes:
the literal is laid out at offset 16 and the unit ends at offset 20. -/
theorem C24_literal_loads_aligned_witness :
    ∃ L, layoutPass 3 8 literalLoadUnit = .ok L ∧
      (L.cUnit.lirs 1).offset % 4 = 0 ∧ L.cUnit.totalSize % 4 = 0 := by
  obtain ⟨L, hL, hlit, _, htot, _⟩ :=
    C24_literal_loads_aligned 3 8 literalLoadUnit [0] [1] 0 ⟨rfl, rfl⟩ ⟨rfl, rfl⟩
      (by decide) (by decide) (by decide)
  exact ⟨L, hL, hlit 1 (by simp), htot⟩

/-! ## The layout after a rewrite -/

/-- The layout of a list restricts to each of its suffixes. -/
theorem LaidOut_suffix (lirs : LIRHeap) :
    ∀ (pre l : List Nat) (o E : Int), LaidOut lirs (pre ++ l) o E →
      ∃ o', LaidOut lirs l o' E
  | [], l, o, _, hl => ⟨o, by simpa using hl⟩
  | i :: pre, l, o, E, hl => by
    simp only [List.cons_append, LaidOut] at hl
    obtain ⟨_, hrest⟩ := hl
    split at hrest
    · exact LaidOut_suffix lirs pre l _ E hrest
    · split at hrest
      · split at hrest
        · exact LaidOut_suffix lirs pre l _ E hrest.2
        · exact LaidOut_suffix lirs pre l _ E hrest.2
      · exact LaidOut_suffix lirs pre l _ E hrest

/-- Over a run of records without alignment pseudo-op the offset advances by
2 for each real instruction. -/
theorem LaidOut_block (lirs : LIRHeap) :
    ∀ (blk l : List Nat) (o E : Int), LaidOut lirs (blk ++ l) o E →
      (∀ i ∈ blk, (lirs i).opCode ≠ ARMV5TE_PSEUDO_ALIGN4) →
      LaidOut lirs l (o + 2 * ((blk.countP fun i => decide (0 ≤ (lirs i).opCode) : Nat) : Int)) E
  | [], l, o, E, hl, _ => by simpa using hl
  | i :: blk, l, o, E, hl, hna => by
    simp only [List.cons_append, LaidOut] at hl
    obtain ⟨_, hrest⟩ := hl
    have hna' : ∀ j ∈ blk, (lirs j).opCode ≠ ARMV5TE_PSEUDO_ALIGN4 :=
      fun j hj => hna j (by simp [hj])
    by_cases hi : (lirs i).opCode ≥ 0
    · rw [if_pos hi] at hrest
      have := LaidOut_block lirs blk l _ E hrest hna'
      rw [List.countP_cons_of_pos _ _ (by simpa using hi)]
      push_cast
      rw [show o + 2 * (((blk.countP fun i => decide (0 ≤ (lirs i).opCode) : Nat) : Int) + 1)
        = o + 2 + 2 * ((blk.countP fun i => decide (0 ≤ (lirs i).opCode) : Nat) : Int) by ring]
      exact this
    · rw [if_neg hi, if_neg (hna i (by simp))] at hrest
      have := LaidOut_block lirs blk l _ E hrest hna'
      rw [List.countP_cons_of_neg _ _ (by simpa using hi)]
      exact this

set_option maxRecDepth 1000000 in
/-- C25, the claim as stated fails on `nestedBranchUnit`.  In the first round
the conditional branch 3 is out of range of the marker 133 (offsets 6 and
266) and is rewritten: the new branch is record 137, the relocated block is
133, 134, 135 with the `n = 2` real instructions 134 and 135, the fall-through
is record 4.  Later in the same pass the conditional branch 134, inside the
block, is rewritten too (new branch 138, block 1, 2).  Nothing is inserted
between 3, 137 and 133; in the next layout the displacement of 3 is
`8 - (4 + 4) = 0`, but the displacement of 137 to 4 is `16 - (6 + 4) = 6`,
not `2 * 2 - 2 = 2`. -/
theorem C25_counterexample :
    layoutAt (layoutPass 300 8 nestedBranchUnit) 3 = some (ARMV5TE_B_COND, 6, 0) ∧
    layoutAt (layoutPass 300 8 nestedBranchUnit) 133
      = some (ARMV5TE_PSEUDO_PC_RECONSTRUCTION_CELL, 266, 0) ∧
    retryLayoutView bigTarget 300 8 zeroMem emptyCache nestedBranchUnit
        [3, 137, 133, 134, 138, 1, 2, 135, 4] =
      some [(ARMV5TE_B_COND, some 137, some 133, 4),
            (ARMV5TE_B_UNCOND, some 133, some 4, 6),
            (ARMV5TE_PSEUDO_PC_RECONSTRUCTION_CELL, some 134, none, 8),
            (ARMV5TE_B_COND, some 138, some 1, 8),
            (ARMV5TE_B_UNCOND, some 1, some 135, 10),
            (ARMV5TE_PSEUDO_PC_RECONSTRUCTION_CELL, some 2, none, 12),
            (ARMV5TE_B_UNCOND, some 135, some 3, 12),
            (ARMV5TE_B_UNCOND, some 4, some 136, 14),
            (ARMV5TE_MOV_RR, some 5, none, 16)] := by
  decide

/-- C25 (amended): let pass 1 lay out a list in which the conditional branch
`b` is followed by the branch `J`, the block `T, mid, L` that starts with the
marker `T` and holds no alignment pseudo-op, and the record `F`, in this
order and with nothing in between.  Then the displacement of `b` to `T` is 0,
the resolver returns on `b` with 0 in operand 0 and does not ask for a retry,
and the displacement of `J` to `F` is `2 * n - 2` for the number `n` of real
instructions of the block. -/
theorem C25_layout_after_rewrite (fuel : Nat) (lirs lirs' : LIRHeap) (p : Option Nat)
    (o E : Int) (U V mid : List Nat) (b J T L F : Nat)
    (hc : Chain lirs p (U ++ b :: J :: T :: (mid ++ L :: F :: V)))
    (hl : assignOffsets fuel lirs p o = .ok (lirs', E))
    (hb : (lirs b).opCode = ARMV5TE_B_COND) (hbt : (lirs b).target = some T)
    (hJ : (lirs J).opCode = ARMV5TE_B_UNCOND)
    (hT : (lirs T).opCode = ARMV5TE_PSEUDO_PC_RECONSTRUCTION_CELL)
    (hblk : ∀ i ∈ mid ++ [L], (lirs i).opCode ≠ ARMV5TE_PSEUDO_ALIGN4) :
    (lirs' T).offset - ((lirs' b).offset + 4) = 0 ∧
    (∀ (sa : Int) (walk : Nat) (st : AsmState), st.lirs = lirs' →
      resolveDisplacement sa walk b st =
        .ok { st with lirs := st.lirs.set b { st.lirs b with operands0 := 0 } }) ∧
    (lirs' F).offset - ((lirs' J).offset + 4) =
      2 * (((T :: (mid ++ [L])).countP fun i => decide (0 ≤ (lirs i).opCode) : Nat) : Int) - 2 := by
  obtain ⟨hlay, hsp, _⟩ := assignOffsets_ok _ fuel lirs p o lirs' E hc hl
  obtain ⟨o1, h1⟩ := LaidOut_suffix lirs' U _ o E hlay
  have ob : (lirs' b).opCode = ARMV5TE_B_COND := by rw [(hsp b).1, hb]
  have oJ : (lirs' J).opCode = ARMV5TE_B_UNCOND := by rw [(hsp J).1, hJ]
  have oT : (lirs' T).opCode = ARMV5TE_PSEUDO_PC_RECONSTRUCTION_CELL := by rw [(hsp T).1, hT]
  simp only [LaidOut] at h1
  obtain ⟨eb, h2⟩ := h1
  rw [if_pos (by rw [ob]; decide)] at h2
  obtain ⟨eJ, h3⟩ := h2
  rw [if_pos (by rw [oJ]; decide)] at h3
  obtain ⟨eT, h4⟩ := h3
  rw [if_neg (by rw [oT]; decide), if_neg (by rw [oT]; decide)] at h4
  have h5 : LaidOut lirs' ((mid ++ [L]) ++ F :: V) (o1 + 2 + 2) E := by
    simpa using h4
  have hna : ∀ i ∈ mid ++ [L], (lirs' i).opCode ≠ ARMV5TE_PSEUDO_ALIGN4 := by
    intro i hi
    rw [(hsp i).1]
    exact hblk i hi
  have h6 := LaidOut_block lirs' (mid ++ [L]) (F :: V) _ E h5 hna
  simp only [LaidOut] at h6
  have eF := h6.1
  have hcnt : ((T :: (mid ++ [L])).countP fun i => decide (0 ≤ (lirs i).opCode)) =
      ((mid ++ [L]).countP fun i => decide (0 ≤ (lirs' i).opCode)) := by
    rw [List.countP_cons_of_neg _ _ (by rw [hT]; decide)]
    apply List.countP_congr
    intro i _
    rw [(hsp i).1]
  have d0 : (lirs' T).offset - ((lirs' b).offset + 4) = 0 := by rw [eT, eb]; ring
  refine ⟨d0, ?_, ?_⟩
  · intro sa walk st hst
    subst hst
    unfold resolveDisplacement
    simp only
    rw [if_neg (by rw [ob]; decide), if_pos ob]
    simp only [(hsp b).2.2.2.1, hbt]
    rw [if_neg (by rw [d0]; decide), d0]
    rfl
  · rw [eF, eJ, hcnt]
    ring

/-- Witness of C25 on `splicedHeap`: the block 2, 3 has one real instruction,
and both displacements are 0. -/
theorem C25_layout_after_rewrite_witness :
    ∃ lirs' E, assignOffsets 6 splicedHeap (some 0) 2 = .ok (lirs', E) ∧
      (lirs' 2).offset - ((lirs' 0).offset + 4) = 0 ∧
      (lirs' 4).offset - ((lirs' 1).offset + 4) = 0 := by
  have hc : Chain splicedHeap (some 0) ([] ++ 0 :: 1 :: 2 :: ([] ++ 3 :: 4 :: [])) :=
    ⟨rfl, rfl, rfl, rfl, rfl, rfl⟩
  obtain ⟨lirs', E, hl, _⟩ :=
    assignOffsets_spec _ 6 splicedHeap (some 0) 2 hc (by decide) (by decide)
  have h := C25_layout_after_rewrite 6 splicedHeap lirs' (some 0) 2 E [] [] [] 0 1 2 3 4
    hc hl (by decide) (by decide) (by decide) (by decide) (by decide)
  have hn : ((2 :: (([] : List Nat) ++ [3])).countP
      fun i => decide (0 ≤ (splicedHeap i).opCode)) = 1 := by decide
  rw [hn] at h
  exact ⟨lirs', E, hl, h.1, by simpa using h.2.2⟩

/-! ## The walk of pass 2 after a rewrite that closes the list into a cycle -/

/-- More fuel does not change what the pass 1 walk returns. -/
theorem assignOffsets_mono :
    ∀ (f f' : Nat) (lirs : LIRHeap) (p : Option Nat) (o : Int) (r : LIRHeap × Int),
      assignOffsets f lirs p o = .ok r → f ≤ f' → assignOffsets f' lirs p o = .ok r
  | 0, _, _, _, _, _, h, _ => by simp [assignOffsets] at h
  | f + 1, f', lirs, none, o, r, h, hf => by
    obtain ⟨n, rfl⟩ : ∃ n, f' = n + 1 := ⟨f' - 1, by omega⟩
    simpa [assignOffsets] using h
  | f + 1, f', lirs, some p, o, r, h, hf => by
    obtain ⟨n, rfl⟩ : ∃ n, f' = n + 1 := ⟨f' - 1, by omega⟩
    unfold assignOffsets at h ⊢
    simp only [] at h ⊢
    split
    · rename_i c
      rw [if_pos c] at h
      exact assignOffsets_mono f n _ _ _ _ h (by omega)
    · rename_i c
      rw [if_neg c] at h
      split
      · rename_i c2
        rw [if_pos c2] at h
        split
        · rename_i c3
          rw [if_pos c3] at h
          exact assignOffsets_mono f n _ _ _ _ h (by omega)
        · rename_i c3
          rw [if_neg c3] at h
          exact assignOffsets_mono f n _ _ _ _ h (by omega)
      · rename_i c2
        rw [if_neg c2] at h
        exact assignOffsets_mono f n _ _ _ _ h (by omega)

/-- The pass 1 walk has no fault but the end of its fuel. -/
theorem assignOffsets_error :
    ∀ (f : Nat) (lirs : LIRHeap) (p : Option Nat) (o : Int) (e : Fault),
      assignOffsets f lirs p o = .error e → e = .outOfFuel
  | 0, _, _, _, _, h => by
    simp only [assignOffsets, Except.error.injEq] at h
    exact h.symm
  | _ + 1, _, none, _, _, h => by simp [assignOffsets] at h
  | f + 1, lirs, some p, o, e, h => by
    unfold assignOffsets at h
    simp only [] at h
    split at h
    · exact assignOffsets_error f _ _ _ _ h
    · split at h
      · split at h
        · exact assignOffsets_error f _ _ _ _ h
        · exact assignOffsets_error f _ _ _ _ h
      · exact assignOffsets_error f _ _ _ _ h

/-- More fuel does not change what the literal walk returns. -/
theorem assignLiteralOffsets_mono :
    ∀ (f f' : Nat) (lirs : LIRHeap) (p : Option Nat) (o : Int) (r : LIRHeap × Int),
      assignLiteralOffsets f lirs p o = .ok r → f ≤ f' → assignLiteralOffsets f' lirs p o = .ok r
  | 0, _, _, _, _, _, h, _ => by simp [assignLiteralOffsets] at h
  | f + 1, f', lirs, none, o, r, h, hf => by
    obtain ⟨n, rfl⟩ : ∃ n, f' = n + 1 := ⟨f' - 1, by omega⟩
    simpa [assignLiteralOffsets] using h
  | f + 1, f', lirs, some p, o, r, h, hf => by
    obtain ⟨n, rfl⟩ : ∃ n, f' = n + 1 := ⟨f' - 1, by omega⟩
    simp only [assignLiteralOffsets] at h ⊢
    exact assignLiteralOffsets_mono f n _ _ _ _ h (by omega)

/-- More fuel does not change the layout. -/
theorem layoutPass_mono (f f' descSize : Nat) (cUnit : CompilationUnit) (L : Layout)
    (h : layoutPass f descSize cUnit = .ok L) (hf : f ≤ f') :
    layoutPass f' descSize cUnit = .ok L := by
  unfold layoutPass at h ⊢
  split at h
  · exact absurd h (by simp)
  · rename_i lirs1 E h1
    rw [assignOffsets_mono f f' _ _ _ _ h1 hf]
    simp only [] at h ⊢
    split at h
    · exact absurd h (by simp)
    · rename_i c
      rw [if_neg c]
      split at h
      · exact absurd h (by simp)
      · rename_i lirs2 total h2
        rw [assignLiteralOffsets_mono f f' _ _ _ _ h2 hf]
        exact h

/-- More fuel does not change the block end the search finds. -/
theorem findLastLIR_mono (lirs : LIRHeap) :
    ∀ (f f' : Nat) (p : Option Nat) (L : Nat),
      findLastLIR lirs f p = .ok L → f ≤ f' → findLastLIR lirs f' p = .ok L
  | 0, _, _, _, h, _ => by simp [findLastLIR] at h
  | _ + 1, _, none, _, h, _ => by simp [findLastLIR] at h
  | f + 1, f', some q, L, h, hf => by
    obtain ⟨n, rfl⟩ : ∃ n, f' = n + 1 := ⟨f' - 1, by omega⟩
    unfold findLastLIR at h ⊢
    split
    · rename_i c
      rw [if_pos c] at h
      exact findLastLIR_mono lirs f n _ _ h (by omega)
    · rename_i c
      rw [if_neg c] at h
      exact h

theorem pullInPCReconstruction_mono (w w' : Nat) (st st1 : AsmState) (lir targetLIR : Nat)
    (h : pullInPCReconstruction w st lir targetLIR = .ok st1) (hw : w ≤ w') :
    pullInPCReconstruction w' st lir targetLIR = .ok st1 := by
  unfold pullInPCReconstruction at h ⊢
  simp only [] at h ⊢
  cases hf : findLastLIR st.lirs w (some targetLIR) with
  | error e =>
    rw [hf] at h
    exact absurd h (by simp)
  | ok L =>
    rw [hf] at h
    rw [findLastLIR_mono st.lirs w w' _ L hf hw]
    exact h

theorem resolveDisplacement_mono (sa : Int) (w w' p : Nat) (st st1 : AsmState)
    (h : resolveDisplacement sa w p st = .ok st1) (hw : w ≤ w') :
    resolveDisplacement sa w' p st = .ok st1 := by
  unfold resolveDisplacement at h ⊢
  simp only [] at h ⊢
  by_cases c1 : (st.lirs p).opCode = ARMV5TE_LDR_PC_REL ∨ (st.lirs p).opCode = ARMV5TE_ADD_PC_REL
  · rw [if_pos c1] at h ⊢
    exact h
  · rw [if_neg c1] at h ⊢
    by_cases c2 : (st.lirs p).opCode = ARMV5TE_B_COND
    · rw [if_pos c2] at h ⊢
      cases ht : (st.lirs p).target with
      | none =>
        rw [ht] at h
        exact absurd h (by simp)
      | some t =>
        rw [ht] at h
        simp only [] at h ⊢
        by_cases c3 : (st.lirs t).offset - ((st.lirs p).offset + 4) > 254 ∨
            (st.lirs t).offset - ((st.lirs p).offset + 4) < -256
        · rw [if_pos c3] at h ⊢
          by_cases c4 : (st.lirs t).opCode = ARMV5TE_PSEUDO_PC_RECONSTRUCTION_CELL
          · rw [if_pos c4] at h ⊢
            exact pullInPCReconstruction_mono w w' st st1 p t h hw
          · rw [if_neg c4] at h
            exact absurd h (by simp)
        · rw [if_neg c3] at h ⊢
          exact h
    · rw [if_neg c2] at h ⊢
      exact h

theorem assembleStep_mono (sa : Int) (w w' p : Nat) (st st1 : AsmState)
    (h : assembleStep sa w p st = .ok st1) (hw : w ≤ w') :
    assembleStep sa w' p st = .ok st1 := by
  unfold assembleStep at h ⊢
  simp only [] at h ⊢
  split
  · rename_i c
    rw [if_pos c] at h
    exact h
  · rename_i c
    rw [if_neg c] at h
    cases hr : resolveDisplacement sa w p st with
    | error e =>
      rw [hr] at h
      exact absurd h (by simp)
    | ok st2 =>
      rw [hr] at h
      rw [resolveDisplacement_mono sa w w' p st st2 hr hw]
      exact h

/-- A longer search bound does not change the first iterations of pass 2. -/
theorem assembleSteps_mono (sa : Int) (w w' : Nat) (hw : w ≤ w') :
    ∀ (n : Nat) (p : Option Nat) (st : AsmState) (r : Option Nat × AsmState),
      assembleSteps sa w n p st = .ok r → assembleSteps sa w' n p st = .ok r
  | 0, _, _, _, h => by simpa [assembleSteps] using h
  | _ + 1, none, _, _, h => by simpa [assembleSteps] using h
  | n + 1, some p, st, r, h => by
    unfold assembleSteps at h ⊢
    cases hs : assembleStep sa w p st with
    | error e =>
      rw [hs] at h
      exact absurd h (by simp)
    | ok st1 =>
      rw [hs] at h
      rw [assembleStep_mono sa w w' p st st1 hs hw]
      exact assembleSteps_mono sa w w' hw n _ st1 r h

/-- The loop of pass 2 after its first `n` iterations. -/
theorem assembleLoop_steps (sa : Int) (w : Nat) :
    ∀ (n f : Nat) (p : Option Nat) (st : AsmState) (q : Nat) (st' : AsmState),
      assembleSteps sa w n p st = .ok (some q, st') →
      assembleLoop sa w (n + f) p st = assembleLoop sa w f (some q) st'
  | 0, f, p, st, q, st', h => by
    simp only [assembleSteps, Except.ok.injEq, Prod.mk.injEq] at h
    rw [h.1, h.2, Nat.zero_add]
  | _ + 1, _, none, _, _, _, h => by simp [assembleSteps] at h
  | n + 1, f, some p, st, q, st', h => by
    unfold assembleSteps at h
    rw [show n + 1 + f = (n + f) + 1 by omega]
    conv_lhs => unfold assembleLoop
    cases hs : assembleStep sa w p st with
    | error e =>
      rw [hs] at h
      exact absurd h (by simp)
    | ok st1 =>
      rw [hs] at h
      exact assembleLoop_steps sa w n f _ st1 q st' h

/-- When a retry is pending and the `next` links of a pseudo-op `T` and of an
unconditional branch `L` in range of its target point at each other, the walk
of pass 2 from either of them exhausts every fuel: the loop does not end. -/
theorem assembleLoop_cycle (sa : Int) (w T L a : Nat) :
    ∀ (f : Nat) (st : AsmState), st.retry = true →
      (st.lirs T).opCode < 0 → (st.lirs T).next = some L →
      (st.lirs L).opCode = ARMV5TE_B_UNCOND → (st.lirs L).target = some a →
      ¬ ((st.lirs a).offset - ((st.lirs L).offset + 4) > 2046 ∨
         (st.lirs a).offset - ((st.lirs L).offset + 4) < -2048) →
      (st.lirs L).next = some T →
      assembleLoop sa w f (some T) st = .error .outOfFuel ∧
      assembleLoop sa w f (some L) st = .error .outOfFuel
  | 0, _, _, _, _, _, _, _, _ => ⟨rfl, rfl⟩
  | f + 1, st, hr, hT, hTn, hL, hLt, hin, hLn => by
    have ih := assembleLoop_cycle sa w T L a f
    constructor
    · unfold assembleLoop
      rw [assembleStep_pseudo sa w T st hT]
      simp only [hr, Bool.true_eq_false, and_false, if_false, hTn]
      exact (ih st hr hT hTn hL hLt hin hLn).2
    · have hTL : T ≠ L := by
        intro c
        rw [c, hL] at hT
        exact absurd hT (by decide)
      have hstep : ∃ st2, assembleStep sa w L st = .ok st2 ∧ st2.retry = true ∧
          (st2.lirs T).opCode < 0 ∧ (st2.lirs T).next = some L ∧
          (st2.lirs L).opCode = ARMV5TE_B_UNCOND ∧ (st2.lirs L).target = some a ∧
          ¬ ((st2.lirs a).offset - ((st2.lirs L).offset + 4) > 2046 ∨
             (st2.lirs a).offset - ((st2.lirs L).offset + 4) < -2048) ∧
          (st2.lirs L).next = some T := by
        refine ⟨{ st with lirs := st.lirs.set L { st.lirs L with
            operands0 := ((st.lirs a).offset - ((st.lirs L).offset + 4)) / 2 } }, ?_, hr, ?_, ?_,
            ?_, ?_, ?_, ?_⟩
        · unfold assembleStep
          simp only
          rw [if_neg (by rw [hL]; decide)]
          unfold resolveDisplacement
          simp only
          rw [if_neg (by rw [hL]; decide), if_neg (by rw [hL]; decide), if_pos hL]
          simp only [hLt]
          rw [if_neg hin]
          simp only [hr, if_true]
        · simp only [LIRHeap.set_other _ _ _ _ hTL]
          exact hT
        · simp only [LIRHeap.set_other _ _ _ _ hTL]
          exact hTn
        · simp only [LIRHeap.set_same]
          exact hL
        · simp only [LIRHeap.set_same]
          exact hLt
        · by_cases c : a = L
          · subst c
            simp only [LIRHeap.set_same]
            exact hin
          · simp only [LIRHeap.set_same, LIRHeap.set_other _ _ _ _ c]
            exact hin
        · simp only [LIRHeap.set_same]
          exact hLn
      obtain ⟨st2, h1, h2, h3, h4, h5, h6, h7, h8⟩ := hstep
      unfold assembleLoop
      rw [h1]
      simp only [h8]
      exact (ih st2 h2 h3 h4 h5 h6 h7 h8).1

set_option maxRecDepth 1000000 in
/-- The unit `adjacentBlockUnit` after pass 1 and 263 iterations of pass 2
(started at address `0x1000`): the chain cell offset is 528 and the total size
540; both conditional branches have been rewritten; the walk stands at the
marker 261, whose `next` is the branch 262, and the `next` of 262 is 261. -/
theorem adjacentBlock_walk :
    walkView (layoutThenSteps 265 8 263 0x1000 adjacentBlockUnit)
        [1, 130, 131, 261, 262, 263, 264, 265] =
      some { chainCellOffset := 528, totalSize := 540, pos := some 261, retry := true,
             records := [(ARMV5TE_B_COND, some 264, some 131, 4),
                         (ARMV5TE_B_COND, some 265, some 261, 262),
                         (ARMV5TE_PSEUDO_PC_RECONSTRUCTION_CELL, some 132, none, 264),
                         (ARMV5TE_PSEUDO_PC_RECONSTRUCTION_CELL, some 262, none, 522),
                         (ARMV5TE_B_UNCOND, some 261, some 263, 522),
                         (ARMV5TE_MOV_RR, none, none, 524),
                         (ARMV5TE_B_UNCOND, some 131, some 2, 0),
                         (ARMV5TE_B_UNCOND, some 261, some 261, 0)] } := by
  decide

set_option maxRecDepth 1000000 in
theorem adjacentBlock_linked : DoublyLinked adjacentBlockHeap (List.range 264) := by
  decide

/-- On `adjacentBlockUnit` no round of the assembler returns, however long the
walks are allowed to be: below 265 pass 1 is cut short, and from 265 on pass 2
reaches the cycle of `adjacentBlock_walk`. -/
theorem adjacentBlock_attempt (fuel : Nat) :
    assembleAttempt bigTarget fuel 8 zeroMem emptyCache adjacentBlockUnit
      = .error .outOfFuel := by
  have hv := adjacentBlock_walk
  unfold walkView layoutThenSteps at hv
  cases hL : layoutPass 265 8 adjacentBlockUnit with
  | error e =>
    rw [hL] at hv
    exact absurd hv (by simp)
  | ok L =>
    rw [hL] at hv
    simp only [] at hv
    cases hs : assembleSteps 0x1000 265 263 L.cUnit.firstLIRInsn
        { lirs := L.cUnit.lirs, numLIR := L.cUnit.numLIR, buffer := [], retry := false } with
    | error e =>
      rw [hs] at hv
      exact absurd hv (by simp)
    | ok r =>
      obtain ⟨p, st⟩ := r
      rw [hs] at hv
      simp only [Option.some.injEq, WalkPoint.mk.injEq, List.map_cons, List.map_nil,
        List.cons.injEq, Prod.mk.injEq, and_true] at hv
      obtain ⟨hcco, htot, hp, hr, _, _, _, ⟨a1, a2, _, _⟩, ⟨b1, b2, b3, b4⟩, ⟨_, _, _, c4⟩,
        _, _⟩ := hv
      subst hp
      by_cases hf : 265 ≤ fuel
      · unfold assembleAttempt
        rw [layoutPass_mono 265 fuel 8 _ L hL hf]
        simp only []
        rw [if_neg (by rw [htot]; decide), if_neg (by simp [bigTarget, exampleTarget])]
        have hs2 := assembleSteps_mono 0x1000 265 fuel hf 263 _ _ _ hs
        have hloop := assembleLoop_steps 0x1000 fuel 263 (fuel - 263) _ _ 261 st hs2
        rw [show 263 + (fuel - 263) = fuel by omega] at hloop
        have hcyc := (assembleLoop_cycle 0x1000 fuel 261 262 263 (fuel - 263) st hr
          (by rw [a1]; decide) a2 b1 b3 (by rw [c4, b4]; decide) b2).1
        unfold assembleInstructions
        rw [show emptyCache.codeCache + emptyCache.codeCacheByteUsed = 0x1000 by decide,
          hloop, hcyc]
      · have hc : Chain adjacentBlockUnit.lirs adjacentBlockUnit.firstLIRInsn (List.range 264) :=
          (Chain_iff_Linked _ _ _).mpr adjacentBlock_linked.1
        unfold assembleAttempt layoutPass
        cases h1 : assignOffsets fuel adjacentBlockUnit.lirs adjacentBlockUnit.firstLIRInsn
            CHAIN_CELL_OFFSET_SIZE with
        | error e =>
          rw [assignOffsets_error _ _ _ _ _ h1]
        | ok r1 =>
          have := assignOffsets_fuel _ fuel _ _ _ r1 hc h1
          simp only [List.length_range] at this
          omega

set_option maxRecDepth 1000000 in
/-- C23, the code at a failing input.  The unit `adjacentBlockUnit` is a
doubly linked list of the records 0..263 in this order; its conditional
branches are the records 1 and 130, with the markers 131 and 261 as targets,
and there is no other marker; the block of 131 is the `mov` records 132..259
and the unconditional branch 260, the block of 261 is the unconditional branch
262: each marker is the target of one conditional branch, each block ends in
an unconditional branch and holds no conditional branch.  In the first round
pass 1 puts 1 at offset 4, 131 at 264, 130 at 262 and 261 at 522, so both
branches are out of range; the rewrite of 1 (new branch 264) takes the block
131..260 from between 130 and 261, so the rewrite of 130 (new branch 265)
finds its target directly behind it and links the end 262 of the block back
to the marker 261.  Pass 2 then walks 261, 262, 261, .. for ever: for every bound on the walks and every number of
rounds the assembler runs out of fuel, it does not return and does not
abort. -/
theorem C23_retry_loop_hangs :
    DoublyLinked adjacentBlockHeap (List.range 264) ∧
    (∀ i, i < 264 → (adjacentBlockHeap i).opCode = ARMV5TE_B_COND → i = 1 ∨ i = 130) ∧
    (adjacentBlockHeap 1).target = some 131 ∧ (adjacentBlockHeap 130).target = some 261 ∧
    (∀ i, i < 264 → (adjacentBlockHeap i).opCode = ARMV5TE_PSEUDO_PC_RECONSTRUCTION_CELL →
      i = 131 ∨ i = 261) ∧
    (∀ i, i < 264 → 131 < i → i < 260 → (adjacentBlockHeap i).opCode = ARMV5TE_MOV_RR) ∧
    (adjacentBlockHeap 260).opCode = ARMV5TE_B_UNCOND ∧
    (adjacentBlockHeap 262).opCode = ARMV5TE_B_UNCOND ∧
    walkView (layoutThenSteps 265 8 263 0x1000 adjacentBlockUnit)
        [1, 130, 131, 261, 262, 263, 264, 265] =
      some { chainCellOffset := 528, totalSize := 540, pos := some 261, retry := true,
             records := [(ARMV5TE_B_COND, some 264, some 131, 4),
                         (ARMV5TE_B_COND, some 265, some 261, 262),
                         (ARMV5TE_PSEUDO_PC_RECONSTRUCTION_CELL, some 132, none, 264),
                         (ARMV5TE_PSEUDO_PC_RECONSTRUCTION_CELL, some 262, none, 522),
                         (ARMV5TE_B_UNCOND, some 261, some 263, 522),
                         (ARMV5TE_MOV_RR, none, none, 524),
                         (ARMV5TE_B_UNCOND, some 131, some 2, 0),
                         (ARMV5TE_B_UNCOND, some 261, some 261, 0)] } ∧
    ∀ fuel rounds : Nat,
      dvmCompilerAssembleLIR bigTarget fuel rounds zeroMem emptyCache adjacentBlockUnit
        = .error .outOfFuel := by
  refine ⟨adjacentBlock_linked, by decide, by decide, by decide, by decide, by decide,
    by decide, by decide, adjacentBlock_walk, ?_⟩
  intro fuel rounds
  unfold dvmCompilerAssembleLIR
  have hd : jitTraceDescriptionSize bigTarget adjacentBlockUnit.traceDesc = .ok 8 := rfl
  rw [hd]
  cases rounds with
  | zero => rfl
  | succ n =>
    simp only [assembleRounds]
    rw [adjacentBlock_attempt fuel]

end Assemble
